import Mathlib

/-!
# MDCache: the distributed metadata cache of the MDS (`ceph/mds/MDCache.cc`)

A shallow embedding of `MDCache.cc`.  Every method of `MDCache` that is embedded
keeps its name and is a function on an explicit cache value (`MDCache`): the
inode objects live in a heap indexed by object identity (`CInodePtr`), the
messenger, the metadata store and the logger are output logs of the cache value.
A failed `assert` (or a null dereference) is the result `none`.

Only `MDCache.cc` is available; the classes it uses (`CInode`, `CDir`, `CDentry`,
`LRU`, `filepath`, the message classes, the `MSG_ADDR_*` macros) are declared in
headers that are absent.  What is needed of them is modelled in the first part of
the file; each such definition says so in its comment.
-/

namespace Ceph

/-! ## Identifiers, addresses, messages -/

/-- The type `inodeno_t`: an inode number. -/
abbrev inodeno_t := Nat

/-- The identity of a `CInode` object (a `CInode*`). -/
abbrev CInodePtr := Nat

/-- Modelled from the spec: message addresses, built by the macros `MSG_ADDR_MDS` and
`MSG_ADDR_CLIENT` of the absent `Message.h`.  The cache talks to peer MDSs and to clients. -/
inductive msg_addr_t where
  | MDS (n : Int)
  | CLIENT (n : Int)
  deriving DecidableEq, Repr

/-- Modelled from the spec: the macro `MSG_ADDR_ISCLIENT` of the absent `Message.h`. -/
def MSG_ADDR_ISCLIENT : msg_addr_t → Bool
  | .CLIENT _ => true
  | .MDS _ => false

/-- Modelled from the spec: the macro `MSG_ADDR_NUM` of the absent `Message.h`, the number of
the entity behind an address.  The address of an
MDS is used by the source as an `int` directly (`int from = m->get_source()`), which is this
number. -/
def MSG_ADDR_NUM : msg_addr_t → Int
  | .CLIENT n => n
  | .MDS n => n

/-- The `MSG_MDS_*` message kinds that are addressed to the cache port; `OTHER` stands for
every other value of `Message::get_type()`. -/
inductive MsgType where
  | DISCOVER | INODEUPDATE | DIRUPDATE | INODEEXPIRE
  | INODESYNCSTART | INODESYNCACK | INODESYNCRELEASE | INODESYNCRECALL
  | INODELOCKSTART | INODELOCKACK | INODELOCKRELEASE
  | EXPORTDIRPREP | EXPORTDIRPREPACK | EXPORTDIR | EXPORTDIRACK | EXPORTDIRNOTIFY
  | INODEGETREPLICA | INODEGETREPLICAACK
  | HASHDIR | UNHASHDIR | UNHASHDIRACK
  | OTHER (n : Nat)
  deriving DecidableEq, Repr

/-- The message handlers defined in `MDCache.cc`. -/
inductive Handler where
  | handle_discover | handle_inode_update | handle_dir_update | handle_inode_expire
  | handle_inode_sync_start | handle_inode_sync_ack | handle_inode_sync_release
  | handle_inode_sync_recall
  | handle_inode_lock_start | handle_inode_lock_ack | handle_inode_lock_release
  | handle_export_dir_prep | handle_export_dir_prep_ack | handle_export_dir
  | handle_export_dir_ack | handle_export_dir_notify
  | handle_inode_get_replica | handle_inode_get_replica_ack
  | handle_hash_dir | handle_unhash_dir | handle_unhash_dir_ack
  deriving DecidableEq, Repr

/-- The handler that stands for a message kind in the dispatch table of the specification
(section 4.H); `OTHER` kinds have none. -/
def spec_dispatch : MsgType → Option Handler
  | .DISCOVER => some .handle_discover
  | .INODEUPDATE => some .handle_inode_update
  | .DIRUPDATE => some .handle_dir_update
  | .INODEEXPIRE => some .handle_inode_expire
  | .INODESYNCSTART => some .handle_inode_sync_start
  | .INODESYNCACK => some .handle_inode_sync_ack
  | .INODESYNCRELEASE => some .handle_inode_sync_release
  | .INODESYNCRECALL => some .handle_inode_sync_recall
  | .INODELOCKSTART => some .handle_inode_lock_start
  | .INODELOCKACK => some .handle_inode_lock_ack
  | .INODELOCKRELEASE => some .handle_inode_lock_release
  | .EXPORTDIRPREP => some .handle_export_dir_prep
  | .EXPORTDIRPREPACK => some .handle_export_dir_prep_ack
  | .EXPORTDIR => some .handle_export_dir
  | .EXPORTDIRACK => some .handle_export_dir_ack
  | .EXPORTDIRNOTIFY => some .handle_export_dir_notify
  | .INODEGETREPLICA => some .handle_inode_get_replica
  | .INODEGETREPLICAACK => some .handle_inode_get_replica_ack
  | .HASHDIR => some .handle_hash_dir
  | .UNHASHDIR => some .handle_unhash_dir
  | .UNHASHDIRACK => some .handle_unhash_dir_ack
  | .OTHER _ => none

/-- The method `MDCache::proc_message`, as a dispatch table: the handler the `switch` invokes
for the message kind together with the value returned (`0`), or `none` when control reaches
`default: assert(0)`. -/
def proc_message : MsgType → Option (Handler × Int)
  | .DISCOVER => some (.handle_discover, 0)
  | .INODEUPDATE => some (.handle_inode_update, 0)
  | .DIRUPDATE => some (.handle_dir_update, 0)
  | .INODEEXPIRE => some (.handle_inode_expire, 0)
  | .INODESYNCSTART => some (.handle_inode_sync_start, 0)
  | .INODESYNCACK => some (.handle_inode_sync_ack, 0)
  | .INODESYNCRELEASE => some (.handle_inode_sync_release, 0)
  | .INODESYNCRECALL => some (.handle_inode_sync_recall, 0)
  | .INODELOCKSTART => some (.handle_inode_lock_start, 0)
  | .INODELOCKACK => some (.handle_inode_lock_ack, 0)
  | .INODELOCKRELEASE => some (.handle_inode_lock_release, 0)
  | .EXPORTDIRPREP => some (.handle_export_dir_prep, 0)
  | .EXPORTDIR => some (.handle_export_dir, 0)
  | .EXPORTDIRPREPACK => some (.handle_export_dir_prep_ack, 0)
  | .EXPORTDIRACK => some (.handle_export_dir_ack, 0)
  | .EXPORTDIRNOTIFY => some (.handle_export_dir_notify, 0)
  | _ => none

/-! ## The data model -/

/-- Modelled from the spec: the bitset `dist_state` of an inode.  The `CINODE_DIST_*` constants
are declared in the absent `CInode.h`; they are distinct single bits, so the bitset is a record
of flags: `dist_state |= CINODE_DIST_X` sets a flag, `dist_state &= ~CINODE_DIST_X` clears it. -/
structure DistState where
  syncbyauth : Bool
  syncbyme : Bool
  presync : Bool
  lockbyauth : Bool
  lockbyme : Bool
  prelock : Bool
  softasync : Bool
  waitonunsync : Bool
  waitonunlock : Bool
  deriving DecidableEq, Repr

/-- The pin reasons `CINODE_PIN_*` (members of `ref_set`). -/
inductive Pin where
  | CINODE_PIN_PRESYNC | CINODE_PIN_WAITONUNSYNC | CINODE_PIN_PRELOCK | CINODE_PIN_WAITONUNLOCK
  | CINODE_PIN_IMPORT | CINODE_PIN_EXPORT | CINODE_PIN_DIRTY | CINODE_PIN_CACHED
  | CINODE_PIN_OTHER (n : Nat)
  deriving DecidableEq, Repr

/-- The event tags `CINODE_WAIT_*` and `CDIR_WAIT_*` that waiters are registered on. -/
inductive WaitTag where
  | CINODE_WAIT_AUTHPINNABLE | CINODE_WAIT_SYNC | CINODE_WAIT_UNSYNC
  | CINODE_WAIT_LOCK | CINODE_WAIT_UNLOCK | CINODE_WAIT_GETREPLICA
  | CDIR_WAIT_UNFREEZE | CDIR_WAIT_DENTRY | CDIR_WAIT_IMPORTED | CDIR_WAIT_FREEZEABLE
  deriving DecidableEq, Repr

/-- Modelled from the spec: the `state` bits of a `CDir` that the embedded methods read or write
(`CDir.h` is absent).  A value of this type is also a mask of such bits. -/
structure CDirState where
  complete : Bool
  auth : Bool
  frozen_tree_root : Bool
  frozen_dir : Bool
  freezing : Bool
  import_ : Bool
  hashed : Bool
  hashing : Bool
  unhashing : Bool
  dirty : Bool
  deriving DecidableEq, Repr

/-- Modelled from the spec: the inode record `inode_t`: the inode number, whether the inode is a
directory, whether that directory is hashed (the three values of `isdir`), and the remaining
fields (mode, size, times), which the cache only copies. -/
structure inode_t where
  ino : inodeno_t
  isdir : Bool
  hashed : Bool
  rest : Nat
  deriving DecidableEq, Repr

/-- Modelled from the spec: one entry of the trace of a `Discover` (`MDiscoverRec_t`, declared
in the absent `MDiscover.h`): the snapshot of a replica. -/
structure MDiscoverRec_t where
  inode : inode_t
  cached_by : List Int
  dir_auth : Int
  dir_rep : Int
  dir_rep_by : List Int
  is_syncbyauth : Bool
  is_softasync : Bool
  is_lockbyauth : Bool
  deriving DecidableEq, Repr

/-- Modelled from the spec: an `MDiscover` as it is received and passed on: the asker, the base
path the asker has resolved, the wanted segments (`NULL` when only the root is wanted) and the
trace accumulated so far. -/
structure MDiscover where
  asker : Int
  basepath : String
  want : Option (List String)
  trace : List MDiscoverRec_t
  deriving DecidableEq, Repr

/-- Modelled from the spec: the struct `Inode_Export_State_t` of the export blob. -/
structure Inode_Export_State_t where
  inode : inode_t
  version : Int
  popularity : Int
  dir_auth : Int
  ncached_by : Int
  is_softasync : Bool
  dirty : Bool
  deriving DecidableEq, Repr

/-- Modelled from the spec: the struct `Dir_Export_State_t` of the export blob. -/
structure Dir_Export_State_t where
  ino : inodeno_t
  nitems : Int
  version : Int
  state : CDirState
  dir_rep : Int
  ndir_rep_by : Int
  popularity : Int
  deriving DecidableEq, Repr

/-- What the export blob (a `crope`) is made of: the two structs, `int`s, and C strings with
their terminating zero. -/
inductive BlobCell where
  | dir_state (s : Dir_Export_State_t)
  | int (i : Int)
  | str (s : String)
  | inode_state (s : Inode_Export_State_t)
  deriving DecidableEq, Repr

/-- The messages the embedded methods build, with the arguments of the constructor call in the
source; an argument the call leaves to the constructor default is `none`.  `request` stands for a
message of any other class (a client request, say) that the cache only stores or forwards;
`MDiscover_fwd` is a received `MDiscover` that is passed on, and `MExportDir` carries the
directory blocks added by `add_dir`. -/
inductive Message where
  | MDiscover (asker : Int) (basepath : String) (want : Option (List String))
  | MInodeSyncStart (ino : inodeno_t) (asker : Int)
  | MInodeSyncAck (ino : inodeno_t) (did_have : Bool) (wantback : Option Bool)
  | MInodeSyncRelease (ino : inodeno_t)
  | MInodeSyncRecall (ino : inodeno_t)
  | MInodeLockRelease (ino : inodeno_t)
  | MInodeExpire (ino : inodeno_t) (from_ : Int) (soft : Option Bool) (hops : Option Int)
  | MExportDirPrep (ino : inodeno_t)
  | MDiscover_fwd (dis : MDiscover)
  | MExportDir (ino : inodeno_t) (ipop : Int) (dirs : List (List BlobCell))
  | MExportDirAck (ino : inodeno_t)
  | MExportDirNotify (path : String) (new_auth : Int)
  | MInodeGetReplica (ino : inodeno_t)
  | MInodeGetReplicaAck (ino : inodeno_t)
  | MInodeUpdate (ino : inodeno_t)
  | MExportDirPrepAck (ino : inodeno_t)
  | request (id : Nat)
  deriving DecidableEq, Repr

/-- A received `MInodeSyncStart`. -/
structure MInodeSyncStart where
  ino : inodeno_t
  asker : Int
  deriving DecidableEq, Repr

/-- A received `MInodeSyncAck`. -/
structure MInodeSyncAck where
  source : msg_addr_t
  ino : inodeno_t
  did_have : Bool
  replica_wantsback : Bool
  deriving DecidableEq, Repr

/-- A received `MInodeSyncRelease`. -/
structure MInodeSyncRelease where
  ino : inodeno_t
  deriving DecidableEq, Repr

/-- A received `MInodeUpdate`; its payload, the encoded basic state of the inode, is named by a
number. -/
structure MInodeUpdate where
  source : msg_addr_t
  ino : inodeno_t
  payload : Nat
  deriving DecidableEq, Repr

/-- A received `MInodeExpire`: the inode number, the MDS that dropped its replica, whether the
expire is soft, and the hops made so far. -/
structure MInodeExpire where
  ino : inodeno_t
  from_ : Int
  soft : Bool
  hops : Int
  deriving DecidableEq, Repr

/-- A continuation (`Context*`): `C_MDS_RetryMessage(mds, req)` re-drives the request `req`
(possibly `NULL`); `C_MDS_ExportFreeze(mds, in, dest, pop)` calls `export_dir_frozen` once the
subtree of `in` is frozen; `C_MDS_ExportFinish(mds, in)` ends the export of `in` (the waiters
it has assimilated are kept by the cache value); `C_MDS_ImportHashedReplica` calls
`got_hashed_replica`. -/
inductive Context where
  | C_MDS_RetryMessage (req : Option Message)
  | C_MDS_ExportFreeze (in_ : CInodePtr) (dest : Int) (pop : Int)
  | C_MDS_ExportFinish (in_ : CInodePtr)
  | C_MDS_ImportHashedReplica (in_ : CInodePtr) (dir_ino : inodeno_t) (replica_ino : inodeno_t)
  deriving DecidableEq, Repr

/-- A `std::set<int>`: a list without duplicates in ascending order. -/
abbrev IntSet := List Int

/-- The call `std::set<int>::insert`. -/
def IntSet.insert (s : IntSet) (x : Int) : IntSet :=
  if x ∈ s then s else List.orderedInsert (fun a b => a ≤ b) x s

/-- The call `std::set<int>::erase(value)`. -/
def IntSet.erase (s : IntSet) (x : Int) : IntSet :=
  List.filter (fun y => decide (y ≠ x)) s

/-- A dentry: its name and the inode it links (`dn->inode`, possibly `NULL`). -/
structure CDentry where
  name : String
  inode : Option CInodePtr
  deriving DecidableEq, Repr

/-- Modelled from the spec: a directory (`CDir`, declared in the absent `CDir.h`): its entries
(name to dentry), its state bits and its waiters, each registered on an event tag and, for
`CDIR_WAIT_DENTRY`, on a dentry name. -/
structure CDir where
  items : List (String × CDentry)
  state : CDirState
  waiting : List (WaitTag × Option String × Context)
  auth_pins : Int
  version : Int
  dir_rep : Int
  dir_rep_by : IntSet
  popularity : Int
  deriving DecidableEq, Repr

/-- Modelled from the spec: the method `CDir::lookup` (`CDir.cc` is absent): the dentry of a
name, if the directory has one. -/
def CDir.lookup (d : CDir) (dname : String) : Option CDentry :=
  match List.find? (fun e => decide (e.1 = dname)) d.items with
  | some e => some e.2
  | none => none

/-- Modelled from the spec: the method `CDir::add_waiter(tag, c)`; waiters on an event fire in
insertion order. -/
def CDir.add_waiter (d : CDir) (tag : WaitTag) (c : Context) : CDir :=
  { d with waiting := d.waiting ++ [(tag, none, c)] }

/-- Modelled from the spec: the method `CDir::add_waiter(tag, dname, c)`. -/
def CDir.add_waiter_dentry (d : CDir) (tag : WaitTag) (dname : String) (c : Context) : CDir :=
  { d with waiting := d.waiting ++ [(tag, some dname, c)] }

/-- Modelled from the spec: the method `CDir::remove_child`: the dentry leaves the entries. -/
def CDir.remove_child (d : CDir) (dname : String) : CDir :=
  { d with items := List.filter (fun e => decide (e.1 ≠ dname)) d.items }

/-- Modelled from the spec: an inode object (`CInode`, declared in the absent `CInode.h`).
`is_dir` is the `isdir` field of the inode record; `parent` names the parent dentry by the inode
of its directory and its name.  The fields `frozen`, `freezing` and `auth_pinnable` stand for
the results of `CInode::is_frozen()`, `is_freezing()` and `can_auth_pin()`, which the absent
`CInode.cc` computes from the parent directory chain.  `popularity` is the additive scalar of
the specification (a `double` in the source), taken as an integer amount.  The inode record
(`in->inode`) is made of `ino`, `is_dir`, `dir_hashed` and `inode_rest`. -/
structure CInode where
  ino : inodeno_t
  is_dir : Bool
  auth : Bool
  dist_state : DistState
  cached_by : IntSet
  sync_waiting_for_ack : IntSet
  sync_replicawantback : Bool
  open_write : List Int
  client_wait_for_sync : List Int
  pending_sync_request : Option MInodeSyncStart
  ref_set : List Pin
  auth_pins : Int
  waiting : List (WaitTag × Context)
  dir : Option CDir
  nparents : Int
  parent : Option (CInodePtr × String)
  frozen : Bool
  freezing : Bool
  auth_pinnable : Bool
  lock_active_count : Int
  lock_waiting_for_ack : IntSet
  popularity : Int
  dir_auth : Int
  nested_auth_pins : Int
  dir_hashed : Bool
  inode_rest : Nat
  version : Int
  parent_dir_version : Int
  dirty : Bool
  deriving DecidableEq, Repr

/-- Modelled from the spec: the method `CInode::is_sync` (`CInode.h` is absent): the sync is
held on this inode, by this MDS (SYNCBYME) or by the authority (SYNCBYAUTH). -/
def CInode.is_sync (i : CInode) : Bool := i.dist_state.syncbyme || i.dist_state.syncbyauth

/-- Modelled from the spec: the method `CInode::is_cached_by_anyone`: `cached_by` is not
empty. -/
def CInode.is_cached_by_anyone (i : CInode) : Bool := !i.cached_by.isEmpty

/-- Modelled from the spec: the method `CInode::is_open_write`: `open_write` is not empty. -/
def CInode.is_open_write (i : CInode) : Bool := !i.open_write.isEmpty

/-- Modelled from the spec: the method `CInode::get(pin)`: `pin(reason)` increments
`ref_set[reason]`. -/
def CInode.get (i : CInode) (by_ : Pin) : CInode := { i with ref_set := by_ :: i.ref_set }

/-- Modelled from the spec: the method `CInode::put(pin)`: `unpin(reason)` decrements
`ref_set[reason]`. -/
def CInode.put (i : CInode) (by_ : Pin) : CInode := { i with ref_set := i.ref_set.erase by_ }

/-- Modelled from the spec: the method `CInode::auth_pin`: auth-pins are reference counts. -/
def CInode.auth_pin (i : CInode) : CInode := { i with auth_pins := i.auth_pins + 1 }

/-- Modelled from the spec: the method `CInode::auth_unpin`. -/
def CInode.auth_unpin (i : CInode) : CInode := { i with auth_pins := i.auth_pins - 1 }

/-- Modelled from the spec: the method `CInode::add_waiter(tag, c)`; waiters on an event fire
in insertion order. -/
def CInode.add_waiter (i : CInode) (tag : WaitTag) (c : Context) : CInode :=
  { i with waiting := i.waiting ++ [(tag, c)] }

/-- Modelled from the spec: the method `CInode::take_waiting(tag, ls)`: the waiters on `tag`,
in insertion order, and the inode without them. -/
def CInode.take_waiting (i : CInode) (tag : WaitTag) : List Context × CInode :=
  ((List.filter (fun w => decide (w.1 = tag)) i.waiting).map (fun w => w.2),
   { i with waiting := List.filter (fun w => decide (w.1 ≠ tag)) i.waiting })

/-- Modelled from the spec: the method `CInode::cached_by_remove`: the MDS leaves `cached_by`. -/
def CInode.cached_by_remove (i : CInode) (who : Int) : CInode :=
  { i with cached_by := i.cached_by.erase who }

/-- Modelled from the spec: the method `CInode::remove_parent`: the inode loses its parent
dentry. -/
def CInode.remove_parent (i : CInode) : CInode :=
  { i with parent := none, nparents := i.nparents - 1 }

/-- Modelled from the spec: the `LRU` of the cache (class `LRU`, absent): the objects it holds,
most recently used first.  Its size is the number of objects held. -/
structure LRU where
  objs : List CInodePtr
  deriving DecidableEq, Repr

/-- Modelled from the spec: the method `LRU::lru_get_size`. -/
def LRU.lru_get_size (l : LRU) : Nat := l.objs.length

/-- Modelled from the spec: the method `LRU::lru_insert_mid`: the object enters the LRU. -/
def LRU.lru_insert_mid (l : LRU) (o : CInodePtr) : LRU := { objs := o :: l.objs }

/-- Modelled from the spec: the method `LRU::lru_remove`: the object, if held, leaves the LRU. -/
def LRU.lru_remove (l : LRU) (o : CInodePtr) : LRU := { objs := l.objs.erase o }

/-- Modelled from the spec: the method `LRU::lru_touch`: the object, if held, moves to the top. -/
def LRU.lru_touch (l : LRU) (o : CInodePtr) : LRU :=
  if o ∈ l.objs then { objs := o :: l.objs.erase o } else l

/-- The cache value: the members of `MDCache` together with what it reaches through `mds`.
`inodes` is the heap of inode objects.  `authority`, `dentry_authority` and `new_CDir` stand for
`CInode::authority`, `CDir::dentry_authority` and the constructor `CDir(in, whoami)`, whose code
is absent: they are parameters of the model.  `sent` is the messenger (each message with its
destination, oldest first), `fetch_dir_calls` the calls of `MDStore::fetch_dir`,
`open_root_calls` the calls of `open_root`, `finished` the continuations run (`c->finish(r)`),
`logger` the counters incremented.  `mdcache_sticky_sync_normal`, `mdcache_sticky_sync_softasync`,
`mdcache_sticky_lock` and `debug` are the members of `g_conf` of these names; `debug` is the
level that the macro `dout(l)` tests, `if (l<=g_conf.debug) cout << ...`.  `num_mds` is
`mds->get_cluster()->get_num_mds()`,
`shutting_down` is `mds->is_shutting_down()`, `lru_max` is `lru->lru_get_max()`;
`decode_basic_state` stands for `CInode::decode_basic_state` applied to the payload of an
`MInodeUpdate`, another parameter of the model.  `exports` is a set and `nested_exports` a
multimap (the pairs in insertion order).  `heap_next` is the address `new CInode` returns next.
`mask_state_exported` and `mask_state_export_kept` are the constants `CDIR_MASK_STATE_EXPORTED`
and `CDIR_MASK_STATE_EXPORT_KEPT` of the absent `CDir.h`, and `make_path` stands for
`CInode::make_path`: parameters of the model too.  `fin_waitlist` holds the waiters that the
`C_MDS_ExportFinish` of an inode has assimilated, `mdlog` the inodes whose `EInodeUpdate` was
submitted to the log, `logger_set` the calls of `logger->set`. -/
structure MDCache where
  whoami : Int
  root : Option CInodePtr
  inode_map : AList (fun _ : inodeno_t => CInodePtr)
  lru : LRU
  inodes : CInodePtr → CInode
  authority : CInodePtr → Int
  dentry_authority : CInodePtr → String → Int
  new_CDir : CInodePtr → CDir
  mdcache_sticky_sync_normal : Bool
  mdcache_sticky_sync_softasync : Bool
  mdcache_sticky_lock : Bool
  debug : Int
  sent : List (Message × msg_addr_t)
  fetch_dir_calls : List (CInodePtr × Context)
  open_root_calls : List Context
  finished : List (Context × Int)
  logger : List String
  num_mds : Int
  shutting_down : Bool
  imports : List CInodePtr
  lru_max : Int
  decode_basic_state : CInode → Nat → CInode
  exports : List CInodePtr
  nested_exports : List (CInodePtr × CInodePtr)
  import_hashed_replicate_waiting : List (inodeno_t × inodeno_t)
  import_hashed_frozen_waiting : List (inodeno_t × inodeno_t)
  waiting_for_root : List Context
  opening_root : Bool
  heap_next : CInodePtr
  mask_state_exported : CDirState
  mask_state_export_kept : CDirState
  fin_waitlist : List (CInodePtr × Context)
  mdlog : List CInodePtr
  logger_set : List (String × Int)
  make_path : CInodePtr → String

/-- Write the inode object `p`. -/
def MDCache.set_inode (c : MDCache) (p : CInodePtr) (i : CInode) : MDCache :=
  { c with inodes := fun q => if q = p then i else c.inodes q }

/-- The call `mds->messenger->send_message(m, dest, ...)`. -/
def MDCache.send_message (c : MDCache) (m : Message) (dest : msg_addr_t) : MDCache :=
  { c with sent := c.sent ++ [(m, dest)] }

/-- The method `MDCache::get_inode`. -/
def MDCache.get_inode (c : MDCache) (ino : inodeno_t) : Option CInodePtr :=
  c.inode_map.lookup ino

/-- The number of entries of `inode_map` (`inode_map.size()`). -/
def MDCache.inode_map_size (c : MDCache) : Nat := c.inode_map.keys.length

/-! ## The inode store: `add_inode`, `remove_inode` -/

/-- The method `MDCache::add_inode`. -/
def add_inode (c : MDCache) (in_ : CInodePtr) : Option MDCache :=
  -- assert(inode_map.size() == lru->lru_get_size());
  if c.inode_map_size ≠ c.lru.lru_get_size then none else
  -- lru->lru_insert_mid(in);
  let c1 := { c with lru := c.lru.lru_insert_mid in_ }
  -- inode_map[ in->ino() ] = in;
  let c2 := { c1 with inode_map := c1.inode_map.insert (c1.inodes in_).ino in_ }
  -- assert(inode_map.size() == lru->lru_get_size());
  if c2.inode_map_size ≠ c2.lru.lru_get_size then none else some c2

/-- The method `MDCache::remove_inode`. -/
def remove_inode (c : MDCache) (o : CInodePtr) : Option MDCache :=
  let oi := c.inodes o
  -- detach from parents
  let detached : Option MDCache :=
    if oi.nparents = 1 then
      match oi.parent with
      | none => none
      | some (pdir, dname) =>
        -- dn->dir->remove_child(dn);
        let c1 := c.set_inode pdir
          { c.inodes pdir with dir := (c.inodes pdir).dir.map (fun d => d.remove_child dname) }
        -- o->remove_parent(dn);
        some (c1.set_inode o (c1.inodes o).remove_parent)
    else if oi.nparents > 1 then
      -- assert(o->nparents <= 1);
      none
    else
      -- assert(o->nparents == 0); assert(o->parent == NULL);
      if oi.nparents = 0 ∧ oi.parent = none then some c else none
  match detached with
  | none => none
  | some c1 =>
    -- inode_map.erase(o->ino()); lru->lru_remove(o);
    some { c1 with inode_map := c1.inode_map.erase (c1.inodes o).ino, lru := c1.lru.lru_remove o }

/-! ## Hard lock: `read_hard_try` -/

/-- The method `MDCache::inode_lock_wait`. -/
def inode_lock_wait (c : MDCache) (in_ : CInodePtr) : Option MDCache :=
  let i := c.inodes in_
  -- assert(!in->is_auth()); assert(in->is_lockbyauth());
  if i.auth then none else
  if !i.dist_state.lockbyauth then none else
  let i1 := { i with dist_state := { i.dist_state with waitonunlock := true } }
  some (c.set_inode in_ (i1.get .CINODE_PIN_WAITONUNLOCK))

/-- The method `MDCache::read_hard_try`: the boolean returned and the cache afterwards. -/
def read_hard_try (c : MDCache) (in_ : CInodePtr) (m : Option Message) : Option (Bool × MDCache) :=
  let i := c.inodes in_
  if i.auth then
    some (true, c)
  else if i.dist_state.lockbyauth then
    -- locked by auth; wait!
    let c1 := c.set_inode in_ (i.add_waiter .CINODE_WAIT_UNLOCK (.C_MDS_RetryMessage m))
    if !(c1.inodes in_).dist_state.waitonunlock then
      match inode_lock_wait c1 in_ with
      | none => none
      | some c2 => some (false, c2)
    else some (false, c1)
  else
    some (true, c)

/-! ## Soft sync -/

/-- The method `MDCache::sync_wait`. -/
def sync_wait (c : MDCache) (in_ : CInodePtr) : Option MDCache :=
  let i := c.inodes in_
  -- assert(!in->is_auth());
  if i.auth then none else
  let auth := c.authority in_
  -- assert(in->is_syncbyauth()); assert(!in->is_waitonunsync());
  if !i.dist_state.syncbyauth then none else
  if i.dist_state.waitonunsync then none else
  let i1 := { i with dist_state := { i.dist_state with waitonunsync := true } }
  let i2 := i1.get .CINODE_PIN_WAITONUNSYNC
  let c1 := c.set_inode in_ i2
  if (i2.dist_state.softasync && c.mdcache_sticky_sync_softasync) ||
     (!i2.dist_state.softasync && c.mdcache_sticky_sync_normal) then
    -- actually recall; if !sticky, auth will immediately release.
    some (c1.send_message (.MInodeSyncRecall i2.ino) (.MDS auth))
  else some c1

/-- The method `MDCache::sync_start`. -/
def sync_start (c : MDCache) (in_ : CInodePtr) : Option MDCache :=
  let i := c.inodes in_
  -- assert(in->is_auth()); assert(!in->is_presync()); assert(!in->is_sync());
  if !i.auth then none else
  if i.dist_state.presync then none else
  if i.is_sync then none else
  let i1 := { i with sync_waiting_for_ack := i.cached_by }
  let i2 := { i1 with dist_state := { i1.dist_state with presync := true } }
  let i3 := (i2.get .CINODE_PIN_PRESYNC).auth_pin
  let i4 := { i3 with sync_replicawantback := false }
  let c1 := c.set_inode in_ i4
  -- send messages
  some (i4.cached_by.foldl
    (fun acc it => acc.send_message (.MInodeSyncStart i4.ino c.whoami) (.MDS it)) c1)

/-- The method `MDCache::sync_release`. -/
def sync_release (c : MDCache) (in_ : CInodePtr) : Option MDCache :=
  let i := c.inodes in_
  -- assert(in->is_syncbyme()); assert(in->is_auth());
  if !i.dist_state.syncbyme then none else
  if !i.auth then none else
  let i1 := i.auth_unpin
  let i2 := { i1 with dist_state := { i1.dist_state with syncbyme := false } }
  let c1 := c.set_inode in_ i2
  some (i2.cached_by.foldl
    (fun acc it => acc.send_message (.MInodeSyncRelease i2.ino) (.MDS it)) c1)

/-- The statements of `MDCache::read_soft_start` that follow its assertion `assert(2+2==5)`:
from `if (!in->can_auth_pin())` to the end of the method. -/
def read_soft_start_wait (c : MDCache) (in_ : CInodePtr) (m : Message) :
    Option (Bool × MDCache) :=
  let i := c.inodes in_
  let retry := Context.C_MDS_RetryMessage (some m)
  if !i.auth_pinnable then
    some (false, c.set_inode in_ (i.add_waiter .CINODE_WAIT_AUTHPINNABLE retry))
  else if i.auth then
    -- wait for sync
    let c1 := c.set_inode in_ (i.add_waiter .CINODE_WAIT_SYNC retry)
    if !(c1.inodes in_).dist_state.presync then
      match sync_start c1 in_ with
      | none => none
      | some c2 => some (false, c2)
    else some (false, c1)
  else
    -- wait for unsync
    let c1 := c.set_inode in_ (i.add_waiter .CINODE_WAIT_UNSYNC retry)
    -- assert(in->is_syncbyauth());
    if !(c1.inodes in_).dist_state.syncbyauth then none else
    if !(c1.inodes in_).dist_state.waitonunsync then
      match sync_wait c1 in_ with
      | none => none
      | some c2 => some (false, c2)
    else some (false, c1)

/-- The tail of `MDCache::read_soft_start` from the comment `we need sync` on.  The macro
`dout(l)` is `if (l<=g_conf.debug) cout << ...` without braces, so each `else` of the chain
belongs to the `if` of the `dout` before it: the `else if` to the one of the first branch, and
`else assert(2+2==5);` to the one of the second. -/
def read_soft_start_need_sync (c : MDCache) (in_ : CInodePtr) (m : Message) :
    Option (Bool × MDCache) :=
  let i := c.inodes in_
  if i.dist_state.syncbyauth && !i.dist_state.softasync then
    -- dout(5) ... is normal+replica+syncbyauth
    if 5 ≤ c.debug then read_soft_start_wait c in_ m
    else if i.dist_state.softasync && i.auth then
      -- dout(5) ... is softasync+auth, waiting on sync
      if 5 ≤ c.debug then read_soft_start_wait c in_ m
      else
        -- assert(2+2==5);
        none
    else read_soft_start_wait c in_ m
  else read_soft_start_wait c in_ m

/-- The method `MDCache::read_soft_start`. -/
def read_soft_start (c : MDCache) (in_ : CInodePtr) (m : Message) : Option (Bool × MDCache) :=
  match read_hard_try c in_ (some m) with
  | none => none
  | some (false, c1) => some (false, c1)
  | some (true, c1) =>
    let i := c1.inodes in_
    if i.frozen then
      some (false, c1.set_inode in_
        (i.add_waiter .CDIR_WAIT_UNFREEZE (.C_MDS_RetryMessage (some m))))
    else if i.dist_state.softasync then
      -- softasync: hard consistency only
      if i.auth then
        if i.dist_state.syncbyme then some (true, c1)
        else if i.dist_state.lockbyme then some (true, c1)
        else if !i.is_cached_by_anyone then some (true, c1)
        else read_soft_start_need_sync c1 in_ m
      else
        -- i am replica: fw to auth
        let auth := c1.authority in_
        if auth = c1.whoami then none else
        some (false, c1.send_message m (.MDS auth))
    else
      -- normal: soft+hard consistency
      if i.dist_state.syncbyauth then read_soft_start_need_sync c1 in_ m
      else some (true, c1)

/-- The statements of `MDCache::write_soft_start` that follow its assertion `assert(2+2==5)`:
from `if (!in->can_auth_pin())` to the end of the method. -/
def write_soft_start_wait (c : MDCache) (in_ : CInodePtr) (m : Message) :
    Option (Bool × MDCache) :=
  let i := c.inodes in_
  let retry := Context.C_MDS_RetryMessage (some m)
  if !i.auth_pinnable then
    some (false, c.set_inode in_ (i.add_waiter .CINODE_WAIT_AUTHPINNABLE retry))
  else if i.auth then
    -- wait for sync
    let c1 := c.set_inode in_ (i.add_waiter .CINODE_WAIT_SYNC retry)
    if !(c1.inodes in_).dist_state.presync then
      match sync_start c1 in_ with
      | none => none
      | some c2 => some (false, c2)
    else some (false, c1)
  else
    -- wait for unsync
    let c1 := c.set_inode in_ (i.add_waiter .CINODE_WAIT_UNSYNC retry)
    -- assert(in->is_syncbyauth()); assert(in->is_softasync());
    if !(c1.inodes in_).dist_state.syncbyauth then none else
    if !(c1.inodes in_).dist_state.softasync then none else
    if !(c1.inodes in_).dist_state.waitonunsync then
      match sync_wait c1 in_ with
      | none => none
      | some c2 => some (false, c2)
    else some (false, c1)

/-- The tail of `MDCache::write_soft_start` from the comment `we need sync` on.  The first
branch of the chain is braced; the second is `dout(5) ...;` without braces, and `dout(l)` is
`if (l<=g_conf.debug) cout << ...`, so `else assert(2+2==5);` belongs to the `if` of that
`dout`. -/
def write_soft_start_need_sync (c : MDCache) (in_ : CInodePtr) (m : Message) :
    Option (Bool × MDCache) :=
  let i := c.inodes in_
  if i.dist_state.syncbyauth && i.dist_state.softasync && !i.auth then
    -- { dout(5) ... is softasync+replica+syncbyauth }
    write_soft_start_wait c in_ m
  else if !i.dist_state.softasync && i.auth then
    -- dout(5) ... is normal+auth, waiting on sync
    if 5 ≤ c.debug then write_soft_start_wait c in_ m
    else
      -- assert(2+2==5);
      none
  else write_soft_start_wait c in_ m

/-- The method `MDCache::write_soft_start`. -/
def write_soft_start (c : MDCache) (in_ : CInodePtr) (m : Message) : Option (Bool × MDCache) :=
  match read_hard_try c in_ (some m) with
  | none => none
  | some (false, c1) => some (false, c1)
  | some (true, c1) =>
    let i := c1.inodes in_
    if i.frozen then
      some (false, c1.set_inode in_
        (i.add_waiter .CDIR_WAIT_UNFREEZE (.C_MDS_RetryMessage (some m))))
    else if i.dist_state.softasync then
      -- softasync: hard consistency only
      if i.dist_state.syncbyauth then write_soft_start_need_sync c1 in_ m
      else some (true, c1)
    else
      -- normal: soft+hard consistency
      if i.auth then
        if i.dist_state.syncbyme then some (true, c1)
        else if i.dist_state.lockbyme then some (true, c1)
        else if !i.is_cached_by_anyone then some (true, c1)
        else write_soft_start_need_sync c1 in_ m
      else
        -- i am replica: fw to auth
        let auth := c1.authority in_
        if auth = c1.whoami then none else
        some (false, c1.send_message m (.MDS auth))

/-- Modelled from the spec: the default of the parameter `wantback` of `inode_sync_ack`, declared
in the absent `MDCache.h`; a replica without write clients replies `SyncAck(true, false)`. -/
def inode_sync_ack_wantback_default : Bool := false

/-- The method `MDCache::inode_sync_ack`; `m` is the parked or current `MInodeSyncStart`, whose
asker it dereferences. -/
def inode_sync_ack (c : MDCache) (in_ : CInodePtr) (m : Option MInodeSyncStart)
    (wantback : Bool) : Option MDCache :=
  let i := c.inodes in_
  -- lock it
  let i1 := { i with dist_state := { i.dist_state with syncbyauth := true } }
  let c1 := c.set_inode in_ i1
  -- send ack
  match m with
  | none => none
  | some m => some (c1.send_message (.MInodeSyncAck i1.ino true (some wantback)) (.MDS m.asker))

/-- The method `MDCache::handle_inode_sync_start`. -/
def handle_inode_sync_start (c : MDCache) (m : MInodeSyncStart) : Option MDCache :=
  match c.get_inode m.ino with
  | none =>
    -- don't have it anymore!
    some (c.send_message (.MInodeSyncAck m.ino false none) (.MDS m.asker))
  | some in_ =>
    let i := c.inodes in_
    -- assert(!in->is_auth());
    if i.auth then none else
    if i.is_open_write then
      -- sync clients
      let i1 := { i with client_wait_for_sync := i.open_write }
      let c1 := c.set_inode in_ i1
      let c2 := i1.open_write.foldl
        (fun acc it => acc.send_message (.MInodeSyncStart i1.ino c.whoami) (.CLIENT it)) c1
      some (c2.set_inode in_ { c2.inodes in_ with pending_sync_request := some m })
    else
      -- no writers, ack.
      inode_sync_ack c in_ (some m) inode_sync_ack_wantback_default

/-- The lines of `MDCache::handle_inode_sync_ack` that record an ack from the MDS
`m->get_source()` on the inode: the source leaves `sync_waiting_for_ack`, it leaves `cached_by`
too if it did not have the inode, and its wish to get the sync back is noted. -/
def sync_ack_noted (i : CInode) (m : MInodeSyncAck) : CInode :=
  let source := MSG_ADDR_NUM m.source
  -- remove it from waiting list
  let i1 := { i with sync_waiting_for_ack := i.sync_waiting_for_ack.erase source }
  -- if (!m->did_have()) in->cached_by_remove(m->get_source());
  let i2 := if !m.did_have then i1.cached_by_remove source else i1
  -- if (m->replica_wantsback()) in->sync_replicawantback = true;
  if m.replica_wantsback then { i2 with sync_replicawantback := true } else i2

/-- The branch `yay!` of `MDCache::handle_inode_sync_ack`, taken when no ack is awaited any
more; `i3` is the inode after the ack was recorded. -/
def sync_ack_last (c : MDCache) (in_ : CInodePtr) (i3 : CInode) : Option MDCache :=
  let i4 := { i3 with dist_state := { i3.dist_state with presync := false } }
  let i5 := { i4 with dist_state := { i4.dist_state with syncbyme := true } }
  let i6 := i5.put .CINODE_PIN_PRESYNC
  -- do waiters!
  let taken := i6.take_waiting .CINODE_WAIT_SYNC
  let i7 := taken.2
  let c1 := c.set_inode in_ i7
  let c2 := { c1 with finished := c1.finished ++ taken.1.map (fun w => (w, (0 : Int))) }
  -- release sync right away?
  if i7.freezing then sync_release c2 in_
  else if i7.sync_replicawantback then sync_release c2 in_
  else if (i7.dist_state.softasync && !c2.mdcache_sticky_sync_softasync) ||
          (!i7.dist_state.softasync && !c2.mdcache_sticky_sync_normal) then
    sync_release c2 in_
  else some c2

/-- The method `MDCache::handle_inode_sync_ack`.  After the client branch the source of the
message is an MDS, whose address the code uses as its number. -/
def handle_inode_sync_ack (c : MDCache) (m : MInodeSyncAck) : Option MDCache :=
  match c.get_inode m.ino with
  | none => none
  | some in_ =>
    let i := c.inodes in_
    if MSG_ADDR_ISCLIENT m.source then
      let client := MSG_ADDR_NUM m.source
      -- assert(in->client_wait_for_sync.count(client) == 1);
      if i.client_wait_for_sync.count client ≠ 1 then none else
      let i1 := { i with client_wait_for_sync := i.client_wait_for_sync.erase client }
      let c1 := c.set_inode in_ i1
      if i1.client_wait_for_sync.isEmpty then
        match inode_sync_ack c1 in_ i1.pending_sync_request true with
        | none => none
        | some c2 => some (c2.set_inode in_ { c2.inodes in_ with pending_sync_request := none })
      else some c1
    else
      -- assert(in->is_auth()); assert(in->dist_state & CINODE_DIST_PRESYNC);
      if !i.auth then none else
      if !i.dist_state.presync then none else
      let i3 := sync_ack_noted i m
      if i3.sync_waiting_for_ack.length ≠ 0 then
        -- more coming
        some (c.set_inode in_ i3)
      else
        sync_ack_last c in_ i3

/-- The method `MDCache::handle_inode_sync_release`. -/
def handle_inode_sync_release (c : MDCache) (m : MInodeSyncRelease) : Option MDCache :=
  match c.get_inode m.ino with
  | none =>
    -- don't have it, dropping
    some c
  | some in_ =>
    let i := c.inodes in_
    -- if (!in->is_syncbyauth()) assert(0);
    if !i.dist_state.syncbyauth then none else
    -- assert(!in->is_auth());
    if i.auth then none else
    -- release state
    let i1 := { i with dist_state := { i.dist_state with syncbyauth := false } }
    -- waiters?
    let woken : CInode × List Context :=
      if i1.dist_state.waitonunsync then
        let i2 := i1.put .CINODE_PIN_WAITONUNSYNC
        let i3 := { i2 with dist_state := { i2.dist_state with waitonunsync := false } }
        ((i3.take_waiting .CINODE_WAIT_UNSYNC).2, (i3.take_waiting .CINODE_WAIT_UNSYNC).1)
      else (i1, [])
    let c1 := c.set_inode in_ woken.1
    let c2 := { c1 with finished := c1.finished ++ woken.2.map (fun w => (w, (0 : Int))) }
    -- client readers?
    if woken.1.is_open_write then
      some (woken.1.open_write.foldl
        (fun acc it => acc.send_message (.MInodeSyncRelease woken.1.ino) (.CLIENT it)) c2)
    else some c2

/-! ## Hard lock: `write_hard_finish` -/

/-- The method `MDCache::inode_lock_release`. -/
def inode_lock_release (c : MDCache) (in_ : CInodePtr) : Option MDCache :=
  let i := c.inodes in_
  -- assert(in->is_lockbyme()); assert(in->is_auth());
  if !i.dist_state.lockbyme then none else
  if !i.auth then none else
  let i1 := i.auth_unpin
  let i2 := { i1 with dist_state := { i1.dist_state with lockbyme := false } }
  let c1 := c.set_inode in_ i2
  some (i2.cached_by.foldl
    (fun acc it => acc.send_message (.MInodeLockRelease i2.ino) (.MDS it)) c1)

/-- The method `MDCache::write_hard_finish`. -/
def write_hard_finish (c : MDCache) (in_ : CInodePtr) : Option MDCache :=
  let i := c.inodes in_
  -- assert(in->lock_active_count > 0);
  if ¬ (i.lock_active_count > 0) then none else
  let i1 := { i with lock_active_count := i.lock_active_count - 1 }
  let c1 := c.set_inode in_ i1
  -- release lock?
  if i1.lock_active_count = 0 ∧ i1.dist_state.lockbyme = true ∧
      c1.mdcache_sticky_lock = false then
    inode_lock_release c1 in_
  else some c1

/-! ## Inode updates and expires -/

/-- Modelled from the spec: the sentinel `CDIR_AUTH_PARENT` of `dir_auth` (declared in an
absent header): the authority of the subtree is inherited from the parent. -/
def CDIR_AUTH_PARENT : Int := -1

/-- Modelled from the spec: the method `CInode::dir_authority`: the `dir_auth` of the inode if
it is concrete, else the authority the inode itself has by its parent chain. -/
def MDCache.dir_authority (c : MDCache) (p : CInodePtr) : Int :=
  if (c.inodes p).dir_auth = CDIR_AUTH_PARENT then c.authority p else (c.inodes p).dir_auth

/-- The method `MDCache::handle_inode_update`. -/
def handle_inode_update (c : MDCache) (m : MInodeUpdate) : Option MDCache :=
  match c.get_inode m.ino with
  | none =>
    -- don't have it, sending expire
    some (c.send_message (.MInodeExpire m.ino c.whoami (some true) none) m.source)
  | some in_ =>
    if c.authority in_ = c.whoami then
      -- but i'm the authority!
      some c
    else if (c.inodes in_).frozen then
      -- assert(0);
      none
    else
      -- ugly hack to avoid corrupting weird behavior of dir_auth
      let old_dir_auth := (c.inodes in_).dir_auth
      let wasours := decide (c.dir_authority in_ = c.whoami)
      let c1 := c.set_inode in_ (c.decode_basic_state (c.inodes in_) m.payload)
      let isours := decide (c1.dir_authority in_ = c1.whoami)
      if wasours ≠ isours then
        some (c1.set_inode in_ { c1.inodes in_ with dir_auth := old_dir_auth })
      else some c1

/-- The label `forward` of `MDCache::handle_inode_expire`. -/
def handle_inode_expire_forward (c : MDCache) (m : MInodeExpire) : Option MDCache :=
  if m.soft then
    -- got (soft) inode_expire, dropping
    some c
  else if m.hops > c.num_mds then
    -- dropping on floor.
    some c
  else
    -- m->add_hop();
    let m1 : MInodeExpire := { m with hops := m.hops + 1 }
    let next := if c.whoami + 1 ≥ c.num_mds then 0 else c.whoami + 1
    let c1 := c.send_message (.MInodeExpire m1.ino m1.from_ (some m1.soft) (some m1.hops))
      (.MDS next)
    some { c1 with logger := c1.logger ++ ["iupfw"] }

/-- The method `MDCache::handle_inode_expire`. -/
def handle_inode_expire (c : MDCache) (m : MInodeExpire) : Option MDCache :=
  match c.get_inode m.ino with
  | none => handle_inode_expire_forward c m
  | some in_ =>
    let auth := c.authority in_
    if auth ≠ c.whoami then
      -- not mine
      handle_inode_expire_forward c m
    else if m.from_ ∉ (c.inodes in_).cached_by then
      -- they're not in cached_by
      some c
    else
      some (c.set_inode in_ ((c.inodes in_).cached_by_remove m.from_))

/-! ## Path traversal -/

/-- The constant `ENOENT` of `errno.h`. -/
def ENOENT : Int := 2

/-- The constant `ENOTDIR` of `errno.h`. -/
def ENOTDIR : Int := 20

/-- Modelled from the spec: the failure modes of a traversal, the constants `MDS_TRAVERSE_*` of
the absent `MDCache.h`: `traverse(path, onfail ∈ {DISCOVER, FORWARD, FAIL})`. -/
inductive OnFail where
  | MDS_TRAVERSE_FORWARD
  | MDS_TRAVERSE_DISCOVER
  | MDS_TRAVERSE_FAIL
  deriving DecidableEq, Repr

/-- Modelled from the spec: the segments of a path (class `filepath`, absent), read from the
right: the segment being read at the head of the string and the complete segments after it.
Segments are separated by `/`; empty segments are dropped. -/
def filepath.split : List Char → List Char × List (List Char)
  | [] => ([], [])
  | ch :: cs =>
    let r := filepath.split cs
    if ch = '/' then ([], if r.1 = [] then r.2 else r.1 :: r.2) else (ch :: r.1, r.2)

/-- Modelled from the spec: the segments of a path name: `path[0]`, ..., `path[depth()-1]` of
the `filepath` built from it. -/
def filepath.bits (pathname : String) : List String :=
  let r := filepath.split pathname.data
  (if r.1 = [] then r.2 else r.1 :: r.2).map String.mk

/-- The statement `if (!cur->dir) cur->dir = new CDir(cur, whoami);`: the directory of `cur` and
the cache afterwards. -/
def open_dir (c : MDCache) (cur : CInodePtr) : CDir × MDCache :=
  match (c.inodes cur).dir with
  | some d => (d, c)
  | none => (c.new_CDir cur, c.set_inode cur { c.inodes cur with dir := some (c.new_CDir cur) })

/-- The inode of the dentry `dname` of a directory, when the dentry exists and has one
(`dn && dn->inode`). -/
def CDir.lookup_inode (d : CDir) (dname : String) : Option CInodePtr :=
  match d.lookup dname with
  | some dn => dn.inode
  | none => none

/-- The loop of `MDCache::path_traverse` over the segments that remain, `path[depth..]`; `cur`,
`have_clean` and `trace` are the variables of the source.  The result is the value returned, the
trace and the cache afterwards. -/
def path_traverse_loop (req : Option Message) (onfail : OnFail) :
    List String → MDCache → CInodePtr → String → List CInodePtr →
    Option (Int × List CInodePtr × MDCache)
  | [], c, _, _, trace => some (0, trace, c)
  | dname :: rest, c, cur, have_clean, trace =>
    if (c.inodes cur).is_dir then
      let c0 := (open_dir c cur).2
      let dir := (open_dir c cur).1
      -- frozen?
      if dir.state.frozen_tree_root || dir.state.frozen_dir then
        some (1, trace, c0.set_inode cur { c0.inodes cur with
          dir := some (dir.add_waiter .CDIR_WAIT_UNFREEZE (.C_MDS_RetryMessage req)) })
      else
      -- must read hard data to traverse
      match read_hard_try c0 cur req with
      | none => none
      | some (false, c1) => some (1, trace, c1)
      | some (true, c1) =>
        match (c1.inodes cur).dir with
        | none => none
        | some d =>
          match d.lookup_inode dname with
          | some next =>
            -- have it, keep going.
            path_traverse_loop req onfail rest c1 next (have_clean ++ "/" ++ dname)
              (trace ++ [next])
          | none =>
            -- don't have it.
            let dauth := c1.dentry_authority cur dname
            if dauth = c1.whoami then
              -- mine.
              if d.state.complete then
                some (-ENOENT, trace, c1)
              else if onfail = .MDS_TRAVERSE_DISCOVER then
                some (-1, trace, c1)
              else
                -- directory isn't complete; reload
                some (1, trace, { c1 with
                  lru := c1.lru.lru_touch cur
                  fetch_dir_calls := c1.fetch_dir_calls ++ [(cur, .C_MDS_RetryMessage req)]
                  logger := c1.logger ++ ["cmiss", "rdir"] })
            else
              -- not mine.
              match onfail with
              | .MDS_TRAVERSE_DISCOVER =>
                let want := dname :: rest
                let c2 := { c1 with lru := c1.lru.lru_touch cur }
                let c3 := c2.send_message (.MDiscover c2.whoami have_clean (some want))
                  (.MDS dauth)
                let c4 := c3.set_inode cur { c3.inodes cur with
                  dir := some (d.add_waiter_dentry .CDIR_WAIT_DENTRY dname
                    (.C_MDS_RetryMessage req)) }
                some (1, trace, { c4 with logger := c4.logger ++ ["dis", "cmiss"] })
              | .MDS_TRAVERSE_FORWARD =>
                match req with
                | none => none
                | some r =>
                  let c2 := c1.send_message r (.MDS dauth)
                  some (1, trace, { c2 with logger := c2.logger ++ ["cfw"] })
              | .MDS_TRAVERSE_FAIL => some (-1, trace, c1)
    else
      some (-ENOTDIR, trace, c)

/-- The method `MDCache::path_traverse`: the value returned, the trace it leaves in its
out-parameter (`trace` on entry) and the cache afterwards.  Without a root the call of
`open_root` is recorded in `open_root_calls`; it is not run here. -/
def path_traverse (c : MDCache) (pathname : String) (trace : List CInodePtr)
    (req : Option Message) (onfail : OnFail) : Option (Int × List CInodePtr × MDCache) :=
  match c.root with
  | none =>
    -- if (req) open_root(new C_MDS_RetryMessage(mds, req));
    match req with
    | some _ => some (1, trace,
        { c with open_root_calls := c.open_root_calls ++ [.C_MDS_RetryMessage req] })
    | none => some (1, trace, c)
  | some cur => path_traverse_loop req onfail (filepath.bits pathname) c cur "" [cur]

/-- The value of `have_clean` after the segments `segs` have been traversed, from the value
`hc`: each segment appends `/` and its name. -/
def have_clean_after (hc : String) (segs : List String) : String :=
  segs.foldl (fun acc s => acc ++ "/" ++ s) hc

/-- The characters of `have_clean_after "" segs`. -/
def slashed : List String → List Char
  | [] => []
  | s :: ss => '/' :: (s.data ++ slashed ss)

/-- The cache `c1` differs from `c` at most by directories that `open_dir` created: every
member other than the heap is the same, and every inode object is the same or had no directory
in `c` and got the one `new CDir` builds.  In particular no message was sent, no fetch was
requested and no waiter was registered between `c` and `c1`. -/
def MDCache.dirs_opened (c c1 : MDCache) : Prop :=
  c1 = { c with inodes := c1.inodes } ∧
  ∀ p, c1.inodes p = c.inodes p ∨
    ((c.inodes p).dir = none ∧ c1.inodes p = { c.inodes p with dir := some (c.new_CDir p) })

/-- In the cache `c`, the inodes `nodes` are linked below `cur` by the dentries `segs`: `cur` is
a directory whose dir maps the first segment to a dentry whose inode is the first node, and so
on from that node. -/
def linked (c : MDCache) : CInodePtr → List String → List CInodePtr → Prop
  | _, [], [] => True
  | cur, s :: ss, n :: ns =>
    (c.inodes cur).is_dir = true ∧
    (∃ d dn, (c.inodes cur).dir = some d ∧ d.lookup s = some dn ∧ dn.inode = some n) ∧
    linked c n ss ns
  | _, _, _ => False

/-! ## Trimming the cache and starting an export -/

/-- The outcome of a run: it returned, it aborted on an assertion or a null pointer, or the model
ran out of the fuel it was given for a loop of the source. -/
inductive Outcome (α : Type) where
  | returned (a : α)
  | aborted
  | out_of_fuel

/-- Modelled from the spec: the method `LRU::lru_expire` (class `LRU` is absent): the least
recently used object that is expireable, which leaves the LRU; an inode is expireable when its
`ref_set` is empty. -/
def MDCache.lru_expire (c : MDCache) : Option (CInodePtr × MDCache) :=
  match c.lru.objs.reverse.find? (fun o => (c.inodes o).ref_set.isEmpty) with
  | none => none
  | some o => some (o, { c with lru := c.lru.lru_remove o })

/-- Modelled from the spec: the method `CInode::is_root`: the root is the inode without a
parent. -/
def CInode.is_root (i : CInode) : Bool := i.parent.isNone

/-- Modelled from the spec: the method `CDir::is_frozen`, from the state bits of the directory
itself. -/
def CDir.is_frozen (d : CDir) : Bool := d.state.frozen_tree_root || d.state.frozen_dir

/-- Modelled from the spec: the method `CDir::is_freezing`. -/
def CDir.is_freezing (d : CDir) : Bool := d.state.freezing

/-- Modelled from the spec: the method `CDir::get_size`: the number of entries. -/
def CDir.get_size (d : CDir) : Nat := d.items.length

/-- Modelled from the spec: the method `CDir::auth_pin`. -/
def CDir.auth_pin (d : CDir) : CDir := { d with auth_pins := d.auth_pins + 1 }

/-- Modelled from the spec: the method `CDir::freeze_tree(c)`: it sets FREEZING and installs the
continuation, which fires when the auth-pins of the subtree have drained. -/
def CDir.freeze_tree (d : CDir) (c : Context) : CDir :=
  { d with state := { d.state with freezing := true }
           waiting := d.waiting ++ [(.CDIR_WAIT_FREEZEABLE, none, c)] }

/-- The loop `while (t)` of `MDCache::export_dir`, which takes the popularity `pop` away from
`t` and from each of its ancestors; the fuel bounds the number of inodes visited. -/
def popularity_adjust_up : Nat → MDCache → CInodePtr → Int → Outcome MDCache
  | 0, _, _, _ => .out_of_fuel
  | k + 1, c, t, pop =>
    let c1 := c.set_inode t { c.inodes t with popularity := (c.inodes t).popularity - pop }
    match (c1.inodes t).parent with
    | some (pdir, _) => popularity_adjust_up k c1 pdir pop
    | none => .returned c1

/-- The loop of `MDCache::export_dir_dropsync` over the entries of a directory; `dropsync` is the
method itself, for the directories below. -/
def export_dir_dropsync_items (dropsync : MDCache → CInodePtr → Outcome MDCache) :
    List (String × CDentry) → MDCache → Outcome MDCache
  | [], c => .returned c
  | (_, dn) :: rest, c =>
    match dn.inode with
    | none => .aborted
    | some in_ =>
      let released : Option MDCache :=
        if (c.inodes in_).dist_state.syncbyme then sync_release c in_ else some c
      match released with
      | none => .aborted
      | some c1 =>
        if (c1.inodes in_).is_dir ∧ (c1.inodes in_).dir_auth = CDIR_AUTH_PARENT ∧
            (c1.inodes in_).nested_auth_pins > 0 then
          match dropsync c1 in_ with
          | .returned c2 => export_dir_dropsync_items dropsync rest c2
          | .aborted => .aborted
          | .out_of_fuel => .out_of_fuel
        else export_dir_dropsync_items dropsync rest c1

/-- The method `MDCache::export_dir_dropsync`; the fuel bounds the depth of the recursion. -/
def export_dir_dropsync : Nat → MDCache → CInodePtr → Outcome MDCache
  | 0, _, _ => .out_of_fuel
  | k + 1, c, idir =>
    -- assert(idir->is_dir());
    if !(c.inodes idir).is_dir then .aborted else
    match (c.inodes idir).dir with
    | none => .returned c
    | some d => export_dir_dropsync_items (export_dir_dropsync k) d.items c

/-- The statements of `MDCache::export_dir` that ask the target and pin the directory `dir` of
`in_`: the `MExportDirPrep` goes to the MDS `dest`, and the counter `ex` is incremented. -/
def export_dir_prep (c : MDCache) (in_ : CInodePtr) (dest : Int) (dir : CDir) : MDCache :=
  -- send ExportDirPrep (ask target)
  let c1 := c.send_message (.MExportDirPrep (c.inodes in_).ino) (.MDS dest)
  -- pin dir, to hang up our freeze
  let c2 := c1.set_inode in_ { c1.inodes in_ with dir := some dir.auth_pin }
  { c2 with logger := c2.logger ++ ["ex"] }

/-- The end of `MDCache::export_dir`: it freezes the subtree and, if a sticky option is on,
drops the syncs held below. -/
def export_dir_freeze (k : Nat) (c : MDCache) (in_ : CInodePtr) (dest : Int) (pop : Int) :
    Outcome MDCache :=
  -- freeze the subtree
  let c1 := c.set_inode in_ { c.inodes in_ with
    dir := (c.inodes in_).dir.map (fun d => d.freeze_tree (.C_MDS_ExportFreeze in_ dest pop)) }
  -- drop any sync or lock if sticky
  if c1.mdcache_sticky_sync_normal || c1.mdcache_sticky_sync_softasync then
    export_dir_dropsync k c1 in_
  else .returned c1

/-- The method `MDCache::export_dir`; the fuel `k` is the one of its loop over the ancestors and
of `export_dir_dropsync`. -/
def export_dir (k : Nat) (c : MDCache) (in_ : CInodePtr) (dest : Int) : Outcome MDCache :=
  -- assert(dest != mds->get_nodeid());
  if dest = c.whoami then .aborted else
  -- if (!in->dir) in->dir = new CDir(in, mds->get_nodeid());
  let c0 := (open_dir c in_).2
  let dir := (open_dir c in_).1
  if (c0.inodes in_).parent.isNone then
    -- i won't export root: assert(in->parent);
    .aborted
  else if dir.is_frozen || dir.is_freezing then
    -- can't export, freezing|frozen
    .returned c0
  else
    let c3 := export_dir_prep c0 in_ dest dir
    -- take away popularity
    let pop := (c3.inodes in_).popularity
    match popularity_adjust_up k c3 in_ pop with
    | .aborted => .aborted
    | .out_of_fuel => .out_of_fuel
    | .returned c4 => export_dir_freeze k c4 in_ dest pop

/-- An inode `trim` has evicted: the object, its inode number and its authority, as they were
when the LRU expired it. -/
structure Evicted where
  in_ : CInodePtr
  ino : inodeno_t
  auth : Int
  deriving DecidableEq, Repr

/-- The block `notify authority?` of the loop of `MDCache::trim`. -/
def trim_notify (c : MDCache) (in_ : CInodePtr) : MDCache :=
  let auth := c.authority in_
  if auth ≠ c.whoami then
    c.send_message (.MInodeExpire (c.inodes in_).ino c.whoami none none) (.MDS auth)
  else c

/-- Modelled from the spec: the call `state_clear(CDIR_STATE_COMPLETE)` of a directory. -/
def CDir.state_clear_complete (d : CDir) : CDir :=
  { d with state := { d.state with complete := false } }

/-- The block `reexport?` of the loop of `MDCache::trim`, for the parent `idir` of the inode
removed; `d` is the directory of `idir`. -/
def trim_reexport (k : Nat) (c : MDCache) (idir : CInodePtr) (d : CDir) : Outcome MDCache :=
  if idir ∈ c.imports ∧ d.get_size = 0 ∧ (c.inodes idir).is_root = false ∧
      (d.is_freezing || d.is_frozen) = false then
    let dest := if c.shutting_down then 0 else c.authority idir
    if dest ≠ c.whoami then
      -- it's an empty import!
      export_dir k c idir dest
    else .returned c
  else .returned c

/-- The body of the loop of `MDCache::trim` once the LRU has expired `in_`. -/
def trim_evict (k : Nat) (c : MDCache) (in_ : CInodePtr) : Outcome MDCache :=
  -- notify authority?
  let c1 := trim_notify c in_
  let idir := (c1.inodes in_).parent.map (fun dn => dn.1)
  -- remove it
  match remove_inode c1 in_ with
  | none => .aborted
  | some c2 =>
    match idir with
    | some idir =>
      match (c2.inodes idir).dir with
      | none => .aborted
      | some d =>
        -- dir incomplete!
        let c3 := c2.set_inode idir { c2.inodes idir with dir := some d.state_clear_complete }
        -- reexport?
        trim_reexport k c3 idir d.state_clear_complete
    | none =>
      -- that was root!
      .returned { c2 with root := none }

/-- The loop of `MDCache::trim`; the fuel bounds the number of its iterations, and the list is
the inodes evicted so far. -/
def trim_loop (k : Nat) (max : Int) :
    Nat → List Evicted → MDCache → Outcome (Bool × List Evicted × MDCache)
  | 0, _, _ => .out_of_fuel
  | n + 1, ev, c =>
    if (c.lru.lru_get_size : Int) > max then
      match c.lru_expire with
      | none => .returned (false, ev, c)
      | some (in_, c1) =>
        match trim_evict k c1 in_ with
        | .returned c2 =>
          trim_loop k max n (ev ++ [⟨in_, (c1.inodes in_).ino, c1.authority in_⟩]) c2
        | .aborted => .aborted
        | .out_of_fuel => .out_of_fuel
    else .returned (true, ev, c)

/-- The method `MDCache::trim`: the boolean returned, the inodes evicted, in order, and the cache
afterwards. -/
def trim (k n : Nat) (c : MDCache) (max : Int) : Outcome (Bool × List Evicted × MDCache) :=
  if max < 0 then
    if c.lru_max = 0 then .returned (false, [], c)
    else trim_loop k c.lru_max n [] c
  else trim_loop k max n [] c

/-! ## Linking inodes; the bookkeeping of imports and exports -/

/-- The inode record of an inode object (`in->inode`). -/
def CInode.inode (i : CInode) : inode_t := ⟨i.ino, i.is_dir, i.dir_hashed, i.inode_rest⟩

/-- The assignment `in->inode = r`. -/
def CInode.set_inode_t (i : CInode) (r : inode_t) : CInode :=
  { i with ino := r.ino, is_dir := r.isdir, dir_hashed := r.hashed, inode_rest := r.rest }

/-- Modelled from the spec: the object `new CInode()` builds (the constructor is in the absent
`CInode.cc`): no parent, no directory, no pins, no waiters, an empty `cached_by`, a clear
`dist_state`, `dir_auth` inherited from the parent; the inode is authoritative until told
otherwise, as `open_root` relies on. -/
def CInode.fresh : CInode :=
  { ino := 0, is_dir := false, auth := true,
    dist_state := ⟨false, false, false, false, false, false, false, false, false⟩,
    cached_by := [], sync_waiting_for_ack := [], sync_replicawantback := false,
    open_write := [], client_wait_for_sync := [], pending_sync_request := none,
    ref_set := [], auth_pins := 0, waiting := [], dir := none, nparents := 0, parent := none,
    frozen := false, freezing := false, auth_pinnable := true, lock_active_count := 0,
    lock_waiting_for_ack := [], popularity := 0, dir_auth := -1, nested_auth_pins := 0,
    dir_hashed := false, inode_rest := 0, version := 0, parent_dir_version := 0, dirty := false }

/-- The expression `new CInode()`: the address of the new object and the cache that holds
it. -/
def MDCache.new_CInode (c : MDCache) : CInodePtr × MDCache :=
  (c.heap_next, { c.set_inode c.heap_next CInode.fresh with heap_next := c.heap_next + 1 })

/-- Modelled from the spec: the method `CInode::add_parent(dn)`: the dentry, named by the inode
of its directory and its name, becomes the parent of the inode. -/
def CInode.add_parent (i : CInode) (pdir : CInodePtr) (dname : String) : CInode :=
  { i with parent := some (pdir, dname), nparents := i.nparents + 1 }

/-- Modelled from the spec: the method `CInode::get_parent_inode`: the inode of the directory of
the parent dentry, `NULL` without a parent. -/
def CInode.get_parent_inode (i : CInode) : Option CInodePtr := i.parent.map (fun dn => dn.1)

/-- Modelled from the spec: the method `CInode::cached_by_add`. -/
def CInode.cached_by_add (i : CInode) (who : Int) : CInode :=
  { i with cached_by := IntSet.insert i.cached_by who }

/-- Modelled from the spec: the method `CInode::cached_by_clear`. -/
def CInode.cached_by_clear (i : CInode) : CInode := { i with cached_by := [] }

/-- Modelled from the spec: the method `CInode::mark_dirty`: a dirty inode is pinned. -/
def CInode.mark_dirty (i : CInode) : CInode :=
  if i.dirty then i else { i.get .CINODE_PIN_DIRTY with dirty := true }

/-- Modelled from the spec: the method `CInode::mark_clean`. -/
def CInode.mark_clean (i : CInode) : CInode :=
  if i.dirty then { i.put .CINODE_PIN_DIRTY with dirty := false } else i

/-- Modelled from the spec: the call `in->take_waiting(CINODE_WAIT_ANY, ls)`: every waiter of
the inode, in insertion order, and the inode without them. -/
def CInode.take_waiting_any (i : CInode) : List Context × CInode :=
  (i.waiting.map (fun w => w.2), { i with waiting := [] })

/-- Modelled from the spec: the method `CDir::add_child(dn)`: the dentry enters the
directory. -/
def CDir.add_child (d : CDir) (dname : String) (in_ : CInodePtr) : CDir :=
  { d with items := d.items ++ [(dname, ⟨dname, some in_⟩)] }

/-- Modelled from the spec: the field `nitems` of a directory: the number of its entries. -/
def CDir.nitems (d : CDir) : Int := d.items.length

/-- Modelled from the spec: the call `dir->take_waiting(CDIR_WAIT_ANY, ls)`. -/
def CDir.take_waiting_any (d : CDir) : List Context × CDir :=
  (d.waiting.map (fun w => w.2.2), { d with waiting := [] })

/-- Modelled from the spec: the call `dir->take_waiting(tag, ls)`. -/
def CDir.take_waiting (d : CDir) (tag : WaitTag) : List Context × CDir :=
  ((d.waiting.filter (fun w => decide (w.1 = tag))).map (fun w => w.2.2),
   { d with waiting := d.waiting.filter (fun w => decide (w.1 ≠ tag)) })

/-- Modelled from the spec: the call `dir->take_waiting(tag, dname, ls)`: the waiters on the
event for the dentry name. -/
def CDir.take_waiting_dentry (d : CDir) (tag : WaitTag) (dname : String) :
    List Context × CDir :=
  ((d.waiting.filter (fun w => decide (w.1 = tag ∧ w.2.1 = some dname))).map (fun w => w.2.2),
   { d with waiting := d.waiting.filter (fun w => decide (¬ (w.1 = tag ∧ w.2.1 = some dname))) })

/-- The bits of `s` that are in the mask `m` too (`s & m`). -/
def CDirState.and (s m : CDirState) : CDirState :=
  ⟨s.complete && m.complete, s.auth && m.auth, s.frozen_tree_root && m.frozen_tree_root,
    s.frozen_dir && m.frozen_dir, s.freezing && m.freezing, s.import_ && m.import_,
    s.hashed && m.hashed, s.hashing && m.hashing, s.unhashing && m.unhashing,
    s.dirty && m.dirty⟩

/-- Modelled from the spec: the method `CDir::freeze_dir(c)` on a directory without auth-pins:
the directory is frozen at once and the continuation, if any, is run by the caller. -/
def CDir.freeze_dir (d : CDir) : CDir := { d with state := { d.state with frozen_dir := true } }

/-- Modelled from the spec: the method `CDir::auth_unpin`. -/
def CDir.auth_unpin (d : CDir) : CDir := { d with auth_pins := d.auth_pins - 1 }

/-- The call `std::set<CInode*>::insert`. -/
def PtrSet.insert (s : List CInodePtr) (x : CInodePtr) : List CInodePtr :=
  if x ∈ s then s else s ++ [x]

/-- The call `std::set<CInode*>::erase(value)`. -/
def PtrSet.erase (s : List CInodePtr) (x : CInodePtr) : List CInodePtr :=
  s.filter (fun y => decide (y ≠ x))

/-- The values of a multimap under a key, in insertion order (`equal_range`). -/
def equal_range {α β : Type} [DecidableEq α] (m : List (α × β)) (k : α) : List β :=
  (m.filter (fun e => decide (e.1 = k))).map (fun e => e.2)

/-- The method `MDCache::link_inode`: the value returned and the cache afterwards. -/
def link_inode (c : MDCache) (parent : CInodePtr) (dname : String) (in_ : CInodePtr) :
    Option (Int × MDCache) :=
  match (c.inodes parent).dir with
  | none =>
    -- not a dir
    some (-ENOTDIR, c)
  | some d =>
    -- assert(parent->dir->lookup(dname) == 0);
    if (d.lookup dname).isSome then none else
    -- create dentry: in->add_parent(dn);
    let c1 := c.set_inode in_ ((c.inodes in_).add_parent parent dname)
    -- add to dir
    let c2 := c1.set_inode parent { c1.inodes parent with
      dir := (c1.inodes parent).dir.map (fun d1 => d1.add_child dname in_) }
    -- set dir version
    match (c2.inodes parent).dir with
    | none => none
    | some d2 =>
      some (0, c2.set_inode in_ { c2.inodes in_ with parent_dir_version := d2.version })

/-- The method `MDCache::get_containing_import`, from `imp`; the fuel bounds the number of
inodes visited on the way up. -/
def get_containing_import : Nat → MDCache → Option CInodePtr → Outcome CInodePtr
  | 0, _, _ => .out_of_fuel
  | k + 1, c, imp =>
    match imp with
    | none =>
      -- assert(imp);
      .aborted
    | some p =>
      if p ∈ c.imports then .returned p
      else get_containing_import k c (c.inodes p).get_parent_inode

/-- The method `MDCache::get_containing_export`, from `ex`. -/
def get_containing_export : Nat → MDCache → Option CInodePtr → Outcome (Option CInodePtr)
  | 0, _, _ => .out_of_fuel
  | k + 1, c, ex =>
    match ex with
    | none => .returned none
    | some p =>
      if p ∈ c.exports then .returned (some p)
      else get_containing_export k c (c.inodes p).get_parent_inode

/-- The inner loop of `MDCache::show_imports` over the nested exports of the import `imp`; the
result is the copy of `exports` without the exports seen. -/
def show_imports_nested (k : Nat) (c : MDCache) (imp : CInodePtr) :
    List CInodePtr → List CInodePtr → Outcome (List CInodePtr)
  | [], ecopy => .returned ecopy
  | exp :: rest, ecopy =>
    -- assert( get_containing_import(exp) == *it );
    match get_containing_import k c (some exp) with
    | .out_of_fuel => .out_of_fuel
    | .aborted => .aborted
    | .returned i =>
      if i ≠ imp then .aborted
      else if exp ∉ ecopy then
        -- nested_export not in exports: assert(0);
        .aborted
      else show_imports_nested k c imp rest (PtrSet.erase ecopy exp)

/-- The outer loop of `MDCache::show_imports` over the imports. -/
def show_imports_loop (k : Nat) (c : MDCache) :
    List CInodePtr → List CInodePtr → Outcome (List CInodePtr)
  | [], ecopy => .returned ecopy
  | imp :: rest, ecopy =>
    match show_imports_nested k c imp (equal_range c.nested_exports imp) ecopy with
    | .out_of_fuel => .out_of_fuel
    | .aborted => .aborted
    | .returned ecopy1 => show_imports_loop k c rest ecopy1

/-- The method `MDCache::show_imports`: it prints, and checks the bookkeeping by assertions. -/
def show_imports (k : Nat) (c : MDCache) : Outcome Unit :=
  if c.imports.length = 0 then .returned ()
  else
    match show_imports_loop k c c.imports c.exports with
    | .out_of_fuel => .out_of_fuel
    | .aborted => .aborted
    | .returned ecopy =>
      -- assert(ecopy.size() == 0);
      if ecopy.length ≠ 0 then .aborted else .returned ()

/-! ## Exporting a subtree: `export_dir_frozen`, `export_dir_walk` -/

/-- Modelled from the spec: the method `CInode::encode_export_state` (`CInode.cc` is absent):
the struct `Inode_Export_State_t` of the inode followed by the members of `cached_by`, one `int`
each. -/
def CInode.encode_export_state (i : CInode) : List BlobCell :=
  .inode_state ⟨i.inode, i.version, i.popularity, i.dir_auth, i.cached_by.length,
      i.dist_state.softasync, i.dirty⟩ ::
    i.cached_by.map BlobCell.int

/-- The part of the body of the loop of `MDCache::export_dir_walk` that looks at a child `in_`
that is a directory: it is a directory of the subtree, to recurse into (`true`), or a nested
export, which leaves `exports` (`false`). -/
def export_dir_walk_subdir (c : MDCache) (in_ : CInodePtr) : Option (Bool × MDCache) :=
  let i := c.inodes in_
  -- shouldn't refer to us explicitly!
  if i.dir_auth = c.whoami ∧ i.dir_hashed = false then none else
  -- assert(!in->dir || in->dir->is_hashed()); or assert(!in->dir || !in->dir->is_hashed());
  if (match i.dir with
      | none => false
      | some d => d.state.hashed != i.dir_hashed) then none else
  if i.dir_auth = CDIR_AUTH_PARENT ∨ (i.dir_hashed = true ∧ i.dir_auth = c.whoami) then
    -- it's ours, recurse.
    some (true, c)
  else
    -- assert(exports.count(in) == 1);
    if in_ ∉ c.exports then none else
    -- discard nested export
    let c1 := { c with exports := PtrSet.erase c.exports in_ }
    some (false, c1.set_inode in_ ((c1.inodes in_).put .CINODE_PIN_EXPORT))

/-- The end of the body of the loop of `MDCache::export_dir_walk`, which fixes the state of the
child `in_`; `hashed` is `idir->dir->is_hashed()` and `fin` is the inode whose
`C_MDS_ExportFinish` takes the waiters. -/
def export_dir_walk_fix (c : MDCache) (fin idir in_ : CInodePtr) (newauth : Int)
    (hashed : Bool) : Option MDCache :=
  let i := c.inodes in_
  -- we don't export inodes if hashed
  if hashed then
    -- but we do replicate all dirs on new auth
    if i.is_dir ∧ i.auth = true ∧ newauth ∉ i.cached_by then
      some (c.set_inode in_ (i.cached_by_add newauth))
    else some c
  else
    -- we're export this inode; fix inode state
    let i1 := if i.dirty then i.mark_clean else i
    -- clear/unpin cached_by (we're no longer the authority)
    let i2 := i1.cached_by_clear
    -- assert(in->auth == true);
    if i2.auth = false then none else
    let c1 := c.set_inode in_ { i2 with auth := false }
    -- waiters
    match (c1.inodes idir).dir with
    | none => none
    | some d =>
      let c2 := c1.set_inode idir { c1.inodes idir with dir := some d.take_waiting_any.2 }
      some { c2 with
        fin_waitlist := c2.fin_waitlist ++ d.take_waiting_any.1.map (fun w => (fin, w)) }

/-- The loop of `MDCache::export_dir_walk` over the entries of the directory of `idir`; `rope`
is `dir_rope`, `subdirs` the list of the source, and `hashed` is `idir->dir->is_hashed()`, which
the loop does not change. -/
def export_dir_walk_items (fin idir : CInodePtr) (newauth : Int) (hashed : Bool) :
    List (String × CDentry) → MDCache → List BlobCell → List CInodePtr →
    Option (List BlobCell × List CInodePtr × MDCache)
  | [], c, rope, subdirs => some (rope, subdirs, c)
  | (name, dn) :: rest, c, rope, subdirs =>
    match dn.inode with
    | none => none
    | some in_ =>
      -- so log entries are ignored, etc.
      let c1 := c.set_inode in_ { c.inodes in_ with version := (c.inodes in_).version + 1 }
      -- idir hashed?  make dir_auth explicit
      let c2 :=
        if hashed ∧ (c1.inodes in_).dir_auth = CDIR_AUTH_PARENT then
          c1.set_inode in_ { c1.inodes in_ with dir_auth := c1.whoami }
        else c1
      -- if hashed, only include dirs
      let rope1 :=
        if (c2.inodes in_).is_dir ∨ hashed = false then
          rope ++ [BlobCell.str name] ++ (c2.inodes in_).encode_export_state
        else rope
      let sub : Option (List CInodePtr × MDCache) :=
        if (c2.inodes in_).is_dir then
          match export_dir_walk_subdir c2 in_ with
          | none => none
          | some (true, c3) => some (subdirs ++ [in_], c3)
          | some (false, c3) => some (subdirs, c3)
        else some (subdirs, c2)
      match sub with
      | none => none
      | some (subdirs1, c3) =>
        match export_dir_walk_fix c3 fin idir in_ newauth hashed with
        | none => none
        | some c4 => export_dir_walk_items fin idir newauth hashed rest c4 rope1 subdirs1

/-- The loop of `MDCache::export_dir_walk` over `subdirs`; `walk` is the method itself, with the
request (the blocks added so far) and the cache as they are at the call. -/
def export_dir_walk_subdirs
    (walk : MDCache → List (List BlobCell) → CInodePtr → Outcome (List (List BlobCell) × MDCache)) :
    List CInodePtr → List (List BlobCell) → MDCache → Outcome (List (List BlobCell) × MDCache)
  | [], req, c => .returned (req, c)
  | s :: rest, req, c =>
    match walk c req s with
    | .returned (req1, c1) => export_dir_walk_subdirs walk rest req1 c1
    | .aborted => .aborted
    | .out_of_fuel => .out_of_fuel

/-- The statements of `MDCache::export_dir_walk` on the directory `d` of `idir` before the loop
over its entries: the head of the block, and the cache with the state of the directory
marked. -/
def export_dir_walk_head (c : MDCache) (fin idir : CInodePtr) (d : CDir) :
    Option (List BlobCell × MDCache) :=
  let dstate : Dir_Export_State_t :=
    ⟨(c.inodes idir).ino, d.nitems, d.version, d.state, d.dir_rep, d.dir_rep_by.length,
      d.popularity⟩
  let dir_rope := BlobCell.dir_state dstate :: d.dir_rep_by.map BlobCell.int
  -- mark: assert(idir->dir->is_auth());
  if d.state.auth = false then none else
  let d1 := { d with state := { d.state with auth := false } }
  -- discard most dir state
  let d2 := { d1 with state := d1.state.and c.mask_state_export_kept }
  let c1 := c.set_inode idir { c.inodes idir with dir := some d2 }
  -- waiters
  let c2 := c1.set_inode idir (c1.inodes idir).take_waiting_any.2
  some (dir_rope, { c2 with
    fin_waitlist := c2.fin_waitlist ++
      (c1.inodes idir).take_waiting_any.1.map (fun w => (fin, w)) })

/-- The method `MDCache::export_dir_walk`: the blocks of the request (`req->add_dir`) and the
cache afterwards; `fin` is the inode whose `C_MDS_ExportFinish` takes the waiters.  The fuel
bounds the depth of the recursion. -/
def export_dir_walk : Nat → MDCache → List (List BlobCell) → CInodePtr → CInodePtr → Int →
    Outcome (List (List BlobCell) × MDCache)
  | 0, _, _, _, _, _ => .out_of_fuel
  | k + 1, c, req, fin, idir, newauth =>
    -- assert(idir->is_dir());
    if (c.inodes idir).is_dir = false then .aborted else
    match (c.inodes idir).dir with
    | none => .returned (req, c)
    | some d =>
      match export_dir_walk_head c fin idir d with
      | none => .aborted
      | some (dir_rope, c1) =>
        match (c1.inodes idir).dir with
        | none => .aborted
        | some d1 =>
          match export_dir_walk_items fin idir newauth d1.state.hashed d1.items c1 dir_rope []
            with
          | none => .aborted
          | some (rope, subdirs, c2) =>
            export_dir_walk_subdirs (fun c3 req3 s => export_dir_walk k c3 req3 fin s newauth)
              subdirs (req ++ [rope]) c2

/-- The loop of `MDCache::export_dir_frozen` that discards the nested exports of `in_`, which
was an import and is exported again, over the values of `nested_exports` under `in_`. -/
def export_dir_frozen_discard (in_ : CInodePtr) : List CInodePtr → MDCache → Option MDCache
  | [], c => some c
  | nested :: rest, c =>
    -- assert(exports.count(nested) == 1);
    if nested ∉ c.exports then none else
    export_dir_frozen_discard in_ rest
      { c with nested_exports := c.nested_exports.erase (in_, nested) }

/-- The loop of `MDCache::export_dir_frozen` over the values of `nested_exports` under the
containing import, for a new export `in_`. -/
def export_dir_frozen_nested (k : Nat) (containing_import in_ : CInodePtr) :
    List CInodePtr → MDCache → Outcome MDCache
  | [], c => .returned c
  | nested :: rest, c =>
    match get_containing_export k c (c.inodes nested).get_parent_inode with
    | .out_of_fuel => .out_of_fuel
    | .aborted => .aborted
    | .returned none => export_dir_frozen_nested k containing_import in_ rest c
    | .returned (some containing_export) =>
      if nested = in_ then
        -- ignore myself
        export_dir_frozen_nested k containing_import in_ rest c
      else if containing_export = in_ then
        -- nested beneath our new export *in; remove!
        export_dir_frozen_nested k containing_import in_ rest
          { c with nested_exports := c.nested_exports.erase (containing_import, nested) }
      else
        -- other export is under another export, which is odd: assert(0);
        .aborted

/-- The block `update imports/exports` of `MDCache::export_dir_frozen`. -/
def export_dir_frozen_update (k : Nat) (c : MDCache) (in_ : CInodePtr) : Outcome MDCache :=
  match get_containing_import k c (some in_) with
  | .out_of_fuel => .out_of_fuel
  | .aborted => .aborted
  | .returned containing_import =>
    if containing_import = in_ then
      -- i'm rexporting a previous import
      let c1 := { c with imports := PtrSet.erase c.imports in_ }
      match (c1.inodes in_).dir with
      | none => .aborted
      | some d =>
        let c2 := c1.set_inode in_ { c1.inodes in_ with
          dir := some { d with state := { d.state with import_ := false } } }
        -- unpin, no longer an import
        let c3 := c2.set_inode in_ ((c2.inodes in_).put .CINODE_PIN_IMPORT)
        -- discard nested exports (that we're handing off)
        match export_dir_frozen_discard in_ (equal_range c3.nested_exports in_) c3 with
        | none => .aborted
        | some c4 => .returned c4
    else
      -- i'm a subdir nested under import
      let c1 := { c with
        exports := PtrSet.insert c.exports in_
        nested_exports := c.nested_exports ++ [(containing_import, in_)] }
      -- i must keep it pinned
      let c2 := c1.set_inode in_ ((c1.inodes in_).get .CINODE_PIN_EXPORT)
      -- discard nested exports (that we're handing off)
      export_dir_frozen_nested k containing_import in_
        (equal_range c2.nested_exports containing_import) c2

/-- The method `MDCache::export_dir_frozen`; the fuel `k` is the one of the walks up the tree
and of `export_dir_walk`. -/
def export_dir_frozen (k : Nat) (c : MDCache) (in_ : CInodePtr) (dest : Int) (pop : Int) :
    Outcome MDCache :=
  match show_imports k c with
  | .out_of_fuel => .out_of_fuel
  | .aborted => .aborted
  | .returned _ =>
    -- update imports/exports
    match export_dir_frozen_update k c in_ with
    | .out_of_fuel => .out_of_fuel
    | .aborted => .aborted
    | .returned c1 =>
      -- note new authority (locally)
      let c2 := c1.set_inode in_ { c1.inodes in_ with dir_auth := dest }
      let c3 :=
        match (c2.inodes in_).get_parent_inode with
        | some pi =>
          if (c2.inodes pi).dir_auth = (c2.inodes in_).dir_auth then
            c2.set_inode in_ { c2.inodes in_ with dir_auth := CDIR_AUTH_PARENT }
          else c2
        | none => c2
      -- build export message; fill with relevant cache data
      match export_dir_walk k c3 [] in_ in_ dest with
      | .out_of_fuel => .out_of_fuel
      | .aborted => .aborted
      | .returned (dirs, c4) =>
        let c5 := c4.send_message (.MExportDir (c3.inodes in_).ino pop dirs) (.MDS dest)
        -- queue finisher
        match (c5.inodes in_).dir with
        | none => .aborted
        | some d =>
          .returned (c5.set_inode in_ { c5.inodes in_ with
            dir := some (d.add_waiter .CDIR_WAIT_UNFREEZE (.C_MDS_ExportFinish in_)) })

/-! ## Importing a subtree: `handle_export_dir`, `import_dir_block`, `import_dentry_inode` -/

/-- A received `MExportDir`: the sender, the inode number of the directory exported, the
popularity taken away by the exporter, and the directory blocks; `get_state()` is the blocks one
after the other and `get_ndirs()` their number. -/
structure MExportDir where
  source : msg_addr_t
  ino : inodeno_t
  ipop : Int
  dirs : List (List BlobCell)
  deriving DecidableEq, Repr

/-- A received `MInodeGetReplica`. -/
structure MInodeGetReplica where
  source : msg_addr_t
  ino : inodeno_t
  deriving DecidableEq, Repr

/-- Reading `n` values of type `int` at the cursor `p` (`*((int*)p)`, `p += sizeof(int)`): the
values and the cursor afterwards.  Reading a cell of another kind as an `int` is not a run of
the model. -/
def read_ints : Nat → List BlobCell → Option (List Int × List BlobCell)
  | 0, p => some ([], p)
  | n + 1, .int i :: p =>
    match read_ints n p with
    | some (is, p1) => some (i :: is, p1)
    | none => none
  | _ + 1, _ => none

/-- The block `assimilate new auth state` of `MDCache::import_dentry_inode` when `importing`
holds: the cursor and the cache afterwards. -/
def import_dentry_inode_assim (c : MDCache) (in_ : CInodePtr) (istate : Inode_Export_State_t)
    (p : List BlobCell) (from_ : Int) : Option (List BlobCell × MDCache) :=
  -- dir_auth (for dirs underneath me)
  let i1 := { c.inodes in_ with dir_auth := istate.dir_auth }
  -- assert(!in->dir || in->dir->is_hashed()); or assert(!in->dir || !in->dir->is_hashed());
  if (match i1.dir with
      | none => false
      | some d => d.state.hashed != i1.dir_hashed) then none else
  -- update inode state with authoritative info
  let i2 := { i1 with version := istate.version, popularity := istate.popularity }
  -- cached_by
  match read_ints istate.ncached_by.toNat p with
  | none => none
  | some (by_, p1) =>
    let i3 := (by_.filter (fun x => decide (x ≠ c.whoami))).foldl CInode.cached_by_add
      i2.cached_by_clear
    -- old auth still has it too.
    let i4 := i3.cached_by_add from_
    -- dist state: new authority inherits softasync state only
    let i5 := { i4 with dist_state :=
      ⟨false, false, false, false, false, false, istate.is_softasync, false, false⟩ }
    -- dirty?
    if istate.dirty then
      let c1 := c.set_inode in_ i5.mark_dirty
      some (p1, { c1 with mdlog := c1.mdlog ++ [in_] })
    else some (p1, c.set_inode in_ i5)

/-- The block of `MDCache::import_dentry_inode` for a directory in a hashed directory
(`importing` does not hold); `dir` is the inode of the directory `dir` of the source. -/
def import_dentry_inode_hashed (c : MDCache) (dir : CInodePtr) (dname : String)
    (in_ : CInodePtr) (from_ : Int) (import_root : CInodePtr) (had_inode : Bool)
    (dir_hashed : Bool) : Option MDCache :=
  -- this is a directory; i am importing a hashed dir
  if (c.inodes in_).is_dir = false then none else
  if dir_hashed = false then none else
  let auth := c.authority in_
  if (c.inodes in_).auth then
    -- assert(in->is_cached_by(from)); assert(auth == mds->get_nodeid());
    if from_ ∉ (c.inodes in_).cached_by then none
    else if auth ≠ c.whoami then none
    else some c
  else if auth = from_ then
    -- do nothing.  from added us to their cached_by.
    some c
  else if had_inode then some c
  else
    -- send InodeGetReplica
    let dauth := c.dentry_authority dir dname
    let c1 := c.send_message (.MInodeGetReplica (c.inodes in_).ino) (.MDS dauth)
    -- freeze dir, note waiting status
    let dir_ino := (c1.inodes dir).ino
    let c2 :=
      if (equal_range c1.import_hashed_replicate_waiting dir_ino).length = 0 then
        -- first for this dir.. freeze and add to freeze list!
        let c11 := { c1 with import_hashed_frozen_waiting :=
          c1.import_hashed_frozen_waiting ++ [((c1.inodes import_root).ino, dir_ino)] }
        c11.set_inode dir { c11.inodes dir with
          dir := (c11.inodes dir).dir.map CDir.freeze_dir }
      else c1
    let c3 := { c2 with import_hashed_replicate_waiting :=
      c2.import_hashed_replicate_waiting ++ [(dir_ino, (c2.inodes in_).ino)] }
    -- add waiter
    some (c3.set_inode in_ ((c3.inodes in_).add_waiter .CINODE_WAIT_GETREPLICA
      (.C_MDS_ImportHashedReplica in_ dir_ino (c3.inodes in_).ino)))

/-- The statements of `MDCache::import_dentry_inode` that look the inode of the entry up in the
cache and add a new one if it is not there: the inode, `had_inode` and the cache afterwards. -/
def import_dentry_inode_find (c : MDCache) (dir : CInodePtr) (dname : String)
    (istate : Inode_Export_State_t) : Option (CInodePtr × Bool × MDCache) :=
  match c.get_inode istate.inode.ino with
  | some in_ => some (in_, true, c)
  | none =>
    let in_ := c.new_CInode.1
    let c1 := c.new_CInode.2
    let c2 := c1.set_inode in_ ((c1.inodes in_).set_inode_t istate.inode)
    -- add
    match add_inode c2 in_ with
    | none => none
    | some c3 =>
      match link_inode c3 dir dname in_ with
      | none => none
      | some (_, c4) => some (in_, false, c4)

/-- The method `MDCache::import_dentry_inode`: the inode returned, the cursor `p` and the cache
afterwards.  `dir` is the inode of the directory `dir` of the source (`dir->inode`), whose
directory is open. -/
def import_dentry_inode (c : MDCache) (dir : CInodePtr) (p : List BlobCell) (from_ : Int)
    (import_root : CInodePtr) : Option (CInodePtr × List BlobCell × MDCache) :=
  match (c.inodes dir).dir with
  | none => none
  | some d =>
    -- we have three cases:
    if !((d.state.auth && !d.state.hashing) || (!d.state.auth && d.state.hashing) ||
        (d.state.auth && d.state.unhashing)) then none else
    match p with
    | .str dname :: .inode_state istate :: p2 =>
      match import_dentry_inode_find c dir dname istate with
      | none => none
      | some (in_, had_inode, c1) =>
        -- auth wonkiness
        if d.state.unhashing then
          -- auth reassimilating
          let c2 := c1.set_inode in_
            { (c1.inodes in_).set_inode_t istate.inode with auth := true }
          match import_dentry_inode_assim c2 in_ istate p2 from_ with
          | none => none
          | some (p3, c3) => some (in_, p3, c3)
        else if d.state.hashed then
          -- import on hashed dir
          if (c1.inodes in_).is_dir = false then none else
          let c2 := c1.set_inode in_
            { c1.inodes in_ with auth := decide (c1.authority in_ = c1.whoami) }
          match import_dentry_inode_hashed c2 dir dname in_ from_ import_root had_inode
              d.state.hashed with
          | none => none
          | some c3 => some (in_, p2, c3)
        else
          -- normal import
          let c2 := c1.set_inode in_
            { (c1.inodes in_).set_inode_t istate.inode with auth := true }
          match import_dentry_inode_assim c2 in_ istate p2 from_ with
          | none => none
          | some (p3, c3) => some (in_, p3, c3)
    | _ => none

/-- The block `was this an export?` of the loop of `MDCache::import_dir_block`, for the inode
`in_` that `import_dentry_inode` returned.  The loop that moves the nested exports of `in_`
under `containing_import` does not end when `in_` is `containing_import` itself and has nested
exports, as it inserts into the range it runs over: that is not a run of the model. -/
def import_dir_block_nested (c : MDCache) (containing_import in_ : CInodePtr) :
    Option MDCache :=
  if (c.inodes in_).dir_auth ≥ 0 then
    -- to us?
    if (c.inodes in_).dir_auth = c.whoami then
      -- adjust the import
      let c1 := { c with imports := PtrSet.erase c.imports in_ }
      match (c1.inodes in_).dir with
      | none => none
      | some d =>
        let c2 := c1.set_inode in_ { c1.inodes in_ with
          dir := some { d with state := { d.state with import_ := false } } }
        let c3 := { c2 with logger := c2.logger ++ ["immyex"] }
        -- move nested exports under containing_import
        if in_ = containing_import ∧ equal_range c3.nested_exports in_ ≠ [] then none else
        let c4 := { c3 with nested_exports := c3.nested_exports ++
          (equal_range c3.nested_exports in_).map (fun nested => (containing_import, nested)) }
        -- de-list under old import
        let c5 := { c4 with
          nested_exports := c4.nested_exports.filter (fun e => decide (e.1 ≠ in_)) }
        let c6 := c5.set_inode in_ { c5.inodes in_ with dir_auth := CDIR_AUTH_PARENT }
        -- imports are pinned, no longer import
        some (c6.set_inode in_ ((c6.inodes in_).put .CINODE_PIN_IMPORT))
    else
      -- add this export: all exports are pinned
      let c1 := c.set_inode in_ ((c.inodes in_).get .CINODE_PIN_EXPORT)
      some { c1 with
        exports := PtrSet.insert c1.exports in_
        nested_exports := c1.nested_exports ++ [(containing_import, in_)]
        logger := c1.logger ++ ["imex"] }
  else some c

/-- The loop `contents` of `MDCache::import_dir_block`, for `nitems` entries of the directory of
`idir`. -/
def import_dir_block_items (containing_import : CInodePtr) (oldauth : Int)
    (import_root idir : CInodePtr) :
    Nat → List BlobCell → MDCache → Option (List BlobCell × MDCache)
  | 0, p, c => some (p, c)
  | n + 1, p, c =>
    match import_dentry_inode c idir p oldauth import_root with
    | none => none
    | some (in_, p1, c1) =>
      -- was this an export?
      match import_dir_block_nested c1 containing_import in_ with
      | none => none
      | some c2 => import_dir_block_items containing_import oldauth import_root idir n p1 c2

/-- The statements `set up dir` of `MDCache::import_dir_block` on the directory `d` of `idir`,
from the struct `dstate` and the `ndir_rep_by` values `rep_by` that follow it: the directory
without its waiters, which are the first component. -/
def import_dir_block_setup (c : MDCache) (idir : CInodePtr) (d : CDir)
    (dstate : Dir_Export_State_t) (rep_by : List Int) : Option (List Context × CDir) :=
  let d1 := { d with version := dstate.version }
  let d2 : Option CDir :=
    if (c.inodes idir).dir_hashed then
      -- hashed: i should already know!
      if d1.state.hashed then some d1 else none
    else
      -- normal: we only import certain state
      some { d1 with state := dstate.state.and c.mask_state_exported }
  match d2 with
  | none => none
  | some d2 =>
    let d3 := { d2 with dir_rep := dstate.dir_rep, popularity := dstate.popularity }
    -- assert(!idir->dir->is_auth());
    if d3.state.auth then none else
    let d4 := { d3 with state := { d3.state with auth := true } }
    let d5 := { d4 with dir_rep_by := rep_by.foldl IntSet.insert d4.dir_rep_by }
    -- take all waiters on this dir
    some d5.take_waiting_any

/-- The method `MDCache::import_dir_block`: the cursor `p` and the cache afterwards. -/
def import_dir_block (c : MDCache) (p : List BlobCell) (containing_import : CInodePtr)
    (oldauth : Int) (import_root : CInodePtr) : Option (List BlobCell × MDCache) :=
  match p with
  | .dir_state dstate :: p1 =>
    match c.get_inode dstate.ino with
    | none => none
    | some idir =>
      let c0 := (open_dir c idir).2
      let d := (open_dir c idir).1
      match read_ints dstate.ndir_rep_by.toNat p1 with
      | none => none
      | some (rep_by, p2) =>
        match import_dir_block_setup c0 idir d dstate rep_by with
        | none => none
        | some (waiters, d1) =>
          let c1 := c0.set_inode idir { c0.inodes idir with dir := some d1 }
          match (c1.inodes import_root).dir with
          | none => none
          | some rd =>
            let c2 := c1.set_inode import_root { c1.inodes import_root with
              dir := some (waiters.foldl (fun acc w => acc.add_waiter .CDIR_WAIT_IMPORTED w) rd) }
            -- contents
            import_dir_block_items containing_import oldauth import_root idir
              dstate.nitems.toNat p2 c2
  | _ => none

/-- The loop of `MDCache::handle_export_dir` over the `ndirs` blocks of the message. -/
def handle_export_dir_blocks (containing_import : CInodePtr) (oldauth : Int)
    (in_ : CInodePtr) : Nat → List BlobCell → MDCache → Option (List BlobCell × MDCache)
  | 0, p, c => some (p, c)
  | n + 1, p, c =>
    match import_dir_block c p containing_import oldauth in_ with
    | none => none
    | some (p1, c1) => handle_export_dir_blocks containing_import oldauth in_ n p1 c1

/-- The method `MDCache::send_inode_updates`. -/
def send_inode_updates (c : MDCache) (in_ : CInodePtr) : Option MDCache :=
  -- assert(*it != mds->get_nodeid());
  if c.whoami ∈ (c.inodes in_).cached_by then none
  else some ((c.inodes in_).cached_by.foldl
    (fun acc it => acc.send_message (.MInodeUpdate (c.inodes in_).ino) (.MDS it)) c)

/-- The loop `while (t)` of `MDCache::handle_export_dir`, which adds the popularity `newpop` to
`t` and to each of its ancestors; the fuel bounds the number of inodes visited. -/
def popularity_jump : Nat → MDCache → CInodePtr → Int → Outcome MDCache
  | 0, _, _, _ => .out_of_fuel
  | k + 1, c, t, newpop =>
    let c1 := c.set_inode t { c.inodes t with popularity := (c.inodes t).popularity + newpop }
    match (c1.inodes t).parent with
    | some (pdir, _) => popularity_jump k c1 pdir newpop
    | none => .returned c1

/-- The method `MDCache::handle_export_dir_finish`. -/
def handle_export_dir_finish (k : Nat) (c : MDCache) (in_ : CInodePtr) : Outcome MDCache :=
  match (c.inodes in_).dir with
  | none => .aborted
  | some d =>
    -- assert(in->dir->is_auth());
    if d.state.auth = false then .aborted else
    -- spread the word!
    let told : Option MDCache :=
      if c.authority in_ = c.whoami then
        -- i am the authority
        send_inode_updates c in_
      else
        -- tell the authority; they'll spread the word.
        some (c.send_message (.MExportDirNotify (c.make_path in_) (c.inodes in_).dir_auth)
          (.MDS (c.authority in_)))
    match told with
    | none => .aborted
    | some c1 =>
      let c2 := c1.set_inode in_ { c1.inodes in_ with
        dir := (c1.inodes in_).dir.map CDir.auth_unpin }
      match show_imports k c2 with
      | .out_of_fuel => .out_of_fuel
      | .aborted => .aborted
      | .returned _ =>
        let c3 := { c2 with logger_set := c2.logger_set ++
          [("nex", (c2.exports.length : Int)), ("nim", (c2.imports.length : Int))] }
        -- finish contexts
        match (c3.inodes in_).dir with
        | none => .aborted
        | some d3 =>
          let c4 := c3.set_inode in_ { c3.inodes in_ with
            dir := some (d3.take_waiting .CDIR_WAIT_IMPORTED).2 }
          .returned { c4 with finished := c4.finished ++
            (d3.take_waiting .CDIR_WAIT_IMPORTED).1.map (fun w => (w, 0)) }

/-- The block of `MDCache::handle_export_dir` that notes the import of `in_` in the sets: the
containing import and the cache afterwards. -/
def handle_export_dir_note (k : Nat) (c : MDCache) (in_ : CInodePtr) :
    Outcome (CInodePtr × MDCache) :=
  if in_ ∈ c.exports then
    -- reimporting
    let c1 := { c with exports := PtrSet.erase c.exports in_ }
    -- unpin, no longer an export
    let c2 := c1.set_inode in_ ((c1.inodes in_).put .CINODE_PIN_EXPORT)
    match get_containing_import k c2 (some in_) with
    | .out_of_fuel => .out_of_fuel
    | .aborted => .aborted
    | .returned containing_import =>
      .returned (containing_import,
        { c2 with nested_exports := c2.nested_exports.erase (containing_import, in_) })
  else
    -- new import
    let c1 := { c with imports := PtrSet.insert c.imports in_ }
    let c2 := c1.set_inode in_ { c1.inodes in_ with
      dir := (c1.inodes in_).dir.map (fun d => { d with state := { d.state with import_ := true } }) }
    -- must keep it pinned
    .returned (in_, c2.set_inode in_ ((c2.inodes in_).get .CINODE_PIN_IMPORT))

/-- The end of `MDCache::handle_export_dir`, after the blocks have been added to the cache. -/
def handle_export_dir_reply (k : Nat) (c : MDCache) (m : MExportDir) (in_ : CInodePtr) :
    Outcome MDCache :=
  -- can i simplify dir_auth?
  let c1 :=
    if c.authority in_ = (c.inodes in_).dir_auth then
      c.set_inode in_ { c.inodes in_ with dir_auth := CDIR_AUTH_PARENT }
    else c
  let newpop := m.ipop - (c1.inodes in_).popularity
  let jumped : Outcome MDCache :=
    if newpop > 0 then popularity_jump k c1 in_ newpop else .returned c1
  match jumped with
  | .out_of_fuel => .out_of_fuel
  | .aborted => .aborted
  | .returned c2 =>
    -- send ack
    let c3 := c2.send_message (.MExportDirAck m.ino) m.source
    -- wait for replicas in hashed dirs?
    if (equal_range c3.import_hashed_replicate_waiting m.ino).length ≠ 0 then
      -- it'll happen later!, when i get my inodegetreplicaack's back
      .returned c3
    else
      -- finish now
      handle_export_dir_finish k c3 in_

/-- The method `MDCache::handle_export_dir`; the fuel `k` is the one of the walks up the
tree. -/
def handle_export_dir (k : Nat) (c : MDCache) (m : MExportDir) : Outcome MDCache :=
  match c.get_inode m.ino with
  | none => .aborted
  | some in_ =>
    let oldauth := MSG_ADDR_NUM m.source
    match show_imports k c with
    | .out_of_fuel => .out_of_fuel
    | .aborted => .aborted
    | .returned _ =>
      let c1 := { c with logger := c.logger ++ ["im"] }
      let c2 := (open_dir c1 in_).2
      -- assert(in->dir->is_auth() == false);
      if (open_dir c1 in_).1.state.auth then .aborted else
      -- note new authority (locally)
      let c3 := c2.set_inode in_ { c2.inodes in_ with dir_auth := c2.whoami }
      match handle_export_dir_note k c3 in_ with
      | .out_of_fuel => .out_of_fuel
      | .aborted => .aborted
      | .returned (containing_import, c4) =>
        -- i shouldn't be waiting for any ReplicateHashedAck's yet
        if (equal_range c4.import_hashed_replicate_waiting m.ino).length ≠ 0 then .aborted else
        -- add this crap to my cache
        match handle_export_dir_blocks containing_import oldauth in_ m.dirs.length m.dirs.flatten c4
          with
        | none => .aborted
        | some (_, c5) => handle_export_dir_reply k c5 m in_

/-! ## Discovery: `handle_discover`, `handle_inode_get_replica` -/

/-- Modelled from the spec: the method `MDiscover::just_root` (`MDiscover.h` is absent): no
segment is wanted. -/
def MDiscover.just_root (dis : MDiscover) : Bool := dis.want.isNone

/-- The wanted segments of a `Discover`, none for the root. -/
def MDiscover.wanted (dis : MDiscover) : List String := dis.want.getD []

/-- Modelled from the spec: the method `MDiscover::current_base`: the base path followed by the
wanted segments that the trace has resolved. -/
def MDiscover.current_base (dis : MDiscover) : String :=
  have_clean_after dis.basepath (dis.wanted.take dis.trace.length)

/-- Modelled from the spec: the method `MDiscover::add_bit(in, auth)`: the snapshot of the inode
joins the trace: the inode record, `cached_by`, `dir_auth`, the replication policy of its
directory (none without a directory) and the dist bits a replica starts with. -/
def MDiscover.add_bit (dis : MDiscover) (i : CInode) : MDiscover :=
  { dis with trace := dis.trace ++ [
      { inode := i.inode, cached_by := i.cached_by, dir_auth := i.dir_auth,
        dir_rep := (i.dir.map (fun d => d.dir_rep)).getD 0,
        dir_rep_by := (i.dir.map (fun d => d.dir_rep_by)).getD [],
        is_syncbyauth := i.dist_state.syncbyme, is_softasync := i.dist_state.softasync,
        is_lockbyauth := i.dist_state.lockbyme }] }

/-- Modelled from the spec: the method `MDCache::set_root` (`MDCache.h` is absent): the inode
becomes the root and enters the cache. -/
def set_root (c : MDCache) (r : CInodePtr) : Option MDCache :=
  add_inode { c with root := some r } r

/-- The dist bits of a new replica: `dist_state |= CINODE_DIST_SYNCBYAUTH` and so on, from the
snapshot `t`. -/
def CInode.discover_dist (i : CInode) (t : MDiscoverRec_t) : CInode :=
  let i1 := if t.is_syncbyauth then
    { i with dist_state := { i.dist_state with syncbyauth := true } } else i
  let i2 := if t.is_softasync then
    { i1 with dist_state := { i1.dist_state with softasync := true } } else i1
  if t.is_lockbyauth then
    { i2 with dist_state := { i2.dist_state with lockbyauth := true } } else i2

/-- The root replica that `MDCache::handle_discover` builds from the snapshot `t` of a just-root
result; `dir` is the directory `new CDir(root, whoami)`. -/
def discover_root_replica (whoami : Int) (t : MDiscoverRec_t) (dir : CDir) : Option CInode :=
  let i1 := CInode.fresh.set_inode_t t.inode
  -- obviously i have it too
  let i2 := { i1 with cached_by := IntSet.insert t.cached_by whoami, dir_auth := t.dir_auth }
  -- assert(!root->dir->is_auth());
  if dir.state.auth then none else
  let i3 := { i2 with
    dir := some { dir with dir_rep := t.dir_rep, dir_rep_by := t.dir_rep_by }
    auth := false }
  some (i3.discover_dist t)

/-- The replica that `MDCache::handle_discover` builds from the snapshot `t` for a dentry it
does not have; `dir` is the directory `new CDir(in, whoami)`, made for a directory only. -/
def discover_replica (whoami : Int) (t : MDiscoverRec_t) (dir : CDir) : Option CInode :=
  let i1 := CInode.fresh.set_inode_t t.inode
  -- obviously i have it too
  let i2 := { i1 with cached_by := IntSet.insert t.cached_by whoami, dir_auth := t.dir_auth,
                      auth := false }
  let i3 : Option CInode :=
    if i2.is_dir then
      -- can't be ours (an import) or it'd be in our cache: assert(!in->dir->is_auth());
      if dir.state.auth then none
      else some { i2 with dir := some { dir with dir_rep := t.dir_rep, dir_rep_by := t.dir_rep_by } }
    else some i2
  i3.map (fun i => i.discover_dist t)

/-- The just-root result of `MDCache::handle_discover`. -/
def handle_discover_root (c : MDCache) (dis : MDiscover) : Option MDCache :=
  -- trace[0]
  match dis.trace with
  | [] => none
  | t :: _ =>
    let root := c.new_CInode.1
    let c1 := c.new_CInode.2
    match discover_root_replica c1.whoami t (c1.new_CDir root) with
    | none => none
    | some i =>
      match set_root (c1.set_inode root i) root with
      | none => none
      | some c2 =>
        -- finish off.
        some { c2 with
          opening_root := false
          waiting_for_root := []
          finished := c2.finished ++ c2.waiting_for_root.map (fun w => (w, 0)) }

/-- The call `cur->dir->dentry_authority( dn->name, mds->get_cluster() )` of the result branch
of `MDCache::handle_discover`, made before `dn` is tested; `w` is the name that was looked up.
Modelled from the spec: `CDir::dentry_authority` (`CDir.cc` is absent) takes the name by
reference and reads it for a hashed dir only (if the dir is hashed it returns
`hash(dir_ino, name) mod N`, else the dir's own authority).  So with `dn == NULL` a hashed dir
reads through the null pointer, and a dir that is not hashed answers as it does for every
name. -/
def discover_dentry_authority (c : MDCache) (cur : CInodePtr) (dir : CDir) (dn : Option CDentry)
    (w : String) : Option Int :=
  match dn with
  | some d => some (c.dentry_authority cur d.name)
  | none => if dir.state.hashed then none else some (c.dentry_authority cur w)

/-- The loop `add duplicated dentry+inodes` of `MDCache::handle_discover` over the trace, with
the wanted segments from the index of the loop on; `cur` is the variable of the source, `NULL`
after a dentry without an inode, and `finished` the contexts taken so far.  The result is the
contexts to finish and the cache; when the loop returns from the handler for a fetch, none is
finished. -/
def handle_discover_install (dis : MDiscover) :
    List String → List MDiscoverRec_t → MDCache → Option CInodePtr → List Context →
    Option (List Context × MDCache)
  | _, [], c, _, finished => some (finished, c)
  | [], _ :: _, _, _, _ =>
    -- (*wanted)[i] past the end
    none
  | w :: ws, t :: ts, c, cur, finished =>
    match cur with
    | none => none
    | some cur =>
      let c0 := (open_dir c cur).2
      let dn := (open_dir c cur).1.lookup w
      -- int dentry_auth = cur->dir->dentry_authority( dn->name, mds->get_cluster() );
      match discover_dentry_authority c0 cur (open_dir c cur).1 dn w with
      | none => none
      | some dentry_auth =>
        let installed : Option (Option (Option CInodePtr × MDCache)) :=
          match dn with
          | some d =>
            -- already had it?  (parallel discovers?)
            some (some (d.inode, c0))
          | none =>
            if dentry_auth = c0.whoami then
              -- discover has something that's ours, and we don't have.  readdir and delay!
              -- dout(3) << ... << dn->name << ...: when it prints, it reads through the null dn
              if 3 ≤ c0.debug then none else some none
            else
              let in_ := c0.new_CInode.1
              let c1 := c0.new_CInode.2
              -- assim discover info
              match discover_replica c1.whoami t (c1.new_CDir in_) with
              | none => none
              | some i =>
                -- link in
                match add_inode (c1.set_inode in_ i) in_ with
                | none => none
                | some c2 =>
                  match link_inode c2 cur w in_ with
                  | none => none
                  | some (_, c3) => some (some (some in_, c3))
        match installed with
        | none => none
        | some none =>
          some ([], { c0 with fetch_dir_calls := c0.fetch_dir_calls ++
            [(cur, .C_MDS_RetryMessage (some (.MDiscover_fwd dis)))] })
        | some (some (in_, c1)) =>
          match (c1.inodes cur).dir with
          | none => none
          | some d1 =>
            let c2 := c1.set_inode cur { c1.inodes cur with
              dir := some (d1.take_waiting_dentry .CDIR_WAIT_DENTRY w).2 }
            handle_discover_install dis ws ts c2 in_
              (finished ++ (d1.take_waiting_dentry .CDIR_WAIT_DENTRY w).1)

/-- The loop `add bits` of `MDCache::handle_discover` over the wanted segments that the trace has
not resolved, `want[trace.size()..]`: `done()` holds when none is left and `next_dentry()` is
the first of them; `dis`, `cur` and `have_added` are the variables of the source. -/
def handle_discover_bits :
    List String → MDiscover → MDCache → CInodePtr → Bool → Option MDCache
  | [], dis, c, _, _ =>
    -- success, send result
    some (c.send_message (.MDiscover_fwd dis) (.MDS dis.asker))
  | next_dentry :: rest, dis, c, cur, have_added =>
    -- assert(cur->is_dir());
    if (c.inodes cur).is_dir = false then none else
    let c0 := (open_dir c cur).2
    let dir := (open_dir c cur).1
    let dentry_auth := c0.dentry_authority cur next_dentry
    if dentry_auth ≠ c0.whoami then
      if have_added then
        -- fwd (partial) results back to asker
        some (c0.send_message (.MDiscover_fwd dis) (.MDS dis.asker))
      else
        -- fwd to authority
        some (c0.send_message (.MDiscover_fwd dis) (.MDS dentry_auth))
    -- ok, i'm the authority for this dentry!
    -- if frozen: i can't add replica because i'm no longer auth
    else if dir.is_frozen then
      some (c0.set_inode cur { c0.inodes cur with
        dir := some (dir.add_waiter .CDIR_WAIT_UNFREEZE
          (.C_MDS_RetryMessage (some (.MDiscover_fwd dis)))) })
    else
      -- lookup next bit
      match dir.lookup next_dentry with
      | some dn =>
        match dn.inode with
        | none => none
        | some next =>
          -- add it
          let dis1 := dis.add_bit (c0.inodes next)
          -- remember who is caching this!
          let c1 := c0.set_inode next ((c0.inodes next).cached_by_add dis.asker)
          -- continue!
          handle_discover_bits rest dis1 c1 next true
      | none =>
        -- don't have dentry.
        if dir.state.complete then
          -- file not found: assert(!cur->dir->is_complete());
          none
        else
          -- readdir
          some { c0 with fetch_dir_calls := c0.fetch_dir_calls ++
            [(cur, .C_MDS_RetryMessage (some (.MDiscover_fwd dis)))] }

/-- The branch of `MDCache::handle_discover` for a result (the asker is this MDS). -/
def handle_discover_result (c : MDCache) (dis : MDiscover) : Option MDCache :=
  if dis.just_root then handle_discover_root c dis
  else
    -- traverse to start point
    match path_traverse c dis.basepath [] none .MDS_TRAVERSE_FAIL with
    | none => none
    | some (r, trav, c1) =>
      if r < 0 then
        -- result, but not in cache any more.  dropping.
        some c1
      else
        -- CInode *cur = trav[trav.size()-1];
        match trav.getLast? with
        | none => none
        | some cur =>
          -- add duplicated dentry+inodes
          match handle_discover_install dis dis.wanted dis.trace c1 (some cur) [] with
          | none => none
          | some (finished, c2) =>
            -- finish off waiting items
            some { c2 with finished := c2.finished ++ finished.map (fun w => (w, 0)) }

/-- The branch of `MDCache::handle_discover` for a request of another MDS. -/
def handle_discover_request (c : MDCache) (dis : MDiscover) : Option MDCache :=
  match c.root with
  | none =>
    -- don't have root, just sending to mds0
    some (c.send_message (.MDiscover_fwd dis) (.MDS 0))
  | some _ =>
    -- get to starting point
    match path_traverse c dis.current_base [] (some (.MDiscover_fwd dis))
        .MDS_TRAVERSE_FORWARD with
    | none => none
    | some (r, trav, c1) =>
      -- forwarded, i hope!
      if r > 0 then some c1 else
      match trav.getLast? with
      | none => none
      | some cur =>
        -- just root?
        let rooted : Option (MDiscover × MDCache) :=
          if dis.just_root then
            match c1.root with
            | none => none
            | some root =>
              some (dis.add_bit (c1.inodes root),
                c1.set_inode root ((c1.inodes root).cached_by_add dis.asker))
          else some (dis, c1)
        match rooted with
        | none => none
        | some (dis1, c2) =>
          -- add bits
          handle_discover_bits (dis1.wanted.drop dis1.trace.length) dis1 c2 cur false

/-- The method `MDCache::handle_discover`: the cache afterwards. -/
def handle_discover (c : MDCache) (dis : MDiscover) : Option MDCache :=
  if dis.asker = c.whoami then
    -- this is a result
    handle_discover_result c dis
  else
    -- this is a request
    handle_discover_request c dis

/-- The method `MDCache::handle_inode_get_replica`. -/
def handle_inode_get_replica (c : MDCache) (m : MInodeGetReplica) : Option MDCache :=
  match c.get_inode m.ino with
  | none =>
    -- don't have inode: assert(0);
    none
  | some in_ =>
    -- add to cached_by
    let c1 := c.set_inode in_ ((c.inodes in_).cached_by_add (MSG_ADDR_NUM m.source))
    -- reply
    some (c1.send_message (.MInodeGetReplicaAck (c1.inodes in_).ino)
      (.MDS (MSG_ADDR_NUM m.source)))

/-! ## The end of a hashed import: `handle_inode_get_replica_ack`, `got_hashed_replica` -/

/-- A received `MInodeGetReplicaAck`. -/
structure MInodeGetReplicaAck where
  source : msg_addr_t
  ino : inodeno_t
  deriving DecidableEq, Repr

/-- The method `MDCache::handle_inode_get_replica_ack`: the waiters for the replica are taken
off the inode and finished with `0`. -/
def handle_inode_get_replica_ack (c : MDCache) (m : MInodeGetReplicaAck) : Option MDCache :=
  match c.get_inode m.ino with
  | none =>
    -- assert(in);
    none
  | some in_ =>
    -- waiters
    let taken := (c.inodes in_).take_waiting .CINODE_WAIT_GETREPLICA
    let c1 := c.set_inode in_ taken.2
    some { c1 with finished := c1.finished ++ taken.1.map (fun w => (w, (0 : Int))) }

/-- Modelled from the spec: the method `CDir::unfreeze_dir` (`CDir.cc` is absent): the
directory leaves FROZEN_DIR; the waiters for the unfreeze, which are to be finished, are the
first component. -/
def CDir.unfreeze_dir (d : CDir) : List Context × CDir :=
  ((d.waiting.filter (fun w => decide (w.1 = WaitTag.CDIR_WAIT_UNFREEZE))).map (fun w => w.2.2),
   { d with
     state := { d.state with frozen_dir := false }
     waiting := d.waiting.filter (fun w => decide (w.1 ≠ WaitTag.CDIR_WAIT_UNFREEZE)) })

/-- The elements of a `multimap<inodeno_t,inodeno_t>` from `find(key)` to `end()`, in the order
of the iteration: the pairs under `key`, in insertion order, and then the pairs under greater
keys, in the order of the keys; none when `key` has no pair (`find` returns `end()`). -/
def multimap_from (m : List (inodeno_t × inodeno_t)) (key : inodeno_t) :
    List (inodeno_t × inodeno_t) :=
  if (m.filter (fun e => decide (e.1 = key))) = [] then []
  else m.filter (fun e => decide (e.1 = key)) ++
    (m.filter (fun e => decide (key < e.1))).insertionSort (fun a b => a.1 ≤ b.1)

/-- The loops `for (it = m.find(key); it != m.end(); it++)` of `MDCache::got_hashed_replica`
over the pairs `rest` that the iteration has still to visit: the first pair with the value
`val` is erased; a pair visited before it must be under `key` (`it better be here!`). -/
def multimap_erase_scan (key val : inodeno_t) :
    List (inodeno_t × inodeno_t) → List (inodeno_t × inodeno_t) →
    Option (List (inodeno_t × inodeno_t))
  | [], m => some m
  | e :: rest, m =>
    if e.2 = val then some (m.erase e)
    else if e.1 ≠ key then none
    else multimap_erase_scan key val rest m

/-- The method `MDCache::got_hashed_replica`; `in_` is the inode that the
`C_MDS_ImportHashedReplica` was built with. -/
def got_hashed_replica (k : Nat) (c : MDCache) (in_ : CInodePtr) (dir_ino : inodeno_t)
    (replica_ino : inodeno_t) : Outcome MDCache :=
  -- remove from import_hashed_replicate_waiting.
  match multimap_erase_scan dir_ino replica_ino
      (multimap_from c.import_hashed_replicate_waiting dir_ino)
      c.import_hashed_replicate_waiting with
  | none => .aborted
  | some w1 =>
    let c1 := { c with import_hashed_replicate_waiting := w1 }
    -- last one for that dir?  assert(idir && idir->dir);
    match c1.get_inode dir_ino with
    | none => .aborted
    | some idir =>
      match (c1.inodes idir).dir with
      | none => .aborted
      | some d =>
        if (equal_range c1.import_hashed_replicate_waiting dir_ino).length > 0 then
          -- still more
          .returned c1
        else
          -- done with this dir!
          let c2 := c1.set_inode idir { c1.inodes idir with dir := some d.unfreeze_dir.2 }
          let c3 := { c2 with finished := c2.finished ++
            d.unfreeze_dir.1.map (fun w => (w, (0 : Int))) }
          -- remove from import_hashed_frozen_waiting
          match multimap_erase_scan (c3.inodes in_).ino dir_ino
              (multimap_from c3.import_hashed_frozen_waiting (c3.inodes in_).ino)
              c3.import_hashed_frozen_waiting with
          | none => .aborted
          | some w2 =>
            let c4 := { c3 with import_hashed_frozen_waiting := w2 }
            -- last one for this import?
            if (equal_range c4.import_hashed_frozen_waiting (c4.inodes in_).ino).length = 0 then
              -- all done, we can finish import!
              handle_export_dir_finish k c4 in_
            else .returned c4

/-! ## The finisher of an export: `C_MDS_ExportFinish` -/

/-- The object `C_MDS_ExportFinish`: the inode of the directory that is exported (`in`) and the
contexts of the operations that wait on the subtree, in two lists. -/
structure C_MDS_ExportFinish where
  in_ : CInodePtr
  will_redelegate : List Context
  will_fail : List Context
  deriving DecidableEq, Repr

/-- The loop of the method `C_MDS_ExportFinish::assim_waitlist(list<Context*>& ls)` over the
contexts it has still to visit; `can_redelegate` stands for the virtual method
`Context::can_redelegate`, whose code is absent. -/
def C_MDS_ExportFinish.assim_loop (can_redelegate : Context → Bool) :
    List Context → C_MDS_ExportFinish → C_MDS_ExportFinish
  | [], fin => fin
  | it :: rest, fin =>
    if can_redelegate it then
      C_MDS_ExportFinish.assim_loop can_redelegate rest
        { fin with will_redelegate := fin.will_redelegate ++ [it] }
    else
      C_MDS_ExportFinish.assim_loop can_redelegate rest
        { fin with will_fail := fin.will_fail ++ [it] }

/-- The method `C_MDS_ExportFinish::assim_waitlist(list<Context*>& ls)`: the object and the
list `ls` afterwards (`ls.clear()`). -/
def C_MDS_ExportFinish.assim_waitlist (fin : C_MDS_ExportFinish)
    (can_redelegate : Context → Bool) (ls : List Context) :
    C_MDS_ExportFinish × List Context :=
  (C_MDS_ExportFinish.assim_loop can_redelegate ls fin, [])

/-- A call that `C_MDS_ExportFinish::finish` makes on a context: `c->redelegate(mds, auth)` or
`c->finish(r)`. -/
inductive ExportFinishCall where
  | redelegate (c : Context) (auth : Int)
  | finish (c : Context) (r : Int)
  deriving DecidableEq, Repr

/-- The loop `redelegate` of `C_MDS_ExportFinish::finish` over the contexts it has still to
visit: the calls made, in order. -/
def C_MDS_ExportFinish.finish_redelegate (c : MDCache) (in_ : CInodePtr) :
    List Context → List ExportFinishCall
  | [] => []
  | it :: rest =>
    .redelegate it (c.dir_authority in_) ::
      C_MDS_ExportFinish.finish_redelegate c in_ rest

/-- The loop `fail` of `C_MDS_ExportFinish::finish`: the calls made, in order. -/
def C_MDS_ExportFinish.finish_fail : List Context → List ExportFinishCall
  | [] => []
  | it :: rest => .finish it (-1) :: C_MDS_ExportFinish.finish_fail rest

/-- The method `C_MDS_ExportFinish::finish(r)`: the calls it makes on the contexts, in order
(`redelegate` and `finish` of a context are recorded, not run), or `none` when it reaches
`assert(false)`. -/
def C_MDS_ExportFinish.finish (fin : C_MDS_ExportFinish) (c : MDCache) (r : Int) :
    Option (List ExportFinishCall) :=
  if r ≥ 0 then
    some (C_MDS_ExportFinish.finish_redelegate c fin.in_ fin.will_redelegate ++
      C_MDS_ExportFinish.finish_fail fin.will_fail)
  else
    -- now what?  assert(false);
    none

/-! ## The target of an export is asked: `handle_export_dir_prep` -/

/-- A received `MExportDirPrep`: the sender, and the number and the path of the directory that
is to be exported. -/
structure MExportDirPrep where
  source : msg_addr_t
  ino : inodeno_t
  path : String
  deriving DecidableEq, Repr

/-- The method `MDCache::handle_export_dir_prep`. -/
def handle_export_dir_prep (c : MDCache) (m : MExportDirPrep) : Option MDCache :=
  -- assert(m->get_source() != mds->get_nodeid());
  if MSG_ADDR_NUM m.source = c.whoami then none else
  -- must discover it!
  match path_traverse c m.path [] (some (.MExportDirPrep m.ino)) .MDS_TRAVERSE_DISCOVER with
  | none => none
  | some (r, trav, c1) =>
    -- fw or delay
    if r > 0 then some c1 else
    -- okay: CInode *in = trav[trav.size()-1];
    match trav.getLast? with
    | none => none
    | some in_ =>
      let c2 := (open_dir c1 in_).2
      let dir := (open_dir c1 in_).1
      -- assert(in->dir->is_auth() == false);
      if dir.state.auth then none else
      -- auth_pin until we get the data
      let c3 := c2.set_inode in_ { c2.inodes in_ with dir := some dir.auth_pin }
      some (c3.send_message (.MExportDirPrepAck (c3.inodes in_).ino) m.source)

/-! ## The soft operations past their impossible-state assertion -/

/-- The method `MDCache::read_soft_start` with the chain of tests under the comment
`we need sync`, which prints and ends in `else assert(2+2==5);`, left out: control goes from
the two places that fall through straight to `if (!in->can_auth_pin())`. -/
def read_soft_start_unasserted (c : MDCache) (in_ : CInodePtr) (m : Message) :
    Option (Bool × MDCache) :=
  match read_hard_try c in_ (some m) with
  | none => none
  | some (false, c1) => some (false, c1)
  | some (true, c1) =>
    let i := c1.inodes in_
    if i.frozen then
      some (false, c1.set_inode in_
        (i.add_waiter .CDIR_WAIT_UNFREEZE (.C_MDS_RetryMessage (some m))))
    else if i.dist_state.softasync then
      -- softasync: hard consistency only
      if i.auth then
        if i.dist_state.syncbyme then some (true, c1)
        else if i.dist_state.lockbyme then some (true, c1)
        else if !i.is_cached_by_anyone then some (true, c1)
        else read_soft_start_wait c1 in_ m
      else
        -- i am replica: fw to auth
        let auth := c1.authority in_
        if auth = c1.whoami then none else
        some (false, c1.send_message m (.MDS auth))
    else
      -- normal: soft+hard consistency
      if i.dist_state.syncbyauth then read_soft_start_wait c1 in_ m
      else some (true, c1)

/-- The method `MDCache::write_soft_start` with the chain of tests under the comment
`we need sync`, which prints and ends in `else assert(2+2==5);`, left out. -/
def write_soft_start_unasserted (c : MDCache) (in_ : CInodePtr) (m : Message) :
    Option (Bool × MDCache) :=
  match read_hard_try c in_ (some m) with
  | none => none
  | some (false, c1) => some (false, c1)
  | some (true, c1) =>
    let i := c1.inodes in_
    if i.frozen then
      some (false, c1.set_inode in_
        (i.add_waiter .CDIR_WAIT_UNFREEZE (.C_MDS_RetryMessage (some m))))
    else if i.dist_state.softasync then
      -- softasync: hard consistency only
      if i.dist_state.syncbyauth then write_soft_start_wait c1 in_ m
      else some (true, c1)
    else
      -- normal: soft+hard consistency
      if i.auth then
        if i.dist_state.syncbyme then some (true, c1)
        else if i.dist_state.lockbyme then some (true, c1)
        else if !i.is_cached_by_anyone then some (true, c1)
        else write_soft_start_wait c1 in_ m
      else
        -- i am replica: fw to auth
        let auth := c1.authority in_
        if auth = c1.whoami then none else
        some (false, c1.send_message m (.MDS auth))

/-! ## Example caches -/

/-- An inode object with every field clear. -/
def CInode.blank : CInode :=
  { ino := 0, is_dir := false, auth := false,
    dist_state := ⟨false, false, false, false, false, false, false, false, false⟩,
    cached_by := [], sync_waiting_for_ack := [], sync_replicawantback := false,
    open_write := [], client_wait_for_sync := [], pending_sync_request := none,
    ref_set := [], auth_pins := 0, waiting := [], dir := none, nparents := 0, parent := none,
    frozen := false, freezing := false, auth_pinnable := true, lock_active_count := 0,
    lock_waiting_for_ack := [], popularity := 0, dir_auth := -1, nested_auth_pins := 0,
    dir_hashed := false, inode_rest := 0, version := 0, parent_dir_version := 0, dirty := false }

/-- A directory without entries. -/
def CDir.blank : CDir :=
  { items := [], state := ⟨false, false, false, false, false, false, false, false, false, false⟩,
    waiting := [], auth_pins := 0, version := 0, dir_rep := 0, dir_rep_by := [], popularity := 0 }

/-- The cache of MDS `0` with nothing in it; its debug level is `10`, so that every `dout` up
to that level prints. -/
def MDCache.blank : MDCache :=
  { whoami := 0, root := none, inode_map := ∅, lru := ⟨[]⟩, inodes := fun _ => CInode.blank,
    authority := fun _ => 0, dentry_authority := fun _ _ => 0, new_CDir := fun _ => CDir.blank,
    mdcache_sticky_sync_normal := false, mdcache_sticky_sync_softasync := false,
    mdcache_sticky_lock := false, debug := 10, sent := [], fetch_dir_calls := [],
    open_root_calls := [],
    finished := [], logger := [], num_mds := 3, shutting_down := false, imports := [],
    lru_max := 0, decode_basic_state := fun i _ => i, exports := [], nested_exports := [],
    import_hashed_replicate_waiting := [], import_hashed_frozen_waiting := [],
    waiting_for_root := [], opening_root := false, heap_next := 100,
    mask_state_exported := ⟨true, false, false, false, false, false, true, false, false, true⟩,
    mask_state_export_kept := ⟨false, false, true, true, true, false, true, true, true, false⟩,
    fin_waitlist := [], mdlog := [], logger_set := [], make_path := fun _ => "" }

/-- A cache that holds one inode object, `1`, under the inode number `5`; the object `2` is not
cached and carries the inode number `5` as well. -/
def cache_same_ino : MDCache :=
  { MDCache.blank with
    inode_map := (∅ : AList (fun _ : inodeno_t => CInodePtr)).insert 5 1
    lru := ⟨[1]⟩
    inodes := fun _ => { CInode.blank with ino := 5 } }

/-- A cache that holds one inode object, `1`, under the inode number `5`; the object `2` is not
cached and carries the inode number `6`. -/
def cache_one_inode : MDCache :=
  { MDCache.blank with
    inode_map := (∅ : AList (fun _ : inodeno_t => CInodePtr)).insert 5 1
    lru := ⟨[1]⟩
    inodes := fun p => if p = 1 then { CInode.blank with ino := 5 }
      else { CInode.blank with ino := 6 } }

/-- A cache whose root `1` is an incomplete directory with the entry `a` for the complete
directory `2`, which has the entry `b` for the file `3`.  This MDS, `0`, is authoritative for
all three and for every dentry but those named `x`, which belong to MDS `1`. -/
def cache_tree : MDCache :=
  { MDCache.blank with
    root := some 1
    dentry_authority := fun _ dname => if dname = "x" then 1 else 0
    inodes := fun p =>
      if p = 1 then
        { CInode.blank with
          ino := 1, is_dir := true, auth := true
          dir := some { CDir.blank with items := [("a", ⟨"a", some 2⟩)] } }
      else if p = 2 then
        { CInode.blank with
          ino := 2, is_dir := true, auth := true
          dir := some { CDir.blank with
            items := [("b", ⟨"b", some 3⟩)]
            state := { CDir.blank.state with complete := true } } }
      else { CInode.blank with ino := 3, auth := true } }

/-- The operations on an inode that the sync invariant is stated over. -/
inductive SyncOp where
  | read_soft_start (m : Message)
  | write_soft_start (m : Message)
  | sync_start
  | handle_inode_sync_ack (m : MInodeSyncAck)
  | sync_release
  deriving DecidableEq, Repr

/-- Run an operation on the inode `q` (for `handle_inode_sync_ack`, on the inode the message
names); `none` when an assertion fails. -/
def SyncOp.run (c : MDCache) (q : CInodePtr) : SyncOp → Option MDCache
  | .read_soft_start m => (Ceph.read_soft_start c q m).map (fun r => r.2)
  | .write_soft_start m => (Ceph.write_soft_start c q m).map (fun r => r.2)
  | .sync_start => Ceph.sync_start c q
  | .handle_inode_sync_ack m => Ceph.handle_inode_sync_ack c m
  | .sync_release => Ceph.sync_release c q

/-- The caches reachable from `c0` by the operations of `SyncOp` on any inodes, where
`sync_start` is applied only to an inode that some MDS caches, the way `read_soft_start` and
`write_soft_start` call it. -/
inductive sync_reachable (c0 : MDCache) : MDCache → Prop where
  | start : sync_reachable c0 c0
  | step (c c1 : MDCache) (q : CInodePtr) (op : SyncOp) :
      sync_reachable c0 c →
      (op = .sync_start → (c.inodes q).is_cached_by_anyone = true) →
      op.run c q = some c1 →
      sync_reachable c0 c1

/-- The sync invariant of the inode `p`: PRESYNC is set exactly when acks are awaited, and only
on an authoritative inode. -/
def sync_inv (c : MDCache) (p : CInodePtr) : Prop :=
  ((c.inodes p).dist_state.presync = true ↔ (c.inodes p).sync_waiting_for_ack ≠ []) ∧
  ((c.inodes p).dist_state.presync = true → (c.inodes p).auth = true)

/-- What the sync invariant reads of an inode. -/
def sync_view (i : CInode) : Bool × IntSet × Bool :=
  (i.dist_state.presync, i.sync_waiting_for_ack, i.auth)

/-- A cache whose inode `1` (number `10`) is authoritative and cached by nobody. -/
def cache_auth_alone : MDCache :=
  { MDCache.blank with
    inode_map := (∅ : AList (fun _ : inodeno_t => CInodePtr)).insert 10 1
    lru := ⟨[1]⟩
    inodes := fun _ => { CInode.blank with ino := 10, auth := true } }

/-- A cache whose inode `1` (number `10`) is authoritative and cached by the MDSs `1` and `2`;
a request waits on it for the sync. -/
def cache_auth_shared : MDCache :=
  { MDCache.blank with
    inode_map := (∅ : AList (fun _ : inodeno_t => CInodePtr)).insert 10 1
    lru := ⟨[1]⟩
    inodes := fun _ => { CInode.blank with
      ino := 10, auth := true, cached_by := [1, 2]
      waiting := [(.CINODE_WAIT_SYNC, .C_MDS_RetryMessage (some (.request 7)))] } }

/-- The cache `cache_auth_shared` after `sync_start` of its inode. -/
def cache_presync : MDCache := (sync_start cache_auth_shared 1).getD cache_auth_shared

/-- Handle a sequence of `MInodeSyncAck` messages, one after the other. -/
def handle_inode_sync_acks (c : MDCache) : List MInodeSyncAck → Option MDCache
  | [] => some c
  | m :: ms =>
    match handle_inode_sync_ack c m with
    | none => none
    | some c1 => handle_inode_sync_acks c1 ms

/-- The condition of the specification under which the authority keeps the sync once the last
ack has arrived: the inode is not freezing, no replica wants the sync back, and the sticky
option of the regime of the inode is on (`mdcache_sticky_sync_softasync` when SOFTASYNC, else
`mdcache_sticky_sync_normal`). -/
def spec_sync_kept (c : MDCache) (freezing wantback softasync : Bool) : Bool :=
  !freezing && !wantback &&
    (if softasync then c.mdcache_sticky_sync_softasync else c.mdcache_sticky_sync_normal)

/-- The ack of MDS `1` for the inode number `10`: it had the inode and does not want the sync
back. -/
def ack_had : MInodeSyncAck := ⟨.MDS 1, 10, true, false⟩

/-- The ack of MDS `1` for the inode number `10` when it did not have the inode. -/
def ack_had_not : MInodeSyncAck := ⟨.MDS 1, 10, false, false⟩

/-- The ack of MDS `2` for the inode number `10`: it did not have the inode and wants the sync
back. -/
def ack_wantback : MInodeSyncAck := ⟨.MDS 2, 10, false, true⟩

/-- The ack of the client `7` for the inode number `10`. -/
def ack_client : MInodeSyncAck := ⟨.CLIENT 7, 10, true, false⟩

/-- The cache `cache_presync` after the ack of MDS `1`, which had the inode and does not want
the sync back. -/
def cache_one_ack : MDCache :=
  (handle_inode_sync_acks cache_presync [ack_had]).getD cache_presync

/-- A cache whose inode `1` (number `10`) is a replica that the client `7` has opened for
writing twice. -/
def cache_writers : MDCache :=
  { MDCache.blank with
    whoami := 1
    inode_map := (∅ : AList (fun _ : inodeno_t => CInodePtr)).insert 10 1
    lru := ⟨[1]⟩
    inodes := fun _ => { CInode.blank with ino := 10, open_write := [7, 7] } }

/-- A cache of MDS `1` whose inode `1` (number `10`) is a replica under the sync of its authority
(SYNCBYAUTH); a request waits for the end of the sync (WAITONUNSYNC, with its pin), another
waits for the unfreeze, and the client `7` has the inode open for writing. -/
def cache_replica_synced : MDCache :=
  { MDCache.blank with
    whoami := 1
    inode_map := (∅ : AList (fun _ : inodeno_t => CInodePtr)).insert 10 1
    lru := ⟨[1]⟩
    inodes := fun _ => { CInode.blank with
      ino := 10, open_write := [7]
      dist_state := { CInode.blank.dist_state with syncbyauth := true, waitonunsync := true }
      ref_set := [.CINODE_PIN_WAITONUNSYNC]
      waiting := [(.CINODE_WAIT_UNSYNC, .C_MDS_RetryMessage (some (.request 7))),
        (.CDIR_WAIT_UNFREEZE, .C_MDS_RetryMessage (some (.request 8)))] } }

/-- A cache of MDS `1` whose inode `1` (number `10`) is a replica in the SOFTASYNC regime. -/
def cache_softasync_replica : MDCache :=
  { MDCache.blank with
    whoami := 1
    inode_map := (∅ : AList (fun _ : inodeno_t => CInodePtr)).insert 10 1
    lru := ⟨[1]⟩
    inodes := fun _ => { CInode.blank with
      ino := 10, dist_state := { CInode.blank.dist_state with softasync := true } } }

/-- A cache whose inode `1` (number `10`) is authoritative, cached by the MDSs `1` and `2`, and
hard-locked by this MDS (LOCKBYME, with its auth-pin) for one write in progress; the other inode
objects have no write in progress. -/
def cache_locked : MDCache :=
  { MDCache.blank with
    inode_map := (∅ : AList (fun _ : inodeno_t => CInodePtr)).insert 10 1
    lru := ⟨[1]⟩
    inodes := fun p => if p = 1 then { CInode.blank with
        ino := 10, auth := true, cached_by := [1, 2], auth_pins := 1, lock_active_count := 1
        dist_state := { CInode.blank.dist_state with lockbyme := true } }
      else CInode.blank }

/-- The cache of MDS `2`, which holds no inode. -/
def cache_evicted : MDCache := { MDCache.blank with whoami := 2 }

/-- The `MInodeExpire` a message delivers: a constructor call without the argument `soft` builds
a hard expire, and the hops start at `0` (Modelled from the spec: `MInodeExpire.h` is
absent). -/
def MInodeExpire.of_message : Message → Option MInodeExpire
  | .MInodeExpire ino from_ soft hops => some ⟨ino, from_, soft.getD false, hops.getD 0⟩
  | _ => none

/-- The number of times an `MInodeExpire` is forwarded when it is delivered to MDS `r` of a
cluster whose MDS `k` has the cache `cluster k`, and every forward is delivered in turn. -/
def expire_forwards (cluster : Int → MDCache) : Nat → Int → MInodeExpire → Nat
  | 0, _, _ => 0
  | fuel + 1, r, m =>
    match handle_inode_expire (cluster r) m with
    | none => 0
    | some c1 =>
      match c1.sent.drop (cluster r).sent.length with
      | [(msg, .MDS next)] =>
        match MInodeExpire.of_message msg with
        | some m1 => 1 + expire_forwards cluster fuel next m1
        | none => 0
      | _ => 0

/-- A cluster of two MDSs, none of which holds an inode. -/
def cluster_of_two : Int → MDCache := fun r => { MDCache.blank with whoami := r, num_mds := 2 }

/-- The inode with its SOFTASYNC flag flipped. -/
def CInode.flip_softasync (i : CInode) : CInode :=
  { i with dist_state := { i.dist_state with softasync := !i.dist_state.softasync } }

/-- The cache in which the inode `p` has its SOFTASYNC flag flipped. -/
def MDCache.flip_softasync (c : MDCache) (p : CInodePtr) : MDCache :=
  c.set_inode p (c.inodes p).flip_softasync

/-- Whether the message is an `MInodeSyncRecall`. -/
def Message.is_sync_recall : Message → Bool
  | .MInodeSyncRecall _ => true
  | _ => false

/-- The cache `c2` is the mirror image of `c1` for the inode `p`: it is `c1` with the SOFTASYNC
flag of `p` flipped, but for the messages sent, which are the same but for the
`MInodeSyncRecall`s, whose sending hangs on the sticky option of the regime. -/
def MDCache.mirrors (p : CInodePtr) (c1 c2 : MDCache) : Prop :=
  ∃ s, c2 = { c1.flip_softasync p with sent := s } ∧
    s.filter (fun x => !x.1.is_sync_recall) = c1.sent.filter (fun x => !x.1.is_sync_recall)

/-- Two outcomes of a soft operation on the inode `p` mirror each other: both abort, or both
return, with the same boolean and caches that mirror each other. -/
def soft_start_mirror (p : CInodePtr) :
    Option (Bool × MDCache) → Option (Bool × MDCache) → Prop
  | none, none => True
  | some r1, some r2 => r1.1 = r2.1 ∧ MDCache.mirrors p r1.2 r2.2
  | _, _ => False

/-- A cache of MDS `1`, with the sticky option of the SOFTASYNC regime on, whose inode `1`
(number `10`) is a replica in the SOFTASYNC regime under the sync of its authority. -/
def cache_softasync_synced : MDCache :=
  { MDCache.blank with
    whoami := 1
    mdcache_sticky_sync_softasync := true
    inode_map := (∅ : AList (fun _ : inodeno_t => CInodePtr)).insert 10 1
    lru := ⟨[1]⟩
    inodes := fun _ => { CInode.blank with
      ino := 10
      dist_state := { CInode.blank.dist_state with softasync := true, syncbyauth := true } } }

/-- A cache whose inode `1` is a directory that has not been opened (it has no `CDir`), next to
the uncached file `2`. -/
def cache_dir_unopened : MDCache :=
  { MDCache.blank with
    inodes := fun p =>
      match p with
      | 1 => { CInode.blank with ino := 1, is_dir := true, auth := true }
      | _ => { CInode.blank with ino := 2, auth := true } }

/-- A cache whose inode `1` is a directory with an open, empty `CDir` of version `4`, next to
the uncached file `2`. -/
def cache_dir_opened : MDCache :=
  { MDCache.blank with
    inodes := fun p =>
      match p with
      | 1 => { CInode.blank with
          ino := 1, is_dir := true, auth := true
          dir := some { CDir.blank with version := 4 } }
      | _ => { CInode.blank with ino := 2, auth := true } }

/-- The bookkeeping of exports is consistent: every member of `exports` appears exactly once
among the values of `nested_exports`, under the import that is its nearest import ancestor, and
`nested_exports` has no other values.  The fuel is the one of the walk up the tree. -/
def nested_exports_consistent (k : Nat) (c : MDCache) : Bool :=
  c.exports.all (fun e =>
    match get_containing_import k c (c.inodes e).get_parent_inode with
    | .returned imp =>
      decide ((c.nested_exports.filter (fun x => decide (x.2 = e))) = [(imp, e)])
    | _ => false) &&
  c.nested_exports.all (fun x => decide (x.2 ∈ c.exports))

/-- A cache of MDS `0` with five directories in a chain of imports and exports: the root `1` is
an import; its child `2` is exported to MDS `1`; the child `3` of `2` has been imported back;
the children of `3` are `4`, exported to MDS `2`, and `5`, whose subtree is frozen for an export.
So `imports` is `{1, 3}`, `exports` is `{2, 4}`, and `nested_exports` maps `1` to `2` and `3` to
`4`. -/
def cache_nested_imports : MDCache :=
  { MDCache.blank with
    root := some 1
    imports := [1, 3]
    exports := [2, 4]
    nested_exports := [(1, 2), (3, 4)]
    inode_map := (((((∅ : AList (fun _ : inodeno_t => CInodePtr)).insert 1 1).insert 2 2).insert
      3 3).insert 4 4).insert 5 5
    lru := ⟨[1, 2, 3, 4, 5]⟩
    inodes := fun p =>
      match p with
      | 1 => { CInode.blank with
          ino := 1, is_dir := true, auth := true, dir_auth := 0
          ref_set := [.CINODE_PIN_IMPORT]
          dir := some { CDir.blank with
            items := [("e", ⟨"e", some 2⟩)]
            state := { CDir.blank.state with auth := true, import_ := true } } }
      | 2 => { CInode.blank with
          ino := 2, is_dir := true, auth := true, dir_auth := 1
          nparents := 1, parent := some (1, "e")
          ref_set := [.CINODE_PIN_EXPORT]
          dir := some { CDir.blank with items := [("i", ⟨"i", some 3⟩)] } }
      | 3 => { CInode.blank with
          ino := 3, is_dir := true, dir_auth := 0
          nparents := 1, parent := some (2, "i")
          ref_set := [.CINODE_PIN_IMPORT]
          dir := some { CDir.blank with
            items := [("x", ⟨"x", some 4⟩), ("r", ⟨"r", some 5⟩)]
            state := { CDir.blank.state with auth := true, import_ := true } } }
      | 4 => { CInode.blank with
          ino := 4, is_dir := true, auth := true, dir_auth := 2
          nparents := 1, parent := some (3, "x")
          ref_set := [.CINODE_PIN_EXPORT] }
      | 5 => { CInode.blank with
          ino := 5, is_dir := true, auth := true
          nparents := 1, parent := some (3, "r")
          dir := some { CDir.blank with
            state := { CDir.blank.state with auth := true, frozen_tree_root := true } } }
      | _ => CInode.blank }

/-- The cache of the exporter, MDS `0`: the root `1` (number `1`) is its import; the directory
`2` (number `20`) below it, a replica of which MDS `1` holds, has the single entry `f` for the
file `3` (number `21`), which the MDSs `1` and `2` cache; the subtree of `2` is frozen. -/
def cache_exporter : MDCache :=
  { MDCache.blank with
    root := some 1
    imports := [1]
    inode_map := (((∅ : AList (fun _ : inodeno_t => CInodePtr)).insert 1 1).insert 20 2).insert 21 3
    lru := ⟨[1, 2, 3]⟩
    inodes := fun p =>
      match p with
      | 1 => { CInode.blank with
          ino := 1, is_dir := true, auth := true, dir_auth := 0
          ref_set := [.CINODE_PIN_IMPORT]
          dir := some { CDir.blank with
            items := [("r", ⟨"r", some 2⟩)]
            state := { CDir.blank.state with auth := true, import_ := true, complete := true } } }
      | 2 => { CInode.blank with
          ino := 20, is_dir := true, auth := true, nparents := 1, parent := some (1, "r")
          cached_by := [1]
          dir := some { CDir.blank with
            items := [("f", ⟨"f", some 3⟩)]
            version := 7, dir_rep := 1, popularity := 4
            state := { CDir.blank.state with auth := true, complete := true,
                                             frozen_tree_root := true } } }
      | 3 => { CInode.blank with
          ino := 21, auth := true, nparents := 1, parent := some (2, "f")
          cached_by := [1, 2], popularity := 3, inode_rest := 9
          dist_state := { CInode.blank.dist_state with softasync := true } }
      | _ => CInode.blank }

/-- The blocks of the `MExportDir` that MDS `0` builds for the directory `2` of
`cache_exporter`: one directory block with one entry. -/
def blocks_exported : List (List BlobCell) :=
  [[.dir_state ⟨20, 1, 7,
      ⟨true, true, true, false, false, false, false, false, false, false⟩, 1, 0, 4⟩,
    .str "f",
    .inode_state ⟨⟨21, false, false, 9⟩, 1, 3, -1, 2, true, false⟩,
    .int 1, .int 2]]

/-- The cache of the importer, MDS `1`, before the `MExportDir` arrives: replicas of the root
`1` (number `1`) and of the directory `2` (number `20`), whose `CDir` is open, not
authoritative, and pinned since the `MExportDirPrep`. -/
def cache_importer : MDCache :=
  { MDCache.blank with
    whoami := 1
    root := some 1
    inode_map := ((∅ : AList (fun _ : inodeno_t => CInodePtr)).insert 1 1).insert 20 2
    lru := ⟨[1, 2]⟩
    inodes := fun p =>
      match p with
      | 1 => { CInode.blank with
          ino := 1, is_dir := true, dir_auth := 0
          dir := some { CDir.blank with items := [("r", ⟨"r", some 2⟩)] } }
      | 2 => { CInode.blank with
          ino := 20, is_dir := true, nparents := 1, parent := some (1, "r")
          dir := some { CDir.blank with auth_pins := 1 } }
      | _ => CInode.blank }

/-- The cache of an MDS `1` that gets its export back: the root `1` is its import and the
directory `2` (number `20`) below it was exported to MDS `0`, so `2` is in `exports`, nested
under `1`, and holds the export pin. -/
def cache_reimporter : MDCache :=
  { MDCache.blank with
    whoami := 1
    root := some 1
    imports := [1]
    exports := [2]
    nested_exports := [(1, 2)]
    authority := fun _ => 1
    inode_map := ((∅ : AList (fun _ : inodeno_t => CInodePtr)).insert 1 1).insert 20 2
    lru := ⟨[1, 2]⟩
    inodes := fun p =>
      match p with
      | 1 => { CInode.blank with
          ino := 1, is_dir := true, auth := true, dir_auth := 1
          ref_set := [.CINODE_PIN_IMPORT]
          dir := some { CDir.blank with
            items := [("r", ⟨"r", some 2⟩)]
            state := { CDir.blank.state with auth := true, import_ := true, complete := true } } }
      | 2 => { CInode.blank with
          ino := 20, is_dir := true, auth := true, dir_auth := 0
          nparents := 1, parent := some (1, "r")
          ref_set := [.CINODE_PIN_EXPORT]
          dir := some { CDir.blank with auth_pins := 1 } }
      | _ => CInode.blank }

/-- The cache of an exporter, MDS `0`, whose directory `2` (number `20`) is hashed: its entries
are the file `3` (number `21`) and the hashed directory `4` (number `22`), whose `CDir` is not
open; the subtree of `2` is frozen. -/
def cache_exporter_hashed : MDCache :=
  { MDCache.blank with
    root := some 1
    imports := [1]
    inode_map := ((((∅ : AList (fun _ : inodeno_t => CInodePtr)).insert 1 1).insert 20 2).insert
      21 3).insert 22 4
    lru := ⟨[1, 2, 3, 4]⟩
    inodes := fun p =>
      match p with
      | 1 => { CInode.blank with
          ino := 1, is_dir := true, auth := true, dir_auth := 0
          ref_set := [.CINODE_PIN_IMPORT]
          dir := some { CDir.blank with
            items := [("r", ⟨"r", some 2⟩)]
            state := { CDir.blank.state with auth := true, import_ := true, complete := true } } }
      | 2 => { CInode.blank with
          ino := 20, is_dir := true, dir_hashed := true, auth := true
          nparents := 1, parent := some (1, "r")
          dir := some { CDir.blank with
            items := [("f", ⟨"f", some 3⟩), ("d", ⟨"d", some 4⟩)]
            state := { CDir.blank.state with auth := true, hashed := true,
                                             frozen_tree_root := true } } }
      | 3 => { CInode.blank with ino := 21, auth := true, nparents := 1, parent := some (2, "f") }
      | 4 => { CInode.blank with
          ino := 22, is_dir := true, dir_hashed := true, auth := true
          nparents := 1, parent := some (2, "d") }
      | _ => CInode.blank }

/-- The block that `export_dir_walk` builds for the hashed directory `2` of
`cache_exporter_hashed`: `nitems` is `2`, and the one entry is that of the directory `d`. -/
def block_hashed : List BlobCell :=
  [.dir_state ⟨20, 2, 0,
      ⟨false, true, true, false, false, false, true, false, false, false⟩, 0, 0, 0⟩,
    .str "d",
    .inode_state ⟨⟨22, true, true, 0⟩, 1, 0, 0, 0, false, false⟩]

/-- The block `block_hashed` with `nitems` set to the number of its entries. -/
def block_hashed_counted : List BlobCell :=
  [.dir_state ⟨20, 1, 0,
      ⟨false, true, true, false, false, false, true, false, false, false⟩, 0, 0, 0⟩,
    .str "d",
    .inode_state ⟨⟨22, true, true, 0⟩, 1, 0, 0, 0, false, false⟩]

/-- The cache `cache_exporter_hashed` without the file: the hashed directory `2` has the single
entry `d` for the hashed directory `4`, which MDS `2` caches. -/
def cache_exporter_hashed_cached : MDCache :=
  (cache_exporter_hashed.set_inode 2 { cache_exporter_hashed.inodes 2 with
    dir := some { CDir.blank with
      items := [("d", ⟨"d", some 4⟩)]
      state := { CDir.blank.state with auth := true, hashed := true,
                                       frozen_tree_root := true } } }).set_inode 4
    { cache_exporter_hashed.inodes 4 with cached_by := [2] }

/-- The block that `export_dir_walk` builds for the hashed directory `2` of
`cache_exporter_hashed_cached`: `nitems` is `1`, and the entry of the directory `d` has one
member of `cached_by`. -/
def block_hashed_one : List BlobCell :=
  [.dir_state ⟨20, 1, 0,
      ⟨false, true, true, false, false, false, true, false, false, false⟩, 0, 0, 0⟩,
    .str "d",
    .inode_state ⟨⟨22, true, true, 0⟩, 1, 0, 0, 1, false, false⟩,
    .int 2]

/-- The block `block_hashed_one` for a directory `d` that nobody caches. -/
def block_hashed_none : List BlobCell := block_hashed_counted

/-- A block for the directory number `22`, without entries. -/
def block_empty : List BlobCell :=
  [.dir_state ⟨22, 0, 0,
      ⟨false, true, false, false, false, false, true, false, false, false⟩, 0, 0, 0⟩]

/-- The cache of an importer, MDS `1`, before the `MExportDir` for the hashed directory `2`
(number `20`) arrives: it holds replicas of the root `1`, of the directory `2` and of the
hashed directory `4` (number `22`) in it, whose authority is MDS `0`; the `CDir` of both are
open. -/
def cache_importer_hashed_start : MDCache :=
  { MDCache.blank with
    whoami := 1
    root := some 1
    inode_map := (((∅ : AList (fun _ : inodeno_t => CInodePtr)).insert 1 1).insert 20 2).insert
      22 4
    lru := ⟨[1, 2, 4]⟩
    inodes := fun p =>
      match p with
      | 1 => { CInode.blank with
          ino := 1, is_dir := true, dir_auth := 0
          dir := some { CDir.blank with items := [("r", ⟨"r", some 2⟩)] } }
      | 2 => { CInode.blank with
          ino := 20, is_dir := true, dir_hashed := true
          nparents := 1, parent := some (1, "r")
          dir := some { CDir.blank with
            items := [("d", ⟨"d", some 4⟩)]
            auth_pins := 1
            state := { CDir.blank.state with hashed := true } } }
      | 4 => { CInode.blank with
          ino := 22, is_dir := true, dir_hashed := true
          nparents := 1, parent := some (2, "d"), cached_by := [1]
          dir := some { CDir.blank with state := { CDir.blank.state with hashed := true } } }
      | _ => CInode.blank }

/-- The cache `cache_importer_hashed_start` later in the import, when `import_dir_block` has set
up the `CDir` of the directory `2`, which is authoritative by then. -/
def cache_importer_hashed : MDCache :=
  cache_importer_hashed_start.set_inode 2 { cache_importer_hashed_start.inodes 2 with
    dir := some { CDir.blank with
      items := [("d", ⟨"d", some 4⟩)]
      auth_pins := 1
      state := { CDir.blank.state with hashed := true, auth := true } } }

/-- The field `nitems` of a directory block. -/
def block_nitems : List BlobCell → Option Int
  | .dir_state s :: _ => some s.nitems
  | _ => none

/-- The number of entries of a directory block: each entry has one `Inode_Export_State_t`. -/
def block_entries (b : List BlobCell) : Nat :=
  (b.filter (fun x => match x with
    | .inode_state _ => true
    | _ => false)).length

/-- Modelled from the spec: the sizes of the types the blob is made of, which the absent headers
fix: `sizeof(int)`, `sizeof(Inode_Export_State_t)` and `sizeof(Dir_Export_State_t)`. -/
structure BlobSizes where
  sizeof_int : Nat
  sizeof_inode_export_state : Nat
  sizeof_dir_export_state : Nat
  deriving DecidableEq, Repr

/-- The number of bytes of a cell of the blob; a string is followed by its terminating zero. -/
def BlobCell.size (z : BlobSizes) : BlobCell → Nat
  | .dir_state _ => z.sizeof_dir_export_state
  | .int _ => z.sizeof_int
  | .str s => s.utf8ByteSize + 1
  | .inode_state _ => z.sizeof_inode_export_state

/-- The number of bytes from the cursor `p` to the end of the blob; a cursor advances by the
difference of these numbers. -/
def blob_size (z : BlobSizes) (p : List BlobCell) : Nat := (p.map (BlobCell.size z)).sum

/-- The cache of an asker, MDS `1`: it holds a replica of the root `1`, whose `CDir` is open,
empty and not complete. -/
def cache_asker : MDCache :=
  { MDCache.blank with
    whoami := 1
    root := some 1
    inode_map := (∅ : AList (fun _ : inodeno_t => CInodePtr)).insert 1 1
    lru := ⟨[1]⟩
    inodes := fun p =>
      match p with
      | 1 => { CInode.blank with ino := 1, is_dir := true, dir := some CDir.blank }
      | _ => CInode.blank }

/-- The snapshot of the file number `10`, which nobody caches, in the trace of a `Discover`. -/
def rec_file : MDiscoverRec_t :=
  ⟨⟨10, false, false, 0⟩, [], -1, 0, [], false, false, false⟩

/-- The snapshot of the root, which nobody caches, in the trace of a `Discover`. -/
def rec_root : MDiscoverRec_t :=
  ⟨⟨1, true, false, 0⟩, [], 0, 0, [], false, false, false⟩

/-- The cache of MDS `1` before it has the root: it has asked MDS `0` for it. -/
def cache_no_root : MDCache :=
  { MDCache.blank with
    whoami := 1
    opening_root := true
    waiting_for_root := [.C_MDS_RetryMessage (some (.request 7))] }

/-- From `c` to `c1` neither the id of the MDS nor `auth` or `cached_by` of any inode object has
changed. -/
def MDCache.same_caching (c c1 : MDCache) : Prop :=
  c1.whoami = c.whoami ∧
    ∀ p, (c1.inodes p).auth = (c.inodes p).auth ∧
      (c1.inodes p).cached_by = (c.inodes p).cached_by

/-- No inode object that is authoritative has the id of this MDS in `cached_by`. -/
def MDCache.auth_not_self (c : MDCache) : Prop :=
  ∀ p, (c.inodes p).auth = true → c.whoami ∉ (c.inodes p).cached_by

/-- The cache `cache_importer` later in the import, when `import_dir_block` has set up the
`CDir` of the directory `2`, which is authoritative by then. -/
def cache_importer_block : MDCache :=
  cache_importer.set_inode 2 { cache_importer.inodes 2 with
    dir := some { CDir.blank with
      auth_pins := 1, version := 7, dir_rep := 1, popularity := 4
      state := { CDir.blank.state with auth := true, complete := true } } }

/-- The entry of the file `f` in the block of `blocks_exported`: the name, the
`Inode_Export_State_t` and the two members of `cached_by`, the MDSs `1` and `2`. -/
def entry_exported : List BlobCell :=
  [.str "f", .inode_state ⟨⟨21, false, false, 9⟩, 1, 3, -1, 2, true, false⟩, .int 1, .int 2]

/-- The cache `cache_importer_block` after `import_dentry_inode` has imported the entry
`entry_exported` from MDS `0` into the directory `2`: the file is the new inode object `100`. -/
def cache_imported_entry : MDCache :=
  ((import_dentry_inode cache_importer_block 2 entry_exported 0 2).map
    (fun r => r.2.2)).getD cache_importer_block

/-- The authority of the inode `p` in the words of the specification: walk up from `p` to the
nearest ancestor whose `dir_auth` is not `CDIR_AUTH_PARENT`; its `dir_auth` is the authority of
`p`.  The fuel bounds the number of ancestors visited; there is no answer when the walk ends at
an inode without a parent. -/
def spec_inode_authority : Nat → MDCache → CInodePtr → Option Int
  | 0, _, _ => none
  | k + 1, c, p =>
    match (c.inodes p).get_parent_inode with
    | none => none
    | some a =>
      if (c.inodes a).dir_auth ≠ CDIR_AUTH_PARENT then some (c.inodes a).dir_auth
      else spec_inode_authority k c a

/-- The cache of MDS `0`, which holds replicas of the root `1`, whose directory belongs to
MDS `1`, and of the directory `2` below it, which inherits (`dir_auth` is `PARENT`), and the
directory `3` below `2`, which MDS `0` has imported: the inode of `3` belongs to MDS `1`, its
directory to MDS `0`.  The subtree of `3` is frozen for the export back to MDS `1`. -/
def cache_reexporter : MDCache :=
  { MDCache.blank with
    root := some 1
    imports := [3]
    authority := fun _ => 1
    inode_map := (((∅ : AList (fun _ : inodeno_t => CInodePtr)).insert 1 1).insert 20 2).insert 30 3
    lru := ⟨[1, 2, 3]⟩
    inodes := fun p =>
      match p with
      | 1 => { CInode.blank with
          ino := 1, is_dir := true, dir_auth := 1
          dir := some { CDir.blank with items := [("a", ⟨"a", some 2⟩)] } }
      | 2 => { CInode.blank with
          ino := 20, is_dir := true, nparents := 1, parent := some (1, "a")
          dir := some { CDir.blank with items := [("r", ⟨"r", some 3⟩)] } }
      | 3 => { CInode.blank with
          ino := 30, is_dir := true, dir_auth := 0, nparents := 1, parent := some (2, "r")
          ref_set := [.CINODE_PIN_IMPORT]
          dir := some { CDir.blank with
            state := { CDir.blank.state with auth := true, import_ := true, complete := true,
                                             frozen_tree_root := true } } }
      | _ => CInode.blank }

/-- The cache of the importer, MDS `1`, at the end of the import of the directory `2`
(number `20`): the directory is authoritative and still holds the auth-pin of the
`MExportDirPrep`, `dir_auth` of `2` is the id of this MDS, one request waits for the imported
data, and the inode `2` itself belongs to MDS `0`. -/
def cache_import_done : MDCache :=
  { MDCache.blank with
    whoami := 1
    root := some 1
    imports := [2]
    make_path := fun _ => "/r"
    inode_map := ((∅ : AList (fun _ : inodeno_t => CInodePtr)).insert 1 1).insert 20 2
    lru := ⟨[1, 2]⟩
    inodes := fun p =>
      match p with
      | 1 => { CInode.blank with
          ino := 1, is_dir := true, dir_auth := 0
          dir := some { CDir.blank with items := [("r", ⟨"r", some 2⟩)] } }
      | 2 => { CInode.blank with
          ino := 20, is_dir := true, dir_auth := 1, nparents := 1, parent := some (1, "r")
          ref_set := [.CINODE_PIN_IMPORT]
          dir := some { CDir.blank with
            auth_pins := 1
            waiting := [(.CDIR_WAIT_IMPORTED, none, .C_MDS_RetryMessage (some (.request 7)))]
            state := { CDir.blank.state with auth := true, import_ := true } } }
      | _ => CInode.blank }

/-- The cache of an importer, MDS `1`, before the `MExportDir` for the directory `2`
(number `20`, not hashed) arrives: it holds replicas of the root `1`, of the directory `2` and
of the hashed directory `4` (number `22`) in it, whose `CDir` is open and empty.  The inode that
the next `new CInode` creates, `100`, and every dentry belong to MDS `2`. -/
def cache_importer_below_hashed : MDCache :=
  { MDCache.blank with
    whoami := 1
    root := some 1
    authority := fun p => if p = 100 then 2 else 0
    dentry_authority := fun _ _ => 2
    make_path := fun _ => "/r"
    inode_map := (((∅ : AList (fun _ : inodeno_t => CInodePtr)).insert 1 1).insert 20 2).insert
      22 4
    lru := ⟨[1, 2, 4]⟩
    inodes := fun p =>
      match p with
      | 1 => { CInode.blank with
          ino := 1, is_dir := true, dir_auth := 0
          dir := some { CDir.blank with items := [("r", ⟨"r", some 2⟩)] } }
      | 2 => { CInode.blank with
          ino := 20, is_dir := true, nparents := 1, parent := some (1, "r")
          dir := some { CDir.blank with items := [("d", ⟨"d", some 4⟩)], auth_pins := 1 } }
      | 4 => { CInode.blank with
          ino := 22, is_dir := true, dir_hashed := true
          nparents := 1, parent := some (2, "d")
          dir := some { CDir.blank with state := { CDir.blank.state with hashed := true } } }
      | _ => CInode.blank }

/-- The `MExportDir` of MDS `0` for the directory number `20`: one block for the directory
itself, with the entry `d` of the hashed directory number `22`, and one block for that hashed
directory, with the entry `e` of the directory number `23`, which nobody caches. -/
def export_below_hashed : MExportDir :=
  ⟨.MDS 0, 20, 0,
    [[.dir_state ⟨20, 1, 0,
        ⟨false, true, true, false, false, false, false, false, false, false⟩, 0, 0, 0⟩,
      .str "d",
      .inode_state ⟨⟨22, true, true, 0⟩, 1, 0, -1, 0, false, false⟩],
     [.dir_state ⟨22, 1, 0,
        ⟨false, true, false, false, false, false, true, false, false, false⟩, 0, 0, 0⟩,
      .str "e",
      .inode_state ⟨⟨23, true, false, 0⟩, 1, 0, -1, 0, false, false⟩]]⟩

/-- The cache of MDS `0` with the option `mdcache_sticky_sync_normal` on: below the root `1`
the directory `2` (number `20`) has two files, both authoritative: `3` (number `21`) holds
SYNCBYME and one auth-pin, `4` (number `22`) holds LOCKBYME. -/
def cache_sticky : MDCache :=
  { MDCache.blank with
    root := some 1
    mdcache_sticky_sync_normal := true
    inode_map := ((((∅ : AList (fun _ : inodeno_t => CInodePtr)).insert 1 1).insert 20 2).insert
      21 3).insert 22 4
    lru := ⟨[1, 2, 3, 4]⟩
    inodes := fun p =>
      match p with
      | 1 => { CInode.blank with
          ino := 1, is_dir := true, auth := true
          dir := some { CDir.blank with
            items := [("r", ⟨"r", some 2⟩)]
            state := { CDir.blank.state with auth := true, complete := true } } }
      | 2 => { CInode.blank with
          ino := 20, is_dir := true, auth := true, nparents := 1, parent := some (1, "r")
          nested_auth_pins := 1
          dir := some { CDir.blank with
            items := [("f", ⟨"f", some 3⟩), ("g", ⟨"g", some 4⟩)]
            state := { CDir.blank.state with auth := true, complete := true } } }
      | 3 => { CInode.blank with
          ino := 21, auth := true, nparents := 1, parent := some (2, "f"), auth_pins := 1
          dist_state := { CInode.blank.dist_state with syncbyme := true } }
      | 4 => { CInode.blank with
          ino := 22, auth := true, nparents := 1, parent := some (2, "g")
          dist_state := { CInode.blank.dist_state with lockbyme := true } }
      | _ => CInode.blank }

/-- The cache `cache_presync` after the acks of both replicas: MDS `1` had the inode, MDS `2`
did not and wants the sync back, so the sync is released within the last ack. -/
def cache_sync_round : MDCache :=
  (handle_inode_sync_acks cache_presync [ack_had, ack_wantback]).getD cache_presync

/-- The pins of the inode `p` in a sync round that `sync_start` opened with `a0` auth-pins and
the pin set `r0`: while PRESYNC is set the round holds one auth-pin and PIN_PRESYNC and
SYNCBYME is clear; once PRESYNC is clear the pin set is `r0` again, and the auth-pin is held
exactly while SYNCBYME is set. -/
def sync_pins (c : MDCache) (p : CInodePtr) (a0 : Int) (r0 : List Pin) : Prop :=
  ((c.inodes p).dist_state.presync = true →
    (c.inodes p).auth_pins = a0 + 1 ∧ (c.inodes p).ref_set = .CINODE_PIN_PRESYNC :: r0 ∧
      (c.inodes p).dist_state.syncbyme = false) ∧
  ((c.inodes p).dist_state.presync = false →
    (c.inodes p).ref_set = r0 ∧
      ((c.inodes p).dist_state.syncbyme = true → (c.inodes p).auth_pins = a0 + 1) ∧
      ((c.inodes p).dist_state.syncbyme = false → (c.inodes p).auth_pins = a0))

/-! ## The subtree of an export and the round trip of an export -/

/-- An entry of a directory block, as data: the name, the `Inode_Export_State_t` and the members
of `cached_by` that follow it. -/
structure EntryRec where
  name : String
  istate : Inode_Export_State_t
  cached_by : List Int
  deriving DecidableEq, Repr

/-- A directory block, as data: the `Dir_Export_State_t`, the members of `dir_rep_by` that
follow it, and the entries. -/
structure BlockRec where
  dstate : Dir_Export_State_t
  rep_by : List Int
  entries : List EntryRec
  deriving DecidableEq, Repr

/-- The cells of an entry. -/
def EntryRec.cells (e : EntryRec) : List BlobCell :=
  .str e.name :: .inode_state e.istate :: e.cached_by.map BlobCell.int

/-- The cells of a directory block. -/
def BlockRec.cells (b : BlockRec) : List BlobCell :=
  .dir_state b.dstate :: (b.rep_by.map BlobCell.int ++ b.entries.flatMap EntryRec.cells)

/-- The entries among `items` that have an inode, each with its name. -/
def kids_of (items : List (String × CDentry)) : List (String × CInodePtr) :=
  items.filterMap (fun e => e.2.inode.map (fun q => (e.1, q)))

/-- The entries of a directory that have an inode, each with its name. -/
def CDir.kids (d : CDir) : List (String × CInodePtr) := kids_of d.items

/-- The entries of a directory whose inode is a directory. -/
def CDir.dir_kids (c : MDCache) (d : CDir) : List (String × CInodePtr) :=
  d.kids.filter (fun e => (c.inodes e.2).is_dir)

/-- The entry that `export_dir_walk` emits for the inode `e.2` under the name `e.1`: the walk
increments the version before it encodes the inode. -/
def entry_of (c : MDCache) (e : String × CInodePtr) : EntryRec :=
  ⟨e.1, ⟨(c.inodes e.2).inode, (c.inodes e.2).version + 1, (c.inodes e.2).popularity,
      (c.inodes e.2).dir_auth, (c.inodes e.2).cached_by.length,
      (c.inodes e.2).dist_state.softasync, (c.inodes e.2).dirty⟩,
    (c.inodes e.2).cached_by⟩

/-- The block that `export_dir_walk` emits for the directory `d` of the inode `p` when `d` is
not hashed. -/
def block_of (c : MDCache) (p : CInodePtr) (d : CDir) : BlockRec :=
  ⟨⟨(c.inodes p).ino, d.nitems, d.version, d.state, d.dir_rep, d.dir_rep_by.length,
      d.popularity⟩, d.dir_rep_by, d.kids.map (entry_of c)⟩

/-- The directories of the subtree of `p` whose `CDir` is open, in the order in which
`export_dir_walk` visits them; the fuel bounds the depth. -/
def sub_dirs : Nat → MDCache → CInodePtr → List CInodePtr
  | 0, _, _ => []
  | k + 1, c, p =>
    match (c.inodes p).dir with
    | none => []
    | some d => p :: (d.dir_kids c).flatMap (fun e => sub_dirs k c e.2)

/-- The inodes below `p`, each with the name of its dentry, in the order in which
`export_dir_walk` emits their entries. -/
def sub_kids : Nat → MDCache → CInodePtr → List (String × CInodePtr)
  | 0, _, _ => []
  | k + 1, c, p =>
    match (c.inodes p).dir with
    | none => []
    | some d => d.kids ++ (d.dir_kids c).flatMap (fun e => sub_kids k c e.2)

/-- The blocks that `export_dir_walk` emits for the subtree of `p` when no directory of it is
hashed and it has no nested export. -/
def sub_blocks : Nat → MDCache → CInodePtr → List BlockRec
  | 0, _, _ => []
  | k + 1, c, p =>
    match (c.inodes p).dir with
    | none => []
    | some d => block_of c p d :: (d.dir_kids c).flatMap (fun e => sub_blocks k c e.2)

/-- The subtree of the directory inode `p` can be walked with the fuel `k`: it is at most `k`
levels deep; every open directory of it is authoritative and neither hashed nor being hashed or
unhashed, its names are distinct and its dentries have inodes; every inode below `p` is
authoritative, inherits `dir_auth` (so there is no nested export), is not a hashed directory,
and has no `CDir` unless it is a directory. -/
def walkable : Nat → MDCache → CInodePtr → Bool
  | 0, _, _ => false
  | k + 1, c, p =>
    (c.inodes p).is_dir &&
    match (c.inodes p).dir with
    | none => true
    | some d =>
      d.state.auth && !d.state.hashed && !d.state.hashing && !d.state.unhashing &&
      decide ((d.items.map (fun e => e.1)).Nodup) &&
      d.items.all (fun e =>
        match e.2.inode with
        | none => false
        | some q =>
          (c.inodes q).auth && decide ((c.inodes q).dir_auth = CDIR_AUTH_PARENT) &&
          !(c.inodes q).dir_hashed &&
          (if (c.inodes q).is_dir then walkable k c q else (c.inodes q).dir.isNone))

/-- The inodes below `p`, in the order of `sub_kids`. -/
def sub_ptrs (k : Nat) (c : MDCache) (p : CInodePtr) : List CInodePtr :=
  (sub_kids k c p).map (fun e => e.2)

/-- What the walk reads of an inode when it decides where to go: whether it is a directory, its
number and its directory, the waiters apart. -/
def CInode.dir_like (i j : CInode) : Prop :=
  j.is_dir = i.is_dir ∧ j.ino = i.ino ∧ j.dir_hashed = i.dir_hashed ∧
    j.dir.map (fun d => { d with waiting := [] }) = i.dir.map (fun d => { d with waiting := [] })

/-- The members of the cache that `export_dir_walk` leaves alone and the import reads. -/
def MDCache.walk_frame (c c1 : MDCache) : Prop :=
  c1.whoami = c.whoami ∧ c1.inode_map = c.inode_map ∧
    c1.mask_state_exported = c.mask_state_exported ∧
    c1.mask_state_export_kept = c.mask_state_export_kept

/-- The cache after the body of the loop of `export_dir_walk` has run for the child `q` of the
directory `di` of `idir`, which is not hashed. -/
def item_post (c : MDCache) (fin idir q : CInodePtr) (di : CDir) : MDCache :=
  let c2 := c.set_inode q { c.inodes q with version := (c.inodes q).version + 1 }
  { (c2.set_inode q { ((if (c2.inodes q).dirty then (c2.inodes q).mark_clean
        else c2.inodes q).cached_by_clear) with auth := false }).set_inode idir
      { c2.inodes idir with dir := some di.take_waiting_any.2 } with
    fin_waitlist := c2.fin_waitlist ++ di.take_waiting_any.1.map (fun w => (fin, w)) }

/-- What `export_dir_walk` keeps of every inode: whether it is a directory, its number, whether
it is hashed, whether its directory is open, and that an open directory that was not hashed is
not hashed. -/
def CInode.walk_rel (i j : CInode) : Prop :=
  j.is_dir = i.is_dir ∧ j.ino = i.ino ∧ j.dir_hashed = i.dir_hashed ∧
    (i.dir = none → j.dir = none) ∧
    ∀ d, i.dir = some d →
      ∃ d1, j.dir = some d1 ∧ (d.state.hashed = false → d1.state.hashed = false)

/-- The cache after the statements of `export_dir_walk` on the directory `d` of `idir` that
come before the loop over its entries. -/
def head_post (c : MDCache) (fin idir : CInodePtr) (d : CDir) : MDCache :=
  let d2 : CDir := { d with
    state := ({ d.state with auth := false } : CDirState).and c.mask_state_export_kept }
  let c1 := c.set_inode idir { c.inodes idir with dir := some d2 }
  let c2 := c1.set_inode idir (c1.inodes idir).take_waiting_any.2
  { c2 with fin_waitlist := c2.fin_waitlist ++
      (c1.inodes idir).take_waiting_any.1.map (fun w => (fin, w)) }

/-- The members of the cache that neither the walk nor the import changes. -/
def MDCache.same_config (c c1 : MDCache) : Prop :=
  c1.whoami = c.whoami ∧ c1.mask_state_exported = c.mask_state_exported ∧
    c1.mask_state_export_kept = c.mask_state_export_kept ∧ c1.new_CDir = c.new_CDir

/-- The `cached_by` of an inode imported from `from_` by the MDS `me`, from the members `l`
that came with its entry. -/
def cb_import (me from_ : Int) (l : List Int) : IntSet :=
  IntSet.insert ((l.filter (fun x => decide (x ≠ me))).foldl IntSet.insert []) from_

/-- The inode object `i` once `import_dentry_inode` has assimilated the state `istate` and the
members `by_` of `cached_by` into it. -/
def CInode.imported (i : CInode) (istate : Inode_Export_State_t) (by_ : List Int)
    (me from_ : Int) : CInode :=
  let j : CInode := { i with
    dir_auth := istate.dir_auth, version := istate.version, popularity := istate.popularity,
    cached_by := cb_import me from_ by_,
    dist_state := ⟨false, false, false, false, false, false, istate.is_softasync, false,
      false⟩ }
  if istate.dirty then j.mark_dirty else j

/-- The cache after the block `assimilate new auth state` of `import_dentry_inode`. -/
def assim_post (c : MDCache) (in_ : CInodePtr) (istate : Inode_Export_State_t)
    (by_ : List Int) (from_ : Int) : MDCache :=
  if istate.dirty then
    { c.set_inode in_ ((c.inodes in_).imported istate by_ c.whoami from_) with
      mdlog := c.mdlog ++ [in_] }
  else c.set_inode in_ ((c.inodes in_).imported istate by_ c.whoami from_)

/-- What an inode object holds of the entry `e` once the MDS `me` has imported the entry from
`from_`. -/
def CInode.holds (i : CInode) (e : EntryRec) (me from_ : Int) : Prop :=
  i.inode = e.istate.inode ∧ i.auth = true ∧ i.dir_auth = e.istate.dir_auth ∧
    i.version = e.istate.version ∧ i.popularity = e.istate.popularity ∧
    i.cached_by = cb_import me from_ e.cached_by ∧
    i.dist_state.softasync = e.istate.is_softasync

/-- The entries that the import of `es` adds to a directory, the new inode objects being at
`h`, `h + 1` and so on. -/
def new_items (es : List EntryRec) (h : CInodePtr) : List (String × CDentry) :=
  (es.zip (List.range' h es.length)).map (fun pr => (pr.1.name, ⟨pr.1.name, some pr.2⟩))

/-- The directory `d0` once `import_dir_block` has set it up from the head of the block `b`;
`mask` is `CDIR_MASK_STATE_EXPORTED`. -/
def CDir.set_up (d0 : CDir) (mask : CDirState) (b : BlockRec) : CDir :=
  { d0 with
    version := b.dstate.version
    state := { b.dstate.state.and mask with auth := true }
    dir_rep := b.dstate.dir_rep
    popularity := b.dstate.popularity
    dir_rep_by := b.rep_by.foldl IntSet.insert d0.dir_rep_by
    waiting := [] }

/-- The entry that the importer `me` emits when it exports what it imported as `e` from
`from_`. -/
def EntryRec.imported (me from_ : Int) (e : EntryRec) : EntryRec :=
  ⟨e.name,
    { e.istate with
      version := e.istate.version + 1
      ncached_by := ((cb_import me from_ e.cached_by).length : Int) },
    cb_import me from_ e.cached_by⟩

/-- The block that the importer `me` emits when it exports what it imported as `b` from
`from_` into a directory without entries; `mask` is `CDIR_MASK_STATE_EXPORTED`. -/
def BlockRec.imported (mask : CDirState) (me from_ : Int) (b : BlockRec) : BlockRec :=
  ⟨{ b.dstate with
      state := { b.dstate.state.and mask with auth := true }
      ndir_rep_by := ((b.rep_by.foldl IntSet.insert []).length : Int) },
    b.rep_by.foldl IntSet.insert [],
    b.entries.map (EntryRec.imported me from_)⟩

/-- The directory inode `qd` of the cache `c` is ready to take the directory of the inode `q`
of the cache `S0`: it is registered under the number of `q`, it is a directory that is not
hashed, and its `CDir`, if open, has no entries, no waiters and no replicas noted; it is not
open if the one of `q` is not. -/
def import_ready (S0 c : MDCache) (q qd : CInodePtr) : Prop :=
  c.get_inode (S0.inodes q).ino = some qd ∧ (c.inodes qd).ino = (S0.inodes q).ino ∧
    (c.inodes qd).is_dir = true ∧ (c.inodes qd).dir_hashed = false ∧
    (∀ d, (c.inodes qd).dir = some d → d.items = [] ∧ d.waiting = [] ∧ d.dir_rep_by = []) ∧
    ((S0.inodes q).dir = none → (c.inodes qd).dir = none) ∧ qd < c.heap_next

/-- What the import needs of the importer: `new CDir` builds a directory without entries,
waiters or replicas noted, the bit AUTH is not in `CDIR_MASK_STATE_EXPORTED`, and the inode map
and the LRU have the same size. -/
def import_env (c : MDCache) : Prop :=
  (∀ x, (c.new_CDir x).items = [] ∧ (c.new_CDir x).waiting = [] ∧
    (c.new_CDir x).dir_rep_by = []) ∧
    c.mask_state_exported.auth = false ∧ c.inode_map_size = c.lru.lru_get_size

/-- The inode numbers of the inodes `l` in the cache `S0`. -/
def inos (S0 : MDCache) (l : List (String × CInodePtr)) : List inodeno_t :=
  l.map (fun e => (S0.inodes e.2).ino)

/-- The import of the blocks of the subtree of `q`, at most `k` levels deep, into a cache that
holds none of its inodes: the statement that `import_subtree_new` proves by induction on
`k`. -/
def imports_subtree (S0 : MDCache) (ci : CInodePtr) (from_ : Int) (root : CInodePtr)
    (k : Nat) : Prop :=
  ∀ (c : MDCache) (q qd : CInodePtr) (rest : List BlobCell),
    walkable k S0 q = true →
    (∀ n ∈ inos S0 (sub_kids k S0 q), c.get_inode n = none) →
    (inos S0 (sub_kids k S0 q)).Nodup →
    import_ready S0 c q qd → import_env c →
    (qd = root ∨ (c.inodes root).dir.isSome = true) → root < c.heap_next →
    ∃ c1, handle_export_dir_blocks ci from_ root (sub_blocks k S0 q).length
        ((sub_blocks k S0 q).flatMap BlockRec.cells ++ rest) c = some (rest, c1) ∧
      c1.heap_next = c.heap_next + (sub_kids k S0 q).length ∧
      (∀ x, x < c.heap_next → x ≠ qd → c1.inodes x = c.inodes x) ∧
      c1.inodes qd = { c.inodes qd with dir := (c1.inodes qd).dir } ∧
      walkable k c1 qd = true ∧
      sub_blocks k c1 qd = (sub_blocks k S0 q).map
        (BlockRec.imported c.mask_state_exported c.whoami from_) ∧
      sub_ptrs k c1 qd = List.range' c.heap_next (sub_kids k S0 q).length ∧
      (∀ n, n ∉ inos S0 (sub_kids k S0 q) → c1.get_inode n = c.get_inode n) ∧
      c1.inode_map_size = c1.lru.lru_get_size ∧ c.same_config c1

/-- From `c` to `c1` the import has kept what it relies on: the inode map, the configuration,
the directories that are open, and that directories and inodes are not hashed. -/
def MDCache.import_keeps (c c1 : MDCache) : Prop :=
  c1.inode_map = c.inode_map ∧ c.same_config c1 ∧
    ∀ x, ((c.inodes x).dir.isSome = true → (c1.inodes x).dir.isSome = true) ∧
      ((c.inodes x).dir_hashed = false → (c1.inodes x).dir_hashed = false) ∧
      ((∀ d, (c.inodes x).dir = some d → d.state.hashed = false) →
        ∀ d1, (c1.inodes x).dir = some d1 → d1.state.hashed = false)

/-- What the import needs of an entry whose inode the cache holds. -/
def EntryRec.known (c : MDCache) (e : EntryRec) : Prop :=
  e.istate.ncached_by.toNat = e.cached_by.length ∧ e.istate.dir_auth = CDIR_AUTH_PARENT ∧
    e.istate.inode.hashed = false ∧
    ∃ y, c.get_inode e.istate.inode.ino = some y ∧
      ∀ d1, (c.inodes y).dir = some d1 → d1.state.hashed = false

/-- What the import needs of a block whose directory and inodes the cache holds. -/
def BlockRec.known (c : MDCache) (b : BlockRec) : Prop :=
  b.dstate.state.hashed = false ∧ b.dstate.state.hashing = false ∧
    b.dstate.state.unhashing = false ∧ b.dstate.ndir_rep_by.toNat = b.rep_by.length ∧
    b.dstate.nitems.toNat = b.entries.length ∧
    (∃ x, c.get_inode b.dstate.ino = some x ∧ (c.inodes x).dir.isSome = true ∧
      (c.inodes x).dir_hashed = false) ∧
    ∀ e ∈ b.entries, e.known c

/-- The cache of the exporter, MDS `0`, of a round trip: below the root `1` the directory `2`
(number `20`) holds the file `3` (number `21`), which the MDSs `1` and `2` cache, and the
directory `4` (number `22`), which holds the dirty file `5` (number `23`), cached by MDS `2`.
MDS `0` is the authority of all of them; a request waits on the directory `2`. -/
def cache_trip_exporter : MDCache :=
  { MDCache.blank with
    root := some 1
    inode_map := (((((∅ : AList (fun _ : inodeno_t => CInodePtr)).insert 1 1).insert 20 2).insert
      21 3).insert 22 4).insert 23 5
    lru := ⟨[1, 2, 3, 4, 5]⟩
    inodes := fun p =>
      match p with
      | 1 => { CInode.blank with
          ino := 1, is_dir := true, auth := true
          dir := some { CDir.blank with
            items := [("r", ⟨"r", some 2⟩)]
            state := { CDir.blank.state with auth := true, complete := true } } }
      | 2 => { CInode.blank with
          ino := 20, is_dir := true, auth := true, nparents := 1, parent := some (1, "r")
          cached_by := [1], popularity := 8, dir_auth := 1
          dir := some { CDir.blank with
            items := [("f", ⟨"f", some 3⟩), ("s", ⟨"s", some 4⟩)]
            version := 7, dir_rep := 1, dir_rep_by := [2], popularity := 4
            waiting := [(.CDIR_WAIT_UNFREEZE, none, .C_MDS_RetryMessage (some (.request 7)))]
            state := { CDir.blank.state with auth := true, complete := true,
                                             frozen_tree_root := true } } }
      | 3 => { CInode.blank with
          ino := 21, auth := true, nparents := 1, parent := some (2, "f")
          cached_by := [1, 2], popularity := 3, inode_rest := 9
          dist_state := { CInode.blank.dist_state with softasync := true } }
      | 4 => { CInode.blank with
          ino := 22, is_dir := true, auth := true, nparents := 1, parent := some (2, "s")
          popularity := 2
          dir := some { CDir.blank with
            items := [("g", ⟨"g", some 5⟩)]
            version := 3, dir_rep := 2, popularity := 1
            state := { CDir.blank.state with auth := true, complete := true } } }
      | 5 => { CInode.blank with
          ino := 23, auth := true, nparents := 1, parent := some (4, "g")
          cached_by := [2], popularity := 1, inode_rest := 5, dirty := true
          ref_set := [.CINODE_PIN_DIRTY] }
      | _ => CInode.blank }

/-- The cache of the importer, MDS `1`, of a round trip: replicas of the root `1` and of the
directory `2` (number `20`), whose `CDir` is open, without entries, and pinned. -/
def cache_trip_importer : MDCache :=
  { MDCache.blank with
    whoami := 1
    root := some 1
    inode_map := ((∅ : AList (fun _ : inodeno_t => CInodePtr)).insert 1 1).insert 20 2
    lru := ⟨[1, 2]⟩
    inodes := fun p =>
      match p with
      | 1 => { CInode.blank with
          ino := 1, is_dir := true
          dir := some { CDir.blank with items := [("r", ⟨"r", some 2⟩)] } }
      | 2 => { CInode.blank with
          ino := 20, is_dir := true, nparents := 1, parent := some (1, "r"), dir_auth := 0
          dir := some { CDir.blank with auth_pins := 1 } }
      | _ => CInode.blank }

/-- The cache `cache_auth_shared` on an MDS whose debug level `g_conf.debug` is `0`, so that
`dout(5)` does not print. -/
def cache_auth_shared_quiet : MDCache := { cache_auth_shared with debug := 0 }

/-- What the claims on discovery compare of an inode object: the inode record, `auth`,
`dir_auth`, `cached_by` and `dist_state`. -/
def CInode.replica_state (i : CInode) : inode_t × Bool × Int × IntSet × DistState :=
  (i.inode, i.auth, i.dir_auth, i.cached_by, i.dist_state)

/-- The inode object `i` is a replica as `handle_discover` builds it from the snapshot `t` on
the MDS `whoami`: the inode record and `dir_auth` of the snapshot, not authoritative,
`cached_by` of the snapshot with `whoami` inserted, and of the dist bits exactly SYNCBYAUTH,
SOFTASYNC and LOCKBYAUTH as the snapshot has them. -/
def CInode.replica_of (i : CInode) (whoami : Int) (t : MDiscoverRec_t) : Prop :=
  i.inode = t.inode ∧ i.auth = false ∧ i.dir_auth = t.dir_auth ∧
  i.cached_by = IntSet.insert t.cached_by whoami ∧
  i.dist_state = { CInode.fresh.dist_state with
    syncbyauth := t.is_syncbyauth, softasync := t.is_softasync, lockbyauth := t.is_lockbyauth }

/-- From `c` to `c1` no inode object was allocated and none has changed what the claims on
discovery compare; the id of the MDS is the same. -/
def MDCache.keeps_replicas (c c1 : MDCache) : Prop :=
  c1.heap_next = c.heap_next ∧ c1.whoami = c.whoami ∧
  ∀ p, (c1.inodes p).replica_state = (c.inodes p).replica_state

/-- The links of the cache stay below `heap_next`, the address `new CInode` returns next: the
root is below it, the dentries of the directory of every object below it link objects below
it, and `new CDir` builds a directory without entries. -/
def MDCache.heap_closed (c : MDCache) : Prop :=
  (∀ p, (c.new_CDir p).items = []) ∧
  (∀ r, c.root = some r → r < c.heap_next) ∧
  ∀ p, p < c.heap_next → ∀ d, (c.inodes p).dir = some d →
    ∀ e ∈ d.items, ∀ q, e.2.inode = some q → q < c.heap_next

/-- From `c` to `c1` the cache has grown as the handling of a `Discover` result lets it grow:
objects may have been allocated; every object that `c` had keeps what the claims on discovery
compare, and if its directory was open it is open still, with the same state bits, with every
dentry it had, and with no waiter that it did not have. -/
def MDCache.discover_grows (c c1 : MDCache) : Prop :=
  c.heap_next ≤ c1.heap_next ∧ c1.whoami = c.whoami ∧ c1.debug = c.debug ∧
  c1.dentry_authority = c.dentry_authority ∧ c1.new_CDir = c.new_CDir ∧ c1.root = c.root ∧
  ∀ p, p < c.heap_next →
    (c1.inodes p).replica_state = (c.inodes p).replica_state ∧
    ∀ d, (c.inodes p).dir = some d →
      ∃ d1, (c1.inodes p).dir = some d1 ∧ d1.state = d.state ∧
        (∀ x ∈ d1.waiting, x ∈ d.waiting) ∧
        ∀ n e, d.lookup n = some e → d1.lookup n = some e

/-- The cache `cX` is `c` but for the continuations run and the fetches requested. -/
def MDCache.same_but_calls (c cX : MDCache) : Prop :=
  cX = { c with finished := cX.finished, fetch_dir_calls := cX.fetch_dir_calls }

/-- In the cache `c` the traversal of the segments `segs` from `cur` passes through the inodes
`nodes` and changes nothing on its way: each inode it leaves is a directory whose `CDir` is
open and not frozen and maps the segment to a dentry with the next inode, and it can be read
(it is authoritative or not locked by its authority). -/
def passes (c : MDCache) : CInodePtr → List String → List CInodePtr → Prop
  | _, [], [] => True
  | cur, s :: ss, n :: ns =>
    (c.inodes cur).is_dir = true ∧
    (∃ d, (c.inodes cur).dir = some d ∧ d.state.frozen_tree_root = false ∧
      d.state.frozen_dir = false ∧ d.lookup_inode s = some n) ∧
    ((c.inodes cur).auth = true ∨ (c.inodes cur).dist_state.lockbyauth = false) ∧
    passes c n ss ns
  | _, _, _ => False

/-- The snapshot of the directory number `11`, which MDS `2` caches and which is under a sync
of its authority, in the trace of a `Discover`. -/
def rec_dir : MDiscoverRec_t :=
  ⟨⟨11, true, false, 0⟩, [2], -1, 0, [], true, false, false⟩

/-- The result that MDS `1` gets for the segments `a/b` below the root: the snapshots of the
directory `a` and of the file `b`. -/
def dis_result : MDiscover := ⟨1, "", some ["a", "b"], [rec_dir, rec_file]⟩

/-- The cache `cache_asker` once it has handled `dis_result`. -/
def cache_asker_found : MDCache := (handle_discover cache_asker dis_result).getD cache_asker

/-- The parent link of an inode is one that `remove_inode` accepts: one parent and a parent
dentry, or no parent at all. -/
def CInode.parent_link_ok (i : CInode) : Prop :=
  (i.nparents = 1 ∧ i.parent ≠ none) ∨ (i.nparents = 0 ∧ i.parent = none)

/-- Whether the message is an `MInodeExpire`. -/
def Message.is_inode_expire : Message → Bool
  | .MInodeExpire _ _ _ _ => true
  | _ => false

/-- The parent chain of the inode `p` ends, at an inode without a parent, within `k` inodes. -/
def MDCache.rooted (c : MDCache) : Nat → CInodePtr → Bool
  | 0, _ => false
  | k + 1, p =>
    match (c.inodes p).parent with
    | none => true
    | some (pdir, _) => c.rooted k pdir

/-- The inodes of the cache are linked as a tree of depth at most `k`: every parent chain ends
within `k` inodes, every inode has one parent and a parent dentry or none at all, and the parent
of an inode is a directory inode with an open directory. -/
def MDCache.well_linked (c : MDCache) (k : Nat) : Prop :=
  ∀ q, c.rooted k q = true ∧ (c.inodes q).parent_link_ok ∧
    ∀ pdir dname, (c.inodes q).parent = some (pdir, dname) →
      (c.inodes pdir).dir ≠ none ∧ (c.inodes pdir).is_dir = true

/-- From `c` to `c1` no inode has changed its number or its kind, lost its directory, or got a
parent: each has the parent link it had or none any more. -/
def MDCache.unlinks (c c1 : MDCache) : Prop :=
  ∀ q, (c1.inodes q).is_dir = (c.inodes q).is_dir ∧ (c1.inodes q).ino = (c.inodes q).ino ∧
    ((c.inodes q).dir ≠ none → (c1.inodes q).dir ≠ none) ∧
    (((c1.inodes q).parent = (c.inodes q).parent ∧
        (c1.inodes q).nparents = (c.inodes q).nparents) ∨
      ((c1.inodes q).parent = none ∧ (c1.inodes q).nparents = 0))

/-- What the steps of `trim` other than the removal keep of the cache: the identity of this
MDS, the authorities, `inode_map`, the LRU and the links of the inodes; the messages sent are
extended, by no `MInodeExpire`. -/
def MDCache.trim_frame (c c1 : MDCache) : Prop :=
  c.unlinks c1 ∧ c1.whoami = c.whoami ∧ c1.authority = c.authority ∧
    c1.inode_map = c.inode_map ∧ c1.lru = c.lru ∧
    ∃ rest, c1.sent = c.sent ++ rest ∧ ∀ x ∈ rest, x.1.is_inode_expire = false

/-- A cache of MDS `1` with three inodes: the root directory `3` (number `1`), which is pinned,
its subdirectory `1` (number `20`), an import of this MDS with the single entry `f`, and the
file `2` (number `21`) of that entry, a replica whose authority is MDS `0`; the LRU holds them
with the file least recently used. -/
def cache_trim : MDCache :=
  { MDCache.blank with
    whoami := 1
    root := some 3
    imports := [1]
    inode_map := (((∅ : AList (fun _ : inodeno_t => CInodePtr)).insert 1 3).insert 20 1).insert 21 2
    lru := ⟨[3, 1, 2]⟩
    inodes := fun p =>
      match p with
      | 1 => { CInode.blank with
          ino := 20, is_dir := true, nparents := 1, parent := some (3, "d")
          popularity := 5
          dir := some { CDir.blank with items := [("f", ⟨"f", some 2⟩)] } }
      | 2 => { CInode.blank with ino := 21, nparents := 1, parent := some (1, "f") }
      | 3 => { CInode.blank with
          ino := 1, is_dir := true, ref_set := [.CINODE_PIN_PRESYNC], popularity := 9
          dir := some { CDir.blank with items := [("d", ⟨"d", some 1⟩)] } }
      | _ => CInode.blank }

/-- The cache `cache_trim` once `trim` has notified the authority of the file `2` and removed
it. -/
def cache_trim_removed : MDCache :=
  (remove_inode (trim_notify cache_trim 2) 2).getD cache_trim

/-- From `c` to `c1` nothing has changed but the popularity of inodes. -/
def MDCache.popularity_only (c c1 : MDCache) : Prop :=
  c1 = { c with inodes := c1.inodes } ∧
    ∀ q, c1.inodes q = { c.inodes q with popularity := (c1.inodes q).popularity }

/-! # Theorems -/

/-! ## Message dispatch -/

/-- C1 (defect of the code): `proc_message` invokes the handler of the kind and returns `0` for
the sixteen kinds its `switch` lists, and aborts for every other kind, among them
`InodeGetReplica`, `InodeGetReplicaAck`, `HashDir`, `UnhashDir` and `UnhashDirAck`, although
the handlers of these five are defined in the same file. -/
theorem proc_message_dispatch (k : MsgType) :
    proc_message k =
      if k ∈ [MsgType.INODEGETREPLICA, .INODEGETREPLICAACK, .HASHDIR, .UNHASHDIR, .UNHASHDIRACK]
      then none
      else (spec_dispatch k).map (fun h => (h, 0)) := by
  cases k <;> simp [proc_message, spec_dispatch]

/-! ## The inode store -/

/-- C2 (the claim fails as stated): in `cache_same_ino`, where `|inode_map|` equals the LRU size,
the object `2` is not cached and carries the inode number of the cached object `1`.
`add_inode(2)` fails its second assertion: the LRU has grown and `inode_map` has not.
`remove_inode(2)` returns and leaves `inode_map` empty while the LRU still holds `1`. -/
theorem add_remove_inode_same_ino :
    cache_same_ino.inode_map_size = cache_same_ino.lru.lru_get_size ∧
    (add_inode cache_same_ino 2).isNone = true ∧
    (remove_inode cache_same_ino 2).map (fun c1 => (c1.inode_map_size, c1.lru.lru_get_size)) =
      some (0, 1) := by
  decide

theorem remove_inode_isSome_iff (c : MDCache) (b : CInodePtr) :
    (remove_inode c b).isSome = true ↔ (c.inodes b).parent_link_ok := by
  unfold remove_inode CInode.parent_link_ok
  dsimp only
  by_cases h1 : (c.inodes b).nparents = 1
  · rw [if_pos h1]
    cases hp : (c.inodes b).parent with
    | none => simp [h1]
    | some pd => simp [h1]
  · rw [if_neg h1]
    by_cases h2 : (c.inodes b).nparents > 1
    · rw [if_pos h2]
      simp only [Option.isSome_none, Bool.false_eq_true, false_iff, not_or, not_and]
      exact ⟨fun h => absurd h h1, fun h => by omega⟩
    · rw [if_neg h2]
      by_cases h3 : (c.inodes b).nparents = 0 ∧ (c.inodes b).parent = none
      · rw [if_pos h3]
        simp [h3]
      · rw [if_neg h3]
        simp only [Option.isSome_none, Bool.false_eq_true, false_iff, not_or]
        exact ⟨fun h => h1 h.1, h3⟩

theorem remove_inode_sizes (c : MDCache) (b : CInodePtr) (c2 : MDCache)
    (hsize : c.inode_map_size = c.lru.lru_get_size)
    (hb : c.get_inode (c.inodes b).ino = some b) (hlru : b ∈ c.lru.objs)
    (h : remove_inode c b = some c2) :
    c2.inode_map_size = c2.lru.lru_get_size := by
  have hkey : (c.inodes b).ino ∈ c.inode_map.keys := by
    rw [← AList.mem_keys, ← AList.lookup_isSome]
    simp only [MDCache.get_inode] at hb
    simp [hb]
  simp only [MDCache.inode_map_size, LRU.lru_get_size] at hsize
  have hk : (c.inode_map.keys.erase (c.inodes b).ino).length = (c.lru.objs.erase b).length := by
    rw [List.length_erase_of_mem hkey, List.length_erase_of_mem hlru, hsize]
  have hparent := (remove_inode_isSome_iff c b).mp (by rw [h]; rfl)
  rcases hparent with ⟨hn, hp⟩ | ⟨hn, hp⟩
  · obtain ⟨⟨pdir, dname⟩, hpd⟩ := Option.ne_none_iff_exists'.mp hp
    simp only [remove_inode, hn, hpd, ↓reduceIte, Option.some.injEq] at h
    subst h
    by_cases hpb : b = pdir
    · subst hpb
      simpa [MDCache.inode_map_size, LRU.lru_get_size, LRU.lru_remove, MDCache.set_inode,
        CInode.remove_parent, AList.keys_erase] using hk
    · simpa [MDCache.inode_map_size, LRU.lru_get_size, LRU.lru_remove, MDCache.set_inode,
        CInode.remove_parent, AList.keys_erase, hpb] using hk
  · simp only [remove_inode, hn, hp, zero_ne_one, if_false, gt_iff_lt, Int.reduceLT,
      and_self, if_true, Option.some.injEq] at h
    subst h
    simpa [MDCache.inode_map_size, LRU.lru_get_size, LRU.lru_remove,
      AList.keys_erase] using hk

/-- C2 (amended): in a cache with `|inode_map|` equal to the LRU size, `add_inode(a)` of an
inode whose number is not yet a key of `inode_map` passes both assertions and leaves the two
sizes equal; `remove_inode(b)` of an inode that the cache holds (the map holds it under its
number, the LRU holds it) leaves the two sizes equal whenever it returns, and it returns exactly
when its assertions on the parent link pass: one parent and a parent dentry, or no parent. -/
theorem add_remove_inode_sizes (c : MDCache) (a b : CInodePtr)
    (hsize : c.inode_map_size = c.lru.lru_get_size) :
    ((c.inodes a).ino ∉ c.inode_map →
      ∃ c1, add_inode c a = some c1 ∧ c1.inode_map_size = c1.lru.lru_get_size) ∧
    (c.get_inode (c.inodes b).ino = some b → b ∈ c.lru.objs →
      (∀ c2, remove_inode c b = some c2 → c2.inode_map_size = c2.lru.lru_get_size) ∧
      ((remove_inode c b).isSome = true ↔ (c.inodes b).parent_link_ok)) := by
  constructor
  · intro ha
    simp only [MDCache.inode_map_size, LRU.lru_get_size] at hsize
    have hlen : (c.inode_map.keys.erase (c.inodes a).ino).length = c.lru.objs.length := by
      rw [List.erase_of_not_mem (by rwa [← AList.mem_keys]), hsize]
    refine ⟨{ c with lru := c.lru.lru_insert_mid a,
                     inode_map := c.inode_map.insert (c.inodes a).ino a }, ?_, ?_⟩
    · simp [add_inode, MDCache.inode_map_size, LRU.lru_get_size, LRU.lru_insert_mid, hsize, hlen]
    · simp [MDCache.inode_map_size, LRU.lru_get_size, LRU.lru_insert_mid, hlen]
  · intro hb hlru
    exact ⟨fun c2 h => remove_inode_sizes c b c2 hsize hb hlru h, remove_inode_isSome_iff c b⟩

/-- C2 (amended), at a cache that holds the inode `1` and not the inode `2`: the inode `2` is
added, and the inode `1`, which has no parent, is removed. -/
theorem add_remove_inode_sizes_witness :
    (∃ c1, add_inode cache_one_inode 2 = some c1 ∧ c1.inode_map_size = c1.lru.lru_get_size) ∧
    (∀ c2, remove_inode cache_one_inode 1 = some c2 →
      c2.inode_map_size = c2.lru.lru_get_size) ∧
    (remove_inode cache_one_inode 1).isSome = true :=
  ⟨(add_remove_inode_sizes cache_one_inode 2 1 (by decide)).1 (by decide),
    ((add_remove_inode_sizes cache_one_inode 2 1 (by decide)).2 (by decide) (by decide)).1,
    by decide⟩

/-! ## Path traversal -/

theorem filepath.split_fst_no_slash (l : List Char) : '/' ∉ (filepath.split l).1 := by
  induction l with
  | nil => simp [filepath.split]
  | cons ch cs ih =>
    by_cases h : ch = '/'
    · simp [filepath.split, h]
    · have h2 : ¬ '/' = ch := fun e => h e.symm
      simpa [filepath.split, h, h2] using ih

theorem filepath.split_snd_wf (l : List Char) :
    ∀ s ∈ (filepath.split l).2, s ≠ [] ∧ '/' ∉ s := by
  induction l with
  | nil => simp [filepath.split]
  | cons ch cs ih =>
    simp only [filepath.split]
    split_ifs with h h2
    · exact ih
    · intro s hs
      simp only [List.mem_cons] at hs
      rcases hs with rfl | hs
      · exact ⟨h2, filepath.split_fst_no_slash cs⟩
      · exact ih s hs
    · exact ih

/-- Every segment of a path is non-empty and has no `/` in it. -/
theorem filepath.bits_wf (pathname : String) :
    ∀ s ∈ filepath.bits pathname, s.data ≠ [] ∧ '/' ∉ s.data := by
  intro s hs
  simp only [filepath.bits, List.mem_map] at hs
  obtain ⟨l, hl, rfl⟩ := hs
  split_ifs at hl with h
  · exact filepath.split_snd_wf _ l hl
  · simp only [List.mem_cons] at hl
    rcases hl with rfl | hl
    · exact ⟨h, filepath.split_fst_no_slash _⟩
    · exact filepath.split_snd_wf _ l hl

theorem filepath.split_append_seg (s t : List Char) (hs : '/' ∉ s) :
    filepath.split (s ++ t) = (s ++ (filepath.split t).1, (filepath.split t).2) := by
  induction s with
  | nil => simp
  | cons ch cs ih =>
    simp only [List.mem_cons, not_or] at hs
    have hne : ¬ ch = '/' := fun h => hs.1 h.symm
    simp [filepath.split, hne, ih hs.2]

theorem filepath.split_slashed (segs : List String)
    (h : ∀ s ∈ segs, s.data ≠ [] ∧ '/' ∉ s.data) :
    filepath.split (slashed segs) = ([], segs.map String.data) := by
  induction segs with
  | nil => simp [slashed, filepath.split]
  | cons s ss ih =>
    have hs := h s (List.mem_cons_self _ _)
    have hss := ih (fun x hx => h x (List.mem_cons_of_mem _ hx))
    simp [slashed, filepath.split, filepath.split_append_seg _ _ hs.2, hss, hs.1]

theorem have_clean_after_data (segs : List String) (hc : String) :
    (have_clean_after hc segs).data = hc.data ++ slashed segs := by
  induction segs generalizing hc with
  | nil => simp [have_clean_after, slashed]
  | cons s ss ih =>
    have := ih (hc ++ "/" ++ s)
    simp only [have_clean_after, List.foldl_cons] at this ⊢
    rw [this]
    simp [slashed, String.data_append]

/-- The string `have_clean` built from well-formed segments parses back to these segments. -/
theorem filepath.bits_have_clean (segs : List String)
    (h : ∀ s ∈ segs, s.data ≠ [] ∧ '/' ∉ s.data) :
    filepath.bits (have_clean_after "" segs) = segs := by
  simp only [filepath.bits, have_clean_after_data]
  rw [List.nil_append, filepath.split_slashed segs h]
  simp [List.map_map, Function.comp_def]

theorem read_hard_try_true (c : MDCache) (p : CInodePtr) (m : Option Message) (c1 : MDCache)
    (h : read_hard_try c p m = some (true, c1)) :
    c1 = c ∧ ((c.inodes p).auth = true ∨ (c.inodes p).dist_state.lockbyauth = false) := by
  unfold read_hard_try at h
  cases ha : (c.inodes p).auth <;> cases hl : (c.inodes p).dist_state.lockbyauth <;>
    simp only [ha, hl, Bool.false_eq_true, if_false, if_true, Option.some.injEq,
      Prod.mk.injEq, true_and] at h
  · exact ⟨h.symm, Or.inr rfl⟩
  · exfalso
    split_ifs at h
    · split at h <;> simp at h
    · simp at h
  · exact ⟨h.symm, Or.inl rfl⟩
  · exact ⟨h.symm, Or.inl rfl⟩

theorem read_hard_try_readable (c : MDCache) (p : CInodePtr) (m : Option Message)
    (h : (c.inodes p).auth = true ∨ (c.inodes p).dist_state.lockbyauth = false) :
    read_hard_try c p m = some (true, c) := by
  unfold read_hard_try
  rcases h with h | h
  · simp [h]
  · by_cases ha : (c.inodes p).auth = true <;> simp [ha, h]

theorem MDCache.dirs_opened_refl (c : MDCache) : c.dirs_opened c :=
  ⟨rfl, fun _ => Or.inl rfl⟩

theorem MDCache.dirs_opened_trans {c c1 c2 : MDCache} (h1 : c.dirs_opened c1)
    (h2 : c1.dirs_opened c2) : c.dirs_opened c2 := by
  obtain ⟨e1, f1⟩ := h1
  obtain ⟨e2, f2⟩ := h2
  have hnew : c1.new_CDir = c.new_CDir := by rw [e1]
  refine ⟨by rw [e2, e1], fun p => ?_⟩
  rcases f2 p with g2 | ⟨n2, g2⟩ <;> rcases f1 p with g1 | ⟨n1, g1⟩
  · exact Or.inl (g2.trans g1)
  · exact Or.inr ⟨n1, g2.trans g1⟩
  · right
    rw [g1] at n2 g2
    exact ⟨n2, by rw [g2, hnew]⟩
  · rw [g1] at n2
    simp at n2

theorem open_dir_dirs_opened (c : MDCache) (cur : CInodePtr) :
    c.dirs_opened (open_dir c cur).2 := by
  unfold open_dir
  cases h : (c.inodes cur).dir with
  | some d => exact MDCache.dirs_opened_refl c
  | none =>
    refine ⟨rfl, fun p => ?_⟩
    by_cases hp : p = cur
    · subst hp
      exact Or.inr ⟨h, by simp [MDCache.set_inode]⟩
    · exact Or.inl (by simp [MDCache.set_inode, hp])

theorem open_dir_dir (c : MDCache) (cur : CInodePtr) :
    ((open_dir c cur).2.inodes cur).dir = some (open_dir c cur).1 := by
  unfold open_dir
  cases h : (c.inodes cur).dir with
  | some d => simpa using h
  | none => simp [MDCache.set_inode]

theorem MDCache.dirs_opened_is_dir {c c1 : MDCache} (h : c.dirs_opened c1) (p : CInodePtr) :
    (c1.inodes p).is_dir = (c.inodes p).is_dir := by
  rcases h.2 p with g | ⟨_, g⟩ <;> rw [g]

theorem MDCache.dirs_opened_dir {c c1 : MDCache} (h : c.dirs_opened c1) (p : CInodePtr)
    (d : CDir) (hd : (c.inodes p).dir = some d) : (c1.inodes p).dir = some d := by
  rcases h.2 p with g | ⟨n, _⟩
  · rw [g, hd]
  · rw [hd] at n
    simp at n

theorem linked_dirs_opened {c c1 : MDCache} (h : c.dirs_opened c1) :
    ∀ (segs : List String) (cur : CInodePtr) (nodes : List CInodePtr),
      linked c cur segs nodes → linked c1 cur segs nodes := by
  intro segs
  induction segs with
  | nil => intro cur nodes hl; cases nodes <;> simp [linked] at hl ⊢
  | cons s ss ih =>
    intro cur nodes hl
    cases nodes with
    | nil => simp [linked] at hl
    | cons n ns =>
      obtain ⟨h1, ⟨d, dn, h2, h3, h4⟩, h5⟩ := hl
      exact ⟨by rw [MDCache.dirs_opened_is_dir h, h1],
        ⟨d, dn, MDCache.dirs_opened_dir h _ _ h2, h3, h4⟩,
        ih n ns h5⟩

theorem linked_length {c : MDCache} :
    ∀ (segs : List String) (cur : CInodePtr) (nodes : List CInodePtr),
      linked c cur segs nodes → nodes.length = segs.length := by
  intro segs
  induction segs with
  | nil => intro cur nodes hl; cases nodes <;> simp [linked] at hl ⊢
  | cons s ss ih =>
    intro cur nodes hl
    cases nodes with
    | nil => simp [linked] at hl
    | cons n ns => simpa using ih n ns hl.2.2

/-- A traversal loop that returns `0` has only opened directories, has appended to the trace
one inode per segment, each linked to the one before by the dentry of its segment, and a longer
path continues from where it ended. -/
theorem path_traverse_loop_zero (req : Option Message) (onfail : OnFail) :
    ∀ (segs : List String) (c : MDCache) (cur : CInodePtr) (hc : String)
      (tr tr1 : List CInodePtr) (c1 : MDCache),
      path_traverse_loop req onfail segs c cur hc tr = some (0, tr1, c1) →
      ∃ suf, tr1 = tr ++ suf ∧ linked c1 cur segs suf ∧ c.dirs_opened c1 ∧
        ∀ rest, path_traverse_loop req onfail (segs ++ rest) c cur hc tr =
          path_traverse_loop req onfail rest c1 ((suf.getLast?).getD cur)
            (have_clean_after hc segs) tr1 := by
  intro segs
  induction segs with
  | nil =>
    intro c cur hc tr tr1 c1 h
    simp only [path_traverse_loop, Option.some.injEq, Prod.mk.injEq, true_and] at h
    obtain ⟨rfl, rfl⟩ := h
    exact ⟨[], by simp, trivial, MDCache.dirs_opened_refl c,
      fun rest => by simp [have_clean_after]⟩
  | cons dname segs ih =>
    intro c cur hc tr tr1 c1 h
    have hstep : ∀ rest, path_traverse_loop req onfail (dname :: segs ++ rest) c cur hc tr =
        path_traverse_loop req onfail (dname :: (segs ++ rest)) c cur hc tr := fun _ => rfl
    rw [path_traverse_loop] at h
    cases hdir : (c.inodes cur).is_dir
    · simp [hdir, ENOTDIR] at h
    · simp only [hdir, if_true] at h
      cases hfro : ((open_dir c cur).1.state.frozen_tree_root ||
          (open_dir c cur).1.state.frozen_dir)
      · simp only [hfro, Bool.false_eq_true, if_false] at h
        cases hr : read_hard_try (open_dir c cur).2 cur req with
        | none => simp [hr] at h
        | some r =>
          obtain ⟨b, c2⟩ := r
          cases b
          · simp [hr] at h
          · obtain ⟨rfl, _⟩ := read_hard_try_true _ _ _ _ hr
            simp only [hr, open_dir_dir] at h
            cases hl : (open_dir c cur).1.lookup_inode dname with
            | none =>
              exfalso
              simp only [hl] at h
              split_ifs at h
              · simp [ENOENT] at h
              · simp at h
              · simp at h
              · cases onfail <;> cases req <;> simp at h
            | some next =>
              simp only [hl] at h
              obtain ⟨suf, e1, l1, o1, k1⟩ := ih _ _ _ _ _ _ h
              have o2 := MDCache.dirs_opened_trans (open_dir_dirs_opened c cur) o1
              refine ⟨next :: suf, by simp [e1], ⟨?_, ?_, l1⟩, o2, fun rest => ?_⟩
              · rw [MDCache.dirs_opened_is_dir o2, hdir]
              · have hd := MDCache.dirs_opened_dir o1 cur _ (open_dir_dir c cur)
                unfold CDir.lookup_inode at hl
                cases hlk : (open_dir c cur).1.lookup dname with
                | none => simp [hlk] at hl
                | some dn => exact ⟨_, dn, hd, hlk, by simpa [hlk] using hl⟩
              · rw [hstep, path_traverse_loop]
                simp only [hdir, if_true, hfro, Bool.false_eq_true, if_false, hr, open_dir_dir,
                  hl]
                rw [k1 rest, List.getLast?_cons]
                simp [have_clean_after]
      · simp [hfro] at h

theorem linked_nth {c : MDCache} :
    ∀ (segs : List String) (cur : CInodePtr) (nodes : List CInodePtr),
      linked c cur segs nodes → ∀ i, i < segs.length →
        ∃ a b seg d dn, (cur :: nodes)[i]? = some a ∧ (cur :: nodes)[i + 1]? = some b ∧
          segs[i]? = some seg ∧ (c.inodes a).is_dir = true ∧ (c.inodes a).dir = some d ∧
          d.lookup seg = some dn ∧ dn.inode = some b := by
  intro segs
  induction segs with
  | nil => intro cur nodes _ i hi; simp at hi
  | cons s ss ih =>
    intro cur nodes hl i hi
    cases nodes with
    | nil => simp [linked] at hl
    | cons n ns =>
      obtain ⟨h1, ⟨d, dn, h2, h3, h4⟩, h5⟩ := hl
      cases i with
      | zero => exact ⟨cur, n, s, d, dn, by simp, by simp, by simp, h1, h2, h3, h4⟩
      | succ j =>
        obtain ⟨a, b, seg, d1, dn1, g1, g2, g3, g4⟩ :=
          ih n ns h5 j (by simpa using hi)
        exact ⟨a, b, seg, d1, dn1, by simpa using g1, by simpa using g2, by simpa using g3, g4⟩

/-- C3: whenever `path_traverse` returns `0` for a path of `n` segments, the trace has `n + 1`
inodes, its first element is the root, and for every `i < n` the inode `trace[i]` is a
directory whose dir maps segment `i` to a dentry whose inode is `trace[i+1]`; for the empty
path the trace is `[root]`. -/
theorem path_traverse_success_trace (c : MDCache) (pathname : String)
    (trace : List CInodePtr) (req : Option Message) (onfail : OnFail)
    (tr : List CInodePtr) (c1 : MDCache)
    (h : path_traverse c pathname trace req onfail = some (0, tr, c1)) :
    ∃ root, c.root = some root ∧ c1.root = some root ∧ tr.head? = some root ∧
      tr.length = (filepath.bits pathname).length + 1 ∧
      (∀ i, i < (filepath.bits pathname).length →
        ∃ a b seg d dn, tr[i]? = some a ∧ tr[i + 1]? = some b ∧
          (filepath.bits pathname)[i]? = some seg ∧
          (c1.inodes a).is_dir = true ∧ (c1.inodes a).dir = some d ∧
          d.lookup seg = some dn ∧ dn.inode = some b) ∧
      (filepath.bits pathname = [] → tr = [root]) := by
  unfold path_traverse at h
  cases hroot : c.root with
  | none =>
    rw [hroot] at h
    cases req <;> simp at h
  | some root =>
    simp only [hroot] at h
    obtain ⟨suf, e1, l1, o1, _⟩ := path_traverse_loop_zero _ _ _ _ _ _ _ _ _ h
    have hlen := linked_length _ _ _ l1
    refine ⟨root, rfl, ?_, by simp [e1], by simp [e1, hlen], ?_, ?_⟩
    · rw [o1.1]
      exact hroot
    · intro i hi
      rw [e1]
      exact linked_nth _ _ _ l1 i hi
    · intro hnil
      rw [hnil] at hlen
      rw [e1, List.length_eq_zero.mp hlen]
      rfl

/-- C3, at the path `/a/b` of the example tree. -/
theorem path_traverse_success_trace_witness :
    ∃ root, cache_tree.root = some root ∧ cache_tree.root = some root ∧
      [1, 2, 3].head? = some root ∧
      [1, 2, 3].length = (filepath.bits "/a/b").length + 1 ∧
      (∀ i, i < (filepath.bits "/a/b").length →
        ∃ a b seg d dn, [1, 2, 3][i]? = some a ∧ [1, 2, 3][i + 1]? = some b ∧
          (filepath.bits "/a/b")[i]? = some seg ∧
          (cache_tree.inodes a).is_dir = true ∧ (cache_tree.inodes a).dir = some d ∧
          d.lookup seg = some dn ∧ dn.inode = some b) ∧
      (filepath.bits "/a/b" = [] → [1, 2, 3] = [root]) :=
  path_traverse_success_trace cache_tree "/a/b" [] none .MDS_TRAVERSE_FAIL [1, 2, 3] cache_tree
    (by rfl)

/-- When the traversal of the first segments of a path succeeds and ends at `cur`, the traversal
of the whole path continues at `cur` with the segments that remain, in the cache the first part
left, which differs from the initial one by opened directories only. -/
theorem path_traverse_reaches (c : MDCache) (prepath pathname : String)
    (trace : List CInodePtr) (req : Option Message) (onfail : OnFail)
    (tr : List CInodePtr) (c1 : MDCache) (cur : CInodePtr) (remaining : List String)
    (hsplit : filepath.bits pathname = filepath.bits prepath ++ remaining)
    (hpre : path_traverse c prepath [] req onfail = some (0, tr, c1))
    (hcur : tr.getLast? = some cur) :
    path_traverse c pathname trace req onfail =
      path_traverse_loop req onfail remaining c1 cur
        (have_clean_after "" (filepath.bits prepath)) tr ∧
    c.dirs_opened c1 := by
  unfold path_traverse at hpre ⊢
  cases hroot : c.root with
  | none =>
    rw [hroot] at hpre
    cases req <;> simp at hpre
  | some root =>
    simp only [hroot] at hpre ⊢
    obtain ⟨suf, e1, _, o1, k1⟩ := path_traverse_loop_zero _ _ _ _ _ _ _ _ _ hpre
    refine ⟨?_, o1⟩
    rw [hsplit, k1 remaining]
    have : (suf.getLast?).getD root = cur := by
      rw [e1, List.singleton_append, List.getLast?_cons] at hcur
      exact Option.some.inj hcur
    rw [this]

/-- C5: for every onfail mode, when the traversal reaches a directory (the first segments
resolve to `cur`, which is a directory, is not frozen and is readable) where the dentry of the
next segment is absent or has no inode, this MDS is the dentry authority and the directory is
COMPLETE, `path_traverse` returns `-ENOENT`; it sends no message, requests no fetch and
registers no waiter: inode waiters and the directories that existed are as before. -/
theorem path_traverse_complete_noent (c : MDCache) (prepath pathname : String)
    (trace : List CInodePtr) (req : Option Message) (onfail : OnFail)
    (tr : List CInodePtr) (c1 : MDCache) (cur : CInodePtr) (dname : String)
    (rest : List String)
    (hsplit : filepath.bits pathname = filepath.bits prepath ++ dname :: rest)
    (hpre : path_traverse c prepath [] req onfail = some (0, tr, c1))
    (hcur : tr.getLast? = some cur)
    (hdir : (c1.inodes cur).is_dir = true)
    (hfrozen : (open_dir c1 cur).1.state.frozen_tree_root = false ∧
      (open_dir c1 cur).1.state.frozen_dir = false)
    (hread : (c1.inodes cur).auth = true ∨ (c1.inodes cur).dist_state.lockbyauth = false)
    (habsent : (open_dir c1 cur).1.lookup_inode dname = none)
    (hauth : c1.dentry_authority cur dname = c1.whoami)
    (hcomplete : (open_dir c1 cur).1.state.complete = true) :
    ∃ c2, path_traverse c pathname trace req onfail = some (-ENOENT, tr, c2) ∧
      c2.sent = c.sent ∧ c2.fetch_dir_calls = c.fetch_dir_calls ∧
      (∀ p, (c2.inodes p).waiting = (c.inodes p).waiting) ∧
      (∀ p d, (c.inodes p).dir = some d → (c2.inodes p).dir = some d) := by
  obtain ⟨e, o1⟩ := path_traverse_reaches c prepath pathname trace req onfail tr c1 cur
    (dname :: rest) hsplit hpre hcur
  have o2 := MDCache.dirs_opened_trans o1 (open_dir_dirs_opened c1 cur)
  have hread2 : ((open_dir c1 cur).2.inodes cur).auth = true ∨
      ((open_dir c1 cur).2.inodes cur).dist_state.lockbyauth = false := by
    rcases (open_dir_dirs_opened c1 cur).2 cur with g | ⟨_, g⟩ <;> rw [g] <;> exact hread
  have hauth2 : (open_dir c1 cur).2.dentry_authority cur dname = (open_dir c1 cur).2.whoami := by
    rw [(open_dir_dirs_opened c1 cur).1]
    exact hauth
  refine ⟨(open_dir c1 cur).2, ?_, ?_, ?_, ?_, ?_⟩
  · rw [e, path_traverse_loop]
    simp [hdir, hfrozen.1, hfrozen.2, read_hard_try_readable _ _ _ hread2, open_dir_dir, habsent,
      hauth2, hcomplete]
  · rw [o2.1]
  · rw [o2.1]
  · intro p
    rcases o2.2 p with g | ⟨_, g⟩ <;> rw [g]
  · intro p d hd
    exact MDCache.dirs_opened_dir o2 p d hd

/-- C5, at the path `/a/c` of the example tree, whose directory `a` is complete, with the
onfail mode DISCOVER. -/
theorem path_traverse_complete_noent_witness :
    ∃ c2, path_traverse cache_tree "/a/c" [] none .MDS_TRAVERSE_DISCOVER =
        some (-ENOENT, [1, 2], c2) ∧
      c2.sent = cache_tree.sent ∧ c2.fetch_dir_calls = cache_tree.fetch_dir_calls ∧
      (∀ p, (c2.inodes p).waiting = (cache_tree.inodes p).waiting) ∧
      (∀ p d, (cache_tree.inodes p).dir = some d → (c2.inodes p).dir = some d) :=
  path_traverse_complete_noent cache_tree "/a" "/a/c" [] none .MDS_TRAVERSE_DISCOVER [1, 2]
    cache_tree 2 "c" [] (by decide) (by rfl) (by decide) (by decide) (by decide) (by decide)
    (by decide) (by decide) (by decide)

/-- C4 (the claim fails as stated): with the onfail mode DISCOVER, a traversal that finds the
dentry `c` absent from the root directory, which is not frozen, readable, not COMPLETE and whose
dentries this MDS is the authority of, returns `-1` and requests no fetch. -/
theorem path_traverse_discover_incomplete :
    ((cache_tree.inodes 1).dir.map (fun d => (d.state.complete, d.lookup_inode "c")) =
        some (false, none) ∧
      cache_tree.dentry_authority 1 "c" = cache_tree.whoami) ∧
    (path_traverse cache_tree "/c" [] (some (.request 7)) .MDS_TRAVERSE_DISCOVER).map
      (fun r => (r.1, r.2.2.fetch_dir_calls)) = some (-1, []) := by
  decide

/-- C4 (amended): when the traversal reaches a directory (the first segments resolve to `cur`,
which is a directory, is not frozen and is readable) where the dentry of the next segment is
absent, this MDS is the dentry authority and the directory is not COMPLETE: with the onfail
modes FORWARD and FAIL it requests `fetch_dir` of that directory with a retry continuation for
the request and returns the deferred result `1`; with the mode DISCOVER it returns `-1` and
requests no fetch.  In no mode does it send a message. -/
theorem path_traverse_incomplete (c : MDCache) (prepath pathname : String)
    (trace : List CInodePtr) (req : Option Message) (onfail : OnFail)
    (tr : List CInodePtr) (c1 : MDCache) (cur : CInodePtr) (dname : String)
    (rest : List String)
    (hsplit : filepath.bits pathname = filepath.bits prepath ++ dname :: rest)
    (hpre : path_traverse c prepath [] req onfail = some (0, tr, c1))
    (hcur : tr.getLast? = some cur)
    (hdir : (c1.inodes cur).is_dir = true)
    (hfrozen : (open_dir c1 cur).1.state.frozen_tree_root = false ∧
      (open_dir c1 cur).1.state.frozen_dir = false)
    (hread : (c1.inodes cur).auth = true ∨ (c1.inodes cur).dist_state.lockbyauth = false)
    (habsent : (open_dir c1 cur).1.lookup_inode dname = none)
    (hauth : c1.dentry_authority cur dname = c1.whoami)
    (hincomplete : (open_dir c1 cur).1.state.complete = false) :
    ∃ c2, path_traverse c pathname trace req onfail =
        some (if onfail = .MDS_TRAVERSE_DISCOVER then -1 else 1, tr, c2) ∧
      c2.fetch_dir_calls =
        (if onfail = .MDS_TRAVERSE_DISCOVER then c.fetch_dir_calls
         else c.fetch_dir_calls ++ [(cur, .C_MDS_RetryMessage req)]) ∧
      c2.sent = c.sent := by
  obtain ⟨e, o1⟩ := path_traverse_reaches c prepath pathname trace req onfail tr c1 cur
    (dname :: rest) hsplit hpre hcur
  have o2 := MDCache.dirs_opened_trans o1 (open_dir_dirs_opened c1 cur)
  have hread2 : ((open_dir c1 cur).2.inodes cur).auth = true ∨
      ((open_dir c1 cur).2.inodes cur).dist_state.lockbyauth = false := by
    rcases (open_dir_dirs_opened c1 cur).2 cur with g | ⟨_, g⟩ <;> rw [g] <;> exact hread
  have hauth2 : (open_dir c1 cur).2.dentry_authority cur dname = (open_dir c1 cur).2.whoami := by
    rw [(open_dir_dirs_opened c1 cur).1]
    exact hauth
  have hf : (open_dir c1 cur).2.fetch_dir_calls = c.fetch_dir_calls := by rw [o2.1]
  have hs : (open_dir c1 cur).2.sent = c.sent := by rw [o2.1]
  rw [e, path_traverse_loop]
  by_cases hmode : onfail = .MDS_TRAVERSE_DISCOVER
  · refine ⟨(open_dir c1 cur).2, ?_, ?_, hs⟩
    · simp [hdir, hfrozen.1, hfrozen.2, read_hard_try_readable _ _ _ hread2, open_dir_dir,
        habsent, hauth2, hincomplete, hmode]
    · simp [hmode, hf]
  · refine ⟨{ (open_dir c1 cur).2 with
        lru := (open_dir c1 cur).2.lru.lru_touch cur
        fetch_dir_calls := (open_dir c1 cur).2.fetch_dir_calls ++ [(cur, .C_MDS_RetryMessage req)]
        logger := (open_dir c1 cur).2.logger ++ ["cmiss", "rdir"] }, ?_, ?_, hs⟩
    · simp [hdir, hfrozen.1, hfrozen.2, read_hard_try_readable _ _ _ hread2, open_dir_dir,
        habsent, hauth2, hincomplete, hmode]
    · simp [hmode, hf]

/-- C4 (amended), at the path `/c` of the example tree, whose root directory is incomplete,
with the onfail mode FAIL. -/
theorem path_traverse_incomplete_witness :
    ∃ c2, path_traverse cache_tree "/c" [] (some (.request 7)) .MDS_TRAVERSE_FAIL =
        some (if OnFail.MDS_TRAVERSE_FAIL = .MDS_TRAVERSE_DISCOVER then -1 else 1, [1], c2) ∧
      c2.fetch_dir_calls =
        (if OnFail.MDS_TRAVERSE_FAIL = .MDS_TRAVERSE_DISCOVER then cache_tree.fetch_dir_calls
         else cache_tree.fetch_dir_calls ++ [(1, .C_MDS_RetryMessage (some (.request 7)))]) ∧
      c2.sent = cache_tree.sent :=
  path_traverse_incomplete cache_tree "" "/c" [] (some (.request 7)) .MDS_TRAVERSE_FAIL [1]
    cache_tree 1 "c" [] (by decide) (by rfl) (by decide) (by decide) (by decide) (by decide)
    (by decide) (by decide) (by decide)

/-- C6: when `path_traverse` with onfail = DISCOVER stops at the segment `dname` (the first
segments resolve to `cur`, which is a directory, is not frozen and is readable) because the
dentry is absent and another MDS `a` is the dentry authority, it sends exactly one message, a
`Discover` to `a` whose base path consists of the segments before `dname` and whose wanted list
is `dname` and the segments after it (base segments followed by wanted segments are the
segments of the path), registers exactly one waiter, a retry of the request on
`DENTRY(dname)` of the directory of `cur`, and returns the deferred result `1`. -/
theorem path_traverse_discover (c : MDCache) (prepath pathname : String)
    (trace : List CInodePtr) (req : Option Message)
    (tr : List CInodePtr) (c1 : MDCache) (cur : CInodePtr) (dname : String)
    (rest : List String)
    (hsplit : filepath.bits pathname = filepath.bits prepath ++ dname :: rest)
    (hpre : path_traverse c prepath [] req .MDS_TRAVERSE_DISCOVER = some (0, tr, c1))
    (hcur : tr.getLast? = some cur)
    (hdir : (c1.inodes cur).is_dir = true)
    (hfrozen : (open_dir c1 cur).1.state.frozen_tree_root = false ∧
      (open_dir c1 cur).1.state.frozen_dir = false)
    (hread : (c1.inodes cur).auth = true ∨ (c1.inodes cur).dist_state.lockbyauth = false)
    (habsent : (open_dir c1 cur).1.lookup_inode dname = none)
    (hother : c1.dentry_authority cur dname ≠ c1.whoami) :
    ∃ c3 base, path_traverse c pathname trace req .MDS_TRAVERSE_DISCOVER = some (1, tr, c3) ∧
      c3.sent = c.sent ++ [(.MDiscover c.whoami base (some (dname :: rest)),
        .MDS (c1.dentry_authority cur dname))] ∧
      filepath.bits base = filepath.bits prepath ∧
      filepath.bits base ++ dname :: rest = filepath.bits pathname ∧
      (c3.inodes cur).dir = some ((open_dir c1 cur).1.add_waiter_dentry .CDIR_WAIT_DENTRY dname
        (.C_MDS_RetryMessage req)) ∧
      (∀ p, (c3.inodes p).waiting = (c.inodes p).waiting) ∧
      (∀ p d, p ≠ cur → (c.inodes p).dir = some d → (c3.inodes p).dir = some d) ∧
      (∀ d, (c.inodes cur).dir = some d → (open_dir c1 cur).1 = d) ∧
      c3.fetch_dir_calls = c.fetch_dir_calls := by
  obtain ⟨e, o1⟩ := path_traverse_reaches c prepath pathname trace req _ tr c1 cur
    (dname :: rest) hsplit hpre hcur
  have o2 := MDCache.dirs_opened_trans o1 (open_dir_dirs_opened c1 cur)
  have hread2 : ((open_dir c1 cur).2.inodes cur).auth = true ∨
      ((open_dir c1 cur).2.inodes cur).dist_state.lockbyauth = false := by
    rcases (open_dir_dirs_opened c1 cur).2 cur with g | ⟨_, g⟩ <;> rw [g] <;> exact hread
  have hw : (open_dir c1 cur).2.whoami = c.whoami := by rw [o2.1]
  have hw1 : c1.whoami = c.whoami := by rw [o1.1]
  have hda : (open_dir c1 cur).2.dentry_authority = c1.dentry_authority := by
    rw [(open_dir_dirs_opened c1 cur).1]
  have hother2 : ¬ c1.dentry_authority cur dname = c.whoami := by rwa [hw1] at hother
  have hf : (open_dir c1 cur).2.fetch_dir_calls = c.fetch_dir_calls := by rw [o2.1]
  have hs : (open_dir c1 cur).2.sent = c.sent := by rw [o2.1]
  have hbase := filepath.bits_have_clean (filepath.bits prepath) (filepath.bits_wf prepath)
  rw [e, path_traverse_loop]
  simp only [hdir, if_true, hfrozen.1, hfrozen.2, Bool.or_self, Bool.false_eq_true, if_false,
    read_hard_try_readable _ _ _ hread2, open_dir_dir, habsent, hda, hw, hother2]
  refine ⟨_, have_clean_after "" (filepath.bits prepath), rfl, ?_, hbase, ?_, ?_, ?_, ?_, ?_,
    ?_⟩
  · simp [MDCache.send_message, MDCache.set_inode, hs, hw]
  · rw [hbase, hsplit]
  · simp [MDCache.send_message, MDCache.set_inode]
  · intro p
    have h2 : ((open_dir c1 cur).2.inodes p).waiting = (c.inodes p).waiting := by
      rcases o2.2 p with g | ⟨_, g⟩ <;> rw [g]
    by_cases hp : p = cur
    · subst hp
      simpa [MDCache.send_message, MDCache.set_inode] using h2
    · simpa [MDCache.send_message, MDCache.set_inode, hp] using h2
  · intro p d hp hd
    simpa [MDCache.send_message, MDCache.set_inode, hp] using
      MDCache.dirs_opened_dir o2 p d hd
  · intro d hd
    have h3 := MDCache.dirs_opened_dir o2 cur d hd
    rw [open_dir_dir] at h3
    exact Option.some.inj h3
  · simp [MDCache.send_message, MDCache.set_inode, hf]

/-- C6, at the path `/a/x/y` of the example tree: the dentries named `x` belong to MDS `1`. -/
theorem path_traverse_discover_witness :
    ∃ c3 base, path_traverse cache_tree "/a/x/y" [] (some (.request 7))
        .MDS_TRAVERSE_DISCOVER = some (1, [1, 2], c3) ∧
      c3.sent = cache_tree.sent ++ [(.MDiscover cache_tree.whoami base (some ("x" :: ["y"])),
        .MDS (cache_tree.dentry_authority 2 "x"))] ∧
      filepath.bits base = filepath.bits "/a" ∧
      filepath.bits base ++ "x" :: ["y"] = filepath.bits "/a/x/y" ∧
      (c3.inodes 2).dir = some ((open_dir cache_tree 2).1.add_waiter_dentry .CDIR_WAIT_DENTRY "x"
        (.C_MDS_RetryMessage (some (.request 7)))) ∧
      (∀ p, (c3.inodes p).waiting = (cache_tree.inodes p).waiting) ∧
      (∀ p d, p ≠ 2 → (cache_tree.inodes p).dir = some d → (c3.inodes p).dir = some d) ∧
      (∀ d, (cache_tree.inodes 2).dir = some d → (open_dir cache_tree 2).1 = d) ∧
      c3.fetch_dir_calls = cache_tree.fetch_dir_calls :=
  path_traverse_discover cache_tree "/a" "/a/x/y" [] (some (.request 7)) [1, 2]
    cache_tree 2 "x" ["y"] (by decide) (by rfl) (by decide) (by decide) (by decide) (by decide)
    (by decide) (by decide)

/-! ## Soft sync -/

@[simp] theorem MDCache.set_inode_inodes (c : MDCache) (q p : CInodePtr) (i : CInode) :
    (c.set_inode q i).inodes p = if p = q then i else c.inodes p := rfl

@[simp] theorem MDCache.send_message_inodes (c : MDCache) (m : Message) (d : msg_addr_t) :
    (c.send_message m d).inodes = c.inodes := rfl

theorem MDCache.foldl_send_inodes (f : Int → Message) (g : Int → msg_addr_t) (l : List Int)
    (c : MDCache) :
    (l.foldl (fun acc it => acc.send_message (f it) (g it)) c).inodes = c.inodes := by
  induction l generalizing c with
  | nil => rfl
  | cons a l ih =>
    rw [List.foldl_cons, ih]
    rfl

theorem MDCache.foldl_send_sent (f : Int → Message) (g : Int → msg_addr_t) (l : List Int)
    (c : MDCache) :
    (l.foldl (fun acc it => acc.send_message (f it) (g it)) c).sent =
      c.sent ++ l.map (fun it => (f it, g it)) := by
  induction l generalizing c with
  | nil => simp
  | cons a l ih =>
    rw [List.foldl_cons, ih]
    simp [MDCache.send_message]

theorem MDCache.foldl_send_eq (f : Int → Message) (g : Int → msg_addr_t) (l : List Int)
    (c : MDCache) :
    l.foldl (fun acc it => acc.send_message (f it) (g it)) c =
      { c with sent := c.sent ++ l.map (fun it => (f it, g it)) } := by
  induction l generalizing c with
  | nil => simp
  | cons a l ih =>
    rw [List.foldl_cons, ih]
    simp [MDCache.send_message]

theorem inode_lock_wait_view (c : MDCache) (q : CInodePtr) (c1 : MDCache)
    (h : inode_lock_wait c q = some c1) (p : CInodePtr) :
    sync_view (c1.inodes p) = sync_view (c.inodes p) ∧
    (c1.inodes p).cached_by = (c.inodes p).cached_by ∧
    (c1.inodes p).dist_state.syncbyauth = (c.inodes p).dist_state.syncbyauth := by
  unfold inode_lock_wait at h
  dsimp only at h
  split_ifs at h
  simp only [Option.some.injEq] at h
  subst h
  by_cases hp : p = q <;> simp [hp, sync_view, CInode.get]

theorem read_hard_try_view (c : MDCache) (q : CInodePtr) (m : Option Message) (b : Bool)
    (c1 : MDCache) (h : read_hard_try c q m = some (b, c1)) (p : CInodePtr) :
    sync_view (c1.inodes p) = sync_view (c.inodes p) := by
  unfold read_hard_try at h
  dsimp only at h
  split_ifs at h
  · simp only [Option.some.injEq, Prod.mk.injEq] at h
    rw [← h.2]
  · split at h
    · simp at h
    · rename_i c2 hw
      simp only [Option.some.injEq, Prod.mk.injEq] at h
      rw [← h.2, (inode_lock_wait_view _ _ _ hw p).1]
      by_cases hp : p = q <;> simp [hp, sync_view, CInode.add_waiter]
  · simp only [Option.some.injEq, Prod.mk.injEq] at h
    rw [← h.2]
    by_cases hp : p = q <;> simp [hp, sync_view, CInode.add_waiter]
  · simp only [Option.some.injEq, Prod.mk.injEq] at h
    rw [← h.2]

theorem sync_wait_view (c : MDCache) (q : CInodePtr) (c1 : MDCache)
    (h : sync_wait c q = some c1) (p : CInodePtr) :
    sync_view (c1.inodes p) = sync_view (c.inodes p) := by
  unfold sync_wait at h
  dsimp only at h
  split_ifs at h <;> simp only [Option.some.injEq] at h <;> subst h <;>
    by_cases hp : p = q <;> simp [hp, sync_view, CInode.get]

theorem sync_release_view (c : MDCache) (q : CInodePtr) (c1 : MDCache)
    (h : sync_release c q = some c1) (p : CInodePtr) :
    sync_view (c1.inodes p) = sync_view (c.inodes p) := by
  unfold sync_release at h
  dsimp only at h
  split_ifs at h
  simp only [Option.some.injEq] at h
  subst h
  rw [MDCache.foldl_send_inodes]
  by_cases hp : p = q <;> simp [hp, sync_view, CInode.auth_unpin]

theorem inode_sync_ack_view (c : MDCache) (q : CInodePtr) (m : Option MInodeSyncStart)
    (w : Bool) (c1 : MDCache) (h : inode_sync_ack c q m w = some c1) (p : CInodePtr) :
    sync_view (c1.inodes p) = sync_view (c.inodes p) := by
  unfold inode_sync_ack at h
  dsimp only at h
  cases m with
  | none => simp at h
  | some m =>
    simp only [Option.some.injEq] at h
    subst h
    by_cases hp : p = q <;> simp [hp, sync_view]

theorem sync_start_inv (c : MDCache) (q : CInodePtr) (c1 : MDCache)
    (h : sync_start c q = some c1)
    (hc : (c.inodes q).cached_by ≠ [] ∨ (c.inodes q).dist_state.syncbyauth = true)
    (p : CInodePtr) (hi : sync_inv c p) : sync_inv c1 p := by
  unfold sync_start at h
  dsimp only at h
  split_ifs at h with h1 h2 h3
  simp only [Option.some.injEq] at h
  subst h
  have hsa : (c.inodes q).dist_state.syncbyauth = false := by
    simp only [CInode.is_sync, Bool.or_eq_true, not_or, Bool.not_eq_true] at h3
    exact h3.2
  have hcb : (c.inodes q).cached_by ≠ [] := by
    rcases hc with hc | hc
    · exact hc
    · rw [hsa] at hc
      simp at hc
  unfold sync_inv
  rw [MDCache.foldl_send_inodes]
  by_cases hp : p = q
  · subst hp
    have ha : (c.inodes p).auth = true := by
      cases hx : (c.inodes p).auth
      · simp [hx] at h1
      · rfl
    simp [CInode.get, CInode.auth_pin, hcb, ha]
  · simpa [hp] using hi

theorem sync_inv_of_view {c c1 : MDCache} {p : CInodePtr}
    (h : sync_view (c1.inodes p) = sync_view (c.inodes p)) (hi : sync_inv c p) :
    sync_inv c1 p := by
  simp only [sync_view, Prod.mk.injEq] at h
  unfold sync_inv at hi ⊢
  rw [h.1, h.2.1, h.2.2]
  exact hi

theorem set_add_waiter_view (c : MDCache) (q p : CInodePtr) (t : WaitTag) (x : Context) :
    sync_view ((c.set_inode q ((c.inodes q).add_waiter t x)).inodes p) =
      sync_view (c.inodes p) := by
  by_cases hp : p = q <;> simp [hp, sync_view, CInode.add_waiter]

theorem read_soft_start_wait_inv (c : MDCache) (q : CInodePtr) (m : Message) (b : Bool)
    (c1 : MDCache) (h : read_soft_start_wait c q m = some (b, c1))
    (hc : (c.inodes q).cached_by ≠ [] ∨ (c.inodes q).dist_state.syncbyauth = true)
    (p : CInodePtr) (hi : sync_inv c p) : sync_inv c1 p := by
  unfold read_soft_start_wait at h
  dsimp only at h
  split_ifs at h
  · simp only [Option.some.injEq, Prod.mk.injEq] at h
    rw [← h.2]
    exact sync_inv_of_view (set_add_waiter_view _ _ _ _ _) hi
  · split at h
    · simp at h
    · rename_i c2 hs
      simp only [Option.some.injEq, Prod.mk.injEq] at h
      rw [← h.2]
      refine sync_start_inv _ _ _ hs ?_ p (sync_inv_of_view (set_add_waiter_view _ _ _ _ _) hi)
      simpa [CInode.add_waiter] using hc
  · simp only [Option.some.injEq, Prod.mk.injEq] at h
    rw [← h.2]
    exact sync_inv_of_view (set_add_waiter_view _ _ _ _ _) hi
  · split at h
    · simp at h
    · rename_i c2 hs
      simp only [Option.some.injEq, Prod.mk.injEq] at h
      rw [← h.2]
      exact sync_inv_of_view (sync_wait_view _ _ _ hs p)
        (sync_inv_of_view (set_add_waiter_view _ _ _ _ _) hi)
  · simp only [Option.some.injEq, Prod.mk.injEq] at h
    rw [← h.2]
    exact sync_inv_of_view (set_add_waiter_view _ _ _ _ _) hi

theorem read_soft_start_need_sync_inv (c : MDCache) (q : CInodePtr) (m : Message) (b : Bool)
    (c1 : MDCache) (h : read_soft_start_need_sync c q m = some (b, c1))
    (hc : (c.inodes q).cached_by ≠ [] ∨ (c.inodes q).dist_state.syncbyauth = true)
    (p : CInodePtr) (hi : sync_inv c p) : sync_inv c1 p := by
  unfold read_soft_start_need_sync at h
  dsimp only at h
  split_ifs at h <;> exact read_soft_start_wait_inv _ _ _ _ _ h hc p hi

theorem write_soft_start_wait_inv (c : MDCache) (q : CInodePtr) (m : Message) (b : Bool)
    (c1 : MDCache) (h : write_soft_start_wait c q m = some (b, c1))
    (hc : (c.inodes q).cached_by ≠ [] ∨ (c.inodes q).dist_state.syncbyauth = true)
    (p : CInodePtr) (hi : sync_inv c p) : sync_inv c1 p := by
  unfold write_soft_start_wait at h
  dsimp only at h
  split_ifs at h
  · simp only [Option.some.injEq, Prod.mk.injEq] at h
    rw [← h.2]
    exact sync_inv_of_view (set_add_waiter_view _ _ _ _ _) hi
  · split at h
    · simp at h
    · rename_i c2 hs
      simp only [Option.some.injEq, Prod.mk.injEq] at h
      rw [← h.2]
      refine sync_start_inv _ _ _ hs ?_ p (sync_inv_of_view (set_add_waiter_view _ _ _ _ _) hi)
      simpa [CInode.add_waiter] using hc
  · simp only [Option.some.injEq, Prod.mk.injEq] at h
    rw [← h.2]
    exact sync_inv_of_view (set_add_waiter_view _ _ _ _ _) hi
  · split at h
    · simp at h
    · rename_i c2 hs
      simp only [Option.some.injEq, Prod.mk.injEq] at h
      rw [← h.2]
      exact sync_inv_of_view (sync_wait_view _ _ _ hs p)
        (sync_inv_of_view (set_add_waiter_view _ _ _ _ _) hi)
  · simp only [Option.some.injEq, Prod.mk.injEq] at h
    rw [← h.2]
    exact sync_inv_of_view (set_add_waiter_view _ _ _ _ _) hi

theorem write_soft_start_need_sync_inv (c : MDCache) (q : CInodePtr) (m : Message) (b : Bool)
    (c1 : MDCache) (h : write_soft_start_need_sync c q m = some (b, c1))
    (hc : (c.inodes q).cached_by ≠ [] ∨ (c.inodes q).dist_state.syncbyauth = true)
    (p : CInodePtr) (hi : sync_inv c p) : sync_inv c1 p := by
  unfold write_soft_start_need_sync at h
  dsimp only at h
  split_ifs at h <;> exact write_soft_start_wait_inv _ _ _ _ _ h hc p hi

theorem cached_by_ne_nil_of_anyone {i : CInode} (h : ¬ (!i.is_cached_by_anyone) = true) :
    i.cached_by ≠ [] := by
  intro e
  simp [CInode.is_cached_by_anyone, e] at h

theorem read_soft_start_inv (c : MDCache) (q : CInodePtr) (m : Message) (b : Bool)
    (c1 : MDCache) (h : read_soft_start c q m = some (b, c1))
    (p : CInodePtr) (hi : sync_inv c p) : sync_inv c1 p := by
  unfold read_soft_start at h
  cases hr : read_hard_try c q (some m) with
  | none => simp [hr] at h
  | some r =>
    obtain ⟨b2, c2⟩ := r
    cases b2
    · simp only [hr, Option.some.injEq, Prod.mk.injEq] at h
      rw [← h.2]
      exact sync_inv_of_view (read_hard_try_view _ _ _ _ _ hr p) hi
    · obtain ⟨rfl, _⟩ := read_hard_try_true _ _ _ _ hr
      simp only [hr] at h
      split_ifs at h with h1 h2 h3 h4 h5 h6
      · simp only [Option.some.injEq, Prod.mk.injEq] at h
        rw [← h.2]
        exact sync_inv_of_view (set_add_waiter_view _ _ _ _ _) hi
      · simp only [Option.some.injEq, Prod.mk.injEq] at h
        rw [← h.2]
        exact hi
      · simp only [Option.some.injEq, Prod.mk.injEq] at h
        rw [← h.2]
        exact hi
      · simp only [Option.some.injEq, Prod.mk.injEq] at h
        rw [← h.2]
        exact hi
      · exact read_soft_start_need_sync_inv _ _ _ _ _ h
          (Or.inl (cached_by_ne_nil_of_anyone h6)) p hi
      · simp only [Option.some.injEq, Prod.mk.injEq] at h
        rw [← h.2]
        exact hi
      · rename_i h7
        exact read_soft_start_need_sync_inv _ _ _ _ _ h (Or.inr h7) p hi
      · simp only [Option.some.injEq, Prod.mk.injEq] at h
        rw [← h.2]
        exact hi

theorem write_soft_start_inv (c : MDCache) (q : CInodePtr) (m : Message) (b : Bool)
    (c1 : MDCache) (h : write_soft_start c q m = some (b, c1))
    (p : CInodePtr) (hi : sync_inv c p) : sync_inv c1 p := by
  unfold write_soft_start at h
  cases hr : read_hard_try c q (some m) with
  | none => simp [hr] at h
  | some r =>
    obtain ⟨b2, c2⟩ := r
    cases b2
    · simp only [hr, Option.some.injEq, Prod.mk.injEq] at h
      rw [← h.2]
      exact sync_inv_of_view (read_hard_try_view _ _ _ _ _ hr p) hi
    · obtain ⟨rfl, _⟩ := read_hard_try_true _ _ _ _ hr
      simp only [hr] at h
      split_ifs at h with h1 h2 h3 h4 h5 h6 h7
      · simp only [Option.some.injEq, Prod.mk.injEq] at h
        rw [← h.2]
        exact sync_inv_of_view (set_add_waiter_view _ _ _ _ _) hi
      · exact write_soft_start_need_sync_inv _ _ _ _ _ h (Or.inr (by assumption)) p hi
      · simp only [Option.some.injEq, Prod.mk.injEq] at h
        rw [← h.2]
        exact hi
      · simp only [Option.some.injEq, Prod.mk.injEq] at h
        rw [← h.2]
        exact hi
      · simp only [Option.some.injEq, Prod.mk.injEq] at h
        rw [← h.2]
        exact hi
      · simp only [Option.some.injEq, Prod.mk.injEq] at h
        rw [← h.2]
        exact hi
      · exact write_soft_start_need_sync_inv _ _ _ _ _ h
          (Or.inl (cached_by_ne_nil_of_anyone (by assumption))) p hi
      · simp only [Option.some.injEq, Prod.mk.injEq] at h
        rw [← h.2]
        exact hi

theorem sync_ack_noted_eq (i : CInode) (m : MInodeSyncAck) :
    sync_ack_noted i m =
      { i with
        sync_waiting_for_ack := i.sync_waiting_for_ack.erase (MSG_ADDR_NUM m.source)
        cached_by := if m.did_have then i.cached_by
          else i.cached_by.erase (MSG_ADDR_NUM m.source)
        sync_replicawantback := i.sync_replicawantback || m.replica_wantsback } := by
  unfold sync_ack_noted
  cases m.did_have <;> cases m.replica_wantsback <;> simp [CInode.cached_by_remove]

theorem sync_release_eq (c : MDCache) (q : CInodePtr)
    (hs : (c.inodes q).dist_state.syncbyme = true) (ha : (c.inodes q).auth = true) :
    sync_release c q = some
      { c.set_inode q { (c.inodes q).auth_unpin with
          dist_state := { (c.inodes q).dist_state with syncbyme := false } } with
        sent := c.sent ++ (c.inodes q).cached_by.map
          (fun it => (Message.MInodeSyncRelease (c.inodes q).ino, msg_addr_t.MDS it)) } := by
  unfold sync_release
  simp only [hs, ha, Bool.not_true, Bool.false_eq_true, if_false, MDCache.foldl_send_eq]
  rfl

theorem sync_ack_last_eq (c : MDCache) (q : CInodePtr) (i3 : CInode) :
    sync_ack_last c q i3 =
      if spec_sync_kept c i3.freezing i3.sync_replicawantback i3.dist_state.softasync = true
      then
        some { c.set_inode q
            { i3 with
              dist_state := { i3.dist_state with presync := false, syncbyme := true }
              ref_set := i3.ref_set.erase .CINODE_PIN_PRESYNC
              waiting := List.filter (fun w => decide (w.1 ≠ WaitTag.CINODE_WAIT_SYNC))
                i3.waiting } with
          finished := c.finished ++
            ((List.filter (fun w => decide (w.1 = WaitTag.CINODE_WAIT_SYNC)) i3.waiting).map
              (fun w => w.2)).map (fun w => (w, (0 : Int))) }
      else
        sync_release { c.set_inode q
            { i3 with
              dist_state := { i3.dist_state with presync := false, syncbyme := true }
              ref_set := i3.ref_set.erase .CINODE_PIN_PRESYNC
              waiting := List.filter (fun w => decide (w.1 ≠ WaitTag.CINODE_WAIT_SYNC))
                i3.waiting } with
          finished := c.finished ++
            ((List.filter (fun w => decide (w.1 = WaitTag.CINODE_WAIT_SYNC)) i3.waiting).map
              (fun w => w.2)).map (fun w => (w, (0 : Int))) } q := by
  unfold sync_ack_last spec_sync_kept
  simp only [CInode.take_waiting, CInode.put, MDCache.set_inode]
  cases hf : i3.freezing <;> cases hw : i3.sync_replicawantback <;>
    cases hsa : i3.dist_state.softasync <;>
    cases hn : c.mdcache_sticky_sync_normal <;>
    cases hso : c.mdcache_sticky_sync_softasync <;>
    simp [hf, hw, hsa, hn, hso]

/-- The effect of the branch `yay!` on an authoritative inode. -/
theorem sync_ack_last_spec (c : MDCache) (q : CInodePtr) (i3 : CInode) (ha : i3.auth = true) :
    ∃ c1, sync_ack_last c q i3 = some c1 ∧
      (∀ p, p ≠ q → c1.inodes p = c.inodes p) ∧
      c1.inode_map = c.inode_map ∧
      c1.mdcache_sticky_sync_normal = c.mdcache_sticky_sync_normal ∧
      c1.mdcache_sticky_sync_softasync = c.mdcache_sticky_sync_softasync ∧
      (c1.inodes q).auth = true ∧
      (c1.inodes q).sync_replicawantback = i3.sync_replicawantback ∧
      (c1.inodes q).sync_waiting_for_ack = i3.sync_waiting_for_ack ∧
      (c1.inodes q).cached_by = i3.cached_by ∧
      (c1.inodes q).dist_state.presync = false ∧
      (c1.inodes q).ref_set = i3.ref_set.erase .CINODE_PIN_PRESYNC ∧
      (c1.inodes q).waiting =
        List.filter (fun w => decide (w.1 ≠ WaitTag.CINODE_WAIT_SYNC)) i3.waiting ∧
      c1.finished = c.finished ++
        ((List.filter (fun w => decide (w.1 = WaitTag.CINODE_WAIT_SYNC)) i3.waiting).map
          (fun w => (w.2, (0 : Int)))) ∧
      (c1.inodes q).dist_state.syncbyme =
        spec_sync_kept c i3.freezing i3.sync_replicawantback i3.dist_state.softasync ∧
      (c1.inodes q).auth_pins =
        (if spec_sync_kept c i3.freezing i3.sync_replicawantback i3.dist_state.softasync = true
         then i3.auth_pins else i3.auth_pins - 1) ∧
      c1.sent = c.sent ++
        (if spec_sync_kept c i3.freezing i3.sync_replicawantback i3.dist_state.softasync = true
         then [] else i3.cached_by.map
          (fun it => (Message.MInodeSyncRelease i3.ino, msg_addr_t.MDS it))) := by
  rw [sync_ack_last_eq]
  cases hk : spec_sync_kept c i3.freezing i3.sync_replicawantback i3.dist_state.softasync
  · rw [if_neg (by simp), sync_release_eq _ _ (by simp) (by simpa using ha)]
    refine ⟨_, rfl, ?_⟩
    simp only [MDCache.set_inode, CInode.auth_unpin]
    refine ⟨fun p hp => by simp [hp], ?_⟩
    simp [ha, List.map_map, Function.comp_def]
  · rw [if_pos rfl]
    refine ⟨_, rfl, ?_⟩
    simp only [MDCache.set_inode]
    refine ⟨fun p hp => by simp [hp], ?_⟩
    simp [ha, List.map_map, Function.comp_def]

/-- The branch of `handle_inode_sync_ack` for an ack from an MDS, once its assertions hold. -/
theorem handle_inode_sync_ack_mds (c : MDCache) (m : MInodeSyncAck) (q : CInodePtr)
    (hg : c.get_inode m.ino = some q) (hcl : MSG_ADDR_ISCLIENT m.source = false)
    (hauth : (c.inodes q).auth = true) (hpre : (c.inodes q).dist_state.presync = true) :
    handle_inode_sync_ack c m =
      if (sync_ack_noted (c.inodes q) m).sync_waiting_for_ack = [] then
        sync_ack_last c q (sync_ack_noted (c.inodes q) m)
      else some (c.set_inode q (sync_ack_noted (c.inodes q) m)) := by
  unfold handle_inode_sync_ack
  simp only [hg, hcl, hauth, hpre, Bool.false_eq_true, if_false, Bool.not_true, ne_eq,
    List.length_eq_zero, ite_not]

theorem handle_inode_sync_ack_inv (c : MDCache) (m : MInodeSyncAck) (c1 : MDCache)
    (h : handle_inode_sync_ack c m = some c1)
    (p : CInodePtr) (hi : sync_inv c p) : sync_inv c1 p := by
  cases hg : c.get_inode m.ino with
  | none => simp [handle_inode_sync_ack, hg] at h
  | some q =>
    cases hcl : MSG_ADDR_ISCLIENT m.source
    · cases hauth : (c.inodes q).auth
      · simp [handle_inode_sync_ack, hg, hcl, hauth] at h
      · cases hpre : (c.inodes q).dist_state.presync
        · simp [handle_inode_sync_ack, hg, hcl, hauth, hpre] at h
        · rw [handle_inode_sync_ack_mds c m q hg hcl hauth hpre] at h
          have hna : (sync_ack_noted (c.inodes q) m).auth = true := by
            rw [sync_ack_noted_eq]
            exact hauth
          split_ifs at h with hlast
          · obtain ⟨c2, e2, f1, _, _, _, g1, _, g3, _, g5, _⟩ :=
              sync_ack_last_spec c q (sync_ack_noted (c.inodes q) m) hna
            rw [e2] at h
            simp only [Option.some.injEq] at h
            subst h
            by_cases hp : p = q
            · subst hp
              unfold sync_inv
              rw [g5, g3, hlast]
              simp
            · unfold sync_inv at hi ⊢
              rw [f1 p hp]
              exact hi
          · simp only [Option.some.injEq] at h
            subst h
            by_cases hp : p = q
            · subst hp
              unfold sync_inv
              simp only [MDCache.set_inode_inodes, if_true]
              refine ⟨⟨fun _ => hlast, fun _ => ?_⟩, fun _ => hna⟩
              rw [sync_ack_noted_eq]
              exact hpre
            · unfold sync_inv at hi ⊢
              simpa [hp] using hi
    · unfold handle_inode_sync_ack at h
      simp only [hg, hcl, if_true] at h
      split_ifs at h
      · split at h
        · simp at h
        · rename_i c2 hs
          simp only [Option.some.injEq] at h
          subst h
          have v := inode_sync_ack_view _ _ _ _ _ hs p
          refine sync_inv_of_view ?_ hi
          by_cases hp : p = q
          · subst hp
            simpa [sync_view] using v
          · simpa [sync_view, hp] using v
      · simp only [Option.some.injEq] at h
        subst h
        refine sync_inv_of_view ?_ hi
        by_cases hp : p = q <;> simp [hp, sync_view]

/-- C7 (the claim fails as stated): `sync_start` of an authoritative inode that no MDS caches,
with PRESYNC clear and no ack awaited, passes its assertions and leaves PRESYNC set although
`sync_waiting_for_ack` is empty. -/
theorem sync_start_alone_presync :
    ((cache_auth_alone.inodes 1).dist_state.presync = false ∧
      (cache_auth_alone.inodes 1).sync_waiting_for_ack = []) ∧
    (sync_start cache_auth_alone 1).map
      (fun c => ((c.inodes 1).dist_state.presync, (c.inodes 1).sync_waiting_for_ack)) =
      some (true, []) := by
  decide

/-- C7 (amended): in every cache reachable from one where the inode `p` has PRESYNC clear and
an empty `sync_waiting_for_ack`, by `read_soft_start`, `write_soft_start`, `sync_start` of an
inode that some MDS caches, `handle_inode_sync_ack` and `sync_release`, the inode `p` has
PRESYNC set if and only if `sync_waiting_for_ack` is non-empty, and PRESYNC implies that the
inode is authoritative. -/
theorem sync_reachable_inv (c0 c : MDCache) (p : CInodePtr)
    (hpre : (c0.inodes p).dist_state.presync = false)
    (hwait : (c0.inodes p).sync_waiting_for_ack = [])
    (hreach : sync_reachable c0 c) :
    ((c.inodes p).dist_state.presync = true ↔ (c.inodes p).sync_waiting_for_ack ≠ []) ∧
    ((c.inodes p).dist_state.presync = true → (c.inodes p).auth = true) := by
  have h0 : sync_inv c0 p := by
    unfold sync_inv
    simp [hpre, hwait]
  suffices hs : sync_inv c p from hs
  induction hreach with
  | start => exact h0
  | step c c1 q op _ hguard hrun ih =>
    cases op with
    | read_soft_start m =>
      simp only [SyncOp.run, Option.map_eq_some'] at hrun
      obtain ⟨⟨b, c2⟩, hr, rfl⟩ := hrun
      exact read_soft_start_inv _ _ _ _ _ hr p ih
    | write_soft_start m =>
      simp only [SyncOp.run, Option.map_eq_some'] at hrun
      obtain ⟨⟨b, c2⟩, hr, rfl⟩ := hrun
      exact write_soft_start_inv _ _ _ _ _ hr p ih
    | sync_start =>
      refine sync_start_inv _ _ _ hrun (Or.inl ?_) p ih
      have := hguard rfl
      intro e
      simp [CInode.is_cached_by_anyone, e] at this
    | handle_inode_sync_ack m => exact handle_inode_sync_ack_inv _ _ _ hrun p ih
    | sync_release => exact sync_inv_of_view (sync_release_view _ _ _ hrun p) ih

/-- C7 (amended), at the cache reached by `sync_start` of an inode that two MDSs cache. -/
theorem sync_reachable_inv_witness :
    ((cache_presync.inodes 1).dist_state.presync = true ↔
      (cache_presync.inodes 1).sync_waiting_for_ack ≠ []) ∧
    ((cache_presync.inodes 1).dist_state.presync = true →
      (cache_presync.inodes 1).auth = true) :=
  sync_reachable_inv cache_auth_shared cache_presync 1 (by decide) (by decide)
    (sync_reachable.step cache_auth_shared cache_presync 1 .sync_start sync_reachable.start
      (by decide) (by rfl))

theorem sync_start_facts (c0 : MDCache) (p : CInodePtr) (cs : MDCache)
    (h : sync_start c0 p = some cs) :
    cs.inode_map = c0.inode_map ∧ (cs.inodes p).auth = true ∧
      (cs.inodes p).sync_replicawantback = false := by
  unfold sync_start at h
  dsimp only at h
  split_ifs at h with h1
  simp only [Option.some.injEq] at h
  subst h
  have ha : (c0.inodes p).auth = true := by
    cases hx : (c0.inodes p).auth
    · simp [hx] at h1
    · rfl
  rw [MDCache.foldl_send_eq]
  simp [MDCache.set_inode, CInode.get, CInode.auth_pin, ha]

theorem handle_inode_sync_ack_step (c : MDCache) (a : MInodeSyncAck) (c1 : MDCache)
    (p : CInodePtr) (h : handle_inode_sync_ack c a = some c1)
    (hg : c.get_inode a.ino = some p) (hcl : MSG_ADDR_ISCLIENT a.source = false) :
    c1.inode_map = c.inode_map ∧ (c1.inodes p).auth = (c.inodes p).auth ∧
      (c1.inodes p).sync_replicawantback =
        ((c.inodes p).sync_replicawantback || a.replica_wantsback) := by
  cases hauth : (c.inodes p).auth
  · simp [handle_inode_sync_ack, hg, hcl, hauth] at h
  · cases hpre : (c.inodes p).dist_state.presync
    · simp [handle_inode_sync_ack, hg, hcl, hauth, hpre] at h
    · rw [handle_inode_sync_ack_mds c a p hg hcl hauth hpre] at h
      have hna : (sync_ack_noted (c.inodes p) a).auth = true := by
        rw [sync_ack_noted_eq]
        exact hauth
      split_ifs at h with hlast
      · obtain ⟨c2, e2, _, f2, _, _, f5, f6, _⟩ :=
          sync_ack_last_spec c p (sync_ack_noted (c.inodes p) a) hna
        rw [e2] at h
        simp only [Option.some.injEq] at h
        subst h
        refine ⟨f2, f5, ?_⟩
        rw [f6, sync_ack_noted_eq]
      · simp only [Option.some.injEq] at h
        subst h
        refine ⟨rfl, ?_, ?_⟩
        · simpa using hna
        · simp [sync_ack_noted_eq]

theorem handle_inode_sync_acks_steps (p : CInodePtr) :
    ∀ (acks : List MInodeSyncAck) (cs c : MDCache),
      handle_inode_sync_acks cs acks = some c →
      (∀ a ∈ acks, cs.get_inode a.ino = some p ∧ MSG_ADDR_ISCLIENT a.source = false) →
      c.inode_map = cs.inode_map ∧ (c.inodes p).auth = (cs.inodes p).auth ∧
        (c.inodes p).sync_replicawantback =
          ((cs.inodes p).sync_replicawantback || acks.any (fun a => a.replica_wantsback)) := by
  intro acks
  induction acks with
  | nil =>
    intro cs c h _
    simp only [handle_inode_sync_acks, Option.some.injEq] at h
    subst h
    simp
  | cons a acks ih =>
    intro cs c h hfor
    simp only [handle_inode_sync_acks] at h
    cases h1 : handle_inode_sync_ack cs a with
    | none => simp [h1] at h
    | some c1 =>
      simp only [h1] at h
      obtain ⟨hga, hcla⟩ := hfor a (List.mem_cons_self _ _)
      obtain ⟨s1, s2, s3⟩ := handle_inode_sync_ack_step cs a c1 p h1 hga hcla
      have hfor1 : ∀ b ∈ acks,
          c1.get_inode b.ino = some p ∧ MSG_ADDR_ISCLIENT b.source = false := by
        intro b hb
        have := hfor b (List.mem_cons_of_mem _ hb)
        simpa [MDCache.get_inode, s1] using this
      obtain ⟨t1, t2, t3⟩ := ih c1 c h hfor1
      refine ⟨t1.trans s1, t2.trans s2, ?_⟩
      rw [t3, s3]
      simp [Bool.or_assoc]

/-- C8: when the authority handles the SyncAck that empties `sync_waiting_for_ack` (the last
ack `m` of the round that `sync_start` opened and in which the acks `earlier` were handled), it
clears PRESYNC, drops PIN_PRESYNC and fires all WAIT_SYNC waiters; after the handler SYNCBYME is
set if and only if the inode is not freezing, no ack of the round carried wantback and the
sticky option of the regime of the inode is on; otherwise `sync_release` has run within the
handler: SYNCBYME is clear, one auth-pin is dropped and one SyncRelease is sent per member of
`cached_by`. -/
theorem sync_round_last_ack (c0 cs c : MDCache) (p : CInodePtr)
    (earlier : List MInodeSyncAck) (m : MInodeSyncAck)
    (hstart : sync_start c0 p = some cs)
    (hearlier : handle_inode_sync_acks cs earlier = some c)
    (hfor : ∀ a ∈ earlier ++ [m],
      c0.get_inode a.ino = some p ∧ MSG_ADDR_ISCLIENT a.source = false)
    (hopen : (c.inodes p).dist_state.presync = true)
    (hlast : (c.inodes p).sync_waiting_for_ack.erase (MSG_ADDR_NUM m.source) = []) :
    ∃ c1, handle_inode_sync_ack c m = some c1 ∧
      (c1.inodes p).dist_state.presync = false ∧
      (c1.inodes p).ref_set = (c.inodes p).ref_set.erase .CINODE_PIN_PRESYNC ∧
      (c1.inodes p).waiting =
        List.filter (fun w => decide (w.1 ≠ WaitTag.CINODE_WAIT_SYNC)) (c.inodes p).waiting ∧
      c1.finished = c.finished ++
        ((List.filter (fun w => decide (w.1 = WaitTag.CINODE_WAIT_SYNC))
          (c.inodes p).waiting).map (fun w => (w.2, (0 : Int)))) ∧
      (c1.inodes p).dist_state.syncbyme =
        spec_sync_kept c (c.inodes p).freezing
          ((earlier ++ [m]).any (fun a => a.replica_wantsback))
          (c.inodes p).dist_state.softasync ∧
      (c1.inodes p).auth_pins =
        (if spec_sync_kept c (c.inodes p).freezing
            ((earlier ++ [m]).any (fun a => a.replica_wantsback))
            (c.inodes p).dist_state.softasync = true
         then (c.inodes p).auth_pins else (c.inodes p).auth_pins - 1) ∧
      c1.sent = c.sent ++
        (if spec_sync_kept c (c.inodes p).freezing
            ((earlier ++ [m]).any (fun a => a.replica_wantsback))
            (c.inodes p).dist_state.softasync = true
         then []
         else (if m.did_have then (c.inodes p).cached_by
               else (c.inodes p).cached_by.erase (MSG_ADDR_NUM m.source)).map
          (fun it => (Message.MInodeSyncRelease (c.inodes p).ino, msg_addr_t.MDS it))) := by
  obtain ⟨s1, s2, s3⟩ := sync_start_facts c0 p cs hstart
  have hfor1 : ∀ a ∈ earlier,
      cs.get_inode a.ino = some p ∧ MSG_ADDR_ISCLIENT a.source = false := by
    intro a ha
    have := hfor a (List.mem_append_left _ ha)
    simpa [MDCache.get_inode, s1] using this
  obtain ⟨t1, t2, t3⟩ := handle_inode_sync_acks_steps p earlier cs c hearlier hfor1
  obtain ⟨hgm, hclm⟩ := hfor m (by simp)
  have hg : c.get_inode m.ino = some p := by
    simpa [MDCache.get_inode, t1, s1] using hgm
  have hauth : (c.inodes p).auth = true := t2.trans s2
  have hflag : (c.inodes p).sync_replicawantback =
      earlier.any (fun a => a.replica_wantsback) := by
    rw [t3, s3, Bool.false_or]
  have hna : (sync_ack_noted (c.inodes p) m).auth = true := by
    rw [sync_ack_noted_eq]
    exact hauth
  have hw : (sync_ack_noted (c.inodes p) m).sync_waiting_for_ack = [] := by
    rw [sync_ack_noted_eq]
    exact hlast
  rw [handle_inode_sync_ack_mds c m p hg hclm hauth hopen, if_pos hw]
  obtain ⟨c2, e2, _, _, _, _, _, _, _, _, f9, f10, f11, f12, f13, f14, f15⟩ :=
    sync_ack_last_spec c p (sync_ack_noted (c.inodes p) m) hna
  have hany : (List.any (earlier ++ [m]) fun a => a.replica_wantsback) =
      ((c.inodes p).sync_replicawantback || m.replica_wantsback) := by
    rw [hflag]
    simp
  refine ⟨c2, e2, f9, ?_, ?_, ?_, ?_, ?_, ?_⟩
  · rw [f10, sync_ack_noted_eq]
  · rw [f11, sync_ack_noted_eq]
  · rw [f12, sync_ack_noted_eq]
  · rw [f13, hany, sync_ack_noted_eq]
  · rw [f14, hany, sync_ack_noted_eq]
  · rw [f15, hany, sync_ack_noted_eq]

/-- C8, at a round of two acks: MDS `1` acks first, then MDS `2`, which did not have the inode
and wants the sync back, so that the sync is released at once. -/
theorem sync_round_last_ack_witness :
    ∃ c1, handle_inode_sync_ack cache_one_ack ack_wantback = some c1 ∧
      (c1.inodes 1).dist_state.presync = false ∧
      (c1.inodes 1).ref_set = (cache_one_ack.inodes 1).ref_set.erase .CINODE_PIN_PRESYNC ∧
      (c1.inodes 1).waiting =
        List.filter (fun w => decide (w.1 ≠ WaitTag.CINODE_WAIT_SYNC))
          (cache_one_ack.inodes 1).waiting ∧
      c1.finished = cache_one_ack.finished ++
        ((List.filter (fun w => decide (w.1 = WaitTag.CINODE_WAIT_SYNC))
          (cache_one_ack.inodes 1).waiting).map (fun w => (w.2, (0 : Int)))) ∧
      (c1.inodes 1).dist_state.syncbyme =
        spec_sync_kept cache_one_ack (cache_one_ack.inodes 1).freezing
          (([ack_had] ++ [ack_wantback]).any
            (fun a => a.replica_wantsback))
          (cache_one_ack.inodes 1).dist_state.softasync ∧
      (c1.inodes 1).auth_pins =
        (if spec_sync_kept cache_one_ack (cache_one_ack.inodes 1).freezing
            (([ack_had] ++ [ack_wantback]).any
              (fun a => a.replica_wantsback))
            (cache_one_ack.inodes 1).dist_state.softasync = true
         then (cache_one_ack.inodes 1).auth_pins else (cache_one_ack.inodes 1).auth_pins - 1) ∧
      c1.sent = cache_one_ack.sent ++
        (if spec_sync_kept cache_one_ack (cache_one_ack.inodes 1).freezing
            (([ack_had] ++ [ack_wantback]).any
              (fun a => a.replica_wantsback))
            (cache_one_ack.inodes 1).dist_state.softasync = true
         then []
         else (if ack_wantback.did_have
               then (cache_one_ack.inodes 1).cached_by
               else (cache_one_ack.inodes 1).cached_by.erase
                 (MSG_ADDR_NUM ack_wantback.source)).map
          (fun it => (Message.MInodeSyncRelease (cache_one_ack.inodes 1).ino,
            msg_addr_t.MDS it))) :=
  sync_round_last_ack cache_auth_shared cache_presync cache_one_ack 1
    [ack_had] ack_wantback
    (by rfl) (by rfl) (by decide) (by decide) (by decide)

/-- C9 (defect of the code): on a replica whose `open_write` holds the client `7` twice,
`handle_inode_sync_start` sends one SyncStart per entry (two to client `7`), parks the request
and leaves SYNCBYAUTH clear; the first SyncAck of client `7` then fails the assertion
`client_wait_for_sync.count(client) == 1`, so no SyncAck is ever sent to the asking MDS. -/
theorem handle_inode_sync_ack_twice_open_aborts :
    (handle_inode_sync_start cache_writers ⟨10, 0⟩).map
        (fun c => (c.sent, (c.inodes 1).pending_sync_request,
          (c.inodes 1).dist_state.syncbyauth)) =
      some ([(.MInodeSyncStart 10 1, .CLIENT 7), (.MInodeSyncStart 10 1, .CLIENT 7)],
        some ⟨10, 0⟩, false) ∧
    ((handle_inode_sync_start cache_writers ⟨10, 0⟩).bind
        (fun c => handle_inode_sync_ack c ack_client)).isNone = true := by
  decide

/-- C10: `handle_inode_sync_start` for an ino that is not in the cache replies with exactly one
`SyncAck(ino, did_have=false)` to the asker and changes nothing else; and on the authority (an
authoritative inode in PRESYNC), handling a SyncAck of an MDS removes the sender from
`sync_waiting_for_ack`, and from `cached_by` too exactly when `did_have` is false. -/
theorem sync_start_missing_and_ack (c : MDCache) (ms : MInodeSyncStart)
    (ca : MDCache) (m : MInodeSyncAck) (p : CInodePtr)
    (hmiss : c.get_inode ms.ino = none)
    (hg : ca.get_inode m.ino = some p) (hcl : MSG_ADDR_ISCLIENT m.source = false)
    (hauth : (ca.inodes p).auth = true) (hpre : (ca.inodes p).dist_state.presync = true) :
    handle_inode_sync_start c ms =
      some { c with sent := c.sent ++ [(.MInodeSyncAck ms.ino false none, .MDS ms.asker)] } ∧
    ∃ c1, handle_inode_sync_ack ca m = some c1 ∧
      (c1.inodes p).sync_waiting_for_ack =
        (ca.inodes p).sync_waiting_for_ack.erase (MSG_ADDR_NUM m.source) ∧
      MSG_ADDR_NUM m.source ∉ (c1.inodes p).sync_waiting_for_ack ∧
      (c1.inodes p).cached_by =
        (if m.did_have then (ca.inodes p).cached_by
         else (ca.inodes p).cached_by.erase (MSG_ADDR_NUM m.source)) ∧
      (m.did_have = false → MSG_ADDR_NUM m.source ∉ (c1.inodes p).cached_by) := by
  constructor
  · simp [handle_inode_sync_start, hmiss, MDCache.send_message]
  · have hna : (sync_ack_noted (ca.inodes p) m).auth = true := by
      rw [sync_ack_noted_eq]
      exact hauth
    have key : ∃ c1, handle_inode_sync_ack ca m = some c1 ∧
        (c1.inodes p).sync_waiting_for_ack =
          (ca.inodes p).sync_waiting_for_ack.erase (MSG_ADDR_NUM m.source) ∧
        (c1.inodes p).cached_by =
          (if m.did_have then (ca.inodes p).cached_by
           else (ca.inodes p).cached_by.erase (MSG_ADDR_NUM m.source)) := by
      rw [handle_inode_sync_ack_mds ca m p hg hcl hauth hpre]
      by_cases hlast : (sync_ack_noted (ca.inodes p) m).sync_waiting_for_ack = []
      · rw [if_pos hlast]
        obtain ⟨c2, e2, _, _, _, _, _, _, f7, f8, _⟩ :=
          sync_ack_last_spec ca p (sync_ack_noted (ca.inodes p) m) hna
        refine ⟨c2, e2, ?_, ?_⟩
        · rw [f7, sync_ack_noted_eq]
        · rw [f8, sync_ack_noted_eq]
      · rw [if_neg hlast]
        refine ⟨_, rfl, ?_, ?_⟩
        · simp [sync_ack_noted_eq]
        · simp [sync_ack_noted_eq]
    obtain ⟨c1, e1, k1, k2⟩ := key
    refine ⟨c1, e1, k1, ?_, k2, ?_⟩
    · rw [k1]
      simp [IntSet.erase]
    · intro hd
      rw [k2, hd]
      simp [IntSet.erase]

/-- C10, at a cache that does not hold the inode `11` and at the authority of the inode `10`,
which awaits the acks of the MDSs `1` and `2`, for an ack of MDS `1` that did not have it. -/
theorem sync_start_missing_and_ack_witness :
    handle_inode_sync_start cache_writers ⟨11, 0⟩ =
      some { cache_writers with
        sent := cache_writers.sent ++ [(.MInodeSyncAck 11 false none, .MDS 0)] } ∧
    ∃ c1, handle_inode_sync_ack cache_presync ack_had_not = some c1 ∧
      (c1.inodes 1).sync_waiting_for_ack =
        (cache_presync.inodes 1).sync_waiting_for_ack.erase
          (MSG_ADDR_NUM ack_had_not.source) ∧
      MSG_ADDR_NUM ack_had_not.source ∉
        (c1.inodes 1).sync_waiting_for_ack ∧
      (c1.inodes 1).cached_by =
        (if ack_had_not.did_have
         then (cache_presync.inodes 1).cached_by
         else (cache_presync.inodes 1).cached_by.erase
           (MSG_ADDR_NUM ack_had_not.source)) ∧
      (ack_had_not.did_have = false →
        MSG_ADDR_NUM ack_had_not.source ∉
          (c1.inodes 1).cached_by) :=
  sync_start_missing_and_ack cache_writers ⟨11, 0⟩ cache_presync ack_had_not 1
    (by decide) (by decide) (by decide) (by decide) (by decide)

/-! ## `handle_inode_sync_release` -/

/-- Sending one message to every client of a list, when the list is not empty. -/
theorem send_to_clients_eq (l : List Int) (f : Int → Message) (c : MDCache) (b : Bool)
    (hb : b = !l.isEmpty) :
    (if b = true then
      some (l.foldl (fun acc it => acc.send_message (f it) (msg_addr_t.CLIENT it)) c)
    else some c) =
      some { c with sent := c.sent ++ l.map (fun it => (f it, msg_addr_t.CLIENT it)) } := by
  subst hb
  cases l with
  | nil => simp
  | cons a l =>
    rw [MDCache.foldl_send_eq]
    simp

/-- The cache `handle_inode_sync_release` leaves for a replica under the sync of its
authority. -/
theorem handle_inode_sync_release_eq (c : MDCache) (m : MInodeSyncRelease) (in_ : CInodePtr)
    (hg : c.get_inode m.ino = some in_) (hs : (c.inodes in_).dist_state.syncbyauth = true)
    (ha : (c.inodes in_).auth = false) :
    handle_inode_sync_release c m =
      some { c with
        inodes := fun q => if q = in_ then
            (if (c.inodes in_).dist_state.waitonunsync then
              { c.inodes in_ with
                dist_state := { (c.inodes in_).dist_state with
                  syncbyauth := false, waitonunsync := false }
                ref_set := (c.inodes in_).ref_set.erase .CINODE_PIN_WAITONUNSYNC
                waiting := (c.inodes in_).waiting.filter
                  (fun w => decide (w.1 ≠ .CINODE_WAIT_UNSYNC)) }
            else { c.inodes in_ with
                dist_state := { (c.inodes in_).dist_state with syncbyauth := false } })
          else c.inodes q
        finished := c.finished ++ (if (c.inodes in_).dist_state.waitonunsync then
            ((c.inodes in_).waiting.filter
              (fun w => decide (w.1 = .CINODE_WAIT_UNSYNC))).map (fun w => (w.2, (0 : Int)))
          else [])
        sent := c.sent ++ (c.inodes in_).open_write.map
          (fun cl => (Message.MInodeSyncRelease (c.inodes in_).ino, msg_addr_t.CLIENT cl)) } := by
  unfold handle_inode_sync_release
  rw [hg]
  dsimp only
  rw [if_neg (by simp [hs]), if_neg (by simp [ha]), send_to_clients_eq]
  on_goal 2 => rfl
  by_cases hw : (c.inodes in_).dist_state.waitonunsync = true
  · rw [if_pos hw, if_pos hw, if_pos hw]
    simp only [CInode.take_waiting, List.map_map]
    rfl
  · rw [if_neg hw, if_neg hw, if_neg hw]
    simp only [List.map_nil, List.append_nil]
    rfl

/-- C11: a release for an inode that is not cached is dropped and the cache is left as it was.
For a cached inode on which SYNCBYAUTH is set only if it is a replica, the handler aborts exactly
when the inode is not flagged SYNCBYAUTH; when it is flagged, the handler returns, SYNCBYAUTH is
cleared, and if WAITONUNSYNC was set it is cleared, the pin WAITONUNSYNC is dropped once and
every waiter on UNSYNC is fired (and no other waiter), while without WAITONUNSYNC pins, waiters
and fired continuations stay as they were; the messages sent are the releases to the clients of
`open_write`, and no other inode, `inode_map` or the LRU changes. -/
theorem handle_inode_sync_release_cases (c : MDCache) (m : MInodeSyncRelease) :
    (c.get_inode m.ino = none → handle_inode_sync_release c m = some c) ∧
    (∀ in_, c.get_inode m.ino = some in_ →
      ((c.inodes in_).dist_state.syncbyauth = true → (c.inodes in_).auth = false) →
      (handle_inode_sync_release c m = none ↔ (c.inodes in_).dist_state.syncbyauth = false) ∧
      ((c.inodes in_).dist_state.syncbyauth = true →
        ∃ c1, handle_inode_sync_release c m = some c1 ∧
          (c1.inodes in_).dist_state.syncbyauth = false ∧
          (c1.inodes in_).dist_state.waitonunsync = false ∧
          ((c.inodes in_).dist_state.waitonunsync = true →
            (c1.inodes in_).ref_set = (c.inodes in_).ref_set.erase .CINODE_PIN_WAITONUNSYNC ∧
            c1.finished = c.finished ++
              ((c.inodes in_).waiting.filter
                (fun w => decide (w.1 = .CINODE_WAIT_UNSYNC))).map (fun w => (w.2, 0)) ∧
            (c1.inodes in_).waiting =
              (c.inodes in_).waiting.filter (fun w => decide (w.1 ≠ .CINODE_WAIT_UNSYNC))) ∧
          ((c.inodes in_).dist_state.waitonunsync = false →
            (c1.inodes in_).ref_set = (c.inodes in_).ref_set ∧ c1.finished = c.finished ∧
            (c1.inodes in_).waiting = (c.inodes in_).waiting) ∧
          c1.sent = c.sent ++ (c.inodes in_).open_write.map
            (fun cl => (Message.MInodeSyncRelease (c.inodes in_).ino, msg_addr_t.CLIENT cl)) ∧
          (∀ q, q ≠ in_ → c1.inodes q = c.inodes q) ∧
          c1.inode_map = c.inode_map ∧ c1.lru = c.lru)) := by
  refine ⟨?_, ?_⟩
  · intro hmiss
    unfold handle_inode_sync_release
    rw [hmiss]
  · intro in_ hg hinv
    have key : (c.inodes in_).dist_state.syncbyauth = true →
        ∃ c1, handle_inode_sync_release c m = some c1 ∧
          (c1.inodes in_).dist_state.syncbyauth = false ∧
          (c1.inodes in_).dist_state.waitonunsync = false ∧
          ((c.inodes in_).dist_state.waitonunsync = true →
            (c1.inodes in_).ref_set = (c.inodes in_).ref_set.erase .CINODE_PIN_WAITONUNSYNC ∧
            c1.finished = c.finished ++
              ((c.inodes in_).waiting.filter
                (fun w => decide (w.1 = .CINODE_WAIT_UNSYNC))).map (fun w => (w.2, 0)) ∧
            (c1.inodes in_).waiting =
              (c.inodes in_).waiting.filter (fun w => decide (w.1 ≠ .CINODE_WAIT_UNSYNC))) ∧
          ((c.inodes in_).dist_state.waitonunsync = false →
            (c1.inodes in_).ref_set = (c.inodes in_).ref_set ∧ c1.finished = c.finished ∧
            (c1.inodes in_).waiting = (c.inodes in_).waiting) ∧
          c1.sent = c.sent ++ (c.inodes in_).open_write.map
            (fun cl => (Message.MInodeSyncRelease (c.inodes in_).ino, msg_addr_t.CLIENT cl)) ∧
          (∀ q, q ≠ in_ → c1.inodes q = c.inodes q) ∧
          c1.inode_map = c.inode_map ∧ c1.lru = c.lru := by
      intro hs
      rw [handle_inode_sync_release_eq c m in_ hg hs (hinv hs)]
      refine ⟨_, rfl, ?_⟩
      cases hw : (c.inodes in_).dist_state.waitonunsync <;>
        simp [hw, CInode.put, CInode.take_waiting, MDCache.set_inode]
      all_goals (intro q hq; simp [hq])
    refine ⟨?_, key⟩
    constructor
    · intro hnone
      cases hs : (c.inodes in_).dist_state.syncbyauth
      · rfl
      · obtain ⟨c1, h1, -⟩ := key hs
        rw [h1] at hnone
        cases hnone
    · intro hs
      unfold handle_inode_sync_release
      rw [hg]
      simp [hs]

/-- C11, witness: the release for the inode number `10` on `cache_replica_synced`, where the
inode is a replica under the sync of its authority with a request waiting for the end of the
sync, and a release for the inode number `11`, which is not cached there. -/
theorem handle_inode_sync_release_cases_witness :
    handle_inode_sync_release cache_replica_synced ⟨11⟩ = some cache_replica_synced ∧
    (handle_inode_sync_release cache_replica_synced ⟨10⟩ = none ↔
      (cache_replica_synced.inodes 1).dist_state.syncbyauth = false) ∧
    ∃ c1, handle_inode_sync_release cache_replica_synced ⟨10⟩ = some c1 ∧
      (c1.inodes 1).dist_state.syncbyauth = false ∧
      (c1.inodes 1).dist_state.waitonunsync = false ∧
      (c1.inodes 1).ref_set = [] ∧
      c1.finished = [(.C_MDS_RetryMessage (some (.request 7)), 0)] ∧
      (c1.inodes 1).waiting = [(.CDIR_WAIT_UNFREEZE, .C_MDS_RetryMessage (some (.request 8)))] :=
  ⟨(handle_inode_sync_release_cases cache_replica_synced ⟨11⟩).1 (by decide),
    ((handle_inode_sync_release_cases cache_replica_synced ⟨10⟩).2 1 (by decide)
      (fun _ => rfl)).1,
    ⟨_, rfl, rfl, rfl, rfl, rfl, rfl⟩⟩

/-! ## Soft operations that need no sync -/

/-- C12: on an inode in the SOFTASYNC regime that is not frozen, not LOCKBYAUTH and not
SYNCBYAUTH, `write_soft_start` returns true on any holder, authority or replica, and leaves the
cache as it was: no message, no waiter, no sync. -/
theorem write_soft_start_softasync (c : MDCache) (p : CInodePtr) (m : Message)
    (hs : (c.inodes p).dist_state.softasync = true) (hf : (c.inodes p).frozen = false)
    (hl : (c.inodes p).dist_state.lockbyauth = false)
    (hy : (c.inodes p).dist_state.syncbyauth = false) :
    write_soft_start c p m = some (true, c) := by
  unfold write_soft_start
  rw [read_hard_try_readable c p _ (Or.inr hl)]
  simp [hs, hf, hy]

/-- C12, witness: a write on the SOFTASYNC replica of `cache_softasync_replica`. -/
theorem write_soft_start_softasync_witness :
    write_soft_start cache_softasync_replica 1 (.request 7) =
      some (true, cache_softasync_replica) :=
  write_soft_start_softasync cache_softasync_replica 1 (.request 7) rfl rfl rfl rfl

/-- C14: on an authoritative inode that is not frozen, holds LOCKBYME and has no SYNCBYAUTH,
`read_soft_start` and `write_soft_start` both return true, whether SOFTASYNC is set or clear,
and leave the cache as it was: no `sync_start`, no message, no waiter. -/
theorem soft_start_lockbyme (c : MDCache) (p : CInodePtr) (m : Message)
    (ha : (c.inodes p).auth = true) (hf : (c.inodes p).frozen = false)
    (hl : (c.inodes p).dist_state.lockbyme = true)
    (hy : (c.inodes p).dist_state.syncbyauth = false) :
    read_soft_start c p m = some (true, c) ∧ write_soft_start c p m = some (true, c) := by
  constructor
  · unfold read_soft_start
    rw [read_hard_try_readable c p _ (Or.inl ha)]
    cases hs : (c.inodes p).dist_state.softasync <;>
      cases hm : (c.inodes p).dist_state.syncbyme <;> simp [hs, hm, ha, hf, hl, hy]
  · unfold write_soft_start
    rw [read_hard_try_readable c p _ (Or.inl ha)]
    cases hs : (c.inodes p).dist_state.softasync <;>
      cases hm : (c.inodes p).dist_state.syncbyme <;> simp [hs, hm, ha, hf, hl, hy]

/-- C14, witness: a read and a write on the locked inode of `cache_locked`. -/
theorem soft_start_lockbyme_witness :
    read_soft_start cache_locked 1 (.request 7) = some (true, cache_locked) ∧
    write_soft_start cache_locked 1 (.request 7) = some (true, cache_locked) :=
  soft_start_lockbyme cache_locked 1 (.request 7) rfl rfl rfl rfl

/-! ## `write_hard_finish` -/

/-- C15: `write_hard_finish` aborts on an inode whose `lock_active_count` is not positive.  On
an inode with a positive count `n` on which LOCKBYME is set only if it is authoritative: if
`n = 1`, LOCKBYME is set and `mdcache_sticky_lock` is off, it releases the lock (the count is
`0`, LOCKBYME is cleared, one auth-pin is dropped and every member of `cached_by` is sent one
`LockRelease`); in every other case it changes the count to `n - 1` and nothing else. -/
theorem write_hard_finish_cases (c : MDCache) (in_ : CInodePtr) :
    ((c.inodes in_).lock_active_count ≤ 0 → write_hard_finish c in_ = none) ∧
    (0 < (c.inodes in_).lock_active_count →
      ((c.inodes in_).dist_state.lockbyme = true → (c.inodes in_).auth = true) →
      write_hard_finish c in_ =
        if (c.inodes in_).lock_active_count = 1 ∧ (c.inodes in_).dist_state.lockbyme = true ∧
            c.mdcache_sticky_lock = false then
          some { c.set_inode in_ { c.inodes in_ with
                lock_active_count := (c.inodes in_).lock_active_count - 1
                auth_pins := (c.inodes in_).auth_pins - 1
                dist_state := { (c.inodes in_).dist_state with lockbyme := false } } with
            sent := c.sent ++ (c.inodes in_).cached_by.map
              (fun it => (Message.MInodeLockRelease (c.inodes in_).ino, msg_addr_t.MDS it)) }
        else some (c.set_inode in_ { c.inodes in_ with
          lock_active_count := (c.inodes in_).lock_active_count - 1 })) := by
  constructor
  · intro hz
    unfold write_hard_finish
    simp [not_lt.mpr hz]
  · intro hc hinv
    unfold write_hard_finish
    simp only [gt_iff_lt, hc, not_true_eq_false, if_false, MDCache.set_inode_inodes, if_true]
    have h1 : (c.inodes in_).lock_active_count - 1 = 0 ↔ (c.inodes in_).lock_active_count = 1 := by
      omega
    by_cases hrel : (c.inodes in_).lock_active_count = 1 ∧
        (c.inodes in_).dist_state.lockbyme = true ∧ c.mdcache_sticky_lock = false
    · obtain ⟨h2, h3, h4⟩ := hrel
      have ha := hinv h3
      simp [inode_lock_release, h2, h3, h4, ha, MDCache.foldl_send_eq, CInode.auth_unpin,
        MDCache.set_inode]
      funext q
      by_cases hq : q = in_ <;> simp [hq]
    · rw [if_neg hrel, if_neg]
      simpa [MDCache.set_inode, h1] using hrel

/-- C15, witness: the end of the only write on the locked inode of `cache_locked`, which
releases the lock, and `write_hard_finish` on the inode object `2`, which has no write in
progress. -/
theorem write_hard_finish_cases_witness :
    write_hard_finish cache_locked 2 = none ∧
    write_hard_finish cache_locked 1 =
      some { cache_locked.set_inode 1 { cache_locked.inodes 1 with
            lock_active_count := 0
            auth_pins := 0
            dist_state := { (cache_locked.inodes 1).dist_state with lockbyme := false } } with
        sent := [(Message.MInodeLockRelease 10, msg_addr_t.MDS 1),
          (Message.MInodeLockRelease 10, msg_addr_t.MDS 2)] } :=
  ⟨(write_hard_finish_cases cache_locked 2).1 (by decide),
    ((write_hard_finish_cases cache_locked 1).2 (by decide) (fun _ => rfl)).trans (by rfl)⟩

/-! ## Inode updates and expires -/

/-- An expire for an inode this MDS does not cache, or is not the authority of, takes the
`forward` exit of `handle_inode_expire`. -/
theorem handle_inode_expire_not_mine (c : MDCache) (m : MInodeExpire)
    (hnot : c.get_inode m.ino = none ∨
      ∃ p, c.get_inode m.ino = some p ∧ c.authority p ≠ c.whoami) :
    handle_inode_expire c m = handle_inode_expire_forward c m := by
  unfold handle_inode_expire
  rcases hnot with h | ⟨p, h, ha⟩
  · rw [h]
  · rw [h]
    simp [ha]

/-- C16: an `MInodeUpdate` for an inode number this MDS does not cache is answered by one
`MInodeExpire(ino, from = self, soft = true)` to the sender of the update, and nothing else of
the cache changes; when the authority of the inode, with that MDS in `cached_by`, handles this
expire, the MDS leaves `cached_by`, and nothing else changes: no other field of the inode, no
other inode, and no message is sent. -/
theorem stale_update_expire (c a : MDCache) (m : MInodeUpdate) (in_ : CInodePtr)
    (hmiss : c.get_inode m.ino = none) (hg : a.get_inode m.ino = some in_)
    (hauth : a.authority in_ = a.whoami) (hcb : c.whoami ∈ (a.inodes in_).cached_by) :
    handle_inode_update c m =
      some { c with sent := c.sent ++
        [(Message.MInodeExpire m.ino c.whoami (some true) none, m.source)] } ∧
    MInodeExpire.of_message (Message.MInodeExpire m.ino c.whoami (some true) none) =
      some ⟨m.ino, c.whoami, true, 0⟩ ∧
    handle_inode_expire a ⟨m.ino, c.whoami, true, 0⟩ =
      some (a.set_inode in_ { a.inodes in_ with
        cached_by := IntSet.erase (a.inodes in_).cached_by c.whoami }) ∧
    ∀ x, x ∈ IntSet.erase (a.inodes in_).cached_by c.whoami ↔
      x ∈ (a.inodes in_).cached_by ∧ x ≠ c.whoami := by
  refine ⟨?_, rfl, ?_, ?_⟩
  · unfold handle_inode_update
    rw [hmiss]
    rfl
  · unfold handle_inode_expire
    simp only [hg, hauth, ne_eq, not_true_eq_false, if_false, hcb]
    rfl
  · intro x
    simp [IntSet.erase]

/-- C16, witness: MDS `2`, which holds nothing, gets an update for the inode number `10` from
MDS `0`; MDS `0` is the authority of that inode in `cache_auth_shared`, where MDS `2` is in
`cached_by`. -/
theorem stale_update_expire_witness :
    handle_inode_update cache_evicted ⟨.MDS 0, 10, 0⟩ =
      some { cache_evicted with sent := cache_evicted.sent ++
        [(Message.MInodeExpire 10 cache_evicted.whoami (some true) none, .MDS 0)] } ∧
    MInodeExpire.of_message (Message.MInodeExpire 10 cache_evicted.whoami (some true) none) =
      some ⟨10, cache_evicted.whoami, true, 0⟩ ∧
    handle_inode_expire cache_auth_shared ⟨10, cache_evicted.whoami, true, 0⟩ =
      some (cache_auth_shared.set_inode 1 { cache_auth_shared.inodes 1 with
        cached_by := IntSet.erase (cache_auth_shared.inodes 1).cached_by cache_evicted.whoami }) ∧
    ∀ x, x ∈ IntSet.erase (cache_auth_shared.inodes 1).cached_by cache_evicted.whoami ↔
      x ∈ (cache_auth_shared.inodes 1).cached_by ∧ x ≠ cache_evicted.whoami :=
  stale_update_expire cache_evicted cache_auth_shared ⟨.MDS 0, 10, 0⟩ 1 (by decide) (by decide)
    (by decide) (by decide)

/-- C17: when the receiver of an `MInodeExpire` does not cache the inode or is not its
authority, and is one of the `N` MDSs of the cluster: a non-soft expire whose hop count is at
most `N` is forwarded, with the hop count incremented by one, to MDS `(self + 1) mod N`, which
changes nothing of the cache but the messages sent and the counter `iupfw`; every other expire,
soft or with more than `N` hops, is dropped, and the cache is left as it was. -/
theorem handle_inode_expire_forwards (c : MDCache) (m : MInodeExpire)
    (hnot : c.get_inode m.ino = none ∨
      ∃ p, c.get_inode m.ino = some p ∧ c.authority p ≠ c.whoami)
    (hself : 0 ≤ c.whoami ∧ c.whoami < c.num_mds) :
    handle_inode_expire c m =
      if m.soft = false ∧ m.hops ≤ c.num_mds then
        some { c with
          sent := c.sent ++ [(Message.MInodeExpire m.ino m.from_ (some false) (some (m.hops + 1)),
            msg_addr_t.MDS ((c.whoami + 1) % c.num_mds))]
          logger := c.logger ++ ["iupfw"] }
      else some c := by
  rw [handle_inode_expire_not_mine c m hnot]
  unfold handle_inode_expire_forward
  have hnext : (if c.whoami + 1 ≥ c.num_mds then 0 else c.whoami + 1) =
      (c.whoami + 1) % c.num_mds := by
    split_ifs with h
    · have : c.whoami + 1 = c.num_mds := by omega
      rw [this, Int.emod_self]
    · rw [Int.emod_eq_of_lt (by omega) (by omega)]
  cases hs : m.soft
  · by_cases hh : m.hops > c.num_mds
    · simp [hh, not_le.mpr hh]
    · simp only [Bool.false_eq_true, if_false, hh, true_and, not_lt.mp hh, if_true, hnext]
      rfl
  · simp

/-- C17, witness: MDS `2` of three, which holds nothing, gets a non-soft expire that has made
one hop. -/
theorem handle_inode_expire_forwards_witness :
    handle_inode_expire cache_evicted ⟨10, 1, false, 1⟩ =
      if (false = false) ∧ (1 : Int) ≤ cache_evicted.num_mds then
        some { cache_evicted with
          sent := cache_evicted.sent ++
            [(Message.MInodeExpire 10 1 (some false) (some (1 + 1)),
              msg_addr_t.MDS ((cache_evicted.whoami + 1) % cache_evicted.num_mds))]
          logger := cache_evicted.logger ++ ["iupfw"] }
      else some cache_evicted :=
  handle_inode_expire_forwards cache_evicted ⟨10, 1, false, 1⟩ (Or.inl (by decide))
    (by decide)

/-- The forwards of a non-soft expire that has made `h` hops, in a cluster of `N` MDSs none of
which can apply it. -/
theorem expire_forwards_from (cluster : Int → MDCache) (N : Nat) (ino : inodeno_t) (from_ : Int)
    (hN : ∀ r, (cluster r).num_mds = N)
    (hno : ∀ r, (cluster r).get_inode ino = none ∨
      ∃ p, (cluster r).get_inode ino = some p ∧ (cluster r).authority p ≠ (cluster r).whoami)
    (fuel : Nat) : ∀ (h : Nat) (r : Int), h ≤ N + 1 → N + 2 ≤ fuel + h →
      expire_forwards cluster fuel r ⟨ino, from_, false, (h : Int)⟩ = N + 1 - h := by
  induction fuel with
  | zero => intro h r h1 h2; omega
  | succ fuel ih =>
    intro h r h1 h2
    unfold expire_forwards
    rw [handle_inode_expire_not_mine _ _ (hno r)]
    unfold handle_inode_expire_forward
    by_cases hh : h ≤ N
    · have hgt : ¬ ((h : Int) > (cluster r).num_mds) := by rw [hN]; omega
      simp only [Bool.false_eq_true, if_false, hgt, MDCache.send_message,
        List.drop_left, MInodeExpire.of_message, Option.getD_some]
      have := ih (h + 1) (if (cluster r).whoami + 1 ≥ (cluster r).num_mds then 0
        else (cluster r).whoami + 1) (by omega) (by omega)
      rw [Nat.cast_add, Nat.cast_one] at this
      rw [this]
      omega
    · have hgt : (h : Int) > (cluster r).num_mds := by rw [hN]; omega
      simp only [Bool.false_eq_true, if_false, hgt, if_true, List.drop_length]
      omega

/-- C18, counterexample: in a cluster of two MDSs that hold nothing, a non-soft expire created
with hop count `0` is forwarded three times before it is dropped, not at most twice. -/
theorem expire_forwards_of_two :
    (∀ r, (cluster_of_two r).num_mds = 2) ∧
    expire_forwards cluster_of_two 10 0 ⟨10, 1, false, 0⟩ = 3 :=
  ⟨fun _ => rfl, by decide⟩

/-- C18, amended: a non-soft `MInodeExpire` created with hop count `0` that no MDS of a cluster
of `N` MDSs can apply is forwarded exactly `N + 1` times in total, once for each of the hop
counts `0, ..., N`, before it is dropped. -/
theorem expire_forwards_total (cluster : Int → MDCache) (N : Nat) (ino : inodeno_t)
    (from_ r : Int) (fuel : Nat) (hN : ∀ r, (cluster r).num_mds = N)
    (hno : ∀ r, (cluster r).get_inode ino = none ∨
      ∃ p, (cluster r).get_inode ino = some p ∧ (cluster r).authority p ≠ (cluster r).whoami)
    (hfuel : N + 2 ≤ fuel) :
    expire_forwards cluster fuel r ⟨ino, from_, false, 0⟩ = N + 1 := by
  have h := expire_forwards_from cluster N ino from_ hN hno fuel 0 r (by omega) (by omega)
  simpa using h

/-- C18, witness: the cluster of two MDSs that hold nothing. -/
theorem expire_forwards_total_witness :
    expire_forwards cluster_of_two 4 0 ⟨10, 1, false, 0⟩ = 2 + 1 :=
  expire_forwards_total cluster_of_two 2 10 1 0 4 (fun _ => rfl) (fun _ => Or.inl rfl)
    (by decide)

/-! ## `write_soft_start` mirrors `read_soft_start` -/

@[simp] theorem MDCache.set_inode_set_inode (c : MDCache) (p : CInodePtr) (a b : CInode) :
    (c.set_inode p a).set_inode p b = c.set_inode p b := by
  unfold MDCache.set_inode
  congr 1
  funext q
  by_cases hq : q = p <;> simp [hq]

@[simp] theorem MDCache.set_inode_inodes_self (c : MDCache) (p : CInodePtr) (a : CInode) :
    (c.set_inode p a).inodes p = a := by
  simp

@[simp] theorem MDCache.flip_softasync_inodes_self (c : MDCache) (p : CInodePtr) :
    (c.flip_softasync p).inodes p = (c.inodes p).flip_softasync := by
  simp [MDCache.flip_softasync]

theorem MDCache.flip_softasync_set_inode (c : MDCache) (p : CInodePtr) (a : CInode) :
    (c.flip_softasync p).set_inode p a = c.set_inode p a := by
  simp [MDCache.flip_softasync]

theorem MDCache.set_inode_flip_softasync (c : MDCache) (p : CInodePtr) (a : CInode) :
    (c.set_inode p a).flip_softasync p = c.set_inode p a.flip_softasync := by
  simp [MDCache.flip_softasync]

theorem MDCache.mirrors_flip (p : CInodePtr) (c : MDCache) :
    MDCache.mirrors p c (c.flip_softasync p) :=
  ⟨c.sent, rfl, rfl⟩

theorem MDCache.mirrors_recall (p : CInodePtr) (c : MDCache) (l1 l2 : List (Message × msg_addr_t))
    (h1 : ∀ x ∈ l1, x.1.is_sync_recall = true) (h2 : ∀ x ∈ l2, x.1.is_sync_recall = true) :
    MDCache.mirrors p { c with sent := c.sent ++ l1 }
      { c.flip_softasync p with sent := c.sent ++ l2 } := by
  refine ⟨c.sent ++ l2, rfl, ?_⟩
  have e1 : l1.filter (fun x => !x.1.is_sync_recall) = [] := by
    rw [List.filter_eq_nil_iff]
    intro x hx
    simp [h1 x hx]
  have e2 : l2.filter (fun x => !x.1.is_sync_recall) = [] := by
    rw [List.filter_eq_nil_iff]
    intro x hx
    simp [h2 x hx]
  simp only [List.filter_append, e1, e2]

/-- The hard-lock check does not look at SOFTASYNC. -/
theorem read_hard_try_flip (c : MDCache) (p : CInodePtr) (m : Option Message) :
    read_hard_try (c.flip_softasync p) p m =
      (read_hard_try c p m).map (fun r => (r.1, r.2.flip_softasync p)) := by
  unfold read_hard_try inode_lock_wait
  cases ha : (c.inodes p).auth <;> cases hl : (c.inodes p).dist_state.lockbyauth <;>
    cases hw : (c.inodes p).dist_state.waitonunlock <;>
    simp [ha, hl, hw, CInode.flip_softasync, CInode.add_waiter, CInode.get,
      MDCache.flip_softasync]

/-- The method `sync_start` does not look at SOFTASYNC. -/
theorem sync_start_flip (c : MDCache) (p : CInodePtr) :
    sync_start (c.flip_softasync p) p = (sync_start c p).map (fun r => r.flip_softasync p) := by
  unfold sync_start
  simp only [MDCache.flip_softasync_inodes_self, MDCache.foldl_send_eq]
  cases ha : (c.inodes p).auth <;> cases hl : (c.inodes p).dist_state.presync <;>
    cases hw : (c.inodes p).dist_state.syncbyme <;>
    cases hy : (c.inodes p).dist_state.syncbyauth <;>
    simp [ha, hl, hw, hy, CInode.flip_softasync, CInode.is_sync, CInode.get, CInode.auth_pin,
      MDCache.flip_softasync, MDCache.set_inode]
  funext q
  by_cases hq : q = p <;> simp [hq]

theorem MDCache.flip_softasync_add_waiter (c : MDCache) (p : CInodePtr) (t : WaitTag)
    (r : Context) :
    (c.flip_softasync p).set_inode p ((c.inodes p).flip_softasync.add_waiter t r) =
      (c.set_inode p ((c.inodes p).add_waiter t r)).flip_softasync p := by
  simp [MDCache.flip_softasync, CInode.flip_softasync, CInode.add_waiter]

theorem MDCache.mirrors_of_eq (p : CInodePtr) (c : MDCache) (X : CInode)
    (s1 s2 : List (Message × msg_addr_t)) (a b : MDCache)
    (ha : a = { c.set_inode p X with sent := s1 })
    (hb : b = { c.set_inode p X.flip_softasync with sent := s2 })
    (hs : s2.filter (fun x => !x.1.is_sync_recall) = s1.filter (fun x => !x.1.is_sync_recall)) :
    MDCache.mirrors p a b := by
  subst ha hb
  refine ⟨s2, ?_, hs⟩
  simp only [MDCache.flip_softasync, MDCache.set_inode, if_true, MDCache.mk.injEq, true_and,
    and_true]
  funext q
  by_cases hq : q = p <;> simp [hq]

/-- The result of `sync_wait` on a replica under the sync of its authority that does not wait
for the end of the sync yet. -/
theorem sync_wait_eq (c : MDCache) (p : CInodePtr) (ha : (c.inodes p).auth = false)
    (hy : (c.inodes p).dist_state.syncbyauth = true)
    (hw : (c.inodes p).dist_state.waitonunsync = false) :
    sync_wait c p = some
      (if ((c.inodes p).dist_state.softasync && c.mdcache_sticky_sync_softasync ||
          !(c.inodes p).dist_state.softasync && c.mdcache_sticky_sync_normal) = true then
        (c.set_inode p ({ c.inodes p with
          dist_state := { (c.inodes p).dist_state with waitonunsync := true } }.get
            .CINODE_PIN_WAITONUNSYNC)).send_message (.MInodeSyncRecall (c.inodes p).ino)
          (.MDS (c.authority p))
      else c.set_inode p ({ c.inodes p with
          dist_state := { (c.inodes p).dist_state with waitonunsync := true } }.get
            .CINODE_PIN_WAITONUNSYNC)) := by
  unfold sync_wait
  dsimp only [CInode.get]
  rw [if_neg (by simp [ha]), if_neg (by simp [hy]), if_neg (by simp [hw])]
  split_ifs <;> rfl

/-- The method `sync_wait` aborts unless the inode is a replica under the sync of its authority
that does not wait for the end of the sync yet. -/
theorem sync_wait_none (c : MDCache) (p : CInodePtr)
    (h : ¬ ((c.inodes p).auth = false ∧ (c.inodes p).dist_state.syncbyauth = true ∧
      (c.inodes p).dist_state.waitonunsync = false)) :
    sync_wait c p = none := by
  unfold sync_wait
  dsimp only
  cases ha : (c.inodes p).auth <;> cases hy : (c.inodes p).dist_state.syncbyauth <;>
    cases hw : (c.inodes p).dist_state.waitonunsync <;> simp_all

/-- The method `sync_wait` looks at SOFTASYNC only to choose the sticky option that decides
whether the recall is sent. -/
theorem sync_wait_mirror (c : MDCache) (p : CInodePtr) :
    (sync_wait c p = none ∧ sync_wait (c.flip_softasync p) p = none) ∨
    ∃ a b, sync_wait c p = some a ∧ sync_wait (c.flip_softasync p) p = some b ∧
      MDCache.mirrors p a b := by
  by_cases h : (c.inodes p).auth = false ∧ (c.inodes p).dist_state.syncbyauth = true ∧
      (c.inodes p).dist_state.waitonunsync = false
  · right
    obtain ⟨ha, hy, hw⟩ := h
    rw [sync_wait_eq c p ha hy hw, sync_wait_eq (c.flip_softasync p) p
      (by simp [CInode.flip_softasync, ha]) (by simp [CInode.flip_softasync, hy])
      (by simp [CInode.flip_softasync, hw])]
    refine ⟨_, _, rfl, rfl, ?_⟩
    simp only [MDCache.flip_softasync_inodes_self, MDCache.flip_softasync_set_inode]
    have hm := MDCache.mirrors_of_eq p c (CInode.get { c.inodes p with
        dist_state := { (c.inodes p).dist_state with waitonunsync := true } }
          .CINODE_PIN_WAITONUNSYNC)
    split_ifs <;>
      exact hm _ _ _ _ (by rfl) (by rfl)
        (by simp [Message.is_sync_recall, MDCache.set_inode, MDCache.send_message])
  · left
    refine ⟨sync_wait_none c p h, sync_wait_none _ p ?_⟩
    simpa [CInode.flip_softasync] using h

@[simp] theorem CInode.flip_softasync_auth (i : CInode) : i.flip_softasync.auth = i.auth := rfl

@[simp] theorem CInode.flip_softasync_frozen (i : CInode) :
    i.flip_softasync.frozen = i.frozen := rfl

@[simp] theorem CInode.flip_softasync_auth_pinnable (i : CInode) :
    i.flip_softasync.auth_pinnable = i.auth_pinnable := rfl

@[simp] theorem CInode.flip_softasync_is_cached_by_anyone (i : CInode) :
    i.flip_softasync.is_cached_by_anyone = i.is_cached_by_anyone := rfl

@[simp] theorem CInode.flip_softasync_softasync (i : CInode) :
    i.flip_softasync.dist_state.softasync = !i.dist_state.softasync := rfl

@[simp] theorem CInode.flip_softasync_syncbyauth (i : CInode) :
    i.flip_softasync.dist_state.syncbyauth = i.dist_state.syncbyauth := rfl

@[simp] theorem CInode.flip_softasync_syncbyme (i : CInode) :
    i.flip_softasync.dist_state.syncbyme = i.dist_state.syncbyme := rfl

@[simp] theorem CInode.flip_softasync_lockbyme (i : CInode) :
    i.flip_softasync.dist_state.lockbyme = i.dist_state.lockbyme := rfl

@[simp] theorem CInode.flip_softasync_presync (i : CInode) :
    i.flip_softasync.dist_state.presync = i.dist_state.presync := rfl

@[simp] theorem CInode.flip_softasync_waitonunsync (i : CInode) :
    i.flip_softasync.dist_state.waitonunsync = i.dist_state.waitonunsync := rfl

theorem soft_start_mirror_flip (p : CInodePtr) (b : Bool) (c : MDCache) :
    soft_start_mirror p (some (b, c)) (some (b, c.flip_softasync p)) :=
  ⟨rfl, MDCache.mirrors_flip p c⟩

theorem read_soft_start_need_sync_eq (c : MDCache) (p : CInodePtr) (m : Message) :
    read_soft_start_need_sync c p m = read_soft_start_wait c p m := by
  unfold read_soft_start_need_sync
  dsimp only
  cases hs : (c.inodes p).dist_state.softasync <;>
    cases hy : (c.inodes p).dist_state.syncbyauth <;>
    simp only [Bool.not_true, Bool.not_false, Bool.and_true, Bool.and_false, Bool.false_and,
      Bool.true_and, Bool.false_eq_true, if_false, if_true, ite_self]

theorem write_soft_start_need_sync_eq (c : MDCache) (p : CInodePtr) (m : Message)
    (h : 5 ≤ c.debug ∨ (c.inodes p).dist_state.softasync = true ∨ (c.inodes p).auth = false) :
    write_soft_start_need_sync c p m = write_soft_start_wait c p m := by
  unfold write_soft_start_need_sync
  dsimp only
  split_ifs with h1 h2 h3
  · rfl
  · rfl
  · exfalso
    simp only [Bool.and_eq_true, Bool.not_eq_true'] at h2
    rcases h with h | h | h
    · exact h3 h
    · rw [h2.1] at h
      exact Bool.false_ne_true h
    · rw [h2.2] at h
      exact Bool.false_ne_true h.symm
  · rfl

theorem write_soft_start_need_sync_aborts (c : MDCache) (p : CInodePtr) (m : Message)
    (hd : c.debug < 5) (hs : (c.inodes p).dist_state.softasync = false)
    (ha : (c.inodes p).auth = true) :
    write_soft_start_need_sync c p m = none := by
  unfold write_soft_start_need_sync
  dsimp only
  rw [hs, ha]
  simp only [Bool.not_true, Bool.not_false, Bool.and_true, Bool.and_false, Bool.false_and,
    Bool.true_and, Bool.false_eq_true, if_false, if_true, not_le.mpr hd]

/-- The statements after the assertions of `write_soft_start` and `read_soft_start` mirror each
other, in the two cases that the chains of tests before the assertions name. -/
theorem soft_start_wait_mirror (c : MDCache) (p : CInodePtr) (m : Message)
    (h : (c.inodes p).dist_state.syncbyauth = true → (c.inodes p).auth = false)
    (hcase : ((c.inodes p).dist_state.softasync = true ∧
        (c.inodes p).dist_state.syncbyauth = true) ∨
      ((c.inodes p).dist_state.softasync = false ∧ (c.inodes p).auth = true)) :
    soft_start_mirror p (write_soft_start_wait c p m)
      (read_soft_start_wait (c.flip_softasync p) p m) := by
  unfold write_soft_start_wait read_soft_start_wait
  dsimp only
  simp only [MDCache.flip_softasync_inodes_self, MDCache.flip_softasync_add_waiter,
    CInode.flip_softasync_auth, CInode.flip_softasync_auth_pinnable,
    CInode.flip_softasync_softasync, CInode.flip_softasync_syncbyauth,
    CInode.flip_softasync_presync, CInode.flip_softasync_waitonunsync, sync_start_flip,
    MDCache.set_inode_inodes_self]
  have hp : ∀ t r, ((c.inodes p).add_waiter t r).dist_state = (c.inodes p).dist_state :=
    fun _ _ => rfl
  simp only [hp]
  cases ha : (c.inodes p).auth <;> cases hy : (c.inodes p).dist_state.syncbyauth <;>
    cases hs : (c.inodes p).dist_state.softasync <;>
    simp only [ha, hy, hs, Bool.not_true, Bool.not_false, Bool.and_true, Bool.and_false,
      Bool.or_false, Bool.false_or, Bool.or_true, Bool.true_or, Bool.and_self, Bool.or_self,
      Bool.false_eq_true, if_false, if_true] <;>
    (try (exfalso; simpa [ha] using h hy)) <;>
    (try (exfalso; simp [ha, hy, hs] at hcase; done)) <;>
    cases hq : (c.inodes p).auth_pinnable <;>
    simp only [Bool.not_true, Bool.not_false, Bool.false_eq_true, if_false, if_true] <;>
    (try exact soft_start_mirror_flip p _ _)
  · cases hw : (c.inodes p).dist_state.waitonunsync <;>
      simp only [Bool.not_true, Bool.not_false, Bool.false_eq_true, if_false, if_true]
    · rcases sync_wait_mirror (c.set_inode p ((c.inodes p).add_waiter .CINODE_WAIT_UNSYNC
        (.C_MDS_RetryMessage (some m)))) p with ⟨h1, h2⟩ | ⟨a, b, h1, h2, hm⟩
      · rw [h1, h2]
        exact True.intro
      · rw [h1, h2]
        exact ⟨rfl, hm⟩
    · exact soft_start_mirror_flip p _ _
  · cases hw : (c.inodes p).dist_state.presync <;>
      simp only [Bool.not_true, Bool.not_false, Bool.false_eq_true, if_false, if_true]
    · cases hss : sync_start (c.set_inode p ((c.inodes p).add_waiter .CINODE_WAIT_SYNC
        (.C_MDS_RetryMessage (some m)))) p
      · exact True.intro
      · exact soft_start_mirror_flip p _ _
    · exact soft_start_mirror_flip p _ _

theorem soft_start_need_sync_mirror (c : MDCache) (p : CInodePtr) (m : Message)
    (hd : 5 ≤ c.debug)
    (h : (c.inodes p).dist_state.syncbyauth = true → (c.inodes p).auth = false)
    (hcase : ((c.inodes p).dist_state.softasync = true ∧
        (c.inodes p).dist_state.syncbyauth = true) ∨
      ((c.inodes p).dist_state.softasync = false ∧ (c.inodes p).auth = true)) :
    soft_start_mirror p (write_soft_start_need_sync c p m)
      (read_soft_start_need_sync (c.flip_softasync p) p m) := by
  rw [write_soft_start_need_sync_eq c p m (Or.inl hd), read_soft_start_need_sync_eq]
  exact soft_start_wait_mirror c p m h hcase

theorem MDCache.flip_softasync_send_message (c : MDCache) (p : CInodePtr) (m : Message)
    (d : msg_addr_t) :
    (c.flip_softasync p).send_message m d = (c.send_message m d).flip_softasync p := rfl

/-- Where the chain of tests of `write_soft_start` prints (`g_conf.debug` is at least 5),
`write_soft_start` is the mirror image of `read_soft_start`: on every inode `p` with SYNCBYAUTH
only if not authoritative, `write_soft_start` on `p` and `read_soft_start` on `p` with its
SOFTASYNC flag flipped both abort or both return, with the same boolean and with caches that
are the same but for the flipped flag and the `MInodeSyncRecall`s sent. -/
theorem write_soft_start_mirrors_read_printing (c : MDCache) (p : CInodePtr) (m : Message)
    (hd : 5 ≤ c.debug)
    (h : (c.inodes p).dist_state.syncbyauth = true → (c.inodes p).auth = false) :
    soft_start_mirror p (write_soft_start c p m)
      (read_soft_start (c.flip_softasync p) p m) := by
  unfold write_soft_start read_soft_start
  rw [read_hard_try_flip]
  cases hr : read_hard_try c p (some m) with
  | none => exact True.intro
  | some r =>
    obtain ⟨b, c1⟩ := r
    cases b
    · exact soft_start_mirror_flip p _ _
    · obtain ⟨rfl, -⟩ := read_hard_try_true c p _ c1 hr
      simp only [Option.map_some', MDCache.flip_softasync_inodes_self,
        CInode.flip_softasync_auth, CInode.flip_softasync_frozen,
        CInode.flip_softasync_softasync, CInode.flip_softasync_syncbyauth,
        CInode.flip_softasync_syncbyme, CInode.flip_softasync_lockbyme,
        CInode.flip_softasync_is_cached_by_anyone]
      have hw : (c1.flip_softasync p).set_inode p ((c1.inodes p).flip_softasync.add_waiter
          .CDIR_WAIT_UNFREEZE (.C_MDS_RetryMessage (some m))) =
          (c1.set_inode p ((c1.inodes p).add_waiter .CDIR_WAIT_UNFREEZE
            (.C_MDS_RetryMessage (some m)))).flip_softasync p :=
        MDCache.flip_softasync_add_waiter c1 p _ _
      have hn := soft_start_need_sync_mirror c1 p m hd h
      have hauth : (c1.flip_softasync p).authority p = c1.authority p := rfl
      have hwho : (c1.flip_softasync p).whoami = c1.whoami := rfl
      rw [hw, hauth, hwho, MDCache.flip_softasync_send_message]
      cases hf : (c1.inodes p).frozen <;> cases hs : (c1.inodes p).dist_state.softasync <;>
        cases hy : (c1.inodes p).dist_state.syncbyauth <;>
        simp only [Bool.not_true, Bool.not_false, Bool.false_eq_true, if_false, if_true] <;>
        (try exact soft_start_mirror_flip p _ _) <;>
        (try exact hn (Or.inl ⟨hs, hy⟩))
      all_goals
        cases ha : (c1.inodes p).auth <;>
          simp only [Bool.not_true, Bool.not_false, Bool.false_eq_true, if_false, if_true]
      all_goals (try split_ifs)
      all_goals first
        | exact True.intro
        | exact soft_start_mirror_flip p _ _
        | exact hn (Or.inr ⟨hs, ha⟩)

theorem write_soft_start_normal_auth (c : MDCache) (p : CInodePtr) (m : Message)
    (ha : (c.inodes p).auth = true) (hf : (c.inodes p).frozen = false)
    (hs : (c.inodes p).dist_state.softasync = false)
    (hsm : (c.inodes p).dist_state.syncbyme = false)
    (hl : (c.inodes p).dist_state.lockbyme = false)
    (hc : (c.inodes p).is_cached_by_anyone = true) :
    write_soft_start c p m = write_soft_start_need_sync c p m ∧
    write_soft_start_unasserted c p m = write_soft_start_wait c p m := by
  unfold write_soft_start write_soft_start_unasserted read_hard_try
  simp [ha, hf, hs, hsm, hl, hc]

theorem read_soft_start_softasync_auth (c : MDCache) (p : CInodePtr) (m : Message)
    (ha : (c.inodes p).auth = true) (hf : (c.inodes p).frozen = false)
    (hs : (c.inodes p).dist_state.softasync = true)
    (hsm : (c.inodes p).dist_state.syncbyme = false)
    (hl : (c.inodes p).dist_state.lockbyme = false)
    (hc : (c.inodes p).is_cached_by_anyone = true) :
    read_soft_start c p m = read_soft_start_wait c p m := by
  unfold read_soft_start read_hard_try
  simp [ha, hf, hs, hsm, hl, hc, read_soft_start_need_sync_eq]

theorem sync_start_isSome (c : MDCache) (p : CInodePtr)
    (ha : (c.inodes p).auth = true) (hp : (c.inodes p).dist_state.presync = false)
    (hsm : (c.inodes p).dist_state.syncbyme = false)
    (hy : (c.inodes p).dist_state.syncbyauth = false) :
    ∃ c1, sync_start c p = some c1 := by
  unfold sync_start
  simp [ha, hp, hsm, hy, CInode.is_sync]

theorem write_soft_start_wait_auth (c : MDCache) (p : CInodePtr) (m : Message)
    (ha : (c.inodes p).auth = true)
    (hsm : (c.inodes p).dist_state.syncbyme = false)
    (hy : (c.inodes p).dist_state.syncbyauth = false) :
    ∃ c1, write_soft_start_wait c p m = some (false, c1) := by
  unfold write_soft_start_wait
  dsimp only
  cases hq : (c.inodes p).auth_pinnable
  · simp only [Bool.not_false, ↓reduceIte]
    exact ⟨_, rfl⟩
  · simp only [Bool.not_true, Bool.false_eq_true, if_false, ha, if_true, MDCache.set_inode_inodes_self]
    have hp : ∀ t r, ((c.inodes p).add_waiter t r).dist_state = (c.inodes p).dist_state :=
      fun _ _ => rfl
    rw [hp]
    cases hw : (c.inodes p).dist_state.presync
    · obtain ⟨c1, h1⟩ := sync_start_isSome (c.set_inode p ((c.inodes p).add_waiter
        .CINODE_WAIT_SYNC (.C_MDS_RetryMessage (some m)))) p
        (by simpa [CInode.add_waiter] using ha) (by simpa [CInode.add_waiter] using hw)
        (by simpa [CInode.add_waiter] using hsm) (by simpa [CInode.add_waiter] using hy)
      simp only [Bool.not_false, ↓reduceIte, h1]
      exact ⟨_, rfl⟩
    · simp only [Bool.not_true, Bool.false_eq_true, ↓reduceIte]
      exact ⟨_, rfl⟩

theorem read_soft_start_wait_auth (c : MDCache) (p : CInodePtr) (m : Message)
    (ha : (c.inodes p).auth = true)
    (hsm : (c.inodes p).dist_state.syncbyme = false)
    (hy : (c.inodes p).dist_state.syncbyauth = false) :
    ∃ c1, read_soft_start_wait c p m = some (false, c1) := by
  unfold read_soft_start_wait
  dsimp only
  cases hq : (c.inodes p).auth_pinnable
  · simp only [Bool.not_false, ↓reduceIte]
    exact ⟨_, rfl⟩
  · simp only [Bool.not_true, Bool.false_eq_true, if_false, ha, if_true, MDCache.set_inode_inodes_self]
    have hp : ∀ t r, ((c.inodes p).add_waiter t r).dist_state = (c.inodes p).dist_state :=
      fun _ _ => rfl
    rw [hp]
    cases hw : (c.inodes p).dist_state.presync
    · obtain ⟨c1, h1⟩ := sync_start_isSome (c.set_inode p ((c.inodes p).add_waiter
        .CINODE_WAIT_SYNC (.C_MDS_RetryMessage (some m)))) p
        (by simpa [CInode.add_waiter] using ha) (by simpa [CInode.add_waiter] using hw)
        (by simpa [CInode.add_waiter] using hsm) (by simpa [CInode.add_waiter] using hy)
      simp only [Bool.not_false, ↓reduceIte, h1]
      exact ⟨_, rfl⟩
    · simp only [Bool.not_true, Bool.false_eq_true, ↓reduceIte]
      exact ⟨_, rfl⟩

/-- C13 (defect of the code): where `dout(5)` does not print (`g_conf.debug` is below 5),
`write_soft_start` is not the mirror image of `read_soft_start`.  On an authoritative, unfrozen
inode in the normal regime that other MDSs cache and that holds neither a sync nor a lock, the
write aborts: in `else if (!in->is_softasync() && in->is_auth()) dout(5) ...; else
assert(2+2==5);` the `else` belongs to the `if` of the macro `dout`.  The read on the same inode
with its SOFTASYNC flag flipped returns false, having parked the request. -/
theorem write_soft_start_mirror_broken (c : MDCache) (p : CInodePtr) (m : Message)
    (hd : c.debug < 5)
    (ha : (c.inodes p).auth = true) (hf : (c.inodes p).frozen = false)
    (hs : (c.inodes p).dist_state.softasync = false)
    (hy : (c.inodes p).dist_state.syncbyauth = false)
    (hsm : (c.inodes p).dist_state.syncbyme = false)
    (hl : (c.inodes p).dist_state.lockbyme = false)
    (hc : (c.inodes p).is_cached_by_anyone = true) :
    write_soft_start c p m = none ∧
    (∃ c1, read_soft_start (c.flip_softasync p) p m = some (false, c1)) ∧
    ¬ soft_start_mirror p (write_soft_start c p m)
      (read_soft_start (c.flip_softasync p) p m) := by
  have h1 : write_soft_start c p m = none := by
    rw [(write_soft_start_normal_auth c p m ha hf hs hsm hl hc).1]
    exact write_soft_start_need_sync_aborts c p m hd hs ha
  have h2 : ∃ c1, read_soft_start (c.flip_softasync p) p m = some (false, c1) := by
    rw [read_soft_start_softasync_auth (c.flip_softasync p) p m
      (by simpa using ha) (by simpa using hf) (by simp [hs]) (by simpa using hsm)
      (by simpa using hl) (by simpa using hc)]
    exact read_soft_start_wait_auth (c.flip_softasync p) p m (by simpa using ha)
      (by simpa using hsm) (by simpa using hy)
  refine ⟨h1, h2, ?_⟩
  obtain ⟨c1, h3⟩ := h2
  rw [h1, h3]
  exact fun h => h

/-- C13, witness: the authority of `cache_auth_shared`, whose inode two MDSs cache, at the debug
level `0`. -/
theorem write_soft_start_mirror_broken_witness :
    write_soft_start cache_auth_shared_quiet 1 (.request 8) = none ∧
    (∃ c1, read_soft_start (cache_auth_shared_quiet.flip_softasync 1) 1 (.request 8) =
      some (false, c1)) ∧
    ¬ soft_start_mirror 1 (write_soft_start cache_auth_shared_quiet 1 (.request 8))
      (read_soft_start (cache_auth_shared_quiet.flip_softasync 1) 1 (.request 8)) :=
  write_soft_start_mirror_broken cache_auth_shared_quiet 1 (.request 8) (by decide) rfl rfl
    rfl rfl rfl rfl rfl

/-! ## `trim` -/

theorem MDCache.unlinks_refl (c : MDCache) : c.unlinks c :=
  fun _ => ⟨rfl, rfl, fun h => h, Or.inl ⟨rfl, rfl⟩⟩

theorem MDCache.unlinks_trans {c c1 c2 : MDCache} (h1 : c.unlinks c1) (h2 : c1.unlinks c2) :
    c.unlinks c2 := by
  intro q
  obtain ⟨a1, b1, d1, e1⟩ := h1 q
  obtain ⟨a2, b2, d2, e2⟩ := h2 q
  refine ⟨a2.trans a1, b2.trans b1, fun h => d2 (d1 h), ?_⟩
  rcases e2 with ⟨p2, n2⟩ | e2
  · rcases e1 with ⟨p1, n1⟩ | ⟨p1, n1⟩
    · exact Or.inl ⟨p2.trans p1, n2.trans n1⟩
    · exact Or.inr ⟨p2.trans p1, n2.trans n1⟩
  · exact Or.inr e2

theorem MDCache.unlinks_of_inodes (c c1 : MDCache) (h : c1.inodes = c.inodes) :
    c.unlinks c1 := by
  intro q
  rw [h]
  exact ⟨rfl, rfl, fun h => h, Or.inl ⟨rfl, rfl⟩⟩

theorem MDCache.unlinks_set_inode (c : MDCache) (p : CInodePtr) (i : CInode)
    (h1 : i.is_dir = (c.inodes p).is_dir) (h2 : i.ino = (c.inodes p).ino)
    (h3 : (c.inodes p).dir ≠ none → i.dir ≠ none)
    (h4 : (i.parent = (c.inodes p).parent ∧ i.nparents = (c.inodes p).nparents) ∨
      (i.parent = none ∧ i.nparents = 0)) :
    c.unlinks (c.set_inode p i) := by
  intro q
  by_cases hq : q = p
  · subst hq
    simp only [MDCache.set_inode_inodes_self]
    exact ⟨h1, h2, h3, h4⟩
  · have e : (c.set_inode p i).inodes q = c.inodes q := by simp [hq]
    rw [e]
    exact ⟨rfl, rfl, fun h => h, Or.inl ⟨rfl, rfl⟩⟩

theorem MDCache.rooted_of_unlinks {c c1 : MDCache} (h : c.unlinks c1) :
    ∀ (k : Nat) (q : CInodePtr), c.rooted k q = true → c1.rooted k q = true := by
  intro k
  induction k with
  | zero => intro q hq; simp [MDCache.rooted] at hq
  | succ k ih =>
    intro q hq
    unfold MDCache.rooted at hq ⊢
    rcases (h q).2.2.2 with ⟨hp, -⟩ | ⟨hp, -⟩
    · rw [hp]
      cases hpar : (c.inodes q).parent with
      | none => rfl
      | some pd =>
        rw [hpar] at hq
        exact ih pd.1 hq
    · rw [hp]

theorem MDCache.well_linked_of_unlinks {c c1 : MDCache} {k : Nat} (hw : c.well_linked k)
    (h : c.unlinks c1) : c1.well_linked k := by
  intro q
  obtain ⟨hr, hl, hd⟩ := hw q
  refine ⟨MDCache.rooted_of_unlinks h k q hr, ?_, ?_⟩
  · rcases (h q).2.2.2 with ⟨hp, hn⟩ | ⟨hp, hn⟩
    · unfold CInode.parent_link_ok at hl ⊢
      rw [hp, hn]
      exact hl
    · exact Or.inr ⟨hn, hp⟩
  · intro pdir dname hpar
    rcases (h q).2.2.2 with ⟨hp, -⟩ | ⟨hp, -⟩
    · rw [hp] at hpar
      obtain ⟨hdir, hisdir⟩ := hd pdir dname hpar
      exact ⟨(h pdir).2.2.1 hdir, (h pdir).1.trans hisdir⟩
    · rw [hp] at hpar
      cases hpar

theorem MDCache.trim_frame_refl (c : MDCache) : c.trim_frame c :=
  ⟨c.unlinks_refl, rfl, rfl, rfl, rfl, [], by simp, by simp⟩

theorem MDCache.trim_frame_trans {c c1 c2 : MDCache} (h1 : c.trim_frame c1)
    (h2 : c1.trim_frame c2) : c.trim_frame c2 := by
  obtain ⟨u1, w1, a1, m1, l1, r1, s1, e1⟩ := h1
  obtain ⟨u2, w2, a2, m2, l2, r2, s2, e2⟩ := h2
  refine ⟨MDCache.unlinks_trans u1 u2, w2.trans w1, a2.trans a1, m2.trans m1, l2.trans l1,
    r1 ++ r2, ?_, ?_⟩
  · rw [s2, s1, List.append_assoc]
  · intro x hx
    rcases List.mem_append.mp hx with hx | hx
    · exact e1 x hx
    · exact e2 x hx

/-- The result of `remove_inode` on an inode with one parent, the entry `dn` of the directory of
`pd`. -/
theorem remove_inode_parent_eq (c : MDCache) (o pd : CInodePtr) (dn : String)
    (hn : (c.inodes o).nparents = 1) (hpar : (c.inodes o).parent = some (pd, dn)) :
    remove_inode c o = some
      { (c.set_inode pd { c.inodes pd with
          dir := (c.inodes pd).dir.map (fun d => d.remove_child dn) }).set_inode o
          ((c.set_inode pd { c.inodes pd with
            dir := (c.inodes pd).dir.map (fun d => d.remove_child dn) }).inodes o).remove_parent
        with inode_map := c.inode_map.erase (c.inodes o).ino, lru := c.lru.lru_remove o } := by
  have hino : ((c.set_inode pd { c.inodes pd with
      dir := (c.inodes pd).dir.map (fun d => d.remove_child dn) }).inodes o).ino =
      (c.inodes o).ino := by
    by_cases ho : o = pd
    · subst ho
      simp
    · simp [ho]
  unfold remove_inode
  simp only [hn, if_true, hpar, MDCache.set_inode_inodes_self, CInode.remove_parent]
  rw [hino]
  rfl

/-- The method `remove_inode` on an inode with a sound parent link: it returns, the inode leaves
`inode_map` and the LRU, and loses its parent link. -/
theorem remove_inode_unlinks (c : MDCache) (o : CInodePtr)
    (hl : (c.inodes o).parent_link_ok) :
    ∃ c2, remove_inode c o = some c2 ∧ c.unlinks c2 ∧ c2.whoami = c.whoami ∧
      c2.authority = c.authority ∧ c2.inode_map = c.inode_map.erase (c.inodes o).ino ∧
      c2.lru = c.lru.lru_remove o ∧ c2.sent = c.sent := by
  rcases hl with ⟨hn, hp⟩ | ⟨hn, hp⟩
  · obtain ⟨⟨pd, dn⟩, hpar⟩ := Option.ne_none_iff_exists'.mp hp
    have hf : ((c.set_inode pd { c.inodes pd with
        dir := (c.inodes pd).dir.map (fun d => d.remove_child dn) }).inodes o).nparents =
          (c.inodes o).nparents := by
      by_cases hq : o = pd
      · subst hq
        simp
      · simp [hq]
    have u1 : c.unlinks (c.set_inode pd { c.inodes pd with
        dir := (c.inodes pd).dir.map (fun d => d.remove_child dn) }) := by
      refine MDCache.unlinks_set_inode c pd _ rfl rfl ?_ (Or.inl ⟨rfl, rfl⟩)
      intro h
      cases hd : (c.inodes pd).dir with
      | none => exact absurd hd h
      | some d => simp [hd]
    have u2 : (c.set_inode pd { c.inodes pd with
        dir := (c.inodes pd).dir.map (fun d => d.remove_child dn) }).unlinks
        ((c.set_inode pd { c.inodes pd with
          dir := (c.inodes pd).dir.map (fun d => d.remove_child dn) }).set_inode o
          ((c.set_inode pd { c.inodes pd with
            dir := (c.inodes pd).dir.map (fun d => d.remove_child dn) }).inodes o).remove_parent) := by
      refine MDCache.unlinks_set_inode _ o _ rfl rfl (fun h => h) (Or.inr ⟨rfl, ?_⟩)
      show ((c.set_inode pd _).inodes o).nparents - 1 = 0
      rw [hf, hn]
      rfl
    rw [remove_inode_parent_eq c o pd dn hn hpar]
    exact ⟨_, rfl, MDCache.unlinks_trans u1 (MDCache.unlinks_trans u2
      (MDCache.unlinks_of_inodes _ _ rfl)), rfl, rfl, rfl, rfl, rfl⟩
  · have h1 : ¬ ((c.inodes o).nparents = 1) := by omega
    have h2 : ¬ ((c.inodes o).nparents > 1) := by omega
    have hres : remove_inode c o = some
        { c with inode_map := c.inode_map.erase (c.inodes o).ino, lru := c.lru.lru_remove o } := by
      unfold remove_inode
      simp [hn, hp]
    rw [hres]
    exact ⟨_, rfl, MDCache.unlinks_of_inodes _ _ rfl, rfl, rfl, rfl, rfl, rfl⟩

theorem MDCache.popularity_only_refl (c : MDCache) : c.popularity_only c :=
  ⟨rfl, fun _ => rfl⟩

theorem MDCache.popularity_only_trans {c c1 c2 : MDCache} (h1 : c.popularity_only c1)
    (h2 : c1.popularity_only c2) : c.popularity_only c2 := by
  obtain ⟨e1, f1⟩ := h1
  obtain ⟨e2, f2⟩ := h2
  constructor
  · rw [e2, e1]
  · intro q
    rw [f2 q, f1 q]

theorem MDCache.popularity_only_unlinks {c c1 : MDCache} (h : c.popularity_only c1) :
    c.unlinks c1 := by
  intro q
  rw [h.2 q]
  exact ⟨rfl, rfl, fun h => h, Or.inl ⟨rfl, rfl⟩⟩

theorem MDCache.popularity_only_set (c : MDCache) (t : CInodePtr) (v : Int) :
    c.popularity_only (c.set_inode t { c.inodes t with popularity := v }) := by
  constructor
  · rfl
  · intro q
    by_cases hq : q = t
    · subst hq
      simp
    · simp [hq]

/-- The loop of `export_dir` over the ancestors returns when the parent chain ends within the
fuel, and changes popularities only. -/
theorem popularity_adjust_up_returns (k : Nat) : ∀ (c : MDCache) (t : CInodePtr) (pop : Int),
    c.rooted k t = true →
    ∃ c1, popularity_adjust_up k c t pop = .returned c1 ∧ c.popularity_only c1 := by
  induction k with
  | zero => intro c t pop h; simp [MDCache.rooted] at h
  | succ k ih =>
    intro c t pop h
    have hs := MDCache.popularity_only_set c t ((c.inodes t).popularity - pop)
    obtain ⟨v, hv⟩ : ∃ v, (c.inodes t).parent = v := ⟨_, rfl⟩
    have hpar : ((c.set_inode t { c.inodes t with
        popularity := (c.inodes t).popularity - pop }).inodes t).parent = v := by
      rw [← hv]
      simp
    unfold popularity_adjust_up
    dsimp only
    rw [hpar]
    unfold MDCache.rooted at h
    rw [hv] at h
    cases v with
    | none => exact ⟨_, rfl, hs⟩
    | some pd =>
      obtain ⟨c2, h2, f2⟩ := ih (c.set_inode t { c.inodes t with
        popularity := (c.inodes t).popularity - pop }) pd.1 pop
        (MDCache.rooted_of_unlinks (MDCache.popularity_only_unlinks hs) k pd.1 h)
      exact ⟨c2, h2, MDCache.popularity_only_trans hs f2⟩

theorem MDCache.popularity_only_frame {c c1 : MDCache} (h : c.popularity_only c1) :
    c.trim_frame c1 :=
  ⟨MDCache.popularity_only_unlinks h, by have e := congrArg MDCache.whoami h.1; exact e,
    by have e := congrArg MDCache.authority h.1; exact e,
    by have e := congrArg MDCache.inode_map h.1; exact e,
    by have e := congrArg MDCache.lru h.1; exact e,
    [], by have e := congrArg MDCache.sent h.1; rw [List.append_nil]; exact e, by simp⟩

theorem export_dir_prep_frame (c : MDCache) (p : CInodePtr) (dest : Int) (d : CDir) :
    c.trim_frame (export_dir_prep c p dest d) ∧
      ((export_dir_prep c p dest d).inodes p).dir = some d.auth_pin ∧
      (export_dir_prep c p dest d).sent =
        c.sent ++ [(Message.MExportDirPrep (c.inodes p).ino, msg_addr_t.MDS dest)] := by
  refine ⟨⟨?_, rfl, rfl, rfl, rfl, [(Message.MExportDirPrep (c.inodes p).ino, .MDS dest)], rfl,
    ?_⟩, ?_, rfl⟩
  · have u : c.unlinks (c.set_inode p { c.inodes p with dir := some d.auth_pin }) :=
      MDCache.unlinks_set_inode c p _ rfl rfl (fun _ => by simp) (Or.inl ⟨rfl, rfl⟩)
    exact MDCache.unlinks_trans u (MDCache.unlinks_of_inodes _ _ rfl)
  · intro x hx
    simp only [List.mem_singleton] at hx
    subst hx
    rfl
  · simp [export_dir_prep]

theorem export_dir_dropsync_empty (k : Nat) (c : MDCache) (p : CInodePtr) (d : CDir)
    (hd : (c.inodes p).dir = some d) (hitems : d.items = [])
    (hdir : (c.inodes p).is_dir = true) (hk : k ≠ 0) :
    export_dir_dropsync k c p = .returned c := by
  obtain ⟨k1, rfl⟩ := Nat.exists_eq_succ_of_ne_zero hk
  unfold export_dir_dropsync
  simp only [hdir, Bool.not_true, Bool.false_eq_true, if_false, hd, hitems,
    export_dir_dropsync_items]

theorem export_dir_freeze_empty (k : Nat) (c : MDCache) (p : CInodePtr) (dest pop : Int)
    (d : CDir) (hd : (c.inodes p).dir = some d) (hitems : d.items = [])
    (hdir : (c.inodes p).is_dir = true) (hk : k ≠ 0) :
    ∃ c1, export_dir_freeze k c p dest pop = .returned c1 ∧ c.trim_frame c1 := by
  have hf : c.trim_frame (c.set_inode p { c.inodes p with
      dir := (c.inodes p).dir.map
        (fun d => d.freeze_tree (.C_MDS_ExportFreeze p dest pop)) }) := by
    refine ⟨?_, rfl, rfl, rfl, rfl, [], by simp [MDCache.set_inode], by simp⟩
    exact MDCache.unlinks_set_inode c p _ rfl rfl (fun _ => by simp [hd]) (Or.inl ⟨rfl, rfl⟩)
  have hds := export_dir_dropsync_empty k (c.set_inode p { c.inodes p with
      dir := (c.inodes p).dir.map
        (fun d => d.freeze_tree (.C_MDS_ExportFreeze p dest pop)) }) p
      (d.freeze_tree (.C_MDS_ExportFreeze p dest pop)) (by simp [hd]) hitems (by simp [hdir]) hk
  unfold export_dir_freeze
  dsimp only
  split_ifs
  · exact ⟨_, hds, hf⟩
  · exact ⟨_, rfl, hf⟩

/-- The method `export_dir` on an import that `trim` has emptied: it returns, and keeps what
`trim` relies on. -/
theorem export_dir_empty_import (k : Nat) (c : MDCache) (p : CInodePtr) (dest : Int) (d : CDir)
    (hdest : dest ≠ c.whoami) (hd : (c.inodes p).dir = some d) (hitems : d.items = [])
    (hpar : (c.inodes p).parent ≠ none) (hfr : (d.is_freezing || d.is_frozen) = false)
    (hdir : (c.inodes p).is_dir = true) (hroot : c.rooted k p = true) :
    ∃ c1, export_dir k c p dest = .returned c1 ∧ c.trim_frame c1 := by
  have hopen : open_dir c p = (d, c) := by simp [open_dir, hd]
  have hk : k ≠ 0 := by
    rintro rfl
    simp [MDCache.rooted] at hroot
  obtain ⟨f3, d3, -⟩ := export_dir_prep_frame c p dest d
  obtain ⟨c4, h4, f4⟩ := popularity_adjust_up_returns k (export_dir_prep c p dest d) p
    (((export_dir_prep c p dest d).inodes p).popularity)
    (MDCache.rooted_of_unlinks f3.1 k p hroot)
  have d4 : (c4.inodes p).dir = some d.auth_pin := by
    rw [f4.2 p]
    exact d3
  have i4 : (c4.inodes p).is_dir = true := by
    rw [(MDCache.popularity_only_unlinks f4 p).1, (f3.1 p).1]
    exact hdir
  obtain ⟨c5, h5, f5⟩ := export_dir_freeze_empty k c4 p dest
    (((export_dir_prep c p dest d).inodes p).popularity) d.auth_pin d4 hitems i4 hk
  refine ⟨c5, ?_, MDCache.trim_frame_trans f3
    (MDCache.trim_frame_trans (MDCache.popularity_only_frame f4) f5)⟩
  unfold export_dir
  rw [hopen]
  have hfr2 : (d.is_frozen || d.is_freezing) = false := by
    rw [Bool.or_comm]
    exact hfr
  have hpar2 : (c.inodes p).parent.isNone = false := by
    cases hp : (c.inodes p).parent with
    | none => exact absurd hp hpar
    | some _ => rfl
  simp only [hdest, if_false, hpar2, Bool.false_eq_true, hfr2, h4, h5]

theorem trim_reexport_returns (k : Nat) (c : MDCache) (idir : CInodePtr) (d : CDir)
    (hd : (c.inodes idir).dir = some d) (hdir : (c.inodes idir).is_dir = true)
    (hroot : c.rooted k idir = true) :
    ∃ c1, trim_reexport k c idir d = .returned c1 ∧ c.trim_frame c1 := by
  unfold trim_reexport
  dsimp only
  by_cases h1 : idir ∈ c.imports ∧ d.get_size = 0 ∧ (c.inodes idir).is_root = false ∧
      (d.is_freezing || d.is_frozen) = false
  · rw [if_pos h1]
    obtain ⟨-, hsize, hnr, hfr⟩ := h1
    have hitems : d.items = [] := List.length_eq_zero.mp hsize
    have hpar : (c.inodes idir).parent ≠ none := by
      intro hp
      simp [CInode.is_root, hp] at hnr
    by_cases h2 : (if c.shutting_down = true then 0 else c.authority idir) ≠ c.whoami
    · rw [if_pos h2]
      exact export_dir_empty_import k c idir _ d h2 hd hitems hpar hfr hdir hroot
    · rw [if_neg h2]
      exact ⟨c, rfl, c.trim_frame_refl⟩
  · rw [if_neg h1]
    exact ⟨c, rfl, c.trim_frame_refl⟩

/-- The body of the loop of `trim` on a cache whose inodes are linked as a tree: it returns, the
inode leaves `inode_map` and the LRU, and the only `MInodeExpire` sent is the one for the inode,
when its authority is another MDS. -/
theorem trim_evict_returns (k : Nat) (c : MDCache) (in_ : CInodePtr) (hw : c.well_linked k) :
    ∃ c2, trim_evict k c in_ = .returned c2 ∧ c.unlinks c2 ∧ c2.whoami = c.whoami ∧
      c2.authority = c.authority ∧ c2.inode_map = c.inode_map.erase (c.inodes in_).ino ∧
      c2.lru = c.lru.lru_remove in_ ∧
      ∃ rest, c2.sent = c.sent ++
          (if c.authority in_ ≠ c.whoami then
            [(Message.MInodeExpire (c.inodes in_).ino c.whoami none none,
              msg_addr_t.MDS (c.authority in_))]
          else []) ++ rest ∧
        ∀ x ∈ rest, x.1.is_inode_expire = false := by
  have n_inodes : (trim_notify c in_).inodes = c.inodes := by
    unfold trim_notify
    dsimp only
    split_ifs <;> rfl
  have n_who : (trim_notify c in_).whoami = c.whoami := by
    unfold trim_notify
    dsimp only
    split_ifs <;> rfl
  have n_auth : (trim_notify c in_).authority = c.authority := by
    unfold trim_notify
    dsimp only
    split_ifs <;> rfl
  have n_map : (trim_notify c in_).inode_map = c.inode_map := by
    unfold trim_notify
    dsimp only
    split_ifs <;> rfl
  have n_lru : (trim_notify c in_).lru = c.lru := by
    unfold trim_notify
    dsimp only
    split_ifs <;> rfl
  have n_sent : (trim_notify c in_).sent = c.sent ++
      (if c.authority in_ ≠ c.whoami then
        [(Message.MInodeExpire (c.inodes in_).ino c.whoami none none,
          msg_addr_t.MDS (c.authority in_))]
      else []) := by
    unfold trim_notify
    dsimp only
    split_ifs
    · rfl
    · simp
  have u0 : c.unlinks (trim_notify c in_) := MDCache.unlinks_of_inodes _ _ n_inodes
  obtain ⟨hr, hl, hd⟩ := hw in_
  obtain ⟨c2, h2, u2, w2, a2, m2, l2, s2⟩ := remove_inode_unlinks (trim_notify c in_) in_
    (by rw [n_inodes]; exact hl)
  rw [n_inodes] at m2
  unfold trim_evict
  dsimp only
  rw [h2, n_inodes]
  cases hp : (c.inodes in_).parent with
  | none =>
    refine ⟨_, rfl, MDCache.unlinks_trans u0 (MDCache.unlinks_trans u2
      (MDCache.unlinks_of_inodes _ _ rfl)), w2.trans n_who, a2.trans n_auth,
      m2.trans (by rw [n_map]), l2.trans (by rw [n_lru]), [], ?_, by simp⟩
    show c2.sent = _
    rw [s2, n_sent, List.append_nil]
  | some pd =>
    obtain ⟨pdir, dname⟩ := pd
    obtain ⟨hpd, hpi⟩ := hd pdir dname hp
    have u02 : c.unlinks c2 := MDCache.unlinks_trans u0 u2
    obtain ⟨d, hdd⟩ := Option.ne_none_iff_exists'.mp ((u02 pdir).2.2.1 hpd)
    have f3 : c2.trim_frame (c2.set_inode pdir { c2.inodes pdir with
        dir := some d.state_clear_complete }) :=
      ⟨MDCache.unlinks_set_inode c2 pdir _ rfl rfl (fun _ => by simp) (Or.inl ⟨rfl, rfl⟩),
        rfl, rfl, rfl, rfl, [], by simp [MDCache.set_inode], by simp⟩
    have u03 := MDCache.unlinks_trans u02 f3.1
    obtain ⟨c4, h4, f4⟩ := trim_reexport_returns k (c2.set_inode pdir { c2.inodes pdir with
        dir := some d.state_clear_complete }) pdir d.state_clear_complete (by simp)
      ((u03 pdir).1.trans hpi)
      (MDCache.rooted_of_unlinks u03 k pdir (hw pdir).1)
    obtain ⟨u34, w34, a34, m34, l34, rest, s34, e34⟩ := MDCache.trim_frame_trans f3 f4
    simp only [Option.map_some', hdd, h4]
    refine ⟨c4, rfl, MDCache.unlinks_trans u02 u34, (w34.trans w2).trans n_who,
      (a34.trans a2).trans n_auth, (m34.trans m2).trans (by rw [n_map]),
      (l34.trans l2).trans (by rw [n_lru]), rest, ?_, e34⟩
    rw [s34, s2, n_sent]

theorem MDCache.lru_expire_some (c : MDCache) (o : CInodePtr) (c1 : MDCache)
    (h : c.lru_expire = some (o, c1)) :
    c1 = { c with lru := c.lru.lru_remove o } ∧ o ∈ c.lru.objs ∧ (c.inodes o).ref_set = [] := by
  unfold MDCache.lru_expire at h
  cases hf : c.lru.objs.reverse.find? (fun o => (c.inodes o).ref_set.isEmpty) with
  | none => rw [hf] at h; cases h
  | some a =>
    rw [hf] at h
    simp only [Option.some.injEq, Prod.mk.injEq] at h
    obtain ⟨rfl, rfl⟩ := h
    refine ⟨rfl, ?_, ?_⟩
    · exact List.mem_reverse.mp (List.mem_of_find?_eq_some hf)
    · have := List.find?_some hf
      simpa using this

theorem MDCache.lru_expire_none (c : MDCache) (h : c.lru_expire = none) :
    ∀ o ∈ c.lru.objs, (c.inodes o).ref_set ≠ [] := by
  unfold MDCache.lru_expire at h
  cases hf : c.lru.objs.reverse.find? (fun o => (c.inodes o).ref_set.isEmpty) with
  | some a => rw [hf] at h; cases h
  | none =>
    intro o ho
    have := List.find?_eq_none.mp hf o (List.mem_reverse.mpr ho)
    simpa using this

theorem MDCache.get_inode_erase (c c1 : MDCache) (ino : inodeno_t)
    (h : c1.inode_map = c.inode_map.erase ino) :
    c1.get_inode ino = none ∧ ∀ x, c.get_inode x = none → c1.get_inode x = none := by
  unfold MDCache.get_inode
  rw [h]
  refine ⟨AList.lookup_erase ino c.inode_map, ?_⟩
  intro x hx
  by_cases hxi : x = ino
  · subst hxi
    exact AList.lookup_erase x c.inode_map
  · rw [AList.lookup_erase_ne hxi]
    exact hx

/-- The loop of `trim` on a cache whose inodes are linked as a tree, with fuel beyond the size of
the LRU. -/
theorem trim_loop_returns (k : Nat) (max : Int) : ∀ (n : Nat) (ev : List Evicted) (c : MDCache),
    c.well_linked k → c.lru.lru_get_size < n →
    ∃ b ev1 c1, trim_loop k max n ev c = .returned (b, ev ++ ev1, c1) ∧
      (b = true → (c1.lru.lru_get_size : Int) ≤ max) ∧
      (b = false → max < (c1.lru.lru_get_size : Int) ∧
        ∀ o ∈ c1.lru.objs, (c1.inodes o).ref_set ≠ []) ∧
      (∀ x, c.get_inode x = none → c1.get_inode x = none) ∧
      (∀ e ∈ ev1, c1.get_inode e.ino = none ∧ e.in_ ∈ c.lru.objs ∧
        e.ino = (c.inodes e.in_).ino ∧ e.auth = c.authority e.in_) ∧
      c.unlinks c1 ∧ c1.whoami = c.whoami ∧ c1.authority = c.authority ∧
      (∀ p ∈ c.lru.objs, p ∉ c1.lru.objs → ∃ e ∈ ev1, e.in_ = p) ∧
      (∀ p ∈ c1.lru.objs, p ∈ c.lru.objs) ∧
      (c.lru.objs.Nodup →
        (ev1.map (fun e => e.in_)).Nodup ∧ ∀ e ∈ ev1, e.in_ ∉ c1.lru.objs) ∧
      ∃ new, c1.sent = c.sent ++ new ∧
        new.filter (fun x => x.1.is_inode_expire) =
          (ev1.filter (fun e => decide (e.auth ≠ c.whoami))).map
            (fun e => (Message.MInodeExpire e.ino c.whoami none none, msg_addr_t.MDS e.auth)) := by
  intro n
  induction n with
  | zero => intro ev c _ hn; omega
  | succ n ih =>
    intro ev c hw hn
    unfold trim_loop
    by_cases hsize : (c.lru.lru_get_size : Int) > max
    · rw [if_pos hsize]
      cases he : c.lru_expire with
      | none =>
        refine ⟨false, [], c, by simp, by simp, fun _ => ⟨hsize, c.lru_expire_none he⟩,
          fun _ h => h, by simp, c.unlinks_refl, rfl, rfl, fun p hp hn => absurd hp hn,
          fun _ h => h, fun _ => ⟨by simp, by simp⟩, [], by simp, by simp⟩
      | some r =>
        obtain ⟨o, c0⟩ := r
        obtain ⟨rfl, ho, -⟩ := c.lru_expire_some o c0 he
        have hw0 : MDCache.well_linked { c with lru := c.lru.lru_remove o } k :=
          MDCache.well_linked_of_unlinks hw (MDCache.unlinks_of_inodes _ _ rfl)
        obtain ⟨c2, h2, u2, w2, a2, m2, l2, rest, s2, e2⟩ :=
          trim_evict_returns k { c with lru := c.lru.lru_remove o } o hw0
        have hlen : c2.lru.lru_get_size < n := by
          rw [l2]
          simp only [LRU.lru_get_size, LRU.lru_remove] at hn ⊢
          have h1 := List.length_erase_of_mem ho
          have h2 := List.length_erase_le o (c.lru.objs.erase o)
          have h3 := List.length_pos_of_mem ho
          omega
        have hl2 : c2.lru.objs = (c.lru.objs.erase o).erase o := by
          rw [l2]
          rfl
        obtain ⟨b, ev1, c1, hres, hb1, hb2, hmap, hev, u1, w1, a1, la, lb, lc, new, s1, f1⟩ :=
          ih (ev ++ [⟨o, (c.inodes o).ino, c.authority o⟩]) c2
            (MDCache.well_linked_of_unlinks hw0 u2) hlen
        obtain ⟨hme, hmp⟩ := MDCache.get_inode_erase c c2 (c.inodes o).ino m2
        simp only [h2]
        refine ⟨b, ⟨o, (c.inodes o).ino, c.authority o⟩ :: ev1, c1, ?_, hb1, hb2,
          fun x hx => hmap x (hmp x hx), ?_, MDCache.unlinks_trans u2 u1, w1.trans w2,
          a1.trans a2, ?_, ?_, ?_, ?_⟩
        · rw [hres, List.append_assoc]
          rfl
        · intro e hmem
          rcases List.mem_cons.mp hmem with rfl | hmem
          · exact ⟨hmap _ hme, ho, rfl, rfl⟩
          · obtain ⟨g1, g2, g3, g4⟩ := hev e hmem
            refine ⟨g1, ?_, g3.trans (u2 e.in_).2.1, g4.trans (congrFun a2 e.in_)⟩
            rw [l2] at g2
            exact List.mem_of_mem_erase (List.mem_of_mem_erase g2)
        · intro p hp hnp
          by_cases hpo : p = o
          · exact ⟨_, List.mem_cons_self _ _, hpo.symm⟩
          · have hp2 : p ∈ c2.lru.objs := by
              rw [hl2]
              exact (List.mem_erase_of_ne hpo).mpr ((List.mem_erase_of_ne hpo).mpr hp)
            obtain ⟨e, he1, he2⟩ := la p hp2 hnp
            exact ⟨e, List.mem_cons_of_mem _ he1, he2⟩
        · intro p hp
          have hp2 := lb p hp
          rw [hl2] at hp2
          exact List.mem_of_mem_erase (List.mem_of_mem_erase hp2)
        · intro hnd
          have hnd2 : c2.lru.objs.Nodup := by
            rw [hl2]
            exact (hnd.erase o).erase o
          have ho2 : o ∉ c2.lru.objs := by
            rw [hl2]
            intro hmem
            exact (List.Nodup.not_mem_erase hnd) (List.mem_of_mem_erase hmem)
          obtain ⟨n1, n2⟩ := lc hnd2
          refine ⟨?_, ?_⟩
          · rw [List.map_cons, List.nodup_cons]
            refine ⟨?_, n1⟩
            intro hmem
            obtain ⟨e, he1, he2⟩ := List.mem_map.mp hmem
            have := (hev e he1).2.1
            rw [he2] at this
            exact ho2 this
          · intro e hmem
            rcases List.mem_cons.mp hmem with rfl | hmem
            · exact fun h => ho2 (lb _ h)
            · exact n2 e hmem
        · refine ⟨_, by rw [s1, s2, List.append_assoc, List.append_assoc], ?_⟩
          have hrest : rest.filter (fun x => x.1.is_inode_expire) = [] := by
            rw [List.filter_eq_nil_iff]
            intro x hx
            simp [e2 x hx]
          rw [List.filter_append, List.filter_append, hrest, f1, w2]
          by_cases hauth : c.authority o ≠ c.whoami
          · simp [hauth, Message.is_inode_expire]
          · simp [hauth]
    · rw [if_neg hsize]
      refine ⟨true, [], c, by simp, fun _ => not_lt.mp hsize, by simp, fun _ h => h, by simp,
        c.unlinks_refl, rfl, rfl, fun p hp hn => absurd hp hn, fun _ h => h,
        fun _ => ⟨by simp, by simp⟩, [], by simp, by simp⟩

/-- The example cache `cache_trim` is linked as a tree of depth at most three. -/
theorem cache_trim_well_linked : cache_trim.well_linked 3 := by
  intro q
  match q with
  | 0 => exact ⟨rfl, Or.inr ⟨rfl, rfl⟩, fun _ _ h => by cases h⟩
  | 1 =>
    refine ⟨rfl, Or.inl ⟨rfl, by decide⟩, fun pd dn h => ?_⟩
    have h1 : (3, "d") = (pd, dn) := Option.some.inj h
    obtain ⟨rfl, -⟩ := Prod.mk.inj h1
    exact ⟨by decide, rfl⟩
  | 2 =>
    refine ⟨rfl, Or.inl ⟨rfl, by decide⟩, fun pd dn h => ?_⟩
    have h1 : (1, "f") = (pd, dn) := Option.some.inj h
    obtain ⟨rfl, -⟩ := Prod.mk.inj h1
    exact ⟨by decide, rfl⟩
  | 3 => exact ⟨rfl, Or.inr ⟨rfl, rfl⟩, fun _ _ h => by cases h⟩
  | n + 4 => exact ⟨rfl, Or.inr ⟨rfl, rfl⟩, fun _ _ h => by cases h⟩

/-- C19: for every `max ≥ 0` and every cache whose inodes are linked as a tree, `trim(max)`
terminates, with fuel beyond the size of the LRU, and returns.  If it returns true the size of
the LRU is at most `max`; it returns false exactly when the size of the LRU is still above `max`
and the LRU has no expireable entry.  The inodes evicted are the inodes that have left the LRU:
every inode that was in the LRU and is not any more is among them, and nothing has entered the
LRU; where the LRU held each object once, no inode is evicted twice and none of them is in the
LRU afterwards.  Every inode evicted was in the LRU and is absent from `inode_map` afterwards,
and the `MInodeExpire`s sent are, in the order of eviction, one `MInodeExpire(ino, from = self)`
to the authority of each evicted inode whose authority is another MDS, and none for the evicted
inodes this MDS was the authority of. -/
theorem trim_returns (k n : Nat) (c : MDCache) (max : Int) (hmax : 0 ≤ max)
    (hw : c.well_linked k) (hn : c.lru.lru_get_size < n) :
    ∃ b ev c1, trim k n c max = .returned (b, ev, c1) ∧
      (b = true → (c1.lru.lru_get_size : Int) ≤ max) ∧
      (b = false ↔ (max < (c1.lru.lru_get_size : Int) ∧
        ∀ o ∈ c1.lru.objs, (c1.inodes o).ref_set ≠ [])) ∧
      (∀ p ∈ c.lru.objs, p ∉ c1.lru.objs → ∃ e ∈ ev, e.in_ = p) ∧
      (∀ p ∈ c1.lru.objs, p ∈ c.lru.objs) ∧
      (c.lru.objs.Nodup →
        (ev.map (fun e => e.in_)).Nodup ∧ ∀ e ∈ ev, e.in_ ∉ c1.lru.objs) ∧
      (∀ e ∈ ev, c1.get_inode e.ino = none ∧ e.in_ ∈ c.lru.objs ∧
        e.ino = (c.inodes e.in_).ino ∧ e.auth = c.authority e.in_) ∧
      ∃ new, c1.sent = c.sent ++ new ∧
        new.filter (fun x => x.1.is_inode_expire) =
          (ev.filter (fun e => decide (e.auth ≠ c.whoami))).map
            (fun e => (Message.MInodeExpire e.ino c.whoami none none, msg_addr_t.MDS e.auth)) := by
  obtain ⟨b, ev1, c1, hres, hb1, hb2, -, hev, -, -, -, la, lb, lc, hsent⟩ :=
    trim_loop_returns k max n [] c hw hn
  refine ⟨b, ev1, c1, ?_, hb1, ⟨hb2, ?_⟩, la, lb, lc, hev, hsent⟩
  · unfold trim
    rw [if_neg (not_lt.mpr hmax), hres, List.nil_append]
  · intro h
    cases b
    · rfl
    · have := hb1 rfl
      omega

/-- C19, witness: `trim(2)` on `cache_trim`, whose LRU holds three inodes. -/
theorem trim_returns_witness :
    ∃ b ev c1, trim 3 4 cache_trim 2 = .returned (b, ev, c1) ∧
      (b = true → (c1.lru.lru_get_size : Int) ≤ 2) ∧
      (b = false ↔ ((2 : Int) < (c1.lru.lru_get_size : Int) ∧
        ∀ o ∈ c1.lru.objs, (c1.inodes o).ref_set ≠ [])) ∧
      (∀ p ∈ cache_trim.lru.objs, p ∉ c1.lru.objs → ∃ e ∈ ev, e.in_ = p) ∧
      (∀ p ∈ c1.lru.objs, p ∈ cache_trim.lru.objs) ∧
      (cache_trim.lru.objs.Nodup →
        (ev.map (fun e => e.in_)).Nodup ∧ ∀ e ∈ ev, e.in_ ∉ c1.lru.objs) ∧
      (∀ e ∈ ev, c1.get_inode e.ino = none ∧ e.in_ ∈ cache_trim.lru.objs ∧
        e.ino = (cache_trim.inodes e.in_).ino ∧ e.auth = cache_trim.authority e.in_) ∧
      ∃ new, c1.sent = cache_trim.sent ++ new ∧
        new.filter (fun x => x.1.is_inode_expire) =
          (ev.filter (fun e => decide (e.auth ≠ cache_trim.whoami))).map
            (fun e => (Message.MInodeExpire e.ino cache_trim.whoami none none,
              msg_addr_t.MDS e.auth)) :=
  trim_returns 3 4 cache_trim 2 (by decide) cache_trim_well_linked (by decide)

theorem remove_inode_config (c : MDCache) (o : CInodePtr) (c2 : MDCache)
    (h : remove_inode c o = some c2) :
    c2.imports = c.imports ∧ c2.shutting_down = c.shutting_down ∧ c2.authority = c.authority ∧
      c2.whoami = c.whoami := by
  unfold remove_inode at h
  dsimp only at h
  by_cases h1 : (c.inodes o).nparents = 1
  · rw [if_pos h1] at h
    cases hp : (c.inodes o).parent with
    | none => simp [hp] at h
    | some pd =>
      simp only [hp, Option.some.injEq] at h
      subst h
      exact ⟨rfl, rfl, rfl, rfl⟩
  · rw [if_neg h1] at h
    by_cases h2 : (c.inodes o).nparents > 1
    · simp [h2] at h
    · rw [if_neg h2] at h
      by_cases h3 : (c.inodes o).nparents = 0 ∧ (c.inodes o).parent = none
      · rw [if_pos h3] at h
        simp only [Option.some.injEq] at h
        subst h
        exact ⟨rfl, rfl, rfl, rfl⟩
      · simp [h3] at h

theorem trim_notify_config (c : MDCache) (in_ : CInodePtr) :
    (trim_notify c in_).inodes = c.inodes ∧ (trim_notify c in_).imports = c.imports ∧
      (trim_notify c in_).shutting_down = c.shutting_down ∧
      (trim_notify c in_).authority = c.authority ∧ (trim_notify c in_).whoami = c.whoami := by
  unfold trim_notify
  dsimp only
  split_ifs <;> exact ⟨rfl, rfl, rfl, rfl, rfl⟩

/-- C20: when `trim` evicts an inode whose parent directory inode is `P`, and `d` is the
directory of `P` once the inode is removed, it clears COMPLETE on that directory, and then it
calls `export_dir(P, dest)` if and only if `P` is in `imports`, the directory has no entries
left, `P` is not the root, the directory is neither freezing nor frozen, and `dest` is not this
MDS, where `dest` is `0` when the MDS is shutting down and the authority of the inode `P`
otherwise; in every other case, so for a frozen or freezing import, nothing more is done. -/
theorem trim_evict_reexport (k : Nat) (c : MDCache) (in_ P : CInodePtr) (dn : String)
    (c2 : MDCache) (d : CDir) (hp : (c.inodes in_).parent = some (P, dn))
    (hr : remove_inode (trim_notify c in_) in_ = some c2)
    (hd : (c2.inodes P).dir = some d) :
    d.state_clear_complete.state.complete = false ∧
    trim_evict k c in_ =
      if P ∈ c.imports ∧ d.items = [] ∧ (c2.inodes P).parent ≠ none ∧
          d.state.freezing = false ∧ d.state.frozen_tree_root = false ∧
          d.state.frozen_dir = false ∧
          (if c.shutting_down = true then 0 else c.authority P) ≠ c.whoami then
        export_dir k
          (c2.set_inode P { c2.inodes P with dir := some d.state_clear_complete }) P
          (if c.shutting_down = true then 0 else c.authority P)
      else .returned
        (c2.set_inode P { c2.inodes P with dir := some d.state_clear_complete }) := by
  refine ⟨rfl, ?_⟩
  obtain ⟨n1, n2, n3, n4, n5⟩ := trim_notify_config c in_
  obtain ⟨r2, r3, r4, r5⟩ := remove_inode_config _ _ _ hr
  unfold trim_evict
  dsimp only
  rw [hr, n1, hp]
  simp only [Option.map_some', hd]
  unfold trim_reexport
  have e1 : (c2.set_inode P { c2.inodes P with dir := some d.state_clear_complete }).imports =
      c.imports := r2.trans n2
  have e2 : (c2.set_inode P { c2.inodes P with
      dir := some d.state_clear_complete }).shutting_down = c.shutting_down := r3.trans n3
  have e3 : (c2.set_inode P { c2.inodes P with dir := some d.state_clear_complete }).authority =
      c.authority := r4.trans n4
  have e4 : (c2.set_inode P { c2.inodes P with dir := some d.state_clear_complete }).whoami =
      c.whoami := r5.trans n5
  have e5 : ((c2.set_inode P { c2.inodes P with
      dir := some d.state_clear_complete }).inodes P).is_root = false ↔
      (c2.inodes P).parent ≠ none := by
    simp only [MDCache.set_inode_inodes_self, CInode.is_root]
    cases (c2.inodes P).parent <;> simp
  have e6 : d.state_clear_complete.get_size = 0 ↔ d.items = [] := by
    simp [CDir.get_size, CDir.state_clear_complete]
  have e7 : (d.state_clear_complete.is_freezing || d.state_clear_complete.is_frozen) = false ↔
      (d.state.freezing = false ∧ d.state.frozen_tree_root = false ∧
        d.state.frozen_dir = false) := by
    simp [CDir.is_freezing, CDir.is_frozen, CDir.state_clear_complete]
  dsimp only
  simp only [e1, e2, e3, e4, e5, e6, e7]
  by_cases h1 : P ∈ c.imports ∧ d.items = [] ∧ (c2.inodes P).parent ≠ none ∧
      d.state.freezing = false ∧ d.state.frozen_tree_root = false ∧ d.state.frozen_dir = false
  · by_cases h2 : (if c.shutting_down = true then 0 else c.authority P) ≠ c.whoami
    · have h12 : P ∈ c.imports ∧ d.items = [] ∧ (c2.inodes P).parent ≠ none ∧
          d.state.freezing = false ∧ d.state.frozen_tree_root = false ∧
          d.state.frozen_dir = false ∧
          (if c.shutting_down = true then 0 else c.authority P) ≠ c.whoami :=
        ⟨h1.1, h1.2.1, h1.2.2.1, h1.2.2.2.1, h1.2.2.2.2.1, h1.2.2.2.2.2, h2⟩
      rw [if_pos h1, if_pos h2, if_pos h12]
    · have h12 : ¬ (P ∈ c.imports ∧ d.items = [] ∧ (c2.inodes P).parent ≠ none ∧
          d.state.freezing = false ∧ d.state.frozen_tree_root = false ∧
          d.state.frozen_dir = false ∧
          (if c.shutting_down = true then 0 else c.authority P) ≠ c.whoami) :=
        fun h => h2 h.2.2.2.2.2.2
      rw [if_pos h1, if_neg h2, if_neg h12]
  · have h12 : ¬ (P ∈ c.imports ∧ d.items = [] ∧ (c2.inodes P).parent ≠ none ∧
        d.state.freezing = false ∧ d.state.frozen_tree_root = false ∧
        d.state.frozen_dir = false ∧
        (if c.shutting_down = true then 0 else c.authority P) ≠ c.whoami) :=
      fun h => h1 ⟨h.1, h.2.1, h.2.2.1, h.2.2.2.1, h.2.2.2.2.1, h.2.2.2.2.2.1⟩
    rw [if_neg h1, if_neg h12]

/-- C20, witness: `trim` evicts the file `2` of `cache_trim`, the only entry of the import `1`,
whose directory is left empty. -/
theorem trim_evict_reexport_witness :
    CDir.blank.state_clear_complete.state.complete = false ∧
    trim_evict 3 cache_trim 2 =
      if 1 ∈ cache_trim.imports ∧ CDir.blank.items = [] ∧
          (cache_trim_removed.inodes 1).parent ≠ none ∧
          CDir.blank.state.freezing = false ∧ CDir.blank.state.frozen_tree_root = false ∧
          CDir.blank.state.frozen_dir = false ∧
          (if cache_trim.shutting_down = true then 0 else cache_trim.authority 1) ≠
            cache_trim.whoami then
        export_dir 3
          (cache_trim_removed.set_inode 1 { cache_trim_removed.inodes 1 with
            dir := some CDir.blank.state_clear_complete }) 1
          (if cache_trim.shutting_down = true then 0 else cache_trim.authority 1)
      else .returned
        (cache_trim_removed.set_inode 1 { cache_trim_removed.inodes 1 with
          dir := some CDir.blank.state_clear_complete }) :=
  trim_evict_reexport 3 cache_trim 2 1 "f" cache_trim_removed CDir.blank (by rfl) (by rfl)
    (by rfl)

/-! ## `link_inode` -/

theorem CDir.lookup_add_child (d : CDir) (dname : String) (in_ : CInodePtr)
    (h : d.lookup dname = none) :
    (d.add_child dname in_).lookup dname = some ⟨dname, some in_⟩ := by
  unfold CDir.lookup at h ⊢
  have hf : List.find? (fun e => decide (e.1 = dname)) d.items = none := by
    cases hx : List.find? (fun e => decide (e.1 = dname)) d.items with
    | none => rfl
    | some e => rw [hx] at h; simp at h
  simp [CDir.add_child, List.find?_append, hf]

/-- C21 (the claim fails as stated): `link_inode` returns `-ENOTDIR`, changing nothing, for a
parent that is a directory: the one of `cache_dir_unopened`, whose `CDir` is not open. -/
theorem link_inode_unopened_dir :
    (cache_dir_unopened.inodes 1).is_dir = true ∧
    link_inode cache_dir_unopened 1 "a" 2 = some (-ENOTDIR, cache_dir_unopened) :=
  ⟨rfl, rfl⟩

/-- C21 (amended): `link_inode(parent, name, child)` returns `-ENOTDIR` if and only if the
parent has no open `CDir`, and then it changes nothing.  For every parent with an open `CDir`
in which the name is absent it returns `0`; afterwards the directory is the one before with the
new dentry added, looking up the name yields a dentry whose inode is the child, the parent of
the child is that dentry, and `parent_dir_version` of the child is the version of the
directory.  When the name is present the call aborts on its assertion. -/
theorem link_inode_cases (c : MDCache) (parent : CInodePtr) (dname : String)
    (in_ : CInodePtr) :
    ((∃ c1, link_inode c parent dname in_ = some (-ENOTDIR, c1)) ↔
      (c.inodes parent).dir = none) ∧
    ((c.inodes parent).dir = none → link_inode c parent dname in_ = some (-ENOTDIR, c)) ∧
    (∀ d, (c.inodes parent).dir = some d → d.lookup dname = none →
      ∃ c1, link_inode c parent dname in_ = some (0, c1) ∧
        (c1.inodes parent).dir = some (d.add_child dname in_) ∧
        (d.add_child dname in_).lookup dname = some ⟨dname, some in_⟩ ∧
        (c1.inodes in_).parent = some (parent, dname) ∧
        (c1.inodes in_).parent_dir_version = (d.add_child dname in_).version) ∧
    (∀ d, (c.inodes parent).dir = some d → d.lookup dname ≠ none →
      link_inode c parent dname in_ = none) := by
  have hnone : (c.inodes parent).dir = none →
      link_inode c parent dname in_ = some (-ENOTDIR, c) := by
    intro h
    unfold link_inode
    rw [h]
  have hsome : ∀ d, (c.inodes parent).dir = some d → d.lookup dname = none →
      ∃ c1, link_inode c parent dname in_ = some (0, c1) ∧
        (c1.inodes parent).dir = some (d.add_child dname in_) ∧
        (d.add_child dname in_).lookup dname = some ⟨dname, some in_⟩ ∧
        (c1.inodes in_).parent = some (parent, dname) ∧
        (c1.inodes in_).parent_dir_version = (d.add_child dname in_).version := by
    intro d hd hl
    unfold link_inode
    rw [hd]
    by_cases hp : in_ = parent
    · subst hp
      simp [hl, MDCache.set_inode, hd, CInode.add_parent, CDir.lookup_add_child]
    · have hp1 : ¬ parent = in_ := fun e => hp e.symm
      simp [hl, MDCache.set_inode, hd, CInode.add_parent, CDir.lookup_add_child, hp, hp1]
  have hpres : ∀ d, (c.inodes parent).dir = some d → d.lookup dname ≠ none →
      link_inode c parent dname in_ = none := by
    intro d hd hl
    unfold link_inode
    rw [hd]
    obtain ⟨e, hx⟩ : ∃ e, d.lookup dname = some e := Option.ne_none_iff_exists'.mp hl
    simp [hx]
  refine ⟨⟨?_, fun h => ⟨c, hnone h⟩⟩, hnone, hsome, hpres⟩
  rintro ⟨c1, h1⟩
  cases hd : (c.inodes parent).dir with
  | none => rfl
  | some d =>
    exfalso
    cases hl : d.lookup dname with
    | none =>
      obtain ⟨c2, h2, _⟩ := hsome d hd hl
      rw [h2] at h1
      simp [ENOTDIR] at h1
    | some e =>
      rw [hpres d hd (by rw [hl]; simp)] at h1
      simp at h1

theorem link_inode_cases_witness :
    (cache_dir_opened.inodes 1).dir = some { CDir.blank with version := 4 } ∧
    ({ CDir.blank with version := 4 } : CDir).lookup "a" = none ∧
    ∃ c1, link_inode cache_dir_opened 1 "a" 2 = some (0, c1) ∧
      (c1.inodes 1).dir = some (({ CDir.blank with version := 4 } : CDir).add_child "a" 2) ∧
      (({ CDir.blank with version := 4 } : CDir).add_child "a" 2).lookup "a" =
        some ⟨"a", some 2⟩ ∧
      (c1.inodes 2).parent = some (1, "a") ∧
      (c1.inodes 2).parent_dir_version =
        (({ CDir.blank with version := 4 } : CDir).add_child "a" 2).version :=
  ⟨rfl, rfl, (link_inode_cases cache_dir_opened 1 "a" 2).2.2.1 _ rfl rfl⟩

/-! ## `export_dir`: rejected exports -/

theorem open_dir_parent (c : MDCache) (cur p : CInodePtr) :
    ((open_dir c cur).2.inodes p).parent = (c.inodes p).parent := by
  rcases (open_dir_dirs_opened c cur).2 p with g | ⟨_, g⟩ <;> rw [g]

/-- C22: `export_dir(R, dest)` aborts on an assertion whenever `dest` is this MDS or `R` has no
parent.  The only statement it has run by then is the one that opens the directory of `R`: the
cache differs at most by that directory (`dirs_opened`), so no `ExportDirPrep` was sent, no
freeze was started and no auth-pin or popularity was changed; for `dest` this MDS not even that
statement has run. -/
theorem export_dir_rejects (k : Nat) (c : MDCache) (R : CInodePtr) (dest : Int)
    (h : dest = c.whoami ∨ (c.inodes R).parent = none) :
    export_dir k c R dest = .aborted ∧
    c.dirs_opened (open_dir c R).2 ∧
    (open_dir c R).2.sent = c.sent ∧
    (∀ p, ((open_dir c R).2.inodes p).popularity = (c.inodes p).popularity ∧
      ((open_dir c R).2.inodes p).auth_pins = (c.inodes p).auth_pins ∧
      ∀ d, (c.inodes p).dir = some d → ((open_dir c R).2.inodes p).dir = some d) := by
  have ho := open_dir_dirs_opened c R
  refine ⟨?_, ho, by rw [ho.1], fun p => ?_⟩
  · unfold export_dir
    by_cases hd : dest = c.whoami
    · rw [if_pos hd]
    · rw [if_neg hd]
      have hp : (c.inodes R).parent = none := h.resolve_left hd
      have hp1 : ((open_dir c R).2.inodes R).parent.isNone = true := by
        rw [open_dir_parent, hp]; rfl
      simp only [hp1, if_true]
  · refine ⟨?_, ?_, fun d hd => MDCache.dirs_opened_dir ho p d hd⟩
    · rcases ho.2 p with g | ⟨_, g⟩ <;> rw [g]
    · rcases ho.2 p with g | ⟨_, g⟩ <;> rw [g]

theorem export_dir_rejects_witness :
    (cache_tree.inodes 1).parent = none ∧ export_dir 3 cache_tree 1 1 = .aborted :=
  ⟨rfl, (export_dir_rejects 3 cache_tree 1 1 (Or.inr rfl)).1⟩

/-! ## `export_dir_frozen`: the bookkeeping of exports -/

/-- C23 (defect of the code): in `cache_nested_imports` the bookkeeping is consistent, every
export being listed once under its nearest import ancestor, and `show_imports` passes its
assertions.  Yet `export_dir_frozen` of the directory `5`, which lies under the import `3` next
to the export `4`, aborts: for the nested export `4` it asks `get_containing_export` of the
parent `3`, which walks past the import `3` to the export `2` above it, and `2` is not the new
export, so control reaches `assert(0)`.  The fuel is any that suffices for the walks. -/
theorem export_dir_frozen_nested_aborts (k : Nat) :
    nested_exports_consistent (k + 3) cache_nested_imports = true ∧
    show_imports (k + 3) cache_nested_imports = .returned () ∧
    get_containing_import (k + 3) cache_nested_imports (some 5) = .returned 3 ∧
    get_containing_export (k + 3) cache_nested_imports
      (cache_nested_imports.inodes 4).get_parent_inode = .returned (some 2) ∧
    export_dir_frozen (k + 3) cache_nested_imports 5 2 0 = .aborted :=
  ⟨rfl, rfl, rfl, rfl, rfl⟩

/-! ## `handle_export_dir` -/

/-- C25 (defect of the code): MDS `0` exports the directory `2` of `cache_exporter` to MDS `1`,
which sends the `MExportDir` with the blocks `blocks_exported`.  When MDS `1` handles it in
`cache_importer`, the directory is in `imports`, holds `PIN_IMPORT`, its `CDir` has AUTH and
one `MExportDirAck` went to MDS `0`, but IMPORT is clear: `import_dir_block` assigns
`dstate->state & CDIR_MASK_STATE_EXPORTED` to the state that `handle_export_dir` had set
IMPORT in, and the state of the exporter has no IMPORT.  When the directory was in `exports`
of the importer (`cache_reimporter`), it leaves `exports` and neither enters `imports` nor gets
`PIN_IMPORT`. -/
theorem handle_export_dir_import_bit (k : Nat) :
    (∃ c1, export_dir_frozen (k + 3) cache_exporter 2 1 0 = .returned c1 ∧
      c1.sent = [(.MExportDir 20 0 blocks_exported, .MDS 1)]) ∧
    (∃ c1, handle_export_dir (k + 3) cache_importer ⟨.MDS 0, 20, 0, blocks_exported⟩ =
        .returned c1 ∧
      c1.imports = [2] ∧
      (c1.inodes 2).dir.map (fun d => (d.state.import_, d.state.auth)) = some (false, true) ∧
      (c1.inodes 2).ref_set = [.CINODE_PIN_IMPORT] ∧
      c1.sent = [(.MExportDirAck 20, .MDS 0), (.MExportDirNotify "" 1, .MDS 0)]) ∧
    (∃ c1, handle_export_dir (k + 3) cache_reimporter ⟨.MDS 0, 20, 0, blocks_exported⟩ =
        .returned c1 ∧
      c1.imports = [1] ∧ c1.exports = [] ∧ c1.nested_exports = [] ∧
      (c1.inodes 2).dir.map (fun d => (d.state.import_, d.state.auth)) = some (false, true) ∧
      (c1.inodes 2).ref_set = [] ∧
      c1.sent = [(.MExportDirAck 20, .MDS 0)]) :=
  ⟨⟨_, rfl, rfl⟩, ⟨_, rfl, rfl, rfl, rfl, rfl⟩, ⟨_, rfl, rfl, rfl, rfl, rfl, rfl, rfl⟩⟩

/-! ## The blob of an export -/

/-- C29 (defect of the code): the block that `export_dir_walk` builds for the hashed directory
`2` of `cache_exporter_hashed`, which has a file and a directory, says `nitems = 2`, the number
of entries of the directory, and has one entry, that of the directory child.  The decoder,
`import_dir_block`, runs its loop `nitems` times: on this block it reads past the end, while on
the block with `nitems = 1` it returns with the cursor at the end. -/
theorem export_dir_walk_hashed_nitems (k : Nat) :
    (∃ c1, export_dir_walk (k + 2) cache_exporter_hashed [] 2 2 1 =
      .returned ([block_hashed], c1)) ∧
    block_nitems block_hashed = some 2 ∧
    block_entries block_hashed = 1 ∧
    import_dir_block cache_importer_hashed_start block_hashed 2 0 2 = none ∧
    (import_dir_block cache_importer_hashed_start block_hashed_counted 2 0 2).map
      (fun r => r.1) = some [] :=
  ⟨⟨_, rfl⟩, rfl, rfl, rfl, rfl⟩

theorem import_dentry_inode_hashed_cursor (c : MDCache) (dir : CInodePtr) (dname : String)
    (istate : Inode_Export_State_t) (p2 : List BlobCell) (from_ : Int)
    (import_root : CInodePtr) (d : CDir) (in_ : CInodePtr) (p1 : List BlobCell)
    (c1 : MDCache) (hd : (c.inodes dir).dir = some d) (hh : d.state.hashed = true)
    (hu : d.state.unhashing = false)
    (h : import_dentry_inode c dir (.str dname :: .inode_state istate :: p2) from_
      import_root = some (in_, p1, c1)) :
    p1 = p2 := by
  unfold import_dentry_inode at h
  rw [hd] at h
  simp only [hh, hu, Bool.false_eq_true, if_false, if_true] at h
  split_ifs at h
  all_goals
    split at h
    · simp at h
    · split_ifs at h
      split at h
      · simp at h
      · simp only [Option.some.injEq, Prod.mk.injEq] at h
        exact h.2.1.symm

/-- C30 (defect of the code): for an entry of a hashed directory `import_dentry_inode` does not
read the members of `cached_by` that follow the `Inode_Export_State_t`, which
`export_dir_walk` emits for such an entry too (`block_hashed_one` is built from
`cache_exporter_hashed_cached`).  On the entry of this block, whose `ncached_by` is `1`, it
leaves the cursor at that member: it has advanced by the length of the name plus one and the
size of the struct, whatever the sizes are, and not by `sizeof(int)` more.  So
`import_dir_block` on this block, followed by the block `block_empty`, leaves the cursor one
`int` before the next block, and `handle_export_dir` of the two blocks aborts, while it returns
when nobody caches the directory of the entry. -/
theorem import_dentry_inode_hashed_skips_cached_by (z : BlobSizes) (k : Nat) :
    (∃ c1, export_dir_walk (k + 2) cache_exporter_hashed_cached [] 2 2 1 =
      .returned ([block_hashed_one], c1)) ∧
    (import_dentry_inode cache_importer_hashed 2 (block_hashed_one.drop 1) 0 2).map
      (fun r => (r.1, r.2.1)) = some (4, [.int 2]) ∧
    blob_size z (block_hashed_one.drop 1) =
      blob_size z [.int 2] + (("d".utf8ByteSize + 1) + z.sizeof_inode_export_state) ∧
    (import_dir_block cache_importer_hashed_start (block_hashed_one ++ block_empty) 2 0 2).map
      (fun r => r.1) = some (.int 2 :: block_empty) ∧
    handle_export_dir (k + 3) cache_importer_hashed_start
      ⟨.MDS 0, 20, 0, [block_hashed_one, block_empty]⟩ = .aborted ∧
    (∃ c1, handle_export_dir (k + 3) cache_importer_hashed_start
      ⟨.MDS 0, 20, 0, [block_hashed_none, block_empty]⟩ = .returned c1) := by
  refine ⟨⟨_, rfl⟩, rfl, ?_, rfl, rfl, ⟨_, rfl⟩⟩
  simp [blob_size, BlobCell.size, block_hashed_one]
  omega

/-! ## Discovery -/

theorem IntSet.mem_insert (s : IntSet) (x y : Int) :
    y ∈ IntSet.insert s x ↔ y = x ∨ y ∈ s := by
  unfold IntSet.insert
  split_ifs with h
  · constructor
    · exact Or.inr
    · rintro (rfl | h1)
      · exact h
      · exact h1
  · simp [List.mem_orderedInsert]

theorem add_inode_some (c : MDCache) (p : CInodePtr) (c2 : MDCache)
    (h : add_inode c p = some c2) :
    c2 = { c with lru := c.lru.lru_insert_mid p
                  inode_map := c.inode_map.insert (c.inodes p).ino p } := by
  unfold add_inode at h
  dsimp only at h
  split_ifs at h
  simp only [Option.some.injEq] at h
  exact h.symm

theorem CInode.discover_dist_auth (i : CInode) (t : MDiscoverRec_t) :
    (i.discover_dist t).auth = i.auth ∧ (i.discover_dist t).cached_by = i.cached_by := by
  unfold CInode.discover_dist
  dsimp only
  split_ifs <;> exact ⟨rfl, rfl⟩

/-- C27 (the claim fails as stated): the root replica that `handle_discover` installs from a
just-root result whose snapshot has an empty `cached_by` is not authoritative and has this MDS,
`1`, in `cached_by`. -/
theorem handle_discover_root_cached_by :
    ∃ c1, handle_discover cache_no_root ⟨1, "", none, [rec_root]⟩ = some c1 ∧
      c1.root = some 100 ∧ (c1.inodes 100).auth = false ∧ (c1.inodes 100).cached_by = [1] :=
  ⟨_, rfl, rfl, rfl, rfl⟩

/-! ## `cached_by` never holds the id of the authority -/

theorem MDCache.same_caching_refl (c : MDCache) : c.same_caching c :=
  ⟨rfl, fun _ => ⟨rfl, rfl⟩⟩

theorem MDCache.same_caching_trans {c c1 c2 : MDCache} (h1 : c.same_caching c1)
    (h2 : c1.same_caching c2) : c.same_caching c2 :=
  ⟨h2.1.trans h1.1, fun p => ⟨(h2.2 p).1.trans (h1.2 p).1, (h2.2 p).2.trans (h1.2 p).2⟩⟩

theorem MDCache.same_caching_set_inode (c : MDCache) (p : CInodePtr) (i : CInode)
    (ha : i.auth = (c.inodes p).auth) (hc : i.cached_by = (c.inodes p).cached_by) :
    c.same_caching (c.set_inode p i) := by
  refine ⟨rfl, fun q => ?_⟩
  by_cases hq : q = p
  · subst hq
    simp [MDCache.set_inode, ha, hc]
  · simp [MDCache.set_inode, hq]

theorem MDCache.auth_not_self_of_same_caching {c c1 : MDCache} (h : c.same_caching c1)
    (hi : c.auth_not_self) : c1.auth_not_self := by
  intro p ha
  rw [h.1, (h.2 p).2]
  exact hi p (by rw [← (h.2 p).1]; exact ha)

theorem MDCache.auth_not_self_set_inode (c : MDCache) (p : CInodePtr) (i : CInode)
    (hi : c.auth_not_self) (h : i.auth = true → c.whoami ∉ i.cached_by) :
    (c.set_inode p i).auth_not_self := by
  intro q ha
  by_cases hq : q = p
  · subst hq
    simp only [MDCache.set_inode, if_true] at ha ⊢
    exact h ha
  · simp only [MDCache.set_inode, if_neg hq] at ha ⊢
    exact hi q ha

theorem open_dir_same_caching (c : MDCache) (cur : CInodePtr) :
    c.same_caching (open_dir c cur).2 := by
  have ho := open_dir_dirs_opened c cur
  refine ⟨by rw [ho.1], fun p => ?_⟩
  rcases ho.2 p with g | ⟨_, g⟩ <;> rw [g] <;> exact ⟨rfl, rfl⟩

theorem inode_lock_wait_same_caching (c : MDCache) (q : CInodePtr) (c1 : MDCache)
    (h : inode_lock_wait c q = some c1) : c.same_caching c1 := by
  unfold inode_lock_wait at h
  dsimp only at h
  split_ifs at h
  simp only [Option.some.injEq] at h
  subst h
  exact MDCache.same_caching_set_inode _ _ _ rfl rfl

theorem read_hard_try_same_caching (c : MDCache) (q : CInodePtr) (m : Option Message)
    (b : Bool) (c1 : MDCache) (h : read_hard_try c q m = some (b, c1)) :
    c.same_caching c1 := by
  unfold read_hard_try at h
  dsimp only at h
  split_ifs at h
  · simp only [Option.some.injEq, Prod.mk.injEq] at h
    rw [← h.2]
    exact MDCache.same_caching_refl c
  · split at h
    · simp at h
    · rename_i c2 hw
      simp only [Option.some.injEq, Prod.mk.injEq] at h
      rw [← h.2]
      have h3 := inode_lock_wait_same_caching _ _ _ hw
      exact MDCache.same_caching_trans (MDCache.same_caching_set_inode c q
        ((c.inodes q).add_waiter .CINODE_WAIT_UNLOCK (.C_MDS_RetryMessage m)) rfl rfl) h3
  · simp only [Option.some.injEq, Prod.mk.injEq] at h
    rw [← h.2]
    exact MDCache.same_caching_set_inode _ _ _ rfl rfl
  · simp only [Option.some.injEq, Prod.mk.injEq] at h
    rw [← h.2]
    exact MDCache.same_caching_refl c

theorem path_traverse_loop_same_caching (req : Option Message) (onfail : OnFail) :
    ∀ (segs : List String) (c : MDCache) (cur : CInodePtr) (hc : String)
      (tr : List CInodePtr) (r : Int) (tr1 : List CInodePtr) (c1 : MDCache),
      path_traverse_loop req onfail segs c cur hc tr = some (r, tr1, c1) →
      c.same_caching c1 := by
  intro segs
  induction segs with
  | nil =>
    intro c cur hc tr r tr1 c1 h
    simp only [path_traverse_loop, Option.some.injEq, Prod.mk.injEq] at h
    rw [← h.2.2]
    exact MDCache.same_caching_refl c
  | cons dname segs ih =>
    intro c cur hc tr r tr1 c1 h
    have ho := open_dir_same_caching c cur
    rw [path_traverse_loop] at h
    cases hdir : (c.inodes cur).is_dir
    · simp only [hdir, Bool.false_eq_true, if_false, Option.some.injEq, Prod.mk.injEq] at h
      rw [← h.2.2]
      exact MDCache.same_caching_refl c
    · simp only [hdir, if_true] at h
      cases hfro : ((open_dir c cur).1.state.frozen_tree_root ||
          (open_dir c cur).1.state.frozen_dir)
      · simp only [hfro, Bool.false_eq_true, if_false] at h
        cases hr : read_hard_try (open_dir c cur).2 cur req with
        | none => simp [hr] at h
        | some rr =>
          obtain ⟨b, c2⟩ := rr
          have h2 := MDCache.same_caching_trans ho (read_hard_try_same_caching _ _ _ _ _ hr)
          cases b
          · simp only [hr, Option.some.injEq, Prod.mk.injEq] at h
            rw [← h.2.2]
            exact h2
          · simp only [hr] at h
            cases hd : (c2.inodes cur).dir with
            | none => simp [hd] at h
            | some d =>
              simp only [hd] at h
              cases hl : d.lookup_inode dname with
              | some next =>
                simp only [hl] at h
                exact MDCache.same_caching_trans h2 (ih _ _ _ _ _ _ _ h)
              | none =>
                simp only [hl] at h
                split_ifs at h
                · simp only [Option.some.injEq, Prod.mk.injEq] at h
                  rw [← h.2.2]
                  exact h2
                · simp only [Option.some.injEq, Prod.mk.injEq] at h
                  rw [← h.2.2]
                  exact h2
                · simp only [Option.some.injEq, Prod.mk.injEq] at h
                  rw [← h.2.2]
                  exact MDCache.same_caching_trans h2 ⟨rfl, fun _ => ⟨rfl, rfl⟩⟩
                · cases onfail
                  · cases req with
                    | none => simp at h
                    | some rq =>
                      simp only [Option.some.injEq, Prod.mk.injEq] at h
                      rw [← h.2.2]
                      exact MDCache.same_caching_trans h2 ⟨rfl, fun _ => ⟨rfl, rfl⟩⟩
                  · simp only [Option.some.injEq, Prod.mk.injEq] at h
                    rw [← h.2.2]
                    refine MDCache.same_caching_trans h2 ⟨rfl, fun p => ?_⟩
                    by_cases hp : p = cur
                    · subst hp
                      simp [MDCache.set_inode, MDCache.send_message]
                    · simp [MDCache.set_inode, MDCache.send_message, hp]
                  · simp only [Option.some.injEq, Prod.mk.injEq] at h
                    rw [← h.2.2]
                    exact h2
      · simp only [hfro, if_true, Option.some.injEq, Prod.mk.injEq] at h
        rw [← h.2.2]
        exact MDCache.same_caching_trans ho (MDCache.same_caching_set_inode _ _ _ rfl rfl)

theorem path_traverse_same_caching (c : MDCache) (pathname : String) (tr : List CInodePtr)
    (req : Option Message) (onfail : OnFail) (r : Int) (tr1 : List CInodePtr)
    (c1 : MDCache) (h : path_traverse c pathname tr req onfail = some (r, tr1, c1)) :
    c.same_caching c1 := by
  unfold path_traverse at h
  cases hroot : c.root with
  | none =>
    rw [hroot] at h
    cases req with
    | none =>
      simp only [Option.some.injEq, Prod.mk.injEq] at h
      rw [← h.2.2]
      exact MDCache.same_caching_refl c
    | some rq =>
      simp only [Option.some.injEq, Prod.mk.injEq] at h
      rw [← h.2.2]
      exact ⟨rfl, fun _ => ⟨rfl, rfl⟩⟩
  | some cur =>
    rw [hroot] at h
    exact path_traverse_loop_same_caching _ _ _ _ _ _ _ _ _ _ h

theorem CInode.cached_by_add_not_self (i : CInode) (who self : Int) (hw : who ≠ self)
    (h : i.auth = true → self ∉ i.cached_by) :
    (i.cached_by_add who).auth = true → self ∉ (i.cached_by_add who).cached_by := by
  intro ha hm
  unfold CInode.cached_by_add at ha hm
  rw [IntSet.mem_insert] at hm
  rcases hm with e | hm
  · exact hw e.symm
  · exact h ha hm

theorem handle_discover_bits_auth_not_self :
    ∀ (l : List String) (dis : MDiscover) (c : MDCache) (cur : CInodePtr) (b : Bool)
      (c1 : MDCache),
      c.auth_not_self → dis.asker ≠ c.whoami →
      handle_discover_bits l dis c cur b = some c1 → c1.auth_not_self := by
  intro l
  induction l with
  | nil =>
    intro dis c cur b c1 hi _ h
    simp only [handle_discover_bits, Option.some.injEq] at h
    rw [← h]
    exact fun p => hi p
  | cons w ws ih =>
    intro dis c cur b c1 hi ha h
    have ho := open_dir_same_caching c cur
    have hi0 : (open_dir c cur).2.auth_not_self :=
      MDCache.auth_not_self_of_same_caching ho hi
    rw [handle_discover_bits] at h
    dsimp only at h
    split_ifs at h
    · simp only [Option.some.injEq] at h
      rw [← h]
      exact fun p => hi0 p
    · simp only [Option.some.injEq] at h
      rw [← h]
      exact fun p => hi0 p
    · simp only [Option.some.injEq] at h
      rw [← h]
      exact MDCache.auth_not_self_of_same_caching
        (MDCache.same_caching_set_inode _ _ _ rfl rfl) hi0
    · split at h
      · split at h
        · simp at h
        · rename_i next _
          refine ih _ _ _ _ _ ?_ ?_ h
          · exact MDCache.auth_not_self_set_inode _ _ _ hi0
              (CInode.cached_by_add_not_self _ _ _ (by rw [ho.1]; exact ha) (hi0 next))
          · rw [MDCache.set_inode, ho.1]
            exact ha
      · simp at h
    · split at h
      · split at h
        · simp at h
        · rename_i next _
          refine ih _ _ _ _ _ ?_ ?_ h
          · exact MDCache.auth_not_self_set_inode _ _ _ hi0
              (CInode.cached_by_add_not_self _ _ _ (by rw [ho.1]; exact ha) (hi0 next))
          · rw [MDCache.set_inode, ho.1]
            exact ha
      · simp only [Option.some.injEq] at h
        rw [← h]
        exact fun p => hi0 p

theorem handle_discover_request_auth_not_self (c : MDCache) (dis : MDiscover) (c1 : MDCache)
    (hi : c.auth_not_self) (ha : dis.asker ≠ c.whoami)
    (h : handle_discover_request c dis = some c1) : c1.auth_not_self := by
  unfold handle_discover_request at h
  split at h
  · simp only [Option.some.injEq] at h
    rw [← h]
    exact fun p => hi p
  · split at h
    · simp at h
    · rename_i r trav c2 hp
      have hs := path_traverse_same_caching _ _ _ _ _ _ _ _ hp
      have hi2 : c2.auth_not_self := MDCache.auth_not_self_of_same_caching hs hi
      have ha2 : dis.asker ≠ c2.whoami := by rw [hs.1]; exact ha
      by_cases hr : r > 0
      · simp only [if_pos hr, Option.some.injEq] at h
        rw [← h]
        exact hi2
      · simp only [if_neg hr] at h
        cases hcur : trav.getLast? with
        | none => simp [hcur] at h
        | some cur =>
          simp only [hcur] at h
          by_cases hj : dis.just_root = true
          · simp only [if_pos hj] at h
            cases hroot : c2.root with
            | none => simp [hroot] at h
            | some root =>
              simp only [hroot] at h
              refine handle_discover_bits_auth_not_self _ _ _ _ _ _ ?_ ?_ h
              · exact MDCache.auth_not_self_set_inode _ _ _ hi2
                  (CInode.cached_by_add_not_self _ _ _ ha2 (hi2 root))
              · exact ha2
          · simp only [if_neg hj] at h
            exact handle_discover_bits_auth_not_self _ _ _ _ _ _ hi2 ha2 h

theorem handle_inode_get_replica_auth_not_self (c : MDCache) (m : MInodeGetReplica)
    (c1 : MDCache) (hi : c.auth_not_self) (hs : MSG_ADDR_NUM m.source ≠ c.whoami)
    (h : handle_inode_get_replica c m = some c1) : c1.auth_not_self := by
  unfold handle_inode_get_replica at h
  split at h
  · simp at h
  · rename_i in_ _
    simp only [Option.some.injEq] at h
    rw [← h]
    exact fun p => MDCache.auth_not_self_set_inode _ _ _ hi
      (CInode.cached_by_add_not_self _ _ _ hs (hi in_)) p

theorem link_inode_same_caching (c : MDCache) (parent : CInodePtr) (dname : String)
    (in_ : CInodePtr) (r : Int) (c1 : MDCache)
    (h : link_inode c parent dname in_ = some (r, c1)) :
    c.same_caching c1 ∧ c1 = { c with inodes := c1.inodes } := by
  unfold link_inode at h
  cases hd : (c.inodes parent).dir with
  | none =>
    simp only [hd, Option.some.injEq, Prod.mk.injEq] at h
    rw [← h.2]
    exact ⟨MDCache.same_caching_refl c, rfl⟩
  | some d =>
    simp only [hd] at h
    split_ifs at h
    split at h
    · simp at h
    · simp only [Option.some.injEq, Prod.mk.injEq] at h
      rw [← h.2]
      refine ⟨?_, rfl⟩
      refine MDCache.same_caching_trans ?_
        (MDCache.same_caching_set_inode _ in_ _ (by rfl) (by rfl))
      refine MDCache.same_caching_trans ?_
        (MDCache.same_caching_set_inode _ parent _ (by rfl) (by rfl))
      exact MDCache.same_caching_set_inode c in_ _ (by rfl) (by rfl)

theorem import_dentry_inode_find_spec (c : MDCache) (dir : CInodePtr) (dname : String)
    (istate : Inode_Export_State_t) (in_ : CInodePtr) (had : Bool) (c1 : MDCache)
    (hi : c.auth_not_self)
    (h : import_dentry_inode_find c dir dname istate = some (in_, had, c1)) :
    c1.whoami = c.whoami ∧ c1.authority = c.authority ∧ c1.auth_not_self ∧
    (had = true → c1 = c ∧ c.get_inode istate.inode.ino = some in_) ∧
    (had = false → (c1.inodes in_).cached_by = []) := by
  unfold import_dentry_inode_find at h
  obtain ⟨g, hg⟩ : ∃ g, c.get_inode istate.inode.ino = g := ⟨_, rfl⟩
  cases g with
  | some q =>
    simp only [hg, Option.some.injEq, Prod.mk.injEq] at h
    obtain ⟨rfl, rfl, rfl⟩ := h
    exact ⟨rfl, rfl, hi, fun _ => ⟨rfl, hg⟩, fun e => by simp at e⟩
  | none =>
    simp only [hg] at h
    split at h
    · simp at h
    · rename_i c3 ha
      split at h
      · simp at h
      · rename_i r c4 hl
        simp only [Option.some.injEq, Prod.mk.injEq] at h
        obtain ⟨rfl, rfl, rfl⟩ := h
        have e3 := add_inode_some _ _ _ ha
        obtain ⟨hs, e4⟩ := link_inode_same_caching _ _ _ _ _ _ hl
        have hi2 : (c.new_CInode.2.set_inode c.new_CInode.1
            ((c.new_CInode.2.inodes c.new_CInode.1).set_inode_t istate.inode)).auth_not_self := by
          refine MDCache.auth_not_self_set_inode _ _ _ ?_ ?_
          · exact fun p => MDCache.auth_not_self_set_inode c c.heap_next CInode.fresh hi
              (fun _ => by simp [CInode.fresh]) p
          · intro _
            simp [MDCache.new_CInode, MDCache.set_inode, CInode.set_inode_t, CInode.fresh]
        have hi3 : c3.auth_not_self := by
          rw [e3]
          exact fun p => hi2 p
        have hc3 : (c3.inodes c.new_CInode.1).cached_by = [] := by
          rw [e3]
          simp [MDCache.new_CInode, MDCache.set_inode, CInode.set_inode_t, CInode.fresh]
        refine ⟨?_, ?_, MDCache.auth_not_self_of_same_caching hs hi3, fun e => by simp at e,
          fun _ => ?_⟩
        · rw [hs.1, e3]
          rfl
        · rw [e4, e3]
          rfl
        · rw [(hs.2 _).2, hc3]

theorem cached_by_add_foldl (l : List Int) :
    ∀ (i : CInode) (x : Int),
      x ∈ (l.foldl CInode.cached_by_add i).cached_by ↔ x ∈ l ∨ x ∈ i.cached_by := by
  induction l with
  | nil => intro i x; simp
  | cons a l ih =>
    intro i x
    rw [List.foldl_cons, ih, List.mem_cons]
    unfold CInode.cached_by_add
    rw [IntSet.mem_insert]
    tauto

theorem CInode.mark_dirty_cached_by (i : CInode) : i.mark_dirty.cached_by = i.cached_by := by
  unfold CInode.mark_dirty
  split_ifs <;> rfl

theorem import_dentry_inode_assim_spec (c : MDCache) (in_ : CInodePtr)
    (istate : Inode_Export_State_t) (p : List BlobCell) (from_ : Int) (p1 : List BlobCell)
    (c1 : MDCache) (h : import_dentry_inode_assim c in_ istate p from_ = some (p1, c1)) :
    c1.whoami = c.whoami ∧ (∀ q, q ≠ in_ → c1.inodes q = c.inodes q) ∧
    ∃ by_, read_ints istate.ncached_by.toNat p = some (by_, p1) ∧
      ∀ x, x ∈ (c1.inodes in_).cached_by ↔ (x ∈ by_ ∧ x ≠ c.whoami) ∨ x = from_ := by
  unfold import_dentry_inode_assim at h
  dsimp only at h
  split at h
  · simp at h
  · cases hr : read_ints istate.ncached_by.toNat p with
    | none => simp [hr] at h
    | some rr =>
      obtain ⟨by_, p2⟩ := rr
      simp only [hr] at h
      have key : ∀ x, x ∈ (((by_.filter (fun x => decide (x ≠ c.whoami))).foldl
          CInode.cached_by_add ({ ({ c.inodes in_ with dir_auth := istate.dir_auth } : CInode) with
            version := istate.version, popularity := istate.popularity }).cached_by_clear
          ).cached_by_add from_).cached_by ↔ (x ∈ by_ ∧ x ≠ c.whoami) ∨ x = from_ := by
        intro x
        unfold CInode.cached_by_add
        rw [IntSet.mem_insert]
        have := cached_by_add_foldl (by_.filter (fun x => decide (x ≠ c.whoami)))
          ({ ({ c.inodes in_ with dir_auth := istate.dir_auth } : CInode) with
            version := istate.version, popularity := istate.popularity }).cached_by_clear x
        unfold CInode.cached_by_add at this
        rw [this]
        simp [CInode.cached_by_clear]
        tauto
      by_cases hdirty : istate.dirty = true
      · simp only [hdirty, if_true, Option.some.injEq, Prod.mk.injEq] at h
        obtain ⟨rfl, rfl⟩ := h
        refine ⟨rfl, fun q hq => by simp [MDCache.set_inode, hq], by_, rfl, fun x => ?_⟩
        rw [← key x]
        simp [MDCache.set_inode, CInode.mark_dirty_cached_by]
      · simp only [hdirty, Bool.false_eq_true, if_false, Option.some.injEq, Prod.mk.injEq] at h
        obtain ⟨rfl, rfl⟩ := h
        refine ⟨rfl, fun q hq => by simp [MDCache.set_inode, hq], by_, rfl, fun x => ?_⟩
        rw [← key x]
        simp [MDCache.set_inode]

theorem import_dentry_inode_hashed_same_caching (c : MDCache) (dir : CInodePtr)
    (dname : String) (in_ : CInodePtr) (from_ : Int) (import_root : CInodePtr)
    (had_inode dir_hashed : Bool) (c1 : MDCache)
    (h : import_dentry_inode_hashed c dir dname in_ from_ import_root had_inode dir_hashed =
      some c1) : c.same_caching c1 := by
  unfold import_dentry_inode_hashed at h
  dsimp only at h
  split_ifs at h
  all_goals
    simp only [Option.some.injEq] at h
    rw [← h]
    refine ⟨rfl, fun p => ?_⟩
    by_cases hp : p = in_
    · subst hp
      by_cases hq : p = dir
      · subst hq
        simp [MDCache.set_inode, MDCache.send_message, CInode.add_waiter]
      · simp [MDCache.set_inode, MDCache.send_message, CInode.add_waiter, hq]
    · by_cases hq : p = dir
      · subst hq
        simp [MDCache.set_inode, MDCache.send_message, CInode.add_waiter, hp]
      · simp [MDCache.set_inode, MDCache.send_message, CInode.add_waiter, hp, hq]

theorem import_dentry_inode_assim_not_self (c : MDCache) (in_ : CInodePtr) (i : CInode)
    (istate : Inode_Export_State_t) (p : List BlobCell) (from_ : Int) (p1 : List BlobCell)
    (c1 : MDCache) (hi : c.auth_not_self) (hf : from_ ≠ c.whoami)
    (h : import_dentry_inode_assim (c.set_inode in_ i) in_ istate p from_ = some (p1, c1)) :
    c1.auth_not_self ∧
    ∃ by_, read_ints istate.ncached_by.toNat p = some (by_, p1) ∧
      ∀ x, x ∈ (c1.inodes in_).cached_by ↔ (x ∈ by_ ∧ x ≠ c.whoami) ∨ x = from_ := by
  obtain ⟨hw, hq, by_, hr, hx⟩ := import_dentry_inode_assim_spec _ _ _ _ _ _ _ h
  have hw1 : c1.whoami = c.whoami := hw
  refine ⟨fun q ha => ?_, by_, hr, hx⟩
  by_cases hqi : q = in_
  · subst hqi
    rw [hw1]
    intro hm
    rcases (hx _).mp hm with ⟨_, hne⟩ | he
    · exact hne rfl
    · exact hf he.symm
  · rw [hq q hqi] at ha ⊢
    simp only [MDCache.set_inode, if_neg hqi] at ha ⊢
    rw [hw1]
    exact hi q ha

theorem import_dentry_inode_auth_not_self (c : MDCache) (dir : CInodePtr)
    (p : List BlobCell) (from_ : Int) (import_root in_ : CInodePtr) (p1 : List BlobCell)
    (c1 : MDCache) (hi : c.auth_not_self) (hf : from_ ≠ c.whoami)
    (ho : ∀ ino q, c.get_inode ino = some q → c.authority q = c.whoami →
      (c.inodes q).auth = true)
    (h : import_dentry_inode c dir p from_ import_root = some (in_, p1, c1)) :
    c1.auth_not_self ∧
    ∀ d dname istate p2, (c.inodes dir).dir = some d →
      (d.state.unhashing = true ∨ d.state.hashed = false) →
      p = .str dname :: .inode_state istate :: p2 →
      ∃ by_, read_ints istate.ncached_by.toNat p2 = some (by_, p1) ∧
        ∀ x, x ∈ (c1.inodes in_).cached_by ↔ (x ∈ by_ ∧ x ≠ c.whoami) ∨ x = from_ := by
  unfold import_dentry_inode at h
  obtain ⟨od, hd⟩ : ∃ od, (c.inodes dir).dir = od := ⟨_, rfl⟩
  cases od with
  | none => simp [hd] at h
  | some d =>
    simp only [hd] at h
    split at h
    · simp at h
    · split at h
      · rename_i dname istate p2
        cases hfind : import_dentry_inode_find c dir dname istate with
        | none => simp [hfind] at h
        | some fr =>
          obtain ⟨in0, had, cf⟩ := fr
          simp only [hfind] at h
          obtain ⟨fw, fa, fi, fh, fn⟩ := import_dentry_inode_find_spec _ _ _ _ _ _ _ hi hfind
          have hf1 : from_ ≠ cf.whoami := by rw [fw]; exact hf
          by_cases hu : d.state.unhashing = true
          · simp only [hu, if_true] at h
            split at h
            · simp at h
            · rename_i p3 c3 hassim
              simp only [Option.some.injEq, Prod.mk.injEq] at h
              obtain ⟨rfl, rfl, rfl⟩ := h
              obtain ⟨g1, by_, g2, g3⟩ :=
                import_dentry_inode_assim_not_self _ _ _ _ _ _ _ _ fi hf1 hassim
              refine ⟨g1, fun d1 dname1 istate1 p21 hd1 _ hp => ?_⟩
              simp only [List.cons.injEq, BlobCell.str.injEq, BlobCell.inode_state.injEq] at hp
              obtain ⟨_, rfl, rfl⟩ := hp
              exact ⟨by_, g2, fun x => by rw [g3 x, fw]⟩
          · simp only [hu, Bool.false_eq_true, if_false] at h
            by_cases hh : d.state.hashed = true
            · simp only [hh, if_true] at h
              split at h
              · simp at h
              · split at h
                · simp at h
                · rename_i c3 hhashed
                  simp only [Option.some.injEq, Prod.mk.injEq] at h
                  obtain ⟨rfl, rfl, rfl⟩ := h
                  have hs := import_dentry_inode_hashed_same_caching _ _ _ _ _ _ _ _ _ hhashed
                  refine ⟨MDCache.auth_not_self_of_same_caching hs ?_, ?_⟩
                  · refine MDCache.auth_not_self_set_inode _ _ _ fi ?_
                    intro hauth
                    have hauth1 : cf.authority in0 = cf.whoami := by simpa using hauth
                    cases had with
                    | true =>
                      obtain ⟨rfl, hg⟩ := fh rfl
                      exact hi in0 (ho _ _ hg hauth1)
                    | false =>
                      have := fn rfl
                      simp only [this]
                      exact List.not_mem_nil _
                  · intro d1 dname1 istate1 p21 hd1 hm _
                    rw [hd] at hd1
                    simp only [Option.some.injEq] at hd1
                    subst hd1
                    rcases hm with hm | hm
                    · exact absurd hm hu
                    · rw [hh] at hm
                      simp at hm
            · simp only [hh, Bool.false_eq_true, if_false] at h
              split at h
              · simp at h
              · rename_i p3 c3 hassim
                simp only [Option.some.injEq, Prod.mk.injEq] at h
                obtain ⟨rfl, rfl, rfl⟩ := h
                obtain ⟨g1, by_, g2, g3⟩ :=
                  import_dentry_inode_assim_not_self _ _ _ _ _ _ _ _ fi hf1 hassim
                refine ⟨g1, fun d1 dname1 istate1 p21 hd1 _ hp => ?_⟩
                simp only [List.cons.injEq, BlobCell.str.injEq, BlobCell.inode_state.injEq] at hp
                obtain ⟨_, rfl, rfl⟩ := hp
                exact ⟨by_, g2, fun x => by rw [g3 x, fw]⟩
      · simp at h

/-- C28: assuming the message handled was sent by another MDS, if no authoritative inode object
has the id of this MDS in `cached_by` before, then none has after `handle_discover` of a
request, after `handle_inode_get_replica` and after `import_dentry_inode`, whenever these
return.  For `import_dentry_inode`, which in a hashed directory sets `auth` from the authority
of the inode and keeps `cached_by`, the authority oracle is assumed to agree with the `auth`
flag of the inodes the cache holds: one whose authority is this MDS is flagged authoritative.
When the entry is imported (the directory is unhashing or not hashed), `cached_by` of the inode
is the transmitted members other than this MDS together with the exporter. -/
theorem cached_by_never_self :
    (∀ (c : MDCache) (dis : MDiscover) (c1 : MDCache),
      c.auth_not_self → dis.asker ≠ c.whoami →
      handle_discover c dis = some c1 → c1.auth_not_self) ∧
    (∀ (c : MDCache) (m : MInodeGetReplica) (c1 : MDCache),
      c.auth_not_self → MSG_ADDR_NUM m.source ≠ c.whoami →
      handle_inode_get_replica c m = some c1 → c1.auth_not_self) ∧
    (∀ (c : MDCache) (dir : CInodePtr) (p : List BlobCell) (from_ : Int)
      (import_root in_ : CInodePtr) (p1 : List BlobCell) (c1 : MDCache),
      c.auth_not_self → from_ ≠ c.whoami →
      (∀ ino q, c.get_inode ino = some q → c.authority q = c.whoami →
        (c.inodes q).auth = true) →
      import_dentry_inode c dir p from_ import_root = some (in_, p1, c1) →
      c1.auth_not_self ∧
      ∀ d dname istate p2, (c.inodes dir).dir = some d →
        (d.state.unhashing = true ∨ d.state.hashed = false) →
        p = .str dname :: .inode_state istate :: p2 →
        ∃ by_, read_ints istate.ncached_by.toNat p2 = some (by_, p1) ∧
          ∀ x, x ∈ (c1.inodes in_).cached_by ↔ (x ∈ by_ ∧ x ≠ c.whoami) ∨ x = from_) := by
  refine ⟨fun c dis c1 hi ha h => ?_, handle_inode_get_replica_auth_not_self,
    import_dentry_inode_auth_not_self⟩
  unfold handle_discover at h
  rw [if_neg ha] at h
  exact handle_discover_request_auth_not_self c dis c1 hi ha h

theorem cached_by_never_self_witness :
    ((handle_discover cache_tree ⟨1, "", some ["a"], []⟩).getD cache_tree).auth_not_self ∧
    ((handle_inode_get_replica cache_exporter ⟨.MDS 1, 21⟩).getD cache_exporter).auth_not_self ∧
    (((import_dentry_inode cache_importer_block 2 entry_exported 0 2).map
      (fun r => r.2.2)).getD cache_importer_block).auth_not_self ∧
    ∃ by_, read_ints 2 [.int 1, .int 2] = some (by_, []) ∧
      ∀ x, x ∈ ((((import_dentry_inode cache_importer_block 2 entry_exported 0 2).map
        (fun r => r.2.2)).getD cache_importer_block).inodes 100).cached_by ↔
        (x ∈ by_ ∧ x ≠ cache_importer_block.whoami) ∨ x = 0 :=
  have h1 : cache_tree.auth_not_self := fun p _ => by
    unfold cache_tree
    dsimp only
    split_ifs <;> simp [CInode.blank]
  have h2 : cache_exporter.auth_not_self := fun p _ => by
    unfold cache_exporter
    dsimp only
    split <;> simp [CInode.blank, MDCache.blank]
  have h3 : cache_importer_block.auth_not_self := fun p ha => by
    exfalso
    revert ha
    unfold cache_importer_block cache_importer MDCache.set_inode
    dsimp only
    split_ifs
    · simp [CInode.blank]
    · split <;> simp [CInode.blank]
  have w3 := cached_by_never_self.2.2 cache_importer_block 2 entry_exported 0 2 100 []
    (((import_dentry_inode cache_importer_block 2 entry_exported 0 2).map
      (fun r => r.2.2)).getD cache_importer_block) h3 (by decide)
    (fun _ _ _ h => absurd (show (0 : Int) = 1 from h) (by decide)) (by rfl)
  ⟨cached_by_never_self.1 cache_tree ⟨1, "", some ["a"], []⟩ _ h1 (by decide) rfl,
    cached_by_never_self.2.1 cache_exporter ⟨.MDS 1, 21⟩ _ h2 (by decide) rfl,
    w3.1, w3.2 _ "f" ⟨⟨21, false, false, 9⟩, 1, 3, -1, 2, true, false⟩ [.int 1, .int 2]
      rfl (Or.inr rfl) rfl⟩
theorem CInode.mark_dirty_fields (i : CInode) :
    i.mark_dirty.auth = i.auth ∧ i.mark_dirty.inode = i.inode ∧
    i.mark_dirty.dir_auth = i.dir_auth ∧ i.mark_dirty.version = i.version ∧
    i.mark_dirty.popularity = i.popularity ∧ i.mark_dirty.dist_state = i.dist_state := by
  unfold CInode.mark_dirty
  by_cases h : i.dirty = true
  · rw [if_pos h]
    exact ⟨rfl, rfl, rfl, rfl, rfl, rfl⟩
  · rw [if_neg h]
    exact ⟨rfl, rfl, rfl, rfl, rfl, rfl⟩

theorem foldl_cached_by_add_eq (l : List Int) :
    ∀ i : CInode, l.foldl CInode.cached_by_add i =
      { i with cached_by := l.foldl IntSet.insert i.cached_by } := by
  induction l with
  | nil => intro i; rfl
  | cons a l ih =>
    intro i
    rw [List.foldl_cons, ih]
    rfl

theorem import_dentry_inode_assim_fields (c : MDCache) (in_ : CInodePtr)
    (istate : Inode_Export_State_t) (p : List BlobCell) (from_ : Int) (p1 : List BlobCell)
    (c1 : MDCache) (h : import_dentry_inode_assim c in_ istate p from_ = some (p1, c1)) :
    (c1.inodes in_).auth = (c.inodes in_).auth ∧ (c1.inodes in_).inode = (c.inodes in_).inode ∧
    (c1.inodes in_).dir_auth = istate.dir_auth ∧ (c1.inodes in_).version = istate.version ∧
    (c1.inodes in_).popularity = istate.popularity ∧
    (c1.inodes in_).dist_state =
      ⟨false, false, false, false, false, false, istate.is_softasync, false, false⟩ := by
  unfold import_dentry_inode_assim at h
  dsimp only at h
  split at h
  · simp at h
  · cases hr : read_ints istate.ncached_by.toNat p with
    | none => simp [hr] at h
    | some rr =>
      obtain ⟨by_, p2⟩ := rr
      simp only [hr, foldl_cached_by_add_eq] at h
      by_cases hdirty : istate.dirty = true
      · simp only [hdirty, if_true, Option.some.injEq, Prod.mk.injEq] at h
        obtain ⟨rfl, rfl⟩ := h
        simp only [MDCache.set_inode, if_true]
        obtain ⟨m1, m2, m3, m4, m5, m6⟩ := CInode.mark_dirty_fields
          ({ (({ ({ ({ c.inodes in_ with dir_auth := istate.dir_auth } : CInode) with
              version := istate.version, popularity := istate.popularity } : CInode
            ).cached_by_clear with
            cached_by := (by_.filter (fun x => decide (x ≠ c.whoami))).foldl IntSet.insert
              ({ ({ c.inodes in_ with dir_auth := istate.dir_auth } : CInode) with
                version := istate.version, popularity := istate.popularity } : CInode
              ).cached_by_clear.cached_by } : CInode).cached_by_add from_) with
            dist_state := ⟨false, false, false, false, false, false, istate.is_softasync,
              false, false⟩ } : CInode)
        rw [m1, m2, m3, m4, m5, m6]
        exact ⟨rfl, rfl, rfl, rfl, rfl, rfl⟩
      · simp only [hdirty, Bool.false_eq_true, if_false, Option.some.injEq, Prod.mk.injEq] at h
        obtain ⟨rfl, rfl⟩ := h
        simp [MDCache.set_inode, CInode.cached_by_add, CInode.cached_by_clear, CInode.inode]

/-- The method `import_dentry_inode` on an entry of a directory that is not hashed: both the
branch `auth reassimilating` and the branch `normal import` run the same statements. -/
theorem import_dentry_inode_plain (c : MDCache) (dir : CInodePtr) (d : CDir)
    (dname : String) (istate : Inode_Export_State_t) (p2 : List BlobCell) (from_ : Int)
    (import_root : CInodePtr)
    (hd : (c.inodes dir).dir = some d) (hh : d.state.hashed = false) :
    import_dentry_inode c dir (.str dname :: .inode_state istate :: p2) from_ import_root =
      if !((d.state.auth && !d.state.hashing) || (!d.state.auth && d.state.hashing) ||
          (d.state.auth && d.state.unhashing)) then none else
      match import_dentry_inode_find c dir dname istate with
      | none => none
      | some (in_, _, c1) =>
        match import_dentry_inode_assim (c1.set_inode in_
            { (c1.inodes in_).set_inode_t istate.inode with auth := true }) in_ istate p2
            from_ with
        | none => none
        | some (p3, c3) => some (in_, p3, c3) := by
  unfold import_dentry_inode
  simp only [hd, hh]
  by_cases hg : (!((d.state.auth && !d.state.hashing) || (!d.state.auth && d.state.hashing) ||
      (d.state.auth && d.state.unhashing))) = true
  · simp only [hg, if_true]
  · simp only [hg, if_false]
    cases hf : import_dentry_inode_find c dir dname istate with
    | none => rfl
    | some r =>
      obtain ⟨q, had, c2⟩ := r
      by_cases hun : d.state.unhashing = true
      · simp only [hun, if_true]
      · simp only [hun, Bool.false_eq_true, if_false]

/-- C31: for every entry that `import_dentry_inode` imports into a directory that is not hashed
(the cursor is at the name `dname` and the struct `istate` of the entry), whatever the cache of
the importer and the object of the inode were before, the inode returned is authoritative, its
inode record, `dir_auth`, `version` and `popularity` are the transmitted ones, and its
`dist_state` has SOFTASYNC as transmitted and every other bit (SYNCBYME, LOCKBYME, PRESYNC,
PRELOCK and the rest) clear. -/
theorem import_dentry_inode_transmitted (c : MDCache) (dir : CInodePtr) (d : CDir)
    (dname : String) (istate : Inode_Export_State_t) (p2 : List BlobCell) (from_ : Int)
    (import_root in_ : CInodePtr) (p1 : List BlobCell) (c1 : MDCache)
    (hd : (c.inodes dir).dir = some d) (hh : d.state.hashed = false)
    (h : import_dentry_inode c dir (.str dname :: .inode_state istate :: p2) from_ import_root =
      some (in_, p1, c1)) :
    (c1.inodes in_).auth = true ∧ (c1.inodes in_).inode = istate.inode ∧
    (c1.inodes in_).dir_auth = istate.dir_auth ∧ (c1.inodes in_).version = istate.version ∧
    (c1.inodes in_).popularity = istate.popularity ∧
    (c1.inodes in_).dist_state =
      ⟨false, false, false, false, false, false, istate.is_softasync, false, false⟩ := by
  rw [import_dentry_inode_plain c dir d dname istate p2 from_ import_root hd hh] at h
  split_ifs at h with hcase
  cases hf : import_dentry_inode_find c dir dname istate with
  | none => simp [hf] at h
  | some r =>
    obtain ⟨q, had, c2⟩ := r
    simp only [hf] at h
    cases ha : import_dentry_inode_assim (c2.set_inode q
        { (c2.inodes q).set_inode_t istate.inode with auth := true }) q istate p2 from_ with
    | none => simp [ha] at h
    | some r2 =>
      obtain ⟨p3, c3⟩ := r2
      simp only [ha, Option.some.injEq, Prod.mk.injEq] at h
      obtain ⟨rfl, rfl, rfl⟩ := h
      obtain ⟨f1, f2, f3, f4, f5, f6⟩ := import_dentry_inode_assim_fields _ _ _ _ _ _ _ ha
      refine ⟨?_, ?_, f3, f4, f5, f6⟩
      · rw [f1]
        simp [MDCache.set_inode]
      · rw [f2]
        simp [MDCache.set_inode, CInode.set_inode_t, CInode.inode]

/-- C31, witness: the importer MDS `1` imports the entry of the file `f` (number `21`), which the
exporter held with SOFTASYNC set. -/
theorem import_dentry_inode_transmitted_witness :
    (cache_imported_entry.inodes 100).auth = true ∧
    (cache_imported_entry.inodes 100).inode = ⟨21, false, false, 9⟩ ∧
    (cache_imported_entry.inodes 100).dir_auth = -1 ∧
    (cache_imported_entry.inodes 100).version = 1 ∧
    (cache_imported_entry.inodes 100).popularity = 3 ∧
    (cache_imported_entry.inodes 100).dist_state =
      ⟨false, false, false, false, false, false, true, false, false⟩ :=
  import_dentry_inode_transmitted cache_importer_block 2
    { CDir.blank with
      auth_pins := 1, version := 7, dir_rep := 1, popularity := 4
      state := { CDir.blank.state with auth := true, complete := true } }
    "f" ⟨⟨21, false, false, 9⟩, 1, 3, -1, 2, true, false⟩ [.int 1, .int 2] 0 2 100 []
    cache_imported_entry (by rfl) (by rfl) (by rfl)
/-- C32 (defect of the code): MDS `0` exports the directory `3` of `cache_reexporter` back to
MDS `1`.  MDS `1` is the authority of the inode `3`, by the rule of the specification (the
nearest ancestor with a concrete `dir_auth` is the root, with `dir_auth = 1`) and by
`CInode::authority`; yet `export_dir_frozen` leaves `dir_auth = 1` on `3` and not `PARENT`,
because it compares the destination with the `dir_auth` field of the parent inode `2` only,
which is `PARENT`.  Had the parent `2` carried `dir_auth = 1` itself, the same call would have
left `PARENT`. -/
theorem export_dir_frozen_dir_auth_shallow :
    spec_inode_authority 3 cache_reexporter 3 = some 1 ∧ cache_reexporter.authority 3 = 1 ∧
    (cache_reexporter.inodes 2).dir_auth = CDIR_AUTH_PARENT ∧
    (∀ k, ∃ c1, export_dir_frozen (k + 3) cache_reexporter 3 1 0 = .returned c1 ∧
      (c1.inodes 3).dir_auth = 1) ∧
    (∀ k, ∃ c1, export_dir_frozen (k + 3)
        (cache_reexporter.set_inode 2 { cache_reexporter.inodes 2 with dir_auth := 1 }) 3 1 0 =
          .returned c1 ∧
      (c1.inodes 3).dir_auth = CDIR_AUTH_PARENT) :=
  ⟨rfl, rfl, rfl, fun _ => ⟨_, rfl, rfl⟩, fun _ => ⟨_, rfl, rfl⟩⟩
theorem get_containing_import_congr (c c1 : MDCache) (hi : c1.imports = c.imports)
    (hp : ∀ p, (c1.inodes p).parent = (c.inodes p).parent) :
    ∀ (k : Nat) (imp : Option CInodePtr),
      get_containing_import k c1 imp = get_containing_import k c imp := by
  intro k
  induction k with
  | zero => intro imp; rfl
  | succ k ih =>
    intro imp
    cases imp with
    | none => rfl
    | some p => simp only [get_containing_import, hi, CInode.get_parent_inode, hp, ih]

theorem show_imports_nested_congr (c c1 : MDCache) (hi : c1.imports = c.imports)
    (hp : ∀ p, (c1.inodes p).parent = (c.inodes p).parent) (k : Nat) (imp : CInodePtr) :
    ∀ (l ecopy : List CInodePtr),
      show_imports_nested k c1 imp l ecopy = show_imports_nested k c imp l ecopy := by
  intro l
  induction l with
  | nil => intro ecopy; rfl
  | cons e rest ih =>
    intro ecopy
    simp only [show_imports_nested, get_containing_import_congr c c1 hi hp, ih]

theorem show_imports_loop_congr (c c1 : MDCache) (hi : c1.imports = c.imports)
    (hn : c1.nested_exports = c.nested_exports)
    (hp : ∀ p, (c1.inodes p).parent = (c.inodes p).parent) (k : Nat) :
    ∀ (l ecopy : List CInodePtr),
      show_imports_loop k c1 l ecopy = show_imports_loop k c l ecopy := by
  intro l
  induction l with
  | nil => intro ecopy; rfl
  | cons e rest ih =>
    intro ecopy
    simp only [show_imports_loop, show_imports_nested_congr c c1 hi hp, hn, ih]

/-- The checks of `show_imports` read the three sets of the bookkeeping and the parent links
only. -/
theorem show_imports_congr (c c1 : MDCache) (hi : c1.imports = c.imports)
    (he : c1.exports = c.exports) (hn : c1.nested_exports = c.nested_exports)
    (hp : ∀ p, (c1.inodes p).parent = (c.inodes p).parent) (k : Nat) :
    show_imports k c1 = show_imports k c := by
  simp only [show_imports, hi, he, show_imports_loop_congr c c1 hi hn hp]

theorem popularity_jump_returns (k : Nat) : ∀ (c : MDCache) (t : CInodePtr) (pop : Int),
    c.rooted k t = true →
    ∃ c1, popularity_jump k c t pop = .returned c1 ∧ c.popularity_only c1 := by
  induction k with
  | zero => intro c t pop h; simp [MDCache.rooted] at h
  | succ k ih =>
    intro c t pop h
    have hs := MDCache.popularity_only_set c t ((c.inodes t).popularity + pop)
    obtain ⟨v, hv⟩ : ∃ v, (c.inodes t).parent = v := ⟨_, rfl⟩
    have hpar : ((c.set_inode t { c.inodes t with
        popularity := (c.inodes t).popularity + pop }).inodes t).parent = v := by
      rw [← hv]
      simp
    unfold popularity_jump
    dsimp only
    rw [hpar]
    unfold MDCache.rooted at h
    rw [hv] at h
    cases v with
    | none => exact ⟨_, rfl, hs⟩
    | some pd =>
      obtain ⟨c2, h2, f2⟩ := ih (c.set_inode t { c.inodes t with
        popularity := (c.inodes t).popularity + pop }) pd.1 pop
        (MDCache.rooted_of_unlinks (MDCache.popularity_only_unlinks hs) k pd.1 h)
      exact ⟨c2, h2, MDCache.popularity_only_trans hs f2⟩

/-- The method `handle_export_dir_finish` on an inode whose directory `d` is authoritative, in
a cache whose bookkeeping passes `show_imports`: it returns; what it sends, what it leaves of
the directory and what it finishes. -/
theorem handle_export_dir_finish_returns (k : Nat) (c : MDCache) (R : CInodePtr) (d : CDir)
    (hd : (c.inodes R).dir = some d) (ha : d.state.auth = true)
    (hs : show_imports k c = .returned ())
    (hself : c.authority R = c.whoami → c.whoami ∉ (c.inodes R).cached_by) :
    ∃ c1, handle_export_dir_finish k c R = .returned c1 ∧
      c1.sent = c.sent ++
        (if c.authority R = c.whoami then
          (c.inodes R).cached_by.map
            (fun it => (Message.MInodeUpdate (c.inodes R).ino, msg_addr_t.MDS it))
         else [(Message.MExportDirNotify (c.make_path R) (c.inodes R).dir_auth,
            msg_addr_t.MDS (c.authority R))]) ∧
      (c1.inodes R).dir = some { d with
        auth_pins := d.auth_pins - 1
        waiting := d.waiting.filter (fun w => decide (w.1 ≠ WaitTag.CDIR_WAIT_IMPORTED)) } ∧
      c1.finished = c.finished ++
        (d.waiting.filter (fun w => decide (w.1 = WaitTag.CDIR_WAIT_IMPORTED))).map
          (fun w => (w.2.2, (0 : Int))) ∧
      (∀ p, p ≠ R → c1.inodes p = c.inodes p) := by
  obtain ⟨X, hX⟩ : ∃ X, X = (if c.authority R = c.whoami then
          (c.inodes R).cached_by.map
            (fun it => (Message.MInodeUpdate (c.inodes R).ino, msg_addr_t.MDS it))
         else [(Message.MExportDirNotify (c.make_path R) (c.inodes R).dir_auth,
            msg_addr_t.MDS (c.authority R))]) := ⟨_, rfl⟩
  have ht : (if c.authority R = c.whoami then send_inode_updates c R
      else some (c.send_message (.MExportDirNotify (c.make_path R) (c.inodes R).dir_auth)
          (.MDS (c.authority R)))) = some { c with sent := c.sent ++ X } := by
    by_cases hauth : c.authority R = c.whoami
    · rw [if_pos hauth] at hX ⊢
      unfold send_inode_updates
      rw [if_neg (hself hauth), MDCache.foldl_send_eq, hX]
    · rw [if_neg hauth] at hX ⊢
      rw [hX]
      rfl
  obtain ⟨cT, hcT⟩ : ∃ cT : MDCache, cT = { c with sent := c.sent ++ X } := ⟨_, rfl⟩
  rw [← hcT] at ht
  have hdT : (cT.inodes R).dir = some d := by rw [hcT]; exact hd
  obtain ⟨c2, hc2⟩ : ∃ c2 : MDCache, c2 = cT.set_inode R
      { cT.inodes R with dir := (cT.inodes R).dir.map CDir.auth_unpin } := ⟨_, rfl⟩
  have hsh : show_imports k c2 = .returned () := by
    have e := show_imports_congr c c2
      (by rw [hc2, hcT]; rfl) (by rw [hc2, hcT]; rfl) (by rw [hc2, hcT]; rfl)
      (by
        intro p
        rw [hc2, hcT]
        by_cases hp : p = R
        · subst hp
          simp [MDCache.set_inode]
        · simp [MDCache.set_inode, hp]) k
    rw [e, hs]
  have hdir2 : (c2.inodes R).dir = some d.auth_unpin := by
    rw [hc2]
    simp [hdT]
  unfold handle_export_dir_finish
  simp only [hd, ha, Bool.true_eq_false, if_false, ht]
  rw [← hc2]
  simp only [hsh, hdir2]
  rw [← hX]
  refine ⟨_, rfl, ?_, ?_, ?_, ?_⟩
  · simp [MDCache.set_inode, hc2, hcT]
  · simp [MDCache.set_inode, CDir.auth_unpin, CDir.take_waiting]
  · simp [MDCache.set_inode, CDir.auth_unpin, CDir.take_waiting, hc2, hcT]
  · intro p hp
    simp [MDCache.set_inode, hp, hc2, hcT]

/-- The end of `handle_export_dir` on the inode `R` whose `dir_auth` the handler has set to
the id of this MDS, when no replica of a hashed directory is awaited: it returns, having sent
the `MExportDirAck` and run `handle_export_dir_finish`. -/
theorem handle_export_dir_reply_returns (k : Nat) (c : MDCache) (m : MExportDir)
    (R : CInodePtr) (d : CDir)
    (hd : (c.inodes R).dir = some d) (ha : d.state.auth = true)
    (hda : (c.inodes R).dir_auth = c.whoami) (hroot : c.rooted k R = true)
    (hs : show_imports k c = .returned ())
    (hself : c.authority R = c.whoami → c.whoami ∉ (c.inodes R).cached_by)
    (hw : equal_range c.import_hashed_replicate_waiting m.ino = []) :
    ∃ c1, handle_export_dir_reply k c m R = .returned c1 ∧
      c1.sent = c.sent ++ [(Message.MExportDirAck m.ino, m.source)] ++
        (if c.authority R = c.whoami then
          (c.inodes R).cached_by.map
            (fun it => (Message.MInodeUpdate (c.inodes R).ino, msg_addr_t.MDS it))
         else [(Message.MExportDirNotify (c.make_path R) c.whoami,
            msg_addr_t.MDS (c.authority R))]) ∧
      (c1.inodes R).dir = some { d with
        auth_pins := d.auth_pins - 1
        waiting := d.waiting.filter (fun w => decide (w.1 ≠ WaitTag.CDIR_WAIT_IMPORTED)) } ∧
      c1.finished = c.finished ++
        (d.waiting.filter (fun w => decide (w.1 = WaitTag.CDIR_WAIT_IMPORTED))).map
          (fun w => (w.2.2, (0 : Int))) := by
  -- can i simplify dir_auth?
  obtain ⟨c1, hc1⟩ : ∃ c1 : MDCache, c1 =
      (if c.authority R = (c.inodes R).dir_auth then
        c.set_inode R { c.inodes R with dir_auth := CDIR_AUTH_PARENT }
      else c) := ⟨_, rfl⟩
  have e1 : c1 = { c with inodes := c1.inodes } := by
    rw [hc1]
    split_ifs <;> rfl
  have i1 : ∀ q, c1.inodes q = { c.inodes q with dir_auth := (c1.inodes q).dir_auth } := by
    intro q
    rw [hc1]
    split_ifs
    · by_cases hq : q = R
      · subst hq
        simp
      · simp [hq]
    · rfl
  have hda1 : c.authority R ≠ c.whoami → (c1.inodes R).dir_auth = c.whoami := by
    intro hne
    rw [hc1, hda, if_neg hne]
    exact hda
  have u1 : c.unlinks c1 := by
    intro q
    rw [i1 q]
    exact ⟨rfl, rfl, fun h => h, Or.inl ⟨rfl, rfl⟩⟩
  -- the popularity jump
  obtain ⟨c2, hj, hp2⟩ : ∃ c2, (if m.ipop - (c1.inodes R).popularity > 0 then
      popularity_jump k c1 R (m.ipop - (c1.inodes R).popularity) else .returned c1) =
        .returned c2 ∧ c1.popularity_only c2 := by
    split_ifs
    · exact popularity_jump_returns k c1 R _ (MDCache.rooted_of_unlinks u1 k R hroot)
    · exact ⟨c1, rfl, MDCache.popularity_only_refl c1⟩
  obtain ⟨e2, i2⟩ := hp2
  -- the cache at the call of handle_export_dir_finish
  obtain ⟨c3, hc3⟩ : ∃ c3 : MDCache, c3 = c2.send_message (.MExportDirAck m.ino) m.source :=
    ⟨_, rfl⟩
  have i3 : ∀ q, c3.inodes q = { c.inodes q with
      dir_auth := (c1.inodes q).dir_auth, popularity := (c2.inodes q).popularity } := by
    intro q
    rw [hc3, MDCache.send_message_inodes, i2 q, i1 q]
  have f3 : c3.whoami = c.whoami ∧ c3.authority = c.authority ∧ c3.make_path = c.make_path ∧
      c3.imports = c.imports ∧ c3.exports = c.exports ∧
      c3.nested_exports = c.nested_exports ∧
      c3.import_hashed_replicate_waiting = c.import_hashed_replicate_waiting ∧
      c3.sent = c.sent ++ [(Message.MExportDirAck m.ino, m.source)] ∧
      c3.finished = c.finished := by
    rw [hc3, e2, e1]
    exact ⟨rfl, rfl, rfl, rfl, rfl, rfl, rfl, rfl, rfl⟩
  obtain ⟨g1, g2, g3, g4, g5, g6, g7, g8, g9⟩ := f3
  have hd3 : (c3.inodes R).dir = some d := by rw [i3 R]; exact hd
  have hs3 : show_imports k c3 = .returned () := by
    rw [show_imports_congr c c3 g4 g5 g6 (fun p => by rw [i3 p]) k, hs]
  obtain ⟨c4, h4, s4, d4, n4, _⟩ := handle_export_dir_finish_returns k c3 R d hd3 ha hs3
    (by
      intro h
      rw [g1, i3 R]
      rw [g2, g1] at h
      exact hself h)
  refine ⟨c4, ?_, ?_, d4, ?_⟩
  · unfold handle_export_dir_reply
    simp only [← hc1, hj, ← hc3, g7, hw, List.length_nil, ne_eq, not_true_eq_false, if_false]
    exact h4
  · rw [s4, g8, g1, g2, g3]
    by_cases hauth : c.authority R = c.whoami
    · simp only [if_pos hauth]
      rw [i3 R]
    · simp only [if_neg hauth]
      rw [i3 R]
      simp only
      rw [hda1 hauth]
  · rw [n4, g9]

/-- C33: `handle_export_dir_finish(R)` on an inode whose directory is authoritative, in a cache
whose bookkeeping passes `show_imports`, returns.  If this MDS is the authority of the inode `R`
(and is not in `cached_by`, as `send_inode_updates` asserts) it has sent one `MInodeUpdate` to
every member of `cached_by` and nothing else; otherwise it has sent exactly one
`MExportDirNotify`, to the authority of `R`, with the path of `R` and `new_auth = R.dir_auth`.
In both cases the directory has one auth-pin less and has lost its `CDIR_WAIT_IMPORTED`
waiters, each of which was finished with `0`.  Second part: at the end of `handle_export_dir`,
which has set `R.dir_auth` to the id of this MDS, the handler sends the `MExportDirAck` and then
runs `handle_export_dir_finish` (no replica of a hashed directory being awaited), and the
`new_auth` of the `MExportDirNotify` is the id of this MDS, not `PARENT`. -/
theorem handle_export_dir_finish_spreads :
    (∀ (k : Nat) (c : MDCache) (R : CInodePtr) (d : CDir),
      (c.inodes R).dir = some d → d.state.auth = true → show_imports k c = .returned () →
      (c.authority R = c.whoami → c.whoami ∉ (c.inodes R).cached_by) →
      ∃ c1, handle_export_dir_finish k c R = .returned c1 ∧
        c1.sent = c.sent ++
          (if c.authority R = c.whoami then
            (c.inodes R).cached_by.map
              (fun it => (Message.MInodeUpdate (c.inodes R).ino, msg_addr_t.MDS it))
           else [(Message.MExportDirNotify (c.make_path R) (c.inodes R).dir_auth,
              msg_addr_t.MDS (c.authority R))]) ∧
        (c1.inodes R).dir = some { d with
          auth_pins := d.auth_pins - 1
          waiting := d.waiting.filter (fun w => decide (w.1 ≠ WaitTag.CDIR_WAIT_IMPORTED)) } ∧
        c1.finished = c.finished ++
          (d.waiting.filter (fun w => decide (w.1 = WaitTag.CDIR_WAIT_IMPORTED))).map
            (fun w => (w.2.2, (0 : Int)))) ∧
    (∀ (k : Nat) (c : MDCache) (m : MExportDir) (R : CInodePtr) (d : CDir),
      (c.inodes R).dir = some d → d.state.auth = true → (c.inodes R).dir_auth = c.whoami →
      c.rooted k R = true → show_imports k c = .returned () →
      (c.authority R = c.whoami → c.whoami ∉ (c.inodes R).cached_by) →
      equal_range c.import_hashed_replicate_waiting m.ino = [] →
      ∃ c1, handle_export_dir_reply k c m R = .returned c1 ∧
        c1.sent = c.sent ++ [(Message.MExportDirAck m.ino, m.source)] ++
          (if c.authority R = c.whoami then
            (c.inodes R).cached_by.map
              (fun it => (Message.MInodeUpdate (c.inodes R).ino, msg_addr_t.MDS it))
           else [(Message.MExportDirNotify (c.make_path R) c.whoami,
              msg_addr_t.MDS (c.authority R))]) ∧
        (c1.inodes R).dir = some { d with
          auth_pins := d.auth_pins - 1
          waiting := d.waiting.filter (fun w => decide (w.1 ≠ WaitTag.CDIR_WAIT_IMPORTED)) } ∧
        c1.finished = c.finished ++
          (d.waiting.filter (fun w => decide (w.1 = WaitTag.CDIR_WAIT_IMPORTED))).map
            (fun w => (w.2.2, (0 : Int)))) := by
  constructor
  · intro k c R d hd ha hs hself
    obtain ⟨c1, h1, h2, h3, h4, _⟩ := handle_export_dir_finish_returns k c R d hd ha hs hself
    exact ⟨c1, h1, h2, h3, h4⟩
  · intro k c m R d hd ha hda hroot hs hself hw
    exact handle_export_dir_reply_returns k c m R d hd ha hda hroot hs hself hw

/-- C33, witness: the importer MDS `1` ends the import of the directory `2`, whose inode
belongs to MDS `0`: one `MExportDirNotify` with the path and `new_auth = 1` goes to MDS `0`, the
auth-pin is dropped and the waiting request is finished. -/
theorem handle_export_dir_finish_spreads_witness :
    (∃ c1, handle_export_dir_finish 2 cache_import_done 2 = .returned c1 ∧
      c1.sent = [(Message.MExportDirNotify "/r" 1, msg_addr_t.MDS 0)] ∧
      (c1.inodes 2).dir = some { CDir.blank with
        state := { CDir.blank.state with auth := true, import_ := true } } ∧
      c1.finished = [(Context.C_MDS_RetryMessage (some (.request 7)), (0 : Int))]) ∧
    (∃ c1, handle_export_dir_reply 2 cache_import_done ⟨.MDS 0, 20, 0, []⟩ 2 = .returned c1 ∧
      c1.sent = [(Message.MExportDirAck 20, msg_addr_t.MDS 0),
        (Message.MExportDirNotify "/r" 1, msg_addr_t.MDS 0)] ∧
      (c1.inodes 2).dir = some { CDir.blank with
        state := { CDir.blank.state with auth := true, import_ := true } } ∧
      c1.finished = [(Context.C_MDS_RetryMessage (some (.request 7)), (0 : Int))]) :=
  ⟨handle_export_dir_finish_spreads.1 2 cache_import_done 2
      { CDir.blank with
        auth_pins := 1
        waiting := [(.CDIR_WAIT_IMPORTED, none, .C_MDS_RetryMessage (some (.request 7)))]
        state := { CDir.blank.state with auth := true, import_ := true } }
      (by rfl) (by rfl) (by rfl) (by decide),
    handle_export_dir_finish_spreads.2 2 cache_import_done ⟨.MDS 0, 20, 0, []⟩ 2
      { CDir.blank with
        auth_pins := 1
        waiting := [(.CDIR_WAIT_IMPORTED, none, .C_MDS_RetryMessage (some (.request 7)))]
        state := { CDir.blank.state with auth := true, import_ := true } }
      (by rfl) (by rfl) (by rfl) (by rfl) (by rfl) (by decide) (by rfl)⟩
/-- C34 (defect of the code): MDS `1` imports the directory number `20`, which is not hashed and
holds the hashed directory number `22`, whose entry `e` is a directory that MDS `1` has no
replica of and that belongs to MDS `2`.  `handle_export_dir` sends the `MInodeGetReplica` for
it and records the wait under the hashed directory `22`; at its end it looks for waits under
the number `20` of the imported directory only, finds none and runs `handle_export_dir_finish`
at once (the `MExportDirNotify` is sent, `logger->set` is called, the auth-pin is dropped),
while the request is still unanswered.  When the `MInodeGetReplicaAck` arrives later, the
continuation it finishes calls `got_hashed_replica` with the new replica inode `100` in the
place of the imported directory, and `handle_export_dir_finish` aborts on the replica, which
has no `CDir`. -/
theorem handle_export_dir_finish_early (k : Nat) :
    ∃ c1, handle_export_dir (k + 3) cache_importer_below_hashed export_below_hashed =
        .returned c1 ∧
      c1.sent = [(Message.MInodeGetReplica 23, msg_addr_t.MDS 2),
        (Message.MExportDirAck 20, msg_addr_t.MDS 0),
        (Message.MExportDirNotify "/r" 1, msg_addr_t.MDS 0)] ∧
      c1.import_hashed_replicate_waiting = [(22, 23)] ∧
      c1.import_hashed_frozen_waiting = [(20, 22)] ∧
      c1.logger_set = [("nex", 0), ("nim", 1)] ∧
      (c1.inodes 2).dir.map (fun d => d.auth_pins) = some 0 ∧
      ∃ c2, handle_inode_get_replica_ack c1 ⟨.MDS 2, 23⟩ = some c2 ∧
        c2.finished = [(Context.C_MDS_ImportHashedReplica 100 22 23, (0 : Int))] ∧
        got_hashed_replica (k + 3) c2 100 22 23 = .aborted :=
  ⟨_, rfl, rfl, rfl, rfl, rfl, rfl, _, rfl, rfl, rfl⟩
theorem C_MDS_ExportFinish.assim_loop_eq (can : Context → Bool) :
    ∀ (ls : List Context) (fin : C_MDS_ExportFinish),
      C_MDS_ExportFinish.assim_loop can ls fin =
        { fin with
          will_redelegate := fin.will_redelegate ++ ls.filter can
          will_fail := fin.will_fail ++ ls.filter (fun x => !can x) } := by
  intro ls
  induction ls with
  | nil => intro fin; simp [C_MDS_ExportFinish.assim_loop]
  | cons it rest ih =>
    intro fin
    by_cases h : can it = true
    · simp [C_MDS_ExportFinish.assim_loop, h, ih]
    · simp [C_MDS_ExportFinish.assim_loop, h, ih]

theorem C_MDS_ExportFinish.finish_redelegate_eq (c : MDCache) (in_ : CInodePtr)
    (l : List Context) :
    C_MDS_ExportFinish.finish_redelegate c in_ l =
      l.map (fun it => ExportFinishCall.redelegate it (c.dir_authority in_)) := by
  induction l with
  | nil => rfl
  | cons a l ih => simp [C_MDS_ExportFinish.finish_redelegate, ih]

theorem C_MDS_ExportFinish.finish_fail_eq (l : List Context) :
    C_MDS_ExportFinish.finish_fail l = l.map (fun it => ExportFinishCall.finish it (-1)) := by
  induction l with
  | nil => rfl
  | cons a l ih => simp [C_MDS_ExportFinish.finish_fail, ih]

/-- C35: `assim_waitlist(ls)` leaves `ls` empty and appends the contexts of `ls` that can be
redelegated to `will_redelegate` and the others to `will_fail`, both in the order of `ls`; the
two parts together are `ls` up to order, so each context goes to exactly one list, as often as
it occurs.  After that, `finish(r)` with `r ≥ 0` makes one call per context held: it
redelegates every context of `will_redelegate` (the ones held before and the new ones) to
`dir_authority` of the inode exported, and then finishes every context of `will_fail` with
`-1`; with `r < 0` it aborts. -/
theorem assim_waitlist_partitions (can : Context → Bool) (fin : C_MDS_ExportFinish)
    (ls : List Context) :
    (fin.assim_waitlist can ls).2 = [] ∧
    (fin.assim_waitlist can ls).1.in_ = fin.in_ ∧
    (fin.assim_waitlist can ls).1.will_redelegate = fin.will_redelegate ++ ls.filter can ∧
    (fin.assim_waitlist can ls).1.will_fail =
      fin.will_fail ++ ls.filter (fun x => !can x) ∧
    (ls.filter can ++ ls.filter (fun x => !can x)).Perm ls ∧
    (∀ (c : MDCache) (r : Int), 0 ≤ r →
      (fin.assim_waitlist can ls).1.finish c r =
        some ((fin.will_redelegate ++ ls.filter can).map
            (fun it => ExportFinishCall.redelegate it (c.dir_authority fin.in_)) ++
          (fin.will_fail ++ ls.filter (fun x => !can x)).map
            (fun it => ExportFinishCall.finish it (-1)))) ∧
    (∀ (c : MDCache) (r : Int), r < 0 → (fin.assim_waitlist can ls).1.finish c r = none) := by
  unfold C_MDS_ExportFinish.assim_waitlist
  rw [C_MDS_ExportFinish.assim_loop_eq]
  refine ⟨rfl, rfl, rfl, rfl, List.filter_append_perm _ _, ?_, ?_⟩
  · intro c r hr
    simp only [C_MDS_ExportFinish.finish, ge_iff_le, hr, if_true,
      C_MDS_ExportFinish.finish_redelegate_eq, C_MDS_ExportFinish.finish_fail_eq]
  · intro c r hr
    simp only [C_MDS_ExportFinish.finish, ge_iff_le, not_le.mpr hr, if_false]

/-- C35, witness: the finisher of the export of the inode `2` of `cache_exporter` takes two
waiters, of which only the retry of a request can be redelegated, and finishes with `0`. -/
theorem assim_waitlist_partitions_witness :
    ((⟨2, [], []⟩ : C_MDS_ExportFinish).assim_waitlist
      (fun x => decide (x = .C_MDS_RetryMessage (some (.request 7))))
      [.C_MDS_RetryMessage none, .C_MDS_RetryMessage (some (.request 7))]).1.finish
        cache_exporter 0 =
      some [.redelegate (.C_MDS_RetryMessage (some (.request 7))) 0,
        .finish (.C_MDS_RetryMessage none) (-1)] :=
  (assim_waitlist_partitions
    (fun x => decide (x = .C_MDS_RetryMessage (some (.request 7)))) ⟨2, [], []⟩
    [.C_MDS_RetryMessage none, .C_MDS_RetryMessage (some (.request 7))]).2.2.2.2.2.1
    cache_exporter 0 (by decide)
/-- C36 (defect of the code): MDS `0`, with `mdcache_sticky_sync_normal` on, starts the export
of the directory `2` of `cache_sticky` to MDS `1`.  `export_dir` returns; the sync that the
file `3` held is released, but the file `4`, for which this MDS is authoritative, still holds
LOCKBYME: `export_dir_dropsync` releases syncs only.  With `mdcache_sticky_lock` as the only
sticky option that is on, `export_dir_dropsync` is not even called and the file `3` keeps
SYNCBYME as well. -/
theorem export_dir_keeps_lock (k : Nat) :
    (∃ c1, export_dir (k + 3) cache_sticky 2 1 = .returned c1 ∧
      (c1.inodes 3).dist_state.syncbyme = false ∧
      (c1.inodes 4).auth = true ∧ (c1.inodes 4).dist_state.lockbyme = true) ∧
    (∃ c2, export_dir (k + 3)
        { cache_sticky with mdcache_sticky_sync_normal := false, mdcache_sticky_lock := true }
        2 1 = .returned c2 ∧
      (c2.inodes 3).auth = true ∧ (c2.inodes 3).dist_state.syncbyme = true ∧
      (c2.inodes 4).auth = true ∧ (c2.inodes 4).dist_state.lockbyme = true) :=
  ⟨⟨_, rfl, rfl, rfl, rfl⟩, ⟨_, rfl, rfl, rfl, rfl, rfl⟩⟩
/-- C37 (defect of the code): MDS `0` holds the tree of `cache_tree` and gets an
`MExportDirPrep` from MDS `1`.  For the path `/a/c` the traversal ends with `-ENOENT` (the
complete directory `a`, which is its own, has no entry `c`), for the path `/a/b/x` with
`-ENOTDIR` (`b` is a file); in both cases the handler goes on with the last inode of the
trace: it auth-pins the directory of `a`, and for the file `b` a directory it creates, and
sends an `MExportDirPrepAck` with the number of that inode, which is not the one the path
names. -/
theorem handle_export_dir_prep_acks_error :
    ((path_traverse cache_tree "/a/c" [] (some (.MExportDirPrep 9)) .MDS_TRAVERSE_DISCOVER).map
        (fun r => (r.1, r.2.1)) = some (-ENOENT, [1, 2]) ∧
      ∃ c1, handle_export_dir_prep cache_tree ⟨.MDS 1, 9, "/a/c"⟩ = some c1 ∧
        c1.sent = [(Message.MExportDirPrepAck 2, msg_addr_t.MDS 1)] ∧
        (cache_tree.inodes 2).dir.map (fun d => d.auth_pins) = some 0 ∧
        (c1.inodes 2).dir.map (fun d => d.auth_pins) = some 1) ∧
    ((path_traverse cache_tree "/a/b/x" [] (some (.MExportDirPrep 9))
        .MDS_TRAVERSE_DISCOVER).map (fun r => (r.1, r.2.1)) = some (-ENOTDIR, [1, 2, 3]) ∧
      ∃ c1, handle_export_dir_prep cache_tree ⟨.MDS 1, 9, "/a/b/x"⟩ = some c1 ∧
        c1.sent = [(Message.MExportDirPrepAck 3, msg_addr_t.MDS 1)] ∧
        (cache_tree.inodes 3).is_dir = false ∧ (cache_tree.inodes 3).dir = none ∧
        (c1.inodes 3).dir.map (fun d => d.auth_pins) = some 1) :=
  ⟨⟨by rfl, _, rfl, rfl, rfl, rfl⟩, ⟨by rfl, _, rfl, rfl, rfl, rfl, rfl⟩⟩
theorem sync_start_pins (c0 : MDCache) (p : CInodePtr) (cs : MDCache)
    (h : sync_start c0 p = some cs) :
    (cs.inodes p).auth_pins = (c0.inodes p).auth_pins + 1 ∧
    (cs.inodes p).ref_set = .CINODE_PIN_PRESYNC :: (c0.inodes p).ref_set ∧
    (cs.inodes p).dist_state.presync = true ∧
    (cs.inodes p).dist_state.syncbyme = false := by
  unfold sync_start at h
  dsimp only at h
  split_ifs at h with h1 h2 h3
  simp only [Option.some.injEq] at h
  subst h
  have hsb : (c0.inodes p).dist_state.syncbyme = false := by
    cases hx : (c0.inodes p).dist_state.syncbyme
    · rfl
    · simp [CInode.is_sync, hx] at h3
  rw [MDCache.foldl_send_eq]
  simp [MDCache.set_inode, CInode.get, CInode.auth_pin, hsb]

theorem handle_inode_sync_ack_pins (c : MDCache) (a : MInodeSyncAck) (c1 : MDCache)
    (p : CInodePtr) (a0 : Int) (r0 : List Pin) (h : handle_inode_sync_ack c a = some c1)
    (hg : c.get_inode a.ino = some p) (hcl : MSG_ADDR_ISCLIENT a.source = false)
    (hk : sync_pins c p a0 r0) : sync_pins c1 p a0 r0 := by
  cases hauth : (c.inodes p).auth
  · simp [handle_inode_sync_ack, hg, hcl, hauth] at h
  · cases hpre : (c.inodes p).dist_state.presync
    · simp [handle_inode_sync_ack, hg, hcl, hauth, hpre] at h
    · obtain ⟨k1, k2, k3⟩ := hk.1 hpre
      rw [handle_inode_sync_ack_mds c a p hg hcl hauth hpre] at h
      have hna : (sync_ack_noted (c.inodes p) a).auth = true := by
        rw [sync_ack_noted_eq]
        exact hauth
      split_ifs at h with hlast
      · obtain ⟨c2, e2, _, _, _, _, _, _, _, _, f9, f10, _, _, f13, f14, _⟩ :=
          sync_ack_last_spec c p (sync_ack_noted (c.inodes p) a) hna
        rw [e2] at h
        simp only [Option.some.injEq] at h
        subst h
        have hr : (sync_ack_noted (c.inodes p) a).ref_set = (c.inodes p).ref_set := by
          rw [sync_ack_noted_eq]
        have hp : (sync_ack_noted (c.inodes p) a).auth_pins = (c.inodes p).auth_pins := by
          rw [sync_ack_noted_eq]
        constructor
        · intro hx
          rw [f9] at hx
          simp at hx
        · intro _
          refine ⟨?_, ?_, ?_⟩
          · rw [f10, hr, k2]
            simp
          · intro hs
            rw [f13] at hs
            rw [f14, if_pos hs, hp, k1]
          · intro hs
            rw [f13] at hs
            rw [f14, if_neg (by simp [hs]), hp, k1]
            ring
      · simp only [Option.some.injEq] at h
        subst h
        have e : ((c.set_inode p (sync_ack_noted (c.inodes p) a)).inodes p) =
            sync_ack_noted (c.inodes p) a := by simp
        unfold sync_pins
        rw [e, sync_ack_noted_eq]
        exact ⟨fun _ => ⟨k1, k2, k3⟩, fun hx => by simp [hpre] at hx⟩

theorem handle_inode_sync_acks_pins (p : CInodePtr) (a0 : Int) (r0 : List Pin) :
    ∀ (acks : List MInodeSyncAck) (cs c : MDCache),
      handle_inode_sync_acks cs acks = some c →
      (∀ a ∈ acks, cs.get_inode a.ino = some p ∧ MSG_ADDR_ISCLIENT a.source = false) →
      sync_pins cs p a0 r0 → sync_pins c p a0 r0 := by
  intro acks
  induction acks with
  | nil =>
    intro cs c h _ hk
    simp only [handle_inode_sync_acks, Option.some.injEq] at h
    subst h
    exact hk
  | cons a acks ih =>
    intro cs c h hfor hk
    simp only [handle_inode_sync_acks] at h
    cases h1 : handle_inode_sync_ack cs a with
    | none => simp [h1] at h
    | some c1 =>
      simp only [h1] at h
      obtain ⟨hga, hcla⟩ := hfor a (List.mem_cons_self _ _)
      obtain ⟨s1, _, _⟩ := handle_inode_sync_ack_step cs a c1 p h1 hga hcla
      have hfor1 : ∀ b ∈ acks,
          c1.get_inode b.ino = some p ∧ MSG_ADDR_ISCLIENT b.source = false := by
        intro b hb
        have := hfor b (List.mem_cons_of_mem _ hb)
        simpa [MDCache.get_inode, s1] using this
      exact ih c1 c h hfor1 (handle_inode_sync_ack_pins cs a c1 p a0 r0 h1 hga hcla hk)

/-- C38: the pins of a sync round are balanced.  On the inode `p`, `sync_start` adds one
auth-pin and takes PIN_PRESYNC once; then, whatever acks of MDSs for `p` have been handled:
while PRESYNC is set the inode holds that auth-pin and that PIN_PRESYNC; once the last ack has
cleared PRESYNC the pin set is the one before `sync_start`, the auth-pin is still held if
SYNCBYME is set, and then `sync_release` passes its assertions, drops exactly that auth-pin
and clears SYNCBYME, after which auth-pin count and pin set are the ones before `sync_start`;
if SYNCBYME is clear the sync was released within the last ack and the same holds already.  So
while PRESYNC or SYNCBYME is set the auth-pin count is at least one (the count before
`sync_start` not being negative). -/
theorem sync_pins_balanced (c0 cs c : MDCache) (p : CInodePtr) (acks : List MInodeSyncAck)
    (hstart : sync_start c0 p = some cs)
    (hacks : handle_inode_sync_acks cs acks = some c)
    (hfor : ∀ a ∈ acks, c0.get_inode a.ino = some p ∧ MSG_ADDR_ISCLIENT a.source = false) :
    ((cs.inodes p).auth_pins = (c0.inodes p).auth_pins + 1 ∧
      (cs.inodes p).ref_set = .CINODE_PIN_PRESYNC :: (c0.inodes p).ref_set) ∧
    ((c.inodes p).dist_state.presync = true →
      (c.inodes p).auth_pins = (c0.inodes p).auth_pins + 1 ∧
      (c.inodes p).ref_set = .CINODE_PIN_PRESYNC :: (c0.inodes p).ref_set) ∧
    ((c.inodes p).dist_state.presync = false →
      (c.inodes p).ref_set = (c0.inodes p).ref_set ∧
      ((c.inodes p).dist_state.syncbyme = false →
        (c.inodes p).auth_pins = (c0.inodes p).auth_pins) ∧
      ((c.inodes p).dist_state.syncbyme = true →
        (c.inodes p).auth_pins = (c0.inodes p).auth_pins + 1 ∧
        ∃ c1, sync_release c p = some c1 ∧
          (c1.inodes p).auth_pins = (c0.inodes p).auth_pins ∧
          (c1.inodes p).ref_set = (c0.inodes p).ref_set ∧
          (c1.inodes p).dist_state.syncbyme = false ∧
          (c1.inodes p).dist_state.presync = false)) ∧
    (0 ≤ (c0.inodes p).auth_pins →
      (c.inodes p).dist_state.presync = true ∨ (c.inodes p).dist_state.syncbyme = true →
      1 ≤ (c.inodes p).auth_pins) := by
  obtain ⟨p1, p2, p3, p4⟩ := sync_start_pins c0 p cs hstart
  obtain ⟨s1, s2, _⟩ := sync_start_facts c0 p cs hstart
  have hfor1 : ∀ a ∈ acks,
      cs.get_inode a.ino = some p ∧ MSG_ADDR_ISCLIENT a.source = false := by
    intro a ha
    have := hfor a ha
    simpa [MDCache.get_inode, s1] using this
  have hk0 : sync_pins cs p (c0.inodes p).auth_pins (c0.inodes p).ref_set :=
    ⟨fun _ => ⟨p1, p2, p4⟩, fun hx => by rw [p3] at hx; simp at hx⟩
  have hk := handle_inode_sync_acks_pins p _ _ acks cs c hacks hfor1 hk0
  obtain ⟨_, t2, _⟩ := handle_inode_sync_acks_steps p acks cs c hacks hfor1
  have hauth : (c.inodes p).auth = true := t2.trans s2
  refine ⟨⟨p1, p2⟩, fun hx => ⟨(hk.1 hx).1, (hk.1 hx).2.1⟩, fun hx => ?_, fun h0 hx => ?_⟩
  · obtain ⟨k1, k2, k3⟩ := hk.2 hx
    refine ⟨k1, k3, fun hs => ⟨k2 hs, ?_⟩⟩
    rw [sync_release_eq c p hs hauth]
    refine ⟨_, rfl, ?_, ?_, ?_, ?_⟩
    · simp [MDCache.set_inode, CInode.auth_unpin, k2 hs]
    · simp [MDCache.set_inode, CInode.auth_unpin, k1]
    · simp [MDCache.set_inode]
    · simp [MDCache.set_inode, CInode.auth_unpin, hx]
  · cases hpre : (c.inodes p).dist_state.presync
    · have hs : (c.inodes p).dist_state.syncbyme = true := by
        rcases hx with hx | hx
        · rw [hpre] at hx
          simp at hx
        · exact hx
      rw [(hk.2 hpre).2.1 hs]
      omega
    · rw [(hk.1 hpre).1]
      omega

/-- C38, witness: the round on the inode `1` of `cache_auth_shared`, which the MDSs `1` and
`2` cache: both acks arrive, the second one wants the sync back, so that the sync is released
within it; the auth-pin count and the pin set are the ones before `sync_start`. -/
theorem sync_pins_balanced_witness :
    (cache_sync_round.inodes 1).dist_state.presync = false ∧
    (cache_sync_round.inodes 1).dist_state.syncbyme = false ∧
    (cache_sync_round.inodes 1).ref_set = (cache_auth_shared.inodes 1).ref_set ∧
    (cache_sync_round.inodes 1).auth_pins = (cache_auth_shared.inodes 1).auth_pins :=
  have h := sync_pins_balanced cache_auth_shared cache_presync cache_sync_round 1
    [ack_had, ack_wantback] (by rfl) (by rfl) (by decide)
  ⟨by decide, by decide, (h.2.2.1 (by decide)).1, (h.2.2.1 (by decide)).2.1 (by decide)⟩
/-- C39: on the authority side of `handle_discover`, at any turn of the loop that adds bits:
when the directory of the cursor is one this MDS is the authority of the next wanted name in,
is not frozen, is complete and has no dentry of that name, the loop aborts on
`assert(!cur->dir->is_complete())`; no message is sent in that turn, to the asker or to anyone
else, and none after it.  So does the handler, when the request of another MDS traverses to
such a directory for its first open name. -/
theorem handle_discover_absent_complete_aborts (c : MDCache) (dis : MDiscover)
    (cur : CInodePtr) (next_dentry : String) (rest : List String) (have_added : Bool)
    (hd : (c.inodes cur).is_dir = true)
    (ha : (open_dir c cur).2.dentry_authority cur next_dentry = (open_dir c cur).2.whoami)
    (hf : (open_dir c cur).1.is_frozen = false)
    (hl : (open_dir c cur).1.lookup next_dentry = none)
    (hc : (open_dir c cur).1.state.complete = true) :
    handle_discover_bits (next_dentry :: rest) dis c cur have_added = none ∧
    ∀ (c0 : MDCache) (r : Int) (trav : List CInodePtr),
      dis.asker ≠ c0.whoami → c0.root.isSome = true →
      path_traverse c0 dis.current_base [] (some (.MDiscover_fwd dis)) .MDS_TRAVERSE_FORWARD =
        some (r, trav, c) →
      r ≤ 0 → trav.getLast? = some cur →
      dis.wanted.drop dis.trace.length = next_dentry :: rest →
      handle_discover c0 dis = none := by
  have hb : ∀ (hv : Bool), handle_discover_bits (next_dentry :: rest) dis c cur hv = none := by
    intro hv
    unfold handle_discover_bits
    simp only [hd, ha, hf, hl, hc, Bool.true_eq_false, Bool.false_eq_true, if_false, ne_eq,
      not_true_eq_false, if_true]
  refine ⟨hb have_added, ?_⟩
  intro c0 r trav hne hroot hp hr hg hw
  have hj : dis.just_root = false := by
    cases hwant : dis.want with
    | none => simp [MDiscover.wanted, hwant] at hw
    | some ws => simp [MDiscover.just_root, hwant]
  obtain ⟨rt, hrt⟩ := Option.isSome_iff_exists.mp hroot
  unfold handle_discover handle_discover_request
  rw [if_neg hne, hrt]
  simp only [hp, not_lt.mpr hr, if_false, hg, hj, Bool.false_eq_true, hw, hb false]

/-- C39, witness: MDS `1` asks MDS `0`, whose cache is `cache_tree`, for `/a/c`, and has
resolved `a` already: the traversal ends at the complete directory `a`, which has no `c`, and
the handler aborts.  So it does when `a` is still open: `a` is found and added, `c` is not. -/
theorem handle_discover_absent_complete_aborts_witness :
    handle_discover cache_tree ⟨1, "", some ["a", "c"], [rec_file]⟩ = none ∧
    handle_discover cache_tree ⟨1, "", some ["a", "c"], []⟩ = none :=
  ⟨(handle_discover_absent_complete_aborts cache_tree ⟨1, "", some ["a", "c"], [rec_file]⟩
      2 "c" [] false (by rfl) (by rfl) (by rfl) (by rfl) (by rfl)).2 cache_tree 0 [1, 2]
      (by decide) (by rfl) (by rfl) (by decide) (by rfl) (by rfl),
    by rfl⟩
/-! ## The impossible-state assertions of the soft operations -/

theorem read_soft_start_assertion_unreachable (c : MDCache) (p : CInodePtr) (m : Message) :
    read_soft_start c p m = read_soft_start_unasserted c p m := by
  unfold read_soft_start read_soft_start_unasserted
  simp only [read_soft_start_need_sync_eq]

theorem write_soft_start_assertion_unreachable_printing (c : MDCache) (p : CInodePtr)
    (m : Message) (hd : 5 ≤ c.debug) :
    write_soft_start c p m = write_soft_start_unasserted c p m := by
  unfold write_soft_start write_soft_start_unasserted
  cases hr : read_hard_try c p (some m) with
  | none => rfl
  | some r =>
    obtain ⟨b, c1⟩ := r
    cases b with
    | false => rfl
    | true =>
      have hc := (read_hard_try_true c p _ c1 hr).1
      subst hc
      simp only [write_soft_start_need_sync_eq c1 p m (Or.inl hd)]

/-- C40 (defect of the code): the impossible-state assertion of `write_soft_start` is reached
in one of the two cases that the chain of tests before it names.  Where `g_conf.debug` is below
5, on every authoritative, unfrozen inode in the normal regime that other MDSs cache and that
holds neither a sync nor a lock (the case `normal+auth, waiting on sync`), `write_soft_start`
aborts on `assert(2+2==5)`, while the method without the chain of tests parks the request and
returns false. -/
theorem write_soft_start_assertion_reached (c : MDCache) (p : CInodePtr) (m : Message)
    (hd : c.debug < 5)
    (ha : (c.inodes p).auth = true) (hf : (c.inodes p).frozen = false)
    (hs : (c.inodes p).dist_state.softasync = false)
    (hy : (c.inodes p).dist_state.syncbyauth = false)
    (hsm : (c.inodes p).dist_state.syncbyme = false)
    (hl : (c.inodes p).dist_state.lockbyme = false)
    (hc : (c.inodes p).is_cached_by_anyone = true) :
    (!(c.inodes p).dist_state.softasync && (c.inodes p).auth) = true ∧
    write_soft_start c p m = write_soft_start_need_sync c p m ∧
    write_soft_start_need_sync c p m = none ∧
    ∃ c1, write_soft_start_unasserted c p m = some (false, c1) := by
  obtain ⟨h1, h2⟩ := write_soft_start_normal_auth c p m ha hf hs hsm hl hc
  refine ⟨by simp [hs, ha], h1, write_soft_start_need_sync_aborts c p m hd hs ha, ?_⟩
  rw [h2]
  exact write_soft_start_wait_auth c p m ha hsm hy

/-- C40, witness: the authority of `cache_auth_shared` at the debug level `0`; the write of a
request aborts, and the method without the chain of tests starts a sync. -/
theorem write_soft_start_assertion_reached_witness :
    write_soft_start cache_auth_shared_quiet 1 (.request 9) = none ∧
    (write_soft_start_unasserted cache_auth_shared_quiet 1 (.request 9)).isSome = true :=
  ⟨((write_soft_start_assertion_reached cache_auth_shared_quiet 1 (.request 9) (by decide)
      rfl rfl rfl rfl rfl rfl rfl).2.1).trans
    (write_soft_start_assertion_reached cache_auth_shared_quiet 1 (.request 9) (by decide)
      rfl rfl rfl rfl rfl rfl rfl).2.2.1, by rfl⟩

/-! ## The round trip of an export -/

/-! ### The subtree of an export, as the walk visits it -/

theorem read_ints_map (l : List Int) (rest : List BlobCell) :
    read_ints l.length (l.map BlobCell.int ++ rest) = some (l, rest) := by
  induction l with
  | nil => rfl
  | cons a l ih => simp [read_ints, ih]

theorem CInode.dir_like_refl (i : CInode) : i.dir_like i := ⟨rfl, rfl, rfl, rfl⟩

theorem CInode.dir_like_trans {i j l : CInode} (h1 : i.dir_like j) (h2 : j.dir_like l) :
    i.dir_like l :=
  ⟨h2.1.trans h1.1, h2.2.1.trans h1.2.1, h2.2.2.1.trans h1.2.2.1, h2.2.2.2.trans h1.2.2.2⟩

theorem MDCache.walk_frame_refl (c : MDCache) : c.walk_frame c := ⟨rfl, rfl, rfl, rfl⟩

theorem MDCache.walk_frame_trans {c c1 c2 : MDCache} (h1 : c.walk_frame c1)
    (h2 : c1.walk_frame c2) : c.walk_frame c2 :=
  ⟨h2.1.trans h1.1, h2.2.1.trans h1.2.1, h2.2.2.1.trans h1.2.2.1, h2.2.2.2.trans h1.2.2.2⟩

theorem export_dir_walk_subdir_parent (c : MDCache) (q : CInodePtr) (hw : 0 ≤ c.whoami)
    (hda : (c.inodes q).dir_auth = CDIR_AUTH_PARENT) (hh : (c.inodes q).dir_hashed = false)
    (hd : ∀ d, (c.inodes q).dir = some d → d.state.hashed = false) :
    export_dir_walk_subdir c q = some (true, c) := by
  unfold export_dir_walk_subdir
  have h1 : ¬ ((c.inodes q).dir_auth = c.whoami ∧ (c.inodes q).dir_hashed = false) := by
    rintro ⟨e, _⟩
    rw [hda] at e
    simp only [CDIR_AUTH_PARENT] at e
    omega
  rw [if_neg h1]
  cases hdd : (c.inodes q).dir with
  | none => simp only [Bool.false_eq_true, if_false, hda, true_or, if_true]
  | some d => simp [hd d hdd, hh, hda]

theorem export_dir_walk_fix_plain (c : MDCache) (fin idir q : CInodePtr) (newauth : Int)
    (di : CDir) (ha : (c.inodes q).auth = true) (hne : q ≠ idir)
    (hdi : (c.inodes idir).dir = some di) :
    export_dir_walk_fix c fin idir q newauth false =
      some { (c.set_inode q { ((if (c.inodes q).dirty then (c.inodes q).mark_clean
            else c.inodes q).cached_by_clear) with auth := false }).set_inode idir
          { c.inodes idir with dir := some di.take_waiting_any.2 } with
        fin_waitlist := c.fin_waitlist ++ di.take_waiting_any.1.map (fun w => (fin, w)) } := by
  unfold export_dir_walk_fix
  have hne1 : ¬ idir = q := fun e => hne e.symm
  have hauth : ((if (c.inodes q).dirty then (c.inodes q).mark_clean
      else c.inodes q).cached_by_clear).auth = true := by
    unfold CInode.cached_by_clear CInode.mark_clean
    split_ifs <;> simp [ha, CInode.put]
  simp only [Bool.false_eq_true, if_false, hauth, MDCache.set_inode, if_neg hne1, hdi]
  rfl

theorem item_post_config (c : MDCache) (fin idir q : CInodePtr) (di : CDir) :
    item_post c fin idir q di =
      { c with inodes := (item_post c fin idir q di).inodes
               fin_waitlist := (item_post c fin idir q di).fin_waitlist } := rfl

theorem item_post_other (c : MDCache) (fin idir q : CInodePtr) (di : CDir) (x : CInodePtr)
    (hx1 : x ≠ q) (hx2 : x ≠ idir) : (item_post c fin idir q di).inodes x = c.inodes x := by
  simp [item_post, MDCache.set_inode, hx1, hx2]

theorem item_post_idir (c : MDCache) (fin idir q : CInodePtr) (di : CDir) (hne : q ≠ idir) :
    (item_post c fin idir q di).inodes idir =
      { c.inodes idir with dir := some di.take_waiting_any.2 } := by
  have hne1 : ¬ idir = q := fun e => hne e.symm
  simp [item_post, MDCache.set_inode, hne1]

theorem item_post_dir_like (c : MDCache) (fin idir q : CInodePtr) (di : CDir)
    (hdi : (c.inodes idir).dir = some di) (x : CInodePtr) :
    (c.inodes x).dir_like ((item_post c fin idir q di).inodes x) := by
  by_cases hx2 : x = idir
  · subst hx2
    by_cases hx1 : x = q
    · subst hx1
      refine ⟨?_, ?_, ?_, ?_⟩ <;> simp [item_post, MDCache.set_inode, hdi, CDir.take_waiting_any]
    · have hx1b : ¬ x = q := hx1
      refine ⟨?_, ?_, ?_, ?_⟩ <;>
        simp [item_post, MDCache.set_inode, hdi, CDir.take_waiting_any, hx1b]
  · by_cases hx1 : x = q
    · subst hx1
      refine ⟨?_, ?_, ?_, ?_⟩ <;>
        simp only [item_post, MDCache.set_inode, if_neg hx2, if_true, CInode.cached_by_clear,
          CInode.mark_clean, CInode.put] <;> split_ifs <;> rfl
    · rw [item_post_other c fin idir q di x hx1 hx2]
      exact CInode.dir_like_refl _

theorem export_dir_walk_item_step (fin idir : CInodePtr) (newauth : Int) (name : String)
    (dn : CDentry) (q : CInodePtr) (rest : List (String × CDentry)) (c : MDCache)
    (rope : List BlobCell) (subdirs : List CInodePtr) (di : CDir)
    (hq : dn.inode = some q) (hne : q ≠ idir) (hw : 0 ≤ c.whoami)
    (hdi : (c.inodes idir).dir = some di)
    (ha : (c.inodes q).auth = true) (hda : (c.inodes q).dir_auth = CDIR_AUTH_PARENT)
    (hh : (c.inodes q).dir_hashed = false)
    (hd : ∀ d, (c.inodes q).dir = some d → d.state.hashed = false) :
    export_dir_walk_items fin idir newauth false ((name, dn) :: rest) c rope subdirs =
      export_dir_walk_items fin idir newauth false rest (item_post c fin idir q di)
        (rope ++ (entry_of c (name, q)).cells)
        (if (c.inodes q).is_dir then subdirs ++ [q] else subdirs) := by
  have hne1 : ¬ idir = q := fun e => hne e.symm
  obtain ⟨c2, hc2⟩ : ∃ c2, c2 =
      c.set_inode q { c.inodes q with version := (c.inodes q).version + 1 } := ⟨_, rfl⟩
  have hs : export_dir_walk_subdir c2 q = some (true, c2) :=
    export_dir_walk_subdir_parent c2 q (by rw [hc2]; exact hw)
      (by simp [hc2, MDCache.set_inode, hda])
      (by simp [hc2, MDCache.set_inode, hh])
      (by simpa [hc2, MDCache.set_inode] using hd)
  have hf := export_dir_walk_fix_plain c2 fin idir q newauth di
    (by simp [hc2, MDCache.set_inode, ha]) hne
    (by simp [hc2, MDCache.set_inode, hne1, hdi])
  have hpost : item_post c fin idir q di =
      { (c2.set_inode q { ((if (c2.inodes q).dirty then (c2.inodes q).mark_clean
            else c2.inodes q).cached_by_clear) with auth := false }).set_inode idir
          { c2.inodes idir with dir := some di.take_waiting_any.2 } with
        fin_waitlist := c2.fin_waitlist ++ di.take_waiting_any.1.map (fun w => (fin, w)) } := by
    rw [hc2]
    rfl
  have hrope : rope ++ [BlobCell.str name] ++ (c2.inodes q).encode_export_state =
      rope ++ (entry_of c (name, q)).cells := by
    simp [hc2, MDCache.set_inode, entry_of, EntryRec.cells, CInode.encode_export_state,
      CInode.inode]
  have hisd2 : (c2.inodes q).is_dir = (c.inodes q).is_dir := by
    simp [hc2, MDCache.set_inode]
  rw [export_dir_walk_items]
  simp only [hq, Bool.false_eq_true, false_and, if_false, or_true, if_true]
  rw [← hc2, hrope, hisd2, hpost]
  by_cases hisd : (c.inodes q).is_dir = true
  · simp only [hisd, if_true, hs, hf]
  · simp only [hisd, Bool.false_eq_true, if_false, hf]

theorem CInode.dir_like_dir_some {i j : CInode} (h : i.dir_like j) (d : CDir)
    (hd : i.dir = some d) : ∃ d1, j.dir = some d1 ∧ d1.items = d.items ∧ d1.state = d.state := by
  have h3 := h.2.2.2
  rw [hd] at h3
  cases hj : j.dir with
  | none => rw [hj] at h3; simp at h3
  | some d1 =>
    rw [hj] at h3
    simp only [Option.map_some', Option.some.injEq] at h3
    refine ⟨d1, rfl, ?_, ?_⟩
    · have h5 := congrArg CDir.items h3
      exact h5
    · have h5 := congrArg CDir.state h3
      exact h5

theorem kids_of_cons (name : String) (dn : CDentry) (q : CInodePtr)
    (rest : List (String × CDentry)) (hq : dn.inode = some q) :
    kids_of ((name, dn) :: rest) = (name, q) :: kids_of rest := by
  simp [kids_of, List.filterMap_cons, hq]

theorem export_dir_walk_items_spec (fin idir : CInodePtr) (newauth : Int) :
    ∀ (items : List (String × CDentry)) (c : MDCache) (rope : List BlobCell)
      (subdirs : List CInodePtr),
      0 ≤ c.whoami →
      (∃ di, (c.inodes idir).dir = some di) →
      (∀ e ∈ items, ∃ q, e.2.inode = some q ∧ q ≠ idir ∧ (c.inodes q).auth = true ∧
        (c.inodes q).dir_auth = CDIR_AUTH_PARENT ∧ (c.inodes q).dir_hashed = false ∧
        ∀ d, (c.inodes q).dir = some d → d.state.hashed = false) →
      ((kids_of items).map (fun e => e.2)).Nodup →
      ∃ c1, export_dir_walk_items fin idir newauth false items c rope subdirs =
          some (rope ++ (kids_of items).flatMap (fun e => (entry_of c e).cells),
            subdirs ++ ((kids_of items).filter (fun e => (c.inodes e.2).is_dir)).map
              (fun e => e.2), c1) ∧
        c.walk_frame c1 ∧
        (∀ x, x ∉ (kids_of items).map (fun e => e.2) → x ≠ idir → c1.inodes x = c.inodes x) ∧
        (∀ x, (c.inodes x).dir_like (c1.inodes x)) ∧
        c1.inodes idir = { c.inodes idir with dir := (c1.inodes idir).dir } := by
  intro items
  induction items with
  | nil =>
    intro c rope subdirs _ _ _ _
    exact ⟨c, by simp [export_dir_walk_items, kids_of], MDCache.walk_frame_refl c,
      fun _ _ _ => rfl,
      fun _ => CInode.dir_like_refl _, rfl⟩
  | cons e rest ih =>
    intro c rope subdirs hw hdi hok hnd
    obtain ⟨name, dn⟩ := e
    obtain ⟨di, hdi⟩ := hdi
    obtain ⟨q, hq, hne, ha, hda, hh, hd⟩ := hok (name, dn) (List.mem_cons_self _ _)
    have hk := kids_of_cons name dn q rest hq
    rw [hk, List.map_cons, List.nodup_cons] at hnd
    have hpo := item_post_other c fin idir q di
    have hpl := item_post_dir_like c fin idir q di hdi
    obtain ⟨c1, h1, h2, h3, h4, h5⟩ := ih (item_post c fin idir q di)
      (rope ++ (entry_of c (name, q)).cells)
      (if (c.inodes q).is_dir then subdirs ++ [q] else subdirs) hw
      (by
        obtain ⟨d1, hd1, _⟩ := CInode.dir_like_dir_some (hpl idir) di hdi
        exact ⟨d1, hd1⟩)
      (by
        intro e he
        obtain ⟨q1, hq1, hne1, r⟩ := hok e (List.mem_cons_of_mem _ he)
        have hq1q : q1 ≠ q := by
          intro e1
          apply hnd.1
          rw [← e1]
          refine List.mem_map.mpr ⟨(e.1, q1), ?_, rfl⟩
          simp only [kids_of, List.mem_filterMap]
          exact ⟨e, he, by simp [hq1]⟩
        refine ⟨q1, hq1, hne1, ?_⟩
        rw [hpo q1 hq1q hne1]
        exact r)
      hnd.2
    have hent : ∀ e ∈ kids_of rest, (item_post c fin idir q di).inodes e.2 = c.inodes e.2 := by
      intro e he
      have hq1q : e.2 ≠ q := by
        intro e1
        apply hnd.1
        rw [← e1]
        exact List.mem_map.mpr ⟨e, he, rfl⟩
      have hq1i : e.2 ≠ idir := by
        simp only [kids_of, List.mem_filterMap] at he
        obtain ⟨e0, he0, hm⟩ := he
        obtain ⟨q1, hq1, hne1, _⟩ := hok e0 (List.mem_cons_of_mem _ he0)
        rw [hq1] at hm
        simp only [Option.map_some', Option.some.injEq] at hm
        rw [← hm]
        exact hne1
      exact hpo e.2 hq1q hq1i
    refine ⟨c1, ?_, ?_, ?_, ?_, ?_⟩
    · rw [export_dir_walk_item_step fin idir newauth name dn q rest c rope subdirs di hq hne hw
        hdi ha hda hh hd, h1, hk]
      have e1 : (kids_of rest).flatMap (fun e => (entry_of (item_post c fin idir q di) e).cells) =
          (kids_of rest).flatMap (fun e => (entry_of c e).cells) := by
        apply List.flatMap_congr
        intro e he
        simp only [entry_of, hent e he]
      have e2 : (kids_of rest).filter (fun e => ((item_post c fin idir q di).inodes e.2).is_dir) =
          (kids_of rest).filter (fun e => (c.inodes e.2).is_dir) := by
        apply List.filter_congr
        intro e he
        rw [hent e he]
      rw [e1, e2]
      by_cases hisd : (c.inodes q).is_dir = true
      · simp [hisd, List.filter_cons]
      · simp [hisd, List.filter_cons]
    · exact MDCache.walk_frame_trans ⟨rfl, rfl, rfl, rfl⟩ h2
    · intro x hx1 hx2
      rw [hk, List.map_cons, List.mem_cons, not_or] at hx1
      rw [h3 x hx1.2 hx2, hpo x hx1.1 hx2]
    · intro x
      exact CInode.dir_like_trans (hpl x) (h4 x)
    · rw [h5, item_post_idir c fin idir q di hne]

theorem walkable_succ (k : Nat) (c : MDCache) (p : CInodePtr)
    (h : walkable (k + 1) c p = true) :
    (c.inodes p).is_dir = true ∧
    ∀ d, (c.inodes p).dir = some d →
      d.state.auth = true ∧ d.state.hashed = false ∧ d.state.hashing = false ∧
      d.state.unhashing = false ∧ (d.items.map (fun e => e.1)).Nodup ∧
      ∀ e ∈ d.items, ∃ q, e.2.inode = some q ∧ (c.inodes q).auth = true ∧
        (c.inodes q).dir_auth = CDIR_AUTH_PARENT ∧ (c.inodes q).dir_hashed = false ∧
        ((c.inodes q).is_dir = true → walkable k c q = true) ∧
        ((c.inodes q).is_dir = false → (c.inodes q).dir = none) := by
  unfold walkable at h
  rw [Bool.and_eq_true] at h
  refine ⟨h.1, fun d hd => ?_⟩
  have h2 := h.2
  rw [hd] at h2
  simp only [Bool.and_eq_true, Bool.not_eq_true', decide_eq_true_eq, List.all_eq_true] at h2
  obtain ⟨⟨⟨⟨⟨a1, a2⟩, a3⟩, a4⟩, a5⟩, a6⟩ := h2
  refine ⟨a1, a2, a3, a4, a5, fun e he => ?_⟩
  have h6 := a6 e he
  cases hq : e.2.inode with
  | none => rw [hq] at h6; simp at h6
  | some q =>
    rw [hq] at h6
    simp only [Bool.and_eq_true, Bool.not_eq_true', decide_eq_true_eq] at h6
    obtain ⟨⟨⟨b1, b2⟩, b3⟩, b4⟩ := h6
    refine ⟨q, rfl, b1, b2, b3, fun hi => ?_, fun hi => ?_⟩
    · simpa [hi] using b4
    · simpa [hi] using b4

theorem walkable_dir_not_hashed (k : Nat) (c : MDCache) (p : CInodePtr)
    (h : walkable k c p = true) (d : CDir) (hd : (c.inodes p).dir = some d) :
    d.state.hashed = false := by
  cases k with
  | zero => simp [walkable] at h
  | succ k => exact ((walkable_succ k c p h).2 d hd).2.1

theorem mem_kids_of {items : List (String × CDentry)} {e : String × CInodePtr} :
    e ∈ kids_of items ↔ ∃ x ∈ items, x.1 = e.1 ∧ x.2.inode = some e.2 := by
  unfold kids_of
  rw [List.mem_filterMap]
  constructor
  · rintro ⟨x, hx, hm⟩
    cases hq : x.2.inode with
    | none => rw [hq] at hm; simp at hm
    | some q =>
      rw [hq] at hm
      simp only [Option.map_some', Option.some.injEq] at hm
      subst hm
      exact ⟨x, hx, rfl, hq⟩
  · rintro ⟨x, hx, h1, h2⟩
    refine ⟨x, hx, ?_⟩
    rw [h2]
    simp only [Option.map_some', Option.some.injEq]
    rw [h1]

theorem mem_sub_kids_kid (k : Nat) (c : MDCache) (p : CInodePtr) (d : CDir)
    (hd : (c.inodes p).dir = some d) (e : String × CInodePtr) (he : e ∈ d.kids) :
    e ∈ sub_kids (k + 1) c p := by
  simp only [sub_kids, hd, List.mem_append]
  exact Or.inl he

theorem mem_sub_kids_sub (k : Nat) (c : MDCache) (p : CInodePtr) (d : CDir)
    (hd : (c.inodes p).dir = some d) (s : String × CInodePtr) (hs : s ∈ d.dir_kids c)
    (e : String × CInodePtr) (he : e ∈ sub_kids k c s.2) :
    e ∈ sub_kids (k + 1) c p := by
  simp only [sub_kids, hd, List.mem_append, List.mem_flatMap]
  exact Or.inr ⟨s, hs, he⟩

theorem sub_congr : ∀ (k : Nat) (c c1 : MDCache) (p : CInodePtr),
    (c.inodes p).dir_like (c1.inodes p) →
    (∀ e ∈ sub_kids k c p, c1.inodes e.2 = c.inodes e.2) →
    walkable k c1 p = walkable k c p ∧ sub_kids k c1 p = sub_kids k c p ∧
      sub_blocks k c1 p = sub_blocks k c p ∧ sub_dirs k c1 p = sub_dirs k c p := by
  intro k
  induction k with
  | zero => intro c c1 p _ _; exact ⟨rfl, rfl, rfl, rfl⟩
  | succ k ih =>
    intro c c1 p hl hk
    cases hd : (c.inodes p).dir with
    | none =>
      have hd1 : (c1.inodes p).dir = none := by
        have h3 := hl.2.2.2
        rw [hd] at h3
        simpa using h3
      simp only [walkable, sub_kids, sub_blocks, sub_dirs, hd, hd1, hl.1]
      exact ⟨trivial, trivial, trivial, trivial⟩
    | some d =>
      obtain ⟨d1, hd1, hit, hst⟩ := CInode.dir_like_dir_some hl d hd
      have hdd : ({ d1 with waiting := [] } : CDir) = { d with waiting := [] } := by
        have h3 := hl.2.2.2
        rw [hd, hd1] at h3
        simpa using h3
      have hkid : ∀ e ∈ d.kids, c1.inodes e.2 = c.inodes e.2 := fun e he =>
        hk e (mem_sub_kids_kid k c p d hd e he)
      have hkids : d1.kids = d.kids := by unfold CDir.kids; rw [hit]
      have hdk : d1.dir_kids c1 = d.dir_kids c := by
        unfold CDir.dir_kids
        rw [hkids]
        apply List.filter_congr
        intro e he
        rw [hkid e he]
      have hsub : ∀ s ∈ d.dir_kids c,
          walkable k c1 s.2 = walkable k c s.2 ∧ sub_kids k c1 s.2 = sub_kids k c s.2 ∧
            sub_blocks k c1 s.2 = sub_blocks k c s.2 ∧ sub_dirs k c1 s.2 = sub_dirs k c s.2 := by
        intro s hs
        have hs1 : s ∈ d.kids := (List.mem_filter.mp hs).1
        apply ih c c1 s.2
        · rw [hkid s hs1]
          exact CInode.dir_like_refl _
        · intro e he
          exact hk e (mem_sub_kids_sub k c p d hd s hs e he)
      have hblock : block_of c1 p d1 = block_of c p d := by
        have e1 : d1.version = d.version := by
          have h5 := congrArg CDir.version hdd
          exact h5
        have e2 : d1.dir_rep = d.dir_rep := by
          have h5 := congrArg CDir.dir_rep hdd
          exact h5
        have e3 : d1.dir_rep_by = d.dir_rep_by := by
          have h5 := congrArg CDir.dir_rep_by hdd
          exact h5
        have e4 : d1.popularity = d.popularity := by
          have h5 := congrArg CDir.popularity hdd
          exact h5
        have e5 : List.map (entry_of c1) d.kids = List.map (entry_of c) d.kids := by
          apply List.map_congr_left
          intro e he
          simp only [entry_of, hkid e he]
        simp only [block_of, CDir.nitems, hkids, hit, hst, e1, e2, e3, e4, e5, hl.2.1]
      simp only [walkable, sub_kids, sub_blocks, sub_dirs, hd, hd1, hl.1, hdk, hkids, hblock,
        hit, hst]
      refine ⟨?_, ?_, ?_, ?_⟩
      · congr 2
        rw [Bool.eq_iff_iff, List.all_eq_true, List.all_eq_true]
        apply forall_congr'
        intro e
        apply imp_congr_right
        intro he
        rw [← Bool.eq_iff_iff]
        cases hq : e.2.inode with
        | none => rfl
        | some q =>
          have hm : (e.1, q) ∈ d.kids := mem_kids_of.mpr ⟨e, he, rfl, hq⟩
          have hqq := hkid (e.1, q) hm
          simp only at hqq
          simp only [hqq]
          by_cases hisd : (c.inodes q).is_dir = true
          · have hs : (e.1, q) ∈ d.dir_kids c := List.mem_filter.mpr ⟨hm, hisd⟩
            simp only [hisd, if_true, (hsub (e.1, q) hs).1]
          · simp only [hisd, Bool.false_eq_true, if_false]
      · congr 1
        apply List.flatMap_congr
        intro s hs
        exact (hsub s hs).2.1
      · congr 1
        apply List.flatMap_congr
        intro s hs
        exact (hsub s hs).2.2.1
      · congr 1
        apply List.flatMap_congr
        intro s hs
        exact (hsub s hs).2.2.2

theorem CInode.walk_rel_refl (i : CInode) : i.walk_rel i :=
  ⟨rfl, rfl, rfl, fun h => h, fun d hd => ⟨d, hd, fun h => h⟩⟩

theorem CInode.walk_rel_trans {i j l : CInode} (h1 : i.walk_rel j) (h2 : j.walk_rel l) :
    i.walk_rel l := by
  refine ⟨h2.1.trans h1.1, h2.2.1.trans h1.2.1, h2.2.2.1.trans h1.2.2.1, ?_, ?_⟩
  · intro h
    exact h2.2.2.2.1 (h1.2.2.2.1 h)
  · intro d hd
    obtain ⟨d1, hd1, g1⟩ := h1.2.2.2.2 d hd
    obtain ⟨d2, hd2, g2⟩ := h2.2.2.2.2 d1 hd1
    exact ⟨d2, hd2, fun h => g2 (g1 h)⟩

theorem CInode.walk_rel_of_dir_like {i j : CInode} (h : i.dir_like j) : i.walk_rel j := by
  refine ⟨h.1, h.2.1, h.2.2.1, ?_, ?_⟩
  · intro hn
    have h3 := h.2.2.2
    rw [hn] at h3
    simpa using h3
  · intro d hd
    obtain ⟨d1, hd1, _, hst⟩ := CInode.dir_like_dir_some h d hd
    exact ⟨d1, hd1, fun g => by rw [hst]; exact g⟩

theorem sub_ptrs_succ (k : Nat) (c : MDCache) (p : CInodePtr) (d : CDir)
    (hd : (c.inodes p).dir = some d) :
    sub_ptrs (k + 1) c p =
      d.kids.map (fun e => e.2) ++ (d.dir_kids c).flatMap (fun s => sub_ptrs k c s.2) := by
  simp only [sub_ptrs, sub_kids, hd, List.map_append, List.map_flatMap]

theorem flatMap_cons_perm {α β : Type} (f : α → List β) (g : α → β) (l : List α) :
    (l.flatMap (fun s => g s :: f s)).Perm (l.map g ++ l.flatMap f) := by
  induction l with
  | nil => exact List.Perm.refl _
  | cons s l ih =>
    simp only [List.flatMap_cons, List.map_cons, List.cons_append]
    refine List.Perm.cons _ ?_
    exact (List.Perm.append_left (f s) ih).trans (List.perm_append_comm_assoc _ _ _)

theorem export_dir_walk_head_eq (c : MDCache) (fin idir : CInodePtr) (d : CDir)
    (ha : d.state.auth = true) :
    export_dir_walk_head c fin idir d =
      some (BlobCell.dir_state ⟨(c.inodes idir).ino, d.nitems, d.version, d.state, d.dir_rep,
          d.dir_rep_by.length, d.popularity⟩ :: d.dir_rep_by.map BlobCell.int,
        head_post c fin idir d) := by
  unfold export_dir_walk_head head_post
  simp only [ha, Bool.true_eq_false, if_false]

theorem head_post_other (c : MDCache) (fin idir : CInodePtr) (d : CDir) (x : CInodePtr)
    (hx : x ≠ idir) : (head_post c fin idir d).inodes x = c.inodes x := by
  simp [head_post, MDCache.set_inode, hx]

theorem head_post_dir (c : MDCache) (fin idir : CInodePtr) (d : CDir) :
    ((head_post c fin idir d).inodes idir).dir = some { d with
      state := ({ d.state with auth := false } : CDirState).and c.mask_state_export_kept } := by
  simp [head_post, MDCache.set_inode, CInode.take_waiting_any]

theorem head_post_idir (c : MDCache) (fin idir : CInodePtr) (d : CDir) :
    (head_post c fin idir d).inodes idir =
      { c.inodes idir with
        dir := ((head_post c fin idir d).inodes idir).dir
        waiting := [] } := by
  simp [head_post, MDCache.set_inode, CInode.take_waiting_any]

theorem head_post_walk_rel (c : MDCache) (fin idir : CInodePtr) (d : CDir)
    (hd : (c.inodes idir).dir = some d) (x : CInodePtr) :
    (c.inodes x).walk_rel ((head_post c fin idir d).inodes x) := by
  by_cases hx : x = idir
  · subst hx
    refine ⟨?_, ?_, ?_, ?_, ?_⟩
    · simp [head_post, MDCache.set_inode, CInode.take_waiting_any]
    · simp [head_post, MDCache.set_inode, CInode.take_waiting_any]
    · simp [head_post, MDCache.set_inode, CInode.take_waiting_any]
    · intro hn
      rw [hd] at hn
      simp at hn
    · intro d0 hd0
      rw [hd] at hd0
      simp only [Option.some.injEq] at hd0
      subst hd0
      refine ⟨_, head_post_dir c fin x d, ?_⟩
      intro g
      simp [CDirState.and, g]
  · rw [head_post_other c fin idir d x hx]
    exact CInode.walk_rel_refl _

theorem export_dir_walk_subdirs_spec (fin : CInodePtr) (newauth : Int) (k : Nat)
    (ih : ∀ (c : MDCache) (req : List (List BlobCell)) (p : CInodePtr),
      0 ≤ c.whoami → walkable k c p = true → (p :: sub_ptrs k c p).Nodup →
      ∃ c1, export_dir_walk k c req fin p newauth =
          .returned (req ++ (sub_blocks k c p).map BlockRec.cells, c1) ∧
        c.walk_frame c1 ∧
        (∀ x, x ≠ p → x ∉ sub_ptrs k c p → c1.inodes x = c.inodes x) ∧
        (∀ x, (c.inodes x).walk_rel (c1.inodes x)) ∧
        c1.inodes p = { c.inodes p with
          dir := (c1.inodes p).dir
          waiting := (c1.inodes p).waiting }) :
    ∀ (ss : List CInodePtr) (c : MDCache) (req : List (List BlobCell)),
      0 ≤ c.whoami → (∀ s ∈ ss, walkable k c s = true) →
      (ss.flatMap (fun s => s :: sub_ptrs k c s)).Nodup →
      ∃ c1, export_dir_walk_subdirs (fun c3 req3 s => export_dir_walk k c3 req3 fin s newauth)
            ss req c =
          .returned (req ++ ss.flatMap (fun s => (sub_blocks k c s).map BlockRec.cells), c1) ∧
        c.walk_frame c1 ∧
        (∀ x, x ∉ ss.flatMap (fun s => s :: sub_ptrs k c s) → c1.inodes x = c.inodes x) ∧
        (∀ x, (c.inodes x).walk_rel (c1.inodes x)) := by
  intro ss
  induction ss with
  | nil =>
    intro c req _ _ _
    exact ⟨c, by simp [export_dir_walk_subdirs], MDCache.walk_frame_refl c, fun _ _ => rfl,
      fun _ => CInode.walk_rel_refl _⟩
  | cons s rest ihs =>
    intro c req hw hwk hnd
    rw [List.flatMap_cons, List.nodup_append] at hnd
    obtain ⟨hnd1, hnd2, hdis⟩ := hnd
    obtain ⟨c1, h1, h2, h3, h4, _⟩ := ih c req s hw (hwk s (List.mem_cons_self _ _)) hnd1
    have hagree : ∀ s1 ∈ rest, ∀ x, x ∈ s1 :: sub_ptrs k c s1 → c1.inodes x = c.inodes x := by
      intro s1 hs1 x hx
      have hx2 : x ∈ rest.flatMap (fun s => s :: sub_ptrs k c s) :=
        List.mem_flatMap.mpr ⟨s1, hs1, hx⟩
      have hx1 : x ∉ s :: sub_ptrs k c s := fun g => hdis g hx2
      rw [List.mem_cons, not_or] at hx1
      exact h3 x hx1.1 hx1.2
    have hcong : ∀ s1 ∈ rest, walkable k c1 s1 = walkable k c s1 ∧
        sub_kids k c1 s1 = sub_kids k c s1 ∧ sub_blocks k c1 s1 = sub_blocks k c s1 ∧
        sub_dirs k c1 s1 = sub_dirs k c s1 := by
      intro s1 hs1
      apply sub_congr k c c1 s1
      · rw [hagree s1 hs1 s1 (List.mem_cons_self _ _)]
        exact CInode.dir_like_refl _
      · intro e he
        exact hagree s1 hs1 e.2 (List.mem_cons_of_mem _ (List.mem_map.mpr ⟨e, he, rfl⟩))
    have hptr : ∀ s1 ∈ rest, sub_ptrs k c1 s1 = sub_ptrs k c s1 := by
      intro s1 hs1
      unfold sub_ptrs
      rw [(hcong s1 hs1).2.1]
    have e1 : rest.flatMap (fun s => s :: sub_ptrs k c1 s) =
        rest.flatMap (fun s => s :: sub_ptrs k c s) := by
      apply List.flatMap_congr
      intro s1 hs1
      rw [hptr s1 hs1]
    have e2 : rest.flatMap (fun s => (sub_blocks k c1 s).map BlockRec.cells) =
        rest.flatMap (fun s => (sub_blocks k c s).map BlockRec.cells) := by
      apply List.flatMap_congr
      intro s1 hs1
      rw [(hcong s1 hs1).2.2.1]
    obtain ⟨c2, g1, g2, g3, g4⟩ := ihs c1 (req ++ (sub_blocks k c s).map BlockRec.cells)
      (by rw [h2.1]; exact hw)
      (fun s1 hs1 => by rw [(hcong s1 hs1).1]; exact hwk s1 (List.mem_cons_of_mem _ hs1))
      (by rw [e1]; exact hnd2)
    refine ⟨c2, ?_, MDCache.walk_frame_trans h2 g2, ?_, fun x =>
      CInode.walk_rel_trans (h4 x) (g4 x)⟩
    · rw [export_dir_walk_subdirs, h1]
      simp only
      rw [g1, e2, List.flatMap_cons, List.append_assoc]
    · intro x hx
      rw [List.flatMap_cons, List.mem_append, not_or] at hx
      rw [g3 x (by rw [e1]; exact hx.2)]
      have hx1 := hx.1
      rw [List.mem_cons, not_or] at hx1
      exact h3 x hx1.1 hx1.2

theorem export_dir_walk_succ_eq (k : Nat) (c : MDCache) (req : List (List BlobCell))
    (fin p : CInodePtr) (newauth : Int) (d : CDir) (hisd : (c.inodes p).is_dir = true)
    (hd : (c.inodes p).dir = some d) (ha : d.state.auth = true)
    (hh : d.state.hashed = false) :
    export_dir_walk (k + 1) c req fin p newauth =
      match export_dir_walk_items fin p newauth false d.items (head_post c fin p d)
          (BlobCell.dir_state ⟨(c.inodes p).ino, d.nitems, d.version, d.state, d.dir_rep,
            d.dir_rep_by.length, d.popularity⟩ :: d.dir_rep_by.map BlobCell.int) [] with
      | none => .aborted
      | some (rope, subdirs, c2) =>
        export_dir_walk_subdirs (fun c3 req3 s => export_dir_walk k c3 req3 fin s newauth)
          subdirs (req ++ [rope]) c2 := by
  rw [export_dir_walk]
  simp only [hisd, Bool.true_eq_false, if_false, hd, export_dir_walk_head_eq c fin p d ha,
    head_post_dir, CDirState.and, hh, Bool.false_and]
  try rfl

theorem export_dir_walk_spec (fin : CInodePtr) (newauth : Int) :
    ∀ (k : Nat) (c : MDCache) (req : List (List BlobCell)) (p : CInodePtr),
      0 ≤ c.whoami → walkable k c p = true → (p :: sub_ptrs k c p).Nodup →
      ∃ c1, export_dir_walk k c req fin p newauth =
          .returned (req ++ (sub_blocks k c p).map BlockRec.cells, c1) ∧
        c.walk_frame c1 ∧
        (∀ x, x ≠ p → x ∉ sub_ptrs k c p → c1.inodes x = c.inodes x) ∧
        (∀ x, (c.inodes x).walk_rel (c1.inodes x)) ∧
        c1.inodes p = { c.inodes p with
          dir := (c1.inodes p).dir
          waiting := (c1.inodes p).waiting } := by
  intro k
  induction k with
  | zero =>
    intro c req p _ hwk _
    simp [walkable] at hwk
  | succ k ih =>
    intro c req p hw hwk hnd
    obtain ⟨hisd, hall⟩ := walkable_succ k c p hwk
    cases hd : (c.inodes p).dir with
    | none =>
      refine ⟨c, ?_, MDCache.walk_frame_refl c, fun _ _ _ => rfl,
        fun _ => CInode.walk_rel_refl _, rfl⟩
      simp [export_dir_walk, hisd, hd, sub_blocks]
    | some d =>
      obtain ⟨a1, a2, a3, a4, a5, a6⟩ := hall d hd
      have hsp := sub_ptrs_succ k c p d hd
      rw [hsp, List.nodup_cons] at hnd
      obtain ⟨hp_notin, hnd0⟩ := hnd
      have hnd1 := hnd0
      rw [List.nodup_append] at hnd1
      obtain ⟨hndk, hnds, hdisj⟩ := hnd1
      have hkid_ne : ∀ e ∈ d.kids, e.2 ≠ p := by
        intro e he g
        apply hp_notin
        rw [← g]
        exact List.mem_append_left _ (List.mem_map.mpr ⟨e, he, rfl⟩)
      have hhead_kid : ∀ e ∈ d.kids, (head_post c fin p d).inodes e.2 = c.inodes e.2 :=
        fun e he => head_post_other c fin p d e.2 (hkid_ne e he)
      -- the loop over the entries
      obtain ⟨c2, i1, i2, i3, i4, i5⟩ := export_dir_walk_items_spec fin p newauth d.items
        (head_post c fin p d)
        (BlobCell.dir_state ⟨(c.inodes p).ino, d.nitems, d.version, d.state, d.dir_rep,
            d.dir_rep_by.length, d.popularity⟩ :: d.dir_rep_by.map BlobCell.int) [] hw
        ⟨_, head_post_dir c fin p d⟩
        (by
          intro e he
          obtain ⟨q, hq, b1, b2, b3, b4, b5⟩ := a6 e he
          have hm : (e.1, q) ∈ d.kids := mem_kids_of.mpr ⟨e, he, rfl, hq⟩
          refine ⟨q, hq, hkid_ne _ hm, ?_⟩
          have e0 := hhead_kid _ hm
          simp only at e0
          rw [e0]
          refine ⟨b1, b2, b3, fun dq hdq => ?_⟩
          cases hi : (c.inodes q).is_dir with
          | true => exact walkable_dir_not_hashed k c q (b4 hi) dq hdq
          | false => rw [b5 hi] at hdq; simp at hdq)
        hndk
      have hsubs : (List.filter (fun e => ((head_post c fin p d).inodes e.2).is_dir)
          (kids_of d.items)) = d.dir_kids c := by
        unfold CDir.dir_kids CDir.kids
        apply List.filter_congr
        intro e he
        rw [hhead_kid e he]
      have hrope : (BlobCell.dir_state ⟨(c.inodes p).ino, d.nitems, d.version, d.state,
            d.dir_rep, d.dir_rep_by.length, d.popularity⟩ :: d.dir_rep_by.map BlobCell.int) ++
          (kids_of d.items).flatMap (fun e => (entry_of (head_post c fin p d) e).cells) =
          (block_of c p d).cells := by
        have e1 : (kids_of d.items).flatMap
            (fun e => (entry_of (head_post c fin p d) e).cells) =
            (kids_of d.items).flatMap (fun e => (entry_of c e).cells) := by
          apply List.flatMap_congr
          intro e he
          simp only [entry_of, hhead_kid e he]
        rw [e1]
        simp only [BlockRec.cells, block_of, CDir.kids, List.flatMap_map, List.cons_append]
      rw [hsubs, hrope, List.nil_append] at i1
      -- the subdirectories
      have hcong : ∀ e ∈ d.dir_kids c, walkable k c2 e.2 = walkable k c e.2 ∧
          sub_kids k c2 e.2 = sub_kids k c e.2 ∧ sub_blocks k c2 e.2 = sub_blocks k c e.2 ∧
          sub_dirs k c2 e.2 = sub_dirs k c e.2 := by
        intro e he
        have hek : e ∈ d.kids := (List.mem_filter.mp he).1
        apply sub_congr k c c2 e.2
        · rw [← hhead_kid e hek]
          exact i4 e.2
        · intro y hy
          have hy1 : y.2 ∈ (d.dir_kids c).flatMap (fun s => sub_ptrs k c s.2) :=
            List.mem_flatMap.mpr ⟨e, he, List.mem_map.mpr ⟨y, hy, rfl⟩⟩
          have hy2 : y.2 ∉ d.kids.map (fun e => e.2) := fun g => hdisj g hy1
          have hy3 : y.2 ≠ p := by
            intro g
            apply hp_notin
            rw [← g]
            exact List.mem_append_right _ hy1
          rw [i3 y.2 hy2 hy3, head_post_other c fin p d y.2 hy3]
      have hptr : ∀ e ∈ d.dir_kids c, sub_ptrs k c2 e.2 = sub_ptrs k c e.2 := by
        intro e he
        unfold sub_ptrs
        rw [(hcong e he).2.1]
      have e1 : ((d.dir_kids c).map (fun e => e.2)).flatMap (fun s => s :: sub_ptrs k c2 s) =
          (d.dir_kids c).flatMap (fun e => e.2 :: sub_ptrs k c e.2) := by
        rw [List.flatMap_map]
        apply List.flatMap_congr
        intro e he
        rw [hptr e he]
      have e2 : ((d.dir_kids c).map (fun e => e.2)).flatMap
            (fun s => (sub_blocks k c2 s).map BlockRec.cells) =
          (d.dir_kids c).flatMap (fun e => (sub_blocks k c e.2).map BlockRec.cells) := by
        rw [List.flatMap_map]
        apply List.flatMap_congr
        intro e he
        rw [(hcong e he).2.2.1]
      have hperm := flatMap_cons_perm (fun e : String × CInodePtr => sub_ptrs k c e.2)
        (fun e => e.2) (d.dir_kids c)
      have hsub : ((d.dir_kids c).map (fun e => e.2) ++
          (d.dir_kids c).flatMap (fun s => sub_ptrs k c s.2)).Sublist
          (d.kids.map (fun e => e.2) ++ (d.dir_kids c).flatMap (fun s => sub_ptrs k c s.2)) :=
        List.Sublist.append ((List.filter_sublist _).map _) (List.Sublist.refl _)
      obtain ⟨c3, s1, s2, s3, s4⟩ := export_dir_walk_subdirs_spec fin newauth k ih
        ((d.dir_kids c).map (fun e => e.2)) c2 (req ++ [(block_of c p d).cells])
        (by rw [i2.1]; exact hw)
        (by
          intro s hs
          obtain ⟨e, he, rfl⟩ := List.mem_map.mp hs
          rw [(hcong e he).1]
          have hek : e ∈ d.kids := (List.mem_filter.mp he).1
          obtain ⟨x, hx, hx1, hx2⟩ := mem_kids_of.mp hek
          obtain ⟨q, hq, _, _, _, b4, _⟩ := a6 x hx
          rw [hx2, Option.some.injEq] at hq
          rw [hq]
          apply b4
          rw [← hq]
          exact (List.mem_filter.mp he).2)
        (by
          rw [e1]
          exact (hperm.nodup_iff).mpr (hnd0.sublist hsub))
      have hp3 : p ∉ ((d.dir_kids c).map (fun e => e.2)).flatMap
          (fun s => s :: sub_ptrs k c2 s) := by
        rw [e1]
        intro g
        have g1 := hperm.subset g
        rw [List.mem_append] at g1
        rcases g1 with g1 | g1
        · exact hp_notin (List.mem_append_left _ (((List.filter_sublist _).map _).subset g1))
        · exact hp_notin (List.mem_append_right _ g1)
      refine ⟨c3, ?_, ?_, ?_, ?_, ?_⟩
      · rw [export_dir_walk_succ_eq k c req fin p newauth d hisd hd a1 a2, i1]
        simp only
        rw [s1, e2]
        simp only [sub_blocks, hd, List.map_cons, List.map_flatMap, List.append_assoc,
          List.singleton_append]
      · exact MDCache.walk_frame_trans (MDCache.walk_frame_trans ⟨rfl, rfl, rfl, rfl⟩ i2) s2
      · intro x hx1 hx2
        rw [hsp, List.mem_append, not_or] at hx2
        have hx3 : x ∉ ((d.dir_kids c).map (fun e => e.2)).flatMap
            (fun s => s :: sub_ptrs k c2 s) := by
          rw [e1]
          intro g
          have g1 := hperm.subset g
          rw [List.mem_append] at g1
          rcases g1 with g1 | g1
          · exact hx2.1 (((List.filter_sublist _).map _).subset g1)
          · exact hx2.2 g1
        rw [s3 x hx3, i3 x hx2.1 hx1, head_post_other c fin p d x hx1]
      · intro x
        exact CInode.walk_rel_trans (CInode.walk_rel_trans (head_post_walk_rel c fin p d hd x)
          (CInode.walk_rel_of_dir_like (i4 x))) (s4 x)
      · have h3 : c3.inodes p = { c.inodes p with
            dir := (c2.inodes p).dir
            waiting := [] } := by
          rw [s3 p hp3, i5, head_post_idir]
        rw [h3]

/-! ### Importing: the steps, as equations -/

theorem MDCache.same_config_refl (c : MDCache) : c.same_config c := ⟨rfl, rfl, rfl, rfl⟩

theorem MDCache.same_config_trans {c c1 c2 : MDCache} (h1 : c.same_config c1)
    (h2 : c1.same_config c2) : c.same_config c2 :=
  ⟨h2.1.trans h1.1, h2.2.1.trans h1.2.1, h2.2.2.1.trans h1.2.2.1, h2.2.2.2.trans h1.2.2.2⟩

theorem import_dentry_inode_assim_eq (c : MDCache) (in_ : CInodePtr)
    (istate : Inode_Export_State_t) (by_ : List Int) (rest : List BlobCell) (from_ : Int)
    (hn : istate.ncached_by.toNat = by_.length)
    (hd : ∀ d, (c.inodes in_).dir = some d → d.state.hashed = (c.inodes in_).dir_hashed) :
    import_dentry_inode_assim c in_ istate (by_.map BlobCell.int ++ rest) from_ =
      some (rest, assim_post c in_ istate by_ from_) := by
  unfold import_dentry_inode_assim
  simp only [hn, read_ints_map, foldl_cached_by_add_eq]
  unfold assim_post CInode.imported cb_import
  cases hdd : (c.inodes in_).dir with
  | none =>
    by_cases hdirty : istate.dirty = true
    · simp only [hdirty, if_true, Bool.false_eq_true, if_false]
      rfl
    · simp only [hdirty, Bool.false_eq_true, if_false]
      rfl
  | some d =>
    have h3 := hd d hdd
    by_cases hdirty : istate.dirty = true
    · simp only [hdirty, if_true, Bool.false_eq_true, if_false, h3, bne_self_eq_false]
      rfl
    · simp only [hdirty, Bool.false_eq_true, if_false, h3, bne_self_eq_false]
      rfl

theorem CInode.imported_holds (i : CInode) (e : EntryRec) (me from_ : Int)
    (hi : i.inode = e.istate.inode) (ha : i.auth = true) :
    (i.imported e.istate e.cached_by me from_).holds e me from_ := by
  unfold CInode.imported CInode.holds
  by_cases hdirty : e.istate.dirty = true
  · rw [if_pos hdirty]
    unfold CInode.mark_dirty
    split_ifs
    · exact ⟨hi, ha, rfl, rfl, rfl, rfl, rfl⟩
    · exact ⟨hi, ha, rfl, rfl, rfl, rfl, rfl⟩
  · rw [if_neg hdirty]
    exact ⟨hi, ha, rfl, rfl, rfl, rfl, rfl⟩

theorem CInode.imported_dir (i : CInode) (istate : Inode_Export_State_t) (by_ : List Int)
    (me from_ : Int) :
    (i.imported istate by_ me from_).dir = i.dir ∧
    (i.imported istate by_ me from_).parent = i.parent ∧
    ((i.imported istate by_ me from_).dirty = (i.dirty || istate.dirty)) := by
  unfold CInode.imported
  by_cases hdirty : istate.dirty = true
  · rw [if_pos hdirty]
    unfold CInode.mark_dirty
    split_ifs with h
    · dsimp only at h
      exact ⟨rfl, rfl, by simp [h]⟩
    · exact ⟨rfl, rfl, by simp [hdirty, CInode.get]⟩
  · rw [if_neg hdirty]
    exact ⟨rfl, rfl, by simp [hdirty]⟩

theorem AList.size_insert_fresh (m : AList (fun _ : inodeno_t => CInodePtr)) (a : inodeno_t)
    (b : CInodePtr) (h : m.lookup a = none) :
    (m.insert a b).keys.length = m.keys.length + 1 := by
  have hn : a ∉ m.keys := by
    rw [← AList.mem_keys]
    exact AList.lookup_eq_none.mp h
  rw [AList.keys_insert, List.length_cons, List.erase_of_not_mem hn]

theorem add_inode_fresh (c : MDCache) (p : CInodePtr)
    (hs : c.inode_map_size = c.lru.lru_get_size)
    (hf : c.get_inode (c.inodes p).ino = none) :
    ∃ c3, add_inode c p = some c3 ∧ c3.inodes = c.inodes ∧
      c3.inode_map = c.inode_map.insert (c.inodes p).ino p ∧
      c3.inode_map_size = c3.lru.lru_get_size ∧ c3.heap_next = c.heap_next ∧
      c.same_config c3 ∧ c3.mdlog = c.mdlog := by
  unfold add_inode
  have h2 : (c.inode_map.insert (c.inodes p).ino p).keys.length =
      (c.lru.lru_insert_mid p).lru_get_size := by
    rw [AList.size_insert_fresh _ _ _ hf]
    unfold MDCache.inode_map_size at hs
    rw [hs]
    rfl
  have hs1 : c.inode_map.keys.length = c.lru.lru_get_size := hs
  simp only [hs1, ne_eq, not_true_eq_false, if_false, MDCache.inode_map_size, h2]
  exact ⟨_, rfl, rfl, rfl, h2, rfl, ⟨rfl, rfl, rfl, rfl⟩, rfl⟩

theorem link_inode_new (c : MDCache) (parent : CInodePtr) (dname : String) (in_ : CInodePtr)
    (d : CDir) (hd : (c.inodes parent).dir = some d) (hl : d.lookup dname = none)
    (hne : in_ ≠ parent) :
    ∃ c1, link_inode c parent dname in_ = some (0, c1) ∧
      c1.inodes parent = { c.inodes parent with dir := some (d.add_child dname in_) } ∧
      c1.inodes in_ =
        { (c.inodes in_).add_parent parent dname with parent_dir_version := d.version } ∧
      (∀ x, x ≠ in_ → x ≠ parent → c1.inodes x = c.inodes x) ∧
      c1 = { c with inodes := c1.inodes } := by
  unfold link_inode
  simp only [hd, hl, Option.isSome_none, Bool.false_eq_true, if_false, MDCache.set_inode_inodes,
    if_neg hne.symm, if_true, Option.map_some', if_pos]
  refine ⟨_, rfl, ?_, ?_, ?_, rfl⟩
  · simp [MDCache.set_inode, hne.symm]
  · simp [MDCache.set_inode, hne, CDir.add_child]
  · intro x h1 h2
    simp [MDCache.set_inode, h1, h2]

theorem import_dentry_inode_find_new (c : MDCache) (idir : CInodePtr) (d : CDir)
    (dname : String) (istate : Inode_Export_State_t)
    (hd : (c.inodes idir).dir = some d) (hl : d.lookup dname = none)
    (hf : c.get_inode istate.inode.ino = none)
    (hs : c.inode_map_size = c.lru.lru_get_size) (hne : idir ≠ c.heap_next) :
    ∃ c1, import_dentry_inode_find c idir dname istate = some (c.heap_next, false, c1) ∧
      c1.heap_next = c.heap_next + 1 ∧
      c1.inodes idir = { c.inodes idir with dir := some (d.add_child dname c.heap_next) } ∧
      (∀ x, x ≠ c.heap_next → x ≠ idir → c1.inodes x = c.inodes x) ∧
      c1.inodes c.heap_next =
        { (CInode.fresh.set_inode_t istate.inode).add_parent idir dname with
          parent_dir_version := d.version } ∧
      c1.inode_map = c.inode_map.insert istate.inode.ino c.heap_next ∧
      c1.inode_map_size = c1.lru.lru_get_size ∧ c.same_config c1 ∧ c1.mdlog = c.mdlog := by
  unfold import_dentry_inode_find
  rw [hf]
  obtain ⟨c2, hc2⟩ : ∃ c2, c2 = (c.new_CInode.2).set_inode c.heap_next
      (((c.new_CInode.2).inodes c.heap_next).set_inode_t istate.inode) := ⟨_, rfl⟩
  have h1 : c.new_CInode.1 = c.heap_next := rfl
  have hi2 : ∀ x, c2.inodes x =
      if x = c.heap_next then CInode.fresh.set_inode_t istate.inode else c.inodes x := by
    intro x
    rw [hc2]
    by_cases hx : x = c.heap_next
    · simp [MDCache.new_CInode, MDCache.set_inode, hx]
    · simp [MDCache.new_CInode, MDCache.set_inode, hx]
  have hm2 : c2.inode_map = c.inode_map ∧ c2.lru = c.lru ∧ c2.heap_next = c.heap_next + 1 ∧
      c.same_config c2 ∧ c2.mdlog = c.mdlog := by
    rw [hc2]
    exact ⟨rfl, rfl, rfl, ⟨rfl, rfl, rfl, rfl⟩, rfl⟩
  have hino : (c2.inodes c.heap_next).ino = istate.inode.ino := by
    rw [hi2, if_pos rfl]
    rfl
  obtain ⟨c3, ha, a1, a2, a3, a4, a5, a6⟩ := add_inode_fresh c2 c.heap_next
    (by unfold MDCache.inode_map_size; rw [hm2.1, hm2.2.1]; exact hs)
    (by rw [hino]; unfold MDCache.get_inode; rw [hm2.1]; exact hf)
  have hd3 : (c3.inodes idir).dir = some d := by
    rw [a1, hi2, if_neg hne, hd]
  obtain ⟨c4, hc4, l1, l2, l3, l4⟩ := link_inode_new c3 idir dname c.heap_next d hd3 hl
    (Ne.symm hne)
  simp only [h1, ← hc2, ha, hc4]
  refine ⟨c4, rfl, ?_, ?_, ?_, ?_, ?_, ?_, ?_, ?_⟩
  · rw [l4]
    exact a4.trans hm2.2.2.1
  · rw [l1, a1, hi2, if_neg hne]
  · intro x hx1 hx2
    rw [l3 x hx1 hx2, a1, hi2, if_neg hx1]
  · rw [l2, a1, hi2, if_pos rfl]
  · rw [l4]
    show c3.inode_map = _
    rw [a2, hino, hm2.1]
  · rw [l4]
    exact a3
  · rw [l4]
    exact MDCache.same_config_trans hm2.2.2.2.1 a5
  · rw [l4]
    exact a6.trans hm2.2.2.2.2

theorem CDIR_AUTH_PARENT_neg : ¬ (CDIR_AUTH_PARENT ≥ 0) := by decide

theorem import_dir_block_nested_parent (c : MDCache) (ci in_ : CInodePtr)
    (h : (c.inodes in_).dir_auth = CDIR_AUTH_PARENT) :
    import_dir_block_nested c ci in_ = some c := by
  unfold import_dir_block_nested
  rw [h, if_neg CDIR_AUTH_PARENT_neg]

/-- The import of an entry whose inode the cache does not hold: a new inode object is made at
`heap_next`, linked under its name and given the state of the entry. -/
theorem import_dentry_inode_new (c : MDCache) (idir : CInodePtr) (d : CDir) (e : EntryRec)
    (rest : List BlobCell) (from_ : Int) (root : CInodePtr)
    (hd : (c.inodes idir).dir = some d) (ha : d.state.auth = true)
    (hh : d.state.hashed = false) (hg : d.state.hashing = false)
    (hu : d.state.unhashing = false) (hl : d.lookup e.name = none)
    (hf : c.get_inode e.istate.inode.ino = none)
    (hs : c.inode_map_size = c.lru.lru_get_size) (hne : idir ≠ c.heap_next)
    (hn : e.istate.ncached_by.toNat = e.cached_by.length) :
    ∃ c1, import_dentry_inode c idir (e.cells ++ rest) from_ root =
        some (c.heap_next, rest, c1) ∧
      c1.heap_next = c.heap_next + 1 ∧
      c1.inodes idir = { c.inodes idir with dir := some (d.add_child e.name c.heap_next) } ∧
      (∀ x, x ≠ c.heap_next → x ≠ idir → c1.inodes x = c.inodes x) ∧
      (c1.inodes c.heap_next).holds e c.whoami from_ ∧
      (c1.inodes c.heap_next).dirty = e.istate.dirty ∧
      (c1.inodes c.heap_next).dir = none ∧
      c1.inode_map = c.inode_map.insert e.istate.inode.ino c.heap_next ∧
      c1.inode_map_size = c1.lru.lru_get_size ∧ c.same_config c1 := by
  obtain ⟨cf, hfind, f1, f2, f3, f4, f5, f6, f7, f8⟩ :=
    import_dentry_inode_find_new c idir d e.name e.istate hd hl hf hs hne
  have hp : e.cells ++ rest =
      .str e.name :: .inode_state e.istate :: (e.cached_by.map BlobCell.int ++ rest) := by
    simp [EntryRec.cells]
  rw [hp, import_dentry_inode_plain c idir d e.name e.istate _ from_ root hd hh]
  simp only [ha, hg, hu, Bool.not_true, Bool.not_false, Bool.and_true, Bool.and_false,
    Bool.or_false, Bool.false_eq_true, if_false, hfind]
  obtain ⟨c2, hc2⟩ : ∃ c2, c2 = cf.set_inode c.heap_next
      { (cf.inodes c.heap_next).set_inode_t e.istate.inode with auth := true } := ⟨_, rfl⟩
  rw [← hc2]
  have hdn : (c2.inodes c.heap_next).dir = none := by
    rw [hc2, MDCache.set_inode_inodes_self, f4]
    rfl
  rw [import_dentry_inode_assim_eq c2 c.heap_next e.istate e.cached_by rest from_ hn
    (by intro d1 hd1; rw [hdn] at hd1; cases hd1)]
  refine ⟨_, rfl, ?_, ?_, ?_, ?_, ?_, ?_, ?_, ?_, ?_⟩
  · unfold assim_post
    split_ifs <;> rw [hc2] <;> exact f1
  · have : (assim_post c2 c.heap_next e.istate e.cached_by from_).inodes idir =
        c2.inodes idir := by
      unfold assim_post
      split_ifs <;> simp [MDCache.set_inode, hne]
    rw [this, hc2, MDCache.set_inode_inodes, if_neg hne, f2]
  · intro x hx1 hx2
    have : (assim_post c2 c.heap_next e.istate e.cached_by from_).inodes x = c2.inodes x := by
      unfold assim_post
      split_ifs <;> simp [MDCache.set_inode, hx1]
    rw [this, hc2, MDCache.set_inode_inodes, if_neg hx1, f3 x hx1 hx2]
  · have : (assim_post c2 c.heap_next e.istate e.cached_by from_).inodes c.heap_next =
        (c2.inodes c.heap_next).imported e.istate e.cached_by c2.whoami from_ := by
      unfold assim_post
      split_ifs <;> simp [MDCache.set_inode]
    rw [this]
    have hw : c2.whoami = c.whoami := by rw [hc2]; exact f7.1
    rw [hw]
    apply CInode.imported_holds
    · rw [hc2, MDCache.set_inode_inodes_self]
      rfl
    · rw [hc2, MDCache.set_inode_inodes_self]
  · have : (assim_post c2 c.heap_next e.istate e.cached_by from_).inodes c.heap_next =
        (c2.inodes c.heap_next).imported e.istate e.cached_by c2.whoami from_ := by
      unfold assim_post
      split_ifs <;> simp [MDCache.set_inode]
    rw [this, (CInode.imported_dir _ _ _ _ _).2.2, hc2, MDCache.set_inode_inodes_self, f4]
    simp [CInode.set_inode_t, CInode.add_parent, CInode.fresh]
  · have : (assim_post c2 c.heap_next e.istate e.cached_by from_).inodes c.heap_next =
        (c2.inodes c.heap_next).imported e.istate e.cached_by c2.whoami from_ := by
      unfold assim_post
      split_ifs <;> simp [MDCache.set_inode]
    rw [this, (CInode.imported_dir _ _ _ _ _).1, hdn]
  · unfold assim_post
    split_ifs <;> rw [hc2] <;> exact f5
  · unfold assim_post
    split_ifs <;> rw [hc2] <;> exact f6
  · unfold assim_post
    split_ifs <;> rw [hc2] <;> exact f7

theorem CDir.lookup_eq_none_iff (d : CDir) (n : String) :
    d.lookup n = none ↔ n ∉ d.items.map (fun e => e.1) := by
  unfold CDir.lookup
  cases hx : List.find? (fun e => decide (e.1 = n)) d.items with
  | none =>
    simp only [true_iff]
    rw [List.find?_eq_none] at hx
    intro hm
    rw [List.mem_map] at hm
    obtain ⟨e, he, hen⟩ := hm
    have := hx e he
    simp [hen] at this
  | some e =>
    have h1 := List.mem_of_find?_eq_some hx
    have h2 := List.find?_some hx
    simp only [decide_eq_true_eq] at h2
    constructor
    · intro h
      cases h
    · intro h
      exact absurd (List.mem_map.mpr ⟨e, h1, h2⟩) h

theorem ptr_lt_succ {a b : CInodePtr} (h : a < b) : a < b + 1 := Nat.lt_succ_of_lt h

theorem ptr_add_succ (a : CInodePtr) (n : Nat) : a + 1 + n = a + (n + 1) := by
  rw [Nat.add_assoc, Nat.add_comm 1 n]

theorem new_items_cons (e : EntryRec) (es : List EntryRec) (h : CInodePtr) :
    new_items (e :: es) h = (e.name, ⟨e.name, some h⟩) :: new_items es (h + 1) := by
  simp [new_items, List.range'_succ]

theorem import_dir_block_items_new (ci : CInodePtr) (from_ : Int) (root idir : CInodePtr) :
    ∀ (es : List EntryRec) (c : MDCache) (d : CDir) (rest : List BlobCell),
      (c.inodes idir).dir = some d → d.state.auth = true → d.state.hashed = false →
      d.state.hashing = false → d.state.unhashing = false →
      (∀ e ∈ es, e.name ∉ d.items.map (fun x => x.1)) → (es.map (fun e => e.name)).Nodup →
      (∀ e ∈ es, c.get_inode e.istate.inode.ino = none) →
      (es.map (fun e => e.istate.inode.ino)).Nodup →
      c.inode_map_size = c.lru.lru_get_size → idir < c.heap_next →
      (∀ e ∈ es, e.istate.ncached_by.toNat = e.cached_by.length ∧
        e.istate.dir_auth = CDIR_AUTH_PARENT) →
      ∃ c1, import_dir_block_items ci from_ root idir es.length
          (es.flatMap EntryRec.cells ++ rest) c = some (rest, c1) ∧
        c1.heap_next = c.heap_next + es.length ∧
        c1.inodes idir = { c.inodes idir with
          dir := some { d with items := d.items ++ new_items es c.heap_next } } ∧
        (∀ x, x < c.heap_next → x ≠ idir → c1.inodes x = c.inodes x) ∧
        (∀ pr ∈ es.zip (List.range' c.heap_next es.length),
          (c1.inodes pr.2).holds pr.1 c.whoami from_ ∧
          (c1.inodes pr.2).dirty = pr.1.istate.dirty ∧ (c1.inodes pr.2).dir = none ∧
          c1.get_inode pr.1.istate.inode.ino = some pr.2) ∧
        (∀ n, n ∉ es.map (fun e => e.istate.inode.ino) → c1.get_inode n = c.get_inode n) ∧
        c1.inode_map_size = c1.lru.lru_get_size ∧ c.same_config c1 := by
  intro es
  induction es with
  | nil =>
    intro c d rest hd _ _ _ _ _ _ _ _ hs _ _
    refine ⟨c, rfl, rfl, ?_, fun _ _ _ => rfl, ?_, fun _ _ => rfl, hs,
      MDCache.same_config_refl c⟩
    · simp only [new_items, List.zip_nil_left, List.map_nil, List.append_nil]
      have : some ({ d with items := d.items } : CDir) = (c.inodes idir).dir := by rw [hd]
      rw [this]
    · intro pr hpr
      simp at hpr
  | cons e es ih =>
    intro c d rest hd ha hh hg hu hnm hnd hfr hind hs hlt hcnt
    have hne : idir ≠ c.heap_next := Nat.ne_of_lt hlt
    obtain ⟨c', h1, n1, n2, n3, n4, n5, n6, n7, n8, n9⟩ :=
      import_dentry_inode_new c idir d e (es.flatMap EntryRec.cells ++ rest) from_ root hd ha
        hh hg hu ((CDir.lookup_eq_none_iff d e.name).mpr (hnm e (List.mem_cons_self _ _)))
        (hfr e (List.mem_cons_self _ _)) hs hne (hcnt e (List.mem_cons_self _ _)).1
    have hnest : import_dir_block_nested c' ci c.heap_next = some c' :=
      import_dir_block_nested_parent c' ci c.heap_next
        (n4.2.2.1.trans (hcnt e (List.mem_cons_self _ _)).2)
    rw [List.map_cons, List.nodup_cons] at hnd hind
    have hd' : (c'.inodes idir).dir = some (d.add_child e.name c.heap_next) := by rw [n2]
    have hget : ∀ n, n ≠ e.istate.inode.ino → c'.get_inode n = c.get_inode n := by
      intro n hn
      unfold MDCache.get_inode
      rw [n7, AList.lookup_insert_ne hn]
    obtain ⟨c1, h2, m1, m2, m3, m4, m5, m6, m7⟩ := ih c' (d.add_child e.name c.heap_next) rest
      hd' ha hh hg hu
      (by
        intro e' he'
        simp only [CDir.add_child, List.map_append, List.map_cons, List.map_nil,
          List.mem_append, List.mem_singleton, not_or]
        refine ⟨hnm e' (List.mem_cons_of_mem _ he'), ?_⟩
        intro heq
        exact hnd.1 (List.mem_map.mpr ⟨e', he', heq⟩))
      hnd.2
      (by
        intro e' he'
        rw [hget _ (by
          intro heq
          exact hind.1 (List.mem_map.mpr ⟨e', he', heq⟩))]
        exact hfr e' (List.mem_cons_of_mem _ he'))
      hind.2 n8 (by rw [n1]; exact ptr_lt_succ hlt)
      (fun e' he' => hcnt e' (List.mem_cons_of_mem _ he'))
    refine ⟨c1, ?_, ?_, ?_, ?_, ?_, ?_, m6, MDCache.same_config_trans n9 m7⟩
    · rw [List.length_cons, List.flatMap_cons, List.append_assoc, import_dir_block_items, h1]
      simp only [hnest]
      exact h2
    · rw [m1, n1, List.length_cons]
      exact ptr_add_succ _ _
    · rw [m2, n2, n1, new_items_cons]
      simp [CDir.add_child, List.append_assoc]
    · intro x hx1 hx2
      rw [m3 x (by rw [n1]; exact ptr_lt_succ hx1) hx2, n3 x (Nat.ne_of_lt hx1) hx2]
    · intro pr hpr
      rw [List.length_cons, List.range'_succ, List.zip_cons_cons, List.mem_cons] at hpr
      rcases hpr with rfl | hpr
      · have hk : c1.inodes c.heap_next = c'.inodes c.heap_next :=
          m3 c.heap_next (by rw [n1]; exact Nat.lt_succ_self _) (Ne.symm hne)
        refine ⟨by rw [hk]; exact n4, by rw [hk]; exact n5, by rw [hk]; exact n6, ?_⟩
        rw [m5 _ hind.1]
        unfold MDCache.get_inode
        rw [n7, AList.lookup_insert]
      · rw [← n1] at hpr
        have := m4 pr hpr
        rw [n9.1] at this
        exact this
    · intro n hn
      rw [List.map_cons, List.mem_cons, not_or] at hn
      rw [m5 n hn.2, hget n hn.1]

theorem import_dir_block_setup_eq (c : MDCache) (idir : CInodePtr) (d0 : CDir) (b : BlockRec)
    (hh : (c.inodes idir).dir_hashed = false) (hm : c.mask_state_exported.auth = false) :
    import_dir_block_setup c idir d0 b.dstate b.rep_by =
      some (d0.waiting.map (fun w => w.2.2), d0.set_up c.mask_state_exported b) := by
  unfold import_dir_block_setup
  simp only [hh, Bool.false_eq_true, if_false, CDirState.and, hm, Bool.and_false]
  rfl

theorem MDCache.set_inode_self (c : MDCache) (p : CInodePtr) :
    c.set_inode p (c.inodes p) = c := by
  have h : (fun q => if q = p then c.inodes p else c.inodes q) = c.inodes := by
    funext q
    split_ifs with hq
    · rw [hq]
    · rfl
  unfold MDCache.set_inode
  rw [h]

theorem open_dir_vacant (c : MDCache) (qd : CInodePtr)
    (hvac : ∀ d, (c.inodes qd).dir = some d →
      d.items = [] ∧ d.waiting = [] ∧ d.dir_rep_by = [])
    (hnew : (c.new_CDir qd).items = [] ∧ (c.new_CDir qd).waiting = [] ∧
      (c.new_CDir qd).dir_rep_by = []) :
    ∃ d0 c0, open_dir c qd = (d0, c0) ∧ c0.inodes qd = { c.inodes qd with dir := some d0 } ∧
      (∀ x, x ≠ qd → c0.inodes x = c.inodes x) ∧ c0 = { c with inodes := c0.inodes } ∧
      d0.items = [] ∧ d0.waiting = [] ∧ d0.dir_rep_by = [] := by
  unfold open_dir
  cases hd : (c.inodes qd).dir with
  | some d =>
    refine ⟨d, c, rfl, ?_, fun _ _ => rfl, rfl, hvac d hd⟩
    rw [← hd]
  | none =>
    refine ⟨c.new_CDir qd, _, rfl, ?_, ?_, rfl, hnew⟩
    · simp
    · intro x hx
      simp [hx]

/-- The cells of a block, as `import_dir_block` reads them. -/
theorem BlockRec.cells_append (b : BlockRec) (rest : List BlobCell) :
    b.cells ++ rest = .dir_state b.dstate ::
      (b.rep_by.map BlobCell.int ++ (b.entries.flatMap EntryRec.cells ++ rest)) := by
  simp [BlockRec.cells, List.append_assoc]

theorem CInode.with_dir_self (i : CInode) (d : CDir) (h : i.dir = some d) :
    ({ i with dir := some d } : CInode) = i := by
  rw [← h]

/-- The import of a block into a directory that the cache holds without entries, when the
cache holds none of the inodes of its entries. -/
theorem import_dir_block_new (ci : CInodePtr) (from_ : Int) (root : CInodePtr) (c : MDCache)
    (b : BlockRec) (qd : CInodePtr) (rest : List BlobCell)
    (hget : c.get_inode b.dstate.ino = some qd)
    (hqh : (c.inodes qd).dir_hashed = false)
    (hvac : ∀ d, (c.inodes qd).dir = some d →
      d.items = [] ∧ d.waiting = [] ∧ d.dir_rep_by = [])
    (hnew : (c.new_CDir qd).items = [] ∧ (c.new_CDir qd).waiting = [] ∧
      (c.new_CDir qd).dir_rep_by = [])
    (hmask : c.mask_state_exported.auth = false)
    (hst : b.dstate.state.hashed = false ∧ b.dstate.state.hashing = false ∧
      b.dstate.state.unhashing = false)
    (hrep : b.dstate.ndir_rep_by.toNat = b.rep_by.length)
    (hnit : b.dstate.nitems.toNat = b.entries.length)
    (hroot : qd = root ∨ (c.inodes root).dir.isSome = true)
    (hnd : (b.entries.map (fun e => e.name)).Nodup)
    (hfr : ∀ e ∈ b.entries, c.get_inode e.istate.inode.ino = none)
    (hind : (b.entries.map (fun e => e.istate.inode.ino)).Nodup)
    (hs : c.inode_map_size = c.lru.lru_get_size) (hlt : qd < c.heap_next)
    (hcnt : ∀ e ∈ b.entries, e.istate.ncached_by.toNat = e.cached_by.length ∧
      e.istate.dir_auth = CDIR_AUTH_PARENT) :
    ∃ (c1 : MDCache) (d0 : CDir),
      import_dir_block c (b.cells ++ rest) ci from_ root = some (rest, c1) ∧
      c1.heap_next = c.heap_next + b.entries.length ∧
      c1.inodes qd = { c.inodes qd with
        dir := some { d0.set_up c.mask_state_exported b with
          items := new_items b.entries c.heap_next } } ∧
      d0.dir_rep_by = [] ∧
      (∀ x, x < c.heap_next → x ≠ qd → c1.inodes x = c.inodes x) ∧
      (∀ pr ∈ b.entries.zip (List.range' c.heap_next b.entries.length),
        (c1.inodes pr.2).holds pr.1 c.whoami from_ ∧
        (c1.inodes pr.2).dirty = pr.1.istate.dirty ∧ (c1.inodes pr.2).dir = none ∧
        c1.get_inode pr.1.istate.inode.ino = some pr.2) ∧
      (∀ n, n ∉ b.entries.map (fun e => e.istate.inode.ino) → c1.get_inode n = c.get_inode n) ∧
      c1.inode_map_size = c1.lru.lru_get_size ∧ c.same_config c1 := by
  obtain ⟨d0, c0, ho, o2, o3, o4, o5, o6, o7⟩ := open_dir_vacant c qd hvac hnew
  have hc0 : c0.mask_state_exported = c.mask_state_exported ∧ c0.heap_next = c.heap_next ∧
      c0.inode_map = c.inode_map ∧ c0.lru = c.lru ∧ c.same_config c0 := by
    rw [o4]
    exact ⟨rfl, rfl, rfl, rfl, ⟨rfl, rfl, rfl, rfl⟩⟩
  have hqh0 : (c0.inodes qd).dir_hashed = false := by rw [o2]; exact hqh
  have hset := import_dir_block_setup_eq c0 qd d0 b hqh0 (by rw [hc0.1]; exact hmask)
  rw [o6, List.map_nil, hc0.1] at hset
  obtain ⟨c1', hc1'⟩ : ∃ c1', c1' = c0.set_inode qd { c0.inodes qd with
      dir := some (d0.set_up c.mask_state_exported b) } := ⟨_, rfl⟩
  have hq1 : c1'.inodes qd =
      { c.inodes qd with dir := some (d0.set_up c.mask_state_exported b) } := by
    rw [hc1', MDCache.set_inode_inodes_self, o2]
  have hx1 : ∀ x, x ≠ qd → c1'.inodes x = c.inodes x := by
    intro x hx
    rw [hc1', MDCache.set_inode_inodes, if_neg hx, o3 x hx]
  obtain ⟨rd, hrd⟩ : ∃ rd, (c1'.inodes root).dir = some rd := by
    rcases hroot with h | h
    · rw [← h, hq1]
      exact ⟨_, rfl⟩
    · by_cases hr : root = qd
      · rw [hr, hq1]
        exact ⟨_, rfl⟩
      · rw [hx1 root hr]
        exact Option.isSome_iff_exists.mp h
  have hc2 : c1'.set_inode root { c1'.inodes root with dir := some rd } = c1' := by
    rw [CInode.with_dir_self _ _ hrd, MDCache.set_inode_self]
  have hcfg : c1'.mask_state_exported = c.mask_state_exported ∧ c1'.heap_next = c.heap_next ∧
      c1'.inode_map = c.inode_map ∧ c1'.lru = c.lru ∧ c.same_config c1' := by
    rw [hc1']
    exact hc0
  obtain ⟨c1, h2, m1, m2, m3, m4, m5, m6, m7⟩ :=
    import_dir_block_items_new ci from_ root qd b.entries c1'
      (d0.set_up c.mask_state_exported b) rest (by rw [hq1]) rfl
      (by simp [CDir.set_up, CDirState.and, hst.1])
      (by simp [CDir.set_up, CDirState.and, hst.2.1])
      (by simp [CDir.set_up, CDirState.and, hst.2.2])
      (by intro e _; simp [CDir.set_up, o5]) hnd
      (by intro e he; unfold MDCache.get_inode; rw [hcfg.2.2.1]; exact hfr e he) hind
      (by unfold MDCache.inode_map_size; rw [hcfg.2.2.1, hcfg.2.2.2.1]; exact hs)
      (by rw [hcfg.2.1]; exact hlt) hcnt
  refine ⟨c1, d0, ?_, ?_, ?_, o7, ?_, ?_, ?_, m6, MDCache.same_config_trans hcfg.2.2.2.2 m7⟩
  · rw [BlockRec.cells_append]
    unfold import_dir_block
    simp only [hget, ho, hrep, read_ints_map, hset, ← hc1', hrd, List.foldl_nil, hc2, hnit]
    exact h2
  · rw [m1, hcfg.2.1]
  · rw [m2, hq1, hcfg.2.1]
    simp [CDir.set_up, o5]
  · intro x hx1' hx2
    rw [m3 x (by rw [hcfg.2.1]; exact hx1') hx2, hx1 x hx2]
  · intro pr hpr
    rw [← hcfg.2.1] at hpr
    have := m4 pr hpr
    rw [hcfg.2.2.2.2.1] at this
    exact this
  · intro n hn
    rw [m5 n hn]
    unfold MDCache.get_inode
    rw [hcfg.2.2.1]

/-! ### Importing a subtree into a cache that does not hold it -/

theorem zip_snd_inj {α β : Type} : ∀ (l1 : List α) (l2 : List β), l2.Nodup →
    ∀ p ∈ l1.zip l2, ∀ p' ∈ l1.zip l2, p.2 = p'.2 → p = p' := by
  intro l1
  induction l1 with
  | nil => intro l2 _ p hp; simp at hp
  | cons a l1 ih =>
    intro l2 hnd p hp p' hp' he
    cases l2 with
    | nil => simp at hp
    | cons b l2 =>
      rw [List.nodup_cons] at hnd
      rw [List.zip_cons_cons, List.mem_cons] at hp hp'
      rcases hp with rfl | hp
      · rcases hp' with rfl | hp'
        · rfl
        · have h2 := (List.of_mem_zip hp').2
          rw [← he] at h2
          exact absurd h2 hnd.1
      · rcases hp' with rfl | hp'
        · have h2 := (List.of_mem_zip hp).2
          rw [he] at h2
          exact absurd h2 hnd.1
        · exact ih l2 hnd.2 p hp p' hp' he

theorem kids_of_new_items (es : List EntryRec) (h : CInodePtr) :
    kids_of (new_items es h) =
      (es.zip (List.range' h es.length)).map (fun pr => (pr.1.name, pr.2)) := by
  unfold kids_of new_items
  rw [List.filterMap_map]
  rw [← List.filterMap_eq_map]
  rfl

theorem kids_of_all (items : List (String × CDentry))
    (h : ∀ e ∈ items, ∃ q, e.2.inode = some q) :
    (kids_of items).map (fun e => e.1) = items.map (fun e => e.1) := by
  induction items with
  | nil => rfl
  | cons a items ih =>
    obtain ⟨q, hq⟩ := h a (List.mem_cons_self _ _)
    obtain ⟨n, dn⟩ := a
    rw [kids_of_cons n dn q items hq, List.map_cons, List.map_cons,
      ih (fun e he => h e (List.mem_cons_of_mem _ he))]

theorem handle_export_dir_blocks_append (ci : CInodePtr) (from_ : Int) (root : CInodePtr) :
    ∀ (n1 n2 : Nat) (p p1 : List BlobCell) (c c1 : MDCache),
      handle_export_dir_blocks ci from_ root n1 p c = some (p1, c1) →
      handle_export_dir_blocks ci from_ root (n1 + n2) p c =
        handle_export_dir_blocks ci from_ root n2 p1 c1 := by
  intro n1
  induction n1 with
  | zero =>
    intro n2 p p1 c c1 h
    simp only [handle_export_dir_blocks, Option.some.injEq, Prod.mk.injEq] at h
    rw [Nat.zero_add, h.1, h.2]
  | succ n1 ih =>
    intro n2 p p1 c c1 h
    rw [Nat.succ_add]
    rw [handle_export_dir_blocks] at h ⊢
    cases hb : import_dir_block c p ci from_ root with
    | none => rw [hb] at h; simp at h
    | some r =>
      obtain ⟨p2, c2⟩ := r
      rw [hb] at h
      simp only at h ⊢
      exact ih n2 p2 p1 c2 c1 h

theorem import_env_of (c c1 : MDCache) (h : import_env c) (hc : c.same_config c1)
    (hs : c1.inode_map_size = c1.lru.lru_get_size) : import_env c1 := by
  refine ⟨?_, ?_, hs⟩
  · intro x
    rw [hc.2.2.2]
    exact h.1 x
  · rw [hc.2.1]
    exact h.2.1

theorem ptr_lt_add {a b : CInodePtr} (n : Nat) (h : a < b) : a < b + n :=
  Nat.lt_of_lt_of_le h (Nat.le_add_right b n)

theorem inos_append (S0 : MDCache) (a b : List (String × CInodePtr)) :
    inos S0 (a ++ b) = inos S0 a ++ inos S0 b := by
  simp [inos]

theorem sub_ptrs_eq_of_kids (k : Nat) (c c1 : MDCache) (p p1 : CInodePtr)
    (h : sub_kids k c1 p1 = sub_kids k c p) : sub_ptrs k c1 p1 = sub_ptrs k c p := by
  unfold sub_ptrs
  rw [h]

theorem mem_range_bounds {a : CInodePtr} {n : Nat} {x : CInodePtr}
    (h : x ∈ List.range' a n) : a ≤ x ∧ x < a + n := by
  rw [List.mem_range'_1] at h
  exact h

/-- The import of the blocks of the subtrees of the directories `l`, one after the other; each
is given with the inode object that takes its directory. -/
theorem import_subtrees_new (S0 : MDCache) (ci : CInodePtr) (from_ : Int) (root : CInodePtr)
    (k : Nat) (IH : imports_subtree S0 ci from_ root k) :
    ∀ (l : List ((String × CInodePtr) × CInodePtr)) (c : MDCache) (rest : List BlobCell),
      (∀ pr ∈ l, walkable k S0 pr.1.2 = true ∧ import_ready S0 c pr.1.2 pr.2 ∧
        (c.inodes pr.2).dir = none ∧ root ≠ pr.2 ∧
        (S0.inodes pr.1.2).ino ∉ inos S0 (l.flatMap fun pr => sub_kids k S0 pr.1.2)) →
      (l.map (fun pr => pr.2)).Nodup →
      (∀ n ∈ inos S0 (l.flatMap fun pr => sub_kids k S0 pr.1.2), c.get_inode n = none) →
      (inos S0 (l.flatMap fun pr => sub_kids k S0 pr.1.2)).Nodup →
      import_env c → (c.inodes root).dir.isSome = true → root < c.heap_next →
      ∃ c1, handle_export_dir_blocks ci from_ root
          (l.flatMap fun pr => sub_blocks k S0 pr.1.2).length
          ((l.flatMap fun pr => sub_blocks k S0 pr.1.2).flatMap BlockRec.cells ++ rest) c =
            some (rest, c1) ∧
        c1.heap_next = c.heap_next + (l.flatMap fun pr => sub_kids k S0 pr.1.2).length ∧
        (∀ x, x < c.heap_next → x ∉ l.map (fun pr => pr.2) → c1.inodes x = c.inodes x) ∧
        (∀ x, x < c.heap_next → c1.inodes x = { c.inodes x with dir := (c1.inodes x).dir }) ∧
        (∀ pr ∈ l, walkable k c1 pr.2 = true ∧
          sub_blocks k c1 pr.2 = (sub_blocks k S0 pr.1.2).map
            (BlockRec.imported c.mask_state_exported c.whoami from_)) ∧
        (l.flatMap fun pr => sub_ptrs k c1 pr.2) =
          List.range' c.heap_next (l.flatMap fun pr => sub_kids k S0 pr.1.2).length ∧
        (∀ n, n ∉ inos S0 (l.flatMap fun pr => sub_kids k S0 pr.1.2) →
          c1.get_inode n = c.get_inode n) ∧
        c1.inode_map_size = c1.lru.lru_get_size ∧ c.same_config c1 := by
  intro l
  induction l with
  | nil =>
    intro c rest _ _ _ _ henv _ _
    refine ⟨c, rfl, rfl, fun _ _ _ => rfl, fun _ _ => rfl, ?_, rfl, fun _ _ => rfl, henv.2.2,
      MDCache.same_config_refl c⟩
    intro pr hpr
    simp at hpr
  | cons pr l ih =>
    intro c rest hall hnd hfr hino henv hroot hrlt
    obtain ⟨hw, hrdy, hdn, hrne, hnotin⟩ := hall pr (List.mem_cons_self _ _)
    rw [List.flatMap_cons, inos_append] at hfr hino hnotin
    rw [List.map_cons, List.nodup_cons] at hnd
    rw [List.nodup_append] at hino
    -- the first subtree
    obtain ⟨c', e1, a1, a2, a3, a4, a5, a6, a7, a8, a9⟩ := IH c pr.1.2 pr.2
      ((l.flatMap fun pr => sub_blocks k S0 pr.1.2).flatMap BlockRec.cells ++ rest) hw
      (fun n hn => hfr n (List.mem_append_left _ hn)) hino.1 hrdy henv (Or.inr hroot) hrlt
    have hroot' : c'.inodes root = c.inodes root := a2 root hrlt hrne
    have henv' := import_env_of c c' henv a9 a8
    -- the subtrees that follow
    obtain ⟨c1, e2, b1, b2, b3, b4, b5, b6, b7, b8⟩ := ih c' rest
      (by
        intro pr' hpr'
        obtain ⟨w1, r1, d1, n1, i1⟩ := hall pr' (List.mem_cons_of_mem _ hpr')
        rw [List.flatMap_cons, inos_append, List.mem_append, not_or] at i1
        have hne : pr'.2 ≠ pr.2 := by
          intro he
          exact hnd.1 (List.mem_map.mpr ⟨pr', hpr', he⟩)
        have hsame : c'.inodes pr'.2 = c.inodes pr'.2 := a2 pr'.2 r1.2.2.2.2.2.2 hne
        refine ⟨w1, ⟨?_, ?_, ?_, ?_, ?_, ?_, ?_⟩, ?_, n1, i1.2⟩
        · rw [a7 _ i1.1]
          exact r1.1
        · rw [hsame]; exact r1.2.1
        · rw [hsame]; exact r1.2.2.1
        · rw [hsame]; exact r1.2.2.2.1
        · rw [hsame]; exact r1.2.2.2.2.1
        · rw [hsame]; exact r1.2.2.2.2.2.1
        · rw [a1]; exact ptr_lt_add _ r1.2.2.2.2.2.2
        · rw [hsame]; exact d1)
      hnd.2
      (by
        intro n hn
        rw [a7 n (fun h1 => hino.2.2 h1 hn)]
        exact hfr n (List.mem_append_right _ hn))
      hino.2.1 henv' (by rw [hroot']; exact hroot) (by rw [a1]; exact ptr_lt_add _ hrlt)
    have hy1 : c1.inodes pr.2 = c'.inodes pr.2 := by
      apply b2 pr.2 (by rw [a1]; exact ptr_lt_add _ hrdy.2.2.2.2.2.2)
      exact hnd.1
    have hkids : ∀ e ∈ sub_kids k c' pr.2, c1.inodes e.2 = c'.inodes e.2 := by
      intro e he
      have hm : e.2 ∈ sub_ptrs k c' pr.2 := List.mem_map.mpr ⟨e, he, rfl⟩
      rw [a6] at hm
      obtain ⟨m1, m2⟩ := mem_range_bounds hm
      apply b2 e.2 (by rw [a1]; exact m2)
      intro hmem
      obtain ⟨pr', hpr', he'⟩ := List.mem_map.mp hmem
      have := (hall pr' (List.mem_cons_of_mem _ hpr')).2.1.2.2.2.2.2.2
      rw [he'] at this
      exact absurd m1 (Nat.not_le_of_lt this)
    obtain ⟨g1, g2, g3, _⟩ := sub_congr k c' c1 pr.2
      (by rw [hy1]; exact CInode.dir_like_refl _) hkids
    refine ⟨c1, ?_, ?_, ?_, ?_, ?_, ?_, ?_, b7, MDCache.same_config_trans a9 b8⟩
    · rw [List.flatMap_cons, List.length_append, List.flatMap_append, List.append_assoc,
        handle_export_dir_blocks_append ci from_ root _ _ _ _ c c' e1]
      exact e2
    · rw [b1, a1, List.flatMap_cons, List.length_append, Nat.add_assoc]
    · intro x hx hxm
      rw [List.map_cons, List.mem_cons, not_or] at hxm
      rw [b2 x (by rw [a1]; exact ptr_lt_add _ hx) hxm.2, a2 x hx hxm.1]
    · intro x hx
      have h1 := b3 x (by rw [a1]; exact ptr_lt_add _ hx)
      by_cases hxy : x = pr.2
      · rw [h1, hxy, a3]
      · rw [h1, a2 x hx hxy]
    · intro pr' hpr'
      rw [List.mem_cons] at hpr'
      rcases hpr' with rfl | hpr'
      · rw [g1, g3]
        exact ⟨a4, a5⟩
      · have := b4 pr' hpr'
        rw [a9.2.1, a9.1] at this
        exact this
    · rw [List.flatMap_cons, sub_ptrs_eq_of_kids k c' c1 pr.2 pr.2 g2, a6, b5, a1,
        List.flatMap_cons, List.length_append, List.range'_append_1, Nat.add_comm]
    · intro n hn
      rw [List.flatMap_cons, inos_append, List.mem_append, not_or] at hn
      rw [b6 n hn.2, a7 n hn.1]

/-- What `walkable` says of the inodes that the directory `d` of a walkable inode links. -/
theorem walkable_kids (k : Nat) (c : MDCache) (p : CInodePtr) (d : CDir)
    (h : walkable (k + 1) c p = true) (hd : (c.inodes p).dir = some d) :
    d.kids.map (fun e => e.1) = d.items.map (fun e => e.1) ∧
    ∀ e ∈ d.kids, (c.inodes e.2).auth = true ∧
      (c.inodes e.2).dir_auth = CDIR_AUTH_PARENT ∧ (c.inodes e.2).dir_hashed = false ∧
      ((c.inodes e.2).is_dir = true → walkable k c e.2 = true) ∧
      ((c.inodes e.2).is_dir = false → (c.inodes e.2).dir = none) := by
  obtain ⟨_, _, _, _, _, a6⟩ := (walkable_succ k c p h).2 d hd
  constructor
  · apply kids_of_all
    intro e he
    obtain ⟨q, hq, _⟩ := a6 e he
    exact ⟨q, hq⟩
  · intro e he
    obtain ⟨x, hx, _, hxq⟩ := mem_kids_of.mp he
    obtain ⟨q, hq, r⟩ := a6 x hx
    rw [hxq] at hq
    cases hq
    exact r

theorem entry_of_imported (c c1 : MDCache) (e : String × CInodePtr) (y : CInodePtr)
    (me from_ : Int) (h : (c1.inodes y).holds (entry_of c e) me from_)
    (hdirty : (c1.inodes y).dirty = (entry_of c e).istate.dirty) :
    entry_of c1 (e.1, y) = (entry_of c e).imported me from_ := by
  obtain ⟨h1, _, h3, h4, h5, h6, h7⟩ := h
  unfold entry_of EntryRec.imported
  simp only
  rw [h1, h3, h4, h5, h6, h7, hdirty]
  rfl

theorem CInode.holds_of_same_but_dir (i j : CInode) (e : EntryRec) (me from_ : Int)
    (h : j = { i with dir := j.dir }) (hi : i.holds e me from_) : j.holds e me from_ := by
  rw [h]
  exact hi

theorem CInode.inode_fields (i : CInode) (r : inode_t) (h : i.inode = r) :
    i.ino = r.ino ∧ i.is_dir = r.isdir ∧ i.dir_hashed = r.hashed := by
  subst h
  exact ⟨rfl, rfl, rfl⟩

theorem walkable_none (k : Nat) (c : MDCache) (p : CInodePtr)
    (hi : (c.inodes p).is_dir = true) (hd : (c.inodes p).dir = none) :
    walkable (k + 1) c p = true := by
  unfold walkable
  rw [hi, hd]
  rfl

theorem sub_none (k : Nat) (c : MDCache) (p : CInodePtr) (hd : (c.inodes p).dir = none) :
    sub_blocks (k + 1) c p = [] ∧ sub_kids (k + 1) c p = [] ∧ sub_ptrs (k + 1) c p = [] := by
  simp [sub_blocks, sub_kids, sub_ptrs, hd]

theorem walkable_intro (k : Nat) (c : MDCache) (p : CInodePtr) (d : CDir)
    (hi : (c.inodes p).is_dir = true) (hd : (c.inodes p).dir = some d)
    (a1 : d.state.auth = true) (a2 : d.state.hashed = false) (a3 : d.state.hashing = false)
    (a4 : d.state.unhashing = false) (a5 : (d.items.map (fun e => e.1)).Nodup)
    (a6 : ∀ e ∈ d.items, ∃ q, e.2.inode = some q ∧ (c.inodes q).auth = true ∧
        (c.inodes q).dir_auth = CDIR_AUTH_PARENT ∧ (c.inodes q).dir_hashed = false ∧
        ((c.inodes q).is_dir = true → walkable k c q = true) ∧
        ((c.inodes q).is_dir = false → (c.inodes q).dir = none)) :
    walkable (k + 1) c p = true := by
  unfold walkable
  rw [hi, hd]
  simp only [Bool.true_and, Bool.and_eq_true, Bool.not_eq_true', decide_eq_true_eq,
    List.all_eq_true]
  refine ⟨⟨⟨⟨⟨a1, a2⟩, a3⟩, a4⟩, a5⟩, ?_⟩
  intro e he
  obtain ⟨q, hq, b1, b2, b3, b4, b5⟩ := a6 e he
  rw [hq]
  simp only [Bool.and_eq_true, Bool.not_eq_true', decide_eq_true_eq]
  refine ⟨⟨⟨b1, b2⟩, b3⟩, ?_⟩
  cases hqd : (c.inodes q).is_dir with
  | true => simpa using b4 hqd
  | false => simpa using b5 hqd

theorem import_subtree_new (S0 : MDCache) (ci : CInodePtr) (from_ : Int) (root : CInodePtr) :
    ∀ k, imports_subtree S0 ci from_ root k := by
  intro k
  induction k with
  | zero =>
    intro c q qd rest hw
    simp [walkable] at hw
  | succ k IH =>
    intro c q qd rest hw hfr hino hrdy henv hroot hrlt
    obtain ⟨r1, r2, r3, r4, r5, r6, r7⟩ := hrdy
    cases hd : (S0.inodes q).dir with
    | none =>
      obtain ⟨s1, s2, _⟩ := sub_none k S0 q hd
      obtain ⟨t1, t2, t3⟩ := sub_none k c qd (r6 hd)
      rw [s1, s2]
      refine ⟨c, rfl, rfl, fun _ _ _ => rfl, ?_, walkable_none k c qd r3 (r6 hd), ?_, ?_,
        fun _ _ => rfl, henv.2.2, MDCache.same_config_refl c⟩
      · rfl
      · rw [t1]; rfl
      · rw [t3]; rfl
    | some d =>
      obtain ⟨_, hall⟩ := walkable_succ k S0 q hw
      obtain ⟨a1, a2, a3, a4, a5, _⟩ := hall d hd
      obtain ⟨k1, k2⟩ := walkable_kids k S0 q d hw hd
      have hsk : sub_kids (k + 1) S0 q =
          d.kids ++ (d.dir_kids S0).flatMap (fun e => sub_kids k S0 e.2) := by
        simp only [sub_kids, hd]
      have hsb : sub_blocks (k + 1) S0 q =
          block_of S0 q d :: (d.dir_kids S0).flatMap (fun e => sub_blocks k S0 e.2) := by
        simp only [sub_blocks, hd]
      rw [hsk, inos_append] at hfr hino
      rw [List.nodup_append] at hino
      have hlen : d.kids.length = d.items.length := by
        have := congrArg List.length k1
        rw [List.length_map, List.length_map] at this
        exact this
      -- the block of the directory itself
      obtain ⟨cA, d0, eA, b1, b2, b3, b4, b5, b6, b7, b8⟩ :=
        import_dir_block_new ci from_ root c (block_of S0 q d) qd
          (((d.dir_kids S0).flatMap (fun e => sub_blocks k S0 e.2)).flatMap BlockRec.cells ++
            rest)
          r1 r4 r5 (henv.1 qd) henv.2.1 ⟨a2, a3, a4⟩
          (by simp [block_of])
          (by simp [block_of, CDir.nitems, hlen])
          hroot
          (by
            simp only [block_of, List.map_map]
            have : ((fun e : EntryRec => e.name) ∘ entry_of S0) = fun e => e.1 := by
              funext e
              rfl
            rw [this, k1]
            exact a5)
          (by
            intro e he
            simp only [block_of, List.mem_map] at he
            obtain ⟨kid, hkid, rfl⟩ := he
            exact hfr _ (List.mem_append_left _ (List.mem_map.mpr ⟨kid, hkid, rfl⟩)))
          (by
            simp only [block_of, List.map_map]
            exact hino.1)
          henv.2.2 r7
          (by
            intro e he
            simp only [block_of, List.mem_map] at he
            obtain ⟨kid, hkid, rfl⟩ := he
            exact ⟨by simp [entry_of], (k2 kid hkid).2.1⟩)
      have hent : (block_of S0 q d).entries = d.kids.map (entry_of S0) := rfl
      rw [hent, List.length_map] at b1 b5
      rw [hent] at b2 b6
      obtain ⟨z, hz⟩ : ∃ z, z = d.kids.zip (List.range' c.heap_next d.kids.length) :=
        ⟨_, rfl⟩
      have hzfst : z.map Prod.fst = d.kids := by
        rw [hz]
        exact List.map_fst_zip _ _ (by rw [List.length_range'])
      have hzsnd : z.map Prod.snd = List.range' c.heap_next d.kids.length := by
        rw [hz]
        exact List.map_snd_zip _ _ (by rw [List.length_range'])
      have hzk : ∀ pr ∈ z, pr.1 ∈ d.kids := by
        intro pr hpr
        rw [hz] at hpr
        exact (List.of_mem_zip hpr).1
      have hzr : ∀ pr ∈ z, c.heap_next ≤ pr.2 ∧ pr.2 < cA.heap_next := by
        intro pr hpr
        rw [hz] at hpr
        rw [b1]
        exact mem_range_bounds (List.of_mem_zip hpr).2
      have hzp : ∀ pr ∈ z, (cA.inodes pr.2).holds (entry_of S0 pr.1) c.whoami from_ ∧
          (cA.inodes pr.2).dirty = (entry_of S0 pr.1).istate.dirty ∧
          (cA.inodes pr.2).dir = none ∧ cA.get_inode (S0.inodes pr.1.2).ino = some pr.2 := by
        intro pr hpr
        have hm : Prod.map (entry_of S0) id pr ∈
            (d.kids.map (entry_of S0)).zip (List.range' c.heap_next d.kids.length) := by
          rw [List.zip_map_left]
          rw [hz] at hpr
          exact List.mem_map_of_mem _ hpr
        exact b5 _ hm
      obtain ⟨l, hl⟩ : ∃ l, l = z.filter (fun pr => (S0.inodes pr.1.2).is_dir) := ⟨_, rfl⟩
      have hlz : ∀ pr ∈ l, pr ∈ z ∧ (S0.inodes pr.1.2).is_dir = true := by
        intro pr hpr
        rw [hl, List.mem_filter] at hpr
        exact hpr
      have hlfst : l.map Prod.fst = d.dir_kids S0 := by
        rw [hl]
        have := List.filter_map (p := fun e : String × CInodePtr => (S0.inodes e.2).is_dir)
          Prod.fst z
        rw [hzfst] at this
        exact this.symm
      have hLk : (l.flatMap fun pr => sub_kids k S0 pr.1.2) =
          (d.dir_kids S0).flatMap (fun e => sub_kids k S0 e.2) := by
        rw [← hlfst, List.flatMap_map]
      have hLb : (l.flatMap fun pr => sub_blocks k S0 pr.1.2) =
          (d.dir_kids S0).flatMap (fun e => sub_blocks k S0 e.2) := by
        rw [← hlfst, List.flatMap_map]
      have hlnd : (l.map (fun pr => pr.2)).Nodup := by
        have h1 : (l.map Prod.snd).Sublist (z.map Prod.snd) := by
          rw [hl]
          exact List.Sublist.map _ (List.filter_sublist _)
        rw [hzsnd] at h1
        exact List.Nodup.sublist h1 (List.nodup_range' _ _)
      have hrootA : (cA.inodes root).dir.isSome = true := by
        by_cases hr : root = qd
        · rw [hr, b2]
          rfl
        · rw [b4 root hrlt hr]
          rcases hroot with h | h
          · exact absurd h.symm hr
          · exact h
      have hkino : ∀ pr ∈ z, (S0.inodes pr.1.2).ino ∈ inos S0 d.kids := by
        intro pr hpr
        exact List.mem_map.mpr ⟨pr.1, hzk pr hpr, rfl⟩
      -- the subtrees of the directories below
      obtain ⟨c1, e2, p1, p2, p3, p4, p5, p6, p7, p8⟩ :=
        import_subtrees_new S0 ci from_ root k IH l cA rest
          (by
            intro pr hpr
            obtain ⟨hprz, hprd⟩ := hlz pr hpr
            obtain ⟨f1, f2, f3, f4⟩ := hzp pr hprz
            obtain ⟨g1, g2, g3⟩ := CInode.inode_fields _ _ f1.1
            have hk := k2 pr.1 (hzk pr hprz)
            refine ⟨hk.2.2.2.1 hprd, ⟨f4, g1, ?_, ?_, ?_, fun _ => f3, (hzr pr hprz).2⟩, f3, ?_,
              ?_⟩
            · rw [g2]
              exact hprd
            · rw [g3]
              exact hk.2.2.1
            · intro d' hd'
              rw [f3] at hd'
              cases hd'
            · exact Nat.ne_of_lt (Nat.lt_of_lt_of_le hrlt (hzr pr hprz).1)
            · rw [hLk]
              intro hmem
              exact hino.2.2 (hkino pr hprz) hmem)
          hlnd
          (by
            intro n hn
            rw [hLk] at hn
            rw [b6 n (by
              intro h1
              simp only [List.map_map] at h1
              exact hino.2.2 h1 hn)]
            exact hfr n (List.mem_append_right _ hn))
          (by rw [hLk]; exact hino.2.1)
          (import_env_of c cA henv b8 b7) hrootA (by rw [b1]; exact ptr_lt_add _ hrlt)
      rw [b8.2.1, b8.1] at p4
      -- what the cache holds in the end
      have hnotl : ∀ x, x < c.heap_next → x ∉ l.map (fun pr => pr.2) := by
        intro x hx hmem
        obtain ⟨pr, hpr, he⟩ := List.mem_map.mp hmem
        have := (hzr pr (hlz pr hpr).1).1
        rw [he] at this
        exact absurd hx (Nat.not_lt_of_le this)
      have hqd1 : c1.inodes qd = cA.inodes qd :=
        p2 qd (by rw [b1]; exact ptr_lt_add _ r7) (hnotl qd r7)
      have hy : ∀ pr ∈ z, c1.inodes pr.2 =
          { cA.inodes pr.2 with dir := (c1.inodes pr.2).dir } :=
        fun pr hpr => p3 pr.2 (hzr pr hpr).2
      have hynd : ∀ pr ∈ z, (S0.inodes pr.1.2).is_dir = false →
          c1.inodes pr.2 = cA.inodes pr.2 := by
        intro pr hpr hnd
        apply p2 pr.2 (hzr pr hpr).2
        intro hmem
        obtain ⟨pr', hpr', he⟩ := List.mem_map.mp hmem
        have hzz : pr' = pr := by
          have h1 := (hlz pr' hpr').1
          rw [hz] at h1 hpr
          exact zip_snd_inj _ _ (List.nodup_range' _ _) pr' h1 pr hpr he
        have := (hlz pr' hpr').2
        rw [hzz, hnd] at this
        cases this
      have hyf : ∀ pr ∈ z, (c1.inodes pr.2).holds (entry_of S0 pr.1) c.whoami from_ ∧
          (c1.inodes pr.2).dirty = (entry_of S0 pr.1).istate.dirty ∧
          (c1.inodes pr.2).ino = (S0.inodes pr.1.2).ino ∧
          (c1.inodes pr.2).is_dir = (S0.inodes pr.1.2).is_dir ∧
          (c1.inodes pr.2).dir_hashed = (S0.inodes pr.1.2).dir_hashed := by
        intro pr hpr
        obtain ⟨f1, f2, _, _⟩ := hzp pr hpr
        have h1 := CInode.holds_of_same_but_dir _ _ _ _ _ (hy pr hpr) f1
        obtain ⟨g1, g2, g3⟩ := CInode.inode_fields _ _ h1.1
        refine ⟨h1, ?_, g1, g2, g3⟩
        rw [hy pr hpr]
        exact f2
      have hitems : new_items (d.kids.map (entry_of S0)) c.heap_next =
          z.map (fun pr => (pr.1.1, (⟨pr.1.1, some pr.2⟩ : CDentry))) := by
        unfold new_items
        rw [List.length_map, List.zip_map_left, ← hz, List.map_map]
        rfl
      obtain ⟨d1, hd1d⟩ : ∃ d1, d1 = ({ d0.set_up c.mask_state_exported (block_of S0 q d) with
          items := new_items (d.kids.map (entry_of S0)) c.heap_next } : CDir) := ⟨_, rfl⟩
      rw [← hd1d] at b2
      have hd1 : (c1.inodes qd).dir = some d1 := by rw [hqd1, b2]
      have hd1i : d1.items = z.map (fun pr => (pr.1.1, (⟨pr.1.1, some pr.2⟩ : CDentry))) := by
        rw [hd1d]
        exact hitems
      have hd1k : d1.kids = z.map (fun pr => (pr.1.1, pr.2)) := by
        unfold CDir.kids kids_of
        rw [hd1i, List.filterMap_map, ← List.filterMap_eq_map]
        rfl
      have hd1dk : d1.dir_kids c1 = l.map (fun pr => (pr.1.1, pr.2)) := by
        unfold CDir.dir_kids
        rw [hd1k, List.filter_map, hl]
        congr 1
        apply List.filter_congr
        intro pr hpr
        exact (hyf pr hpr).2.2.2.1
      have hblock : block_of c1 qd d1 =
          (block_of S0 q d).imported c.mask_state_exported c.whoami from_ := by
        have hents : d1.kids.map (entry_of c1) =
            (d.kids.map (entry_of S0)).map (EntryRec.imported c.whoami from_) := by
          rw [hd1k, List.map_map, List.map_map, ← hzfst, List.map_map]
          apply List.map_congr_left
          intro pr hpr
          exact entry_of_imported S0 c1 pr.1 pr.2 c.whoami from_ (hyf pr hpr).1 (hyf pr hpr).2.1
        have hni : d1.nitems = d.nitems := by
          unfold CDir.nitems
          rw [hd1i, List.length_map, ← hlen, ← hzfst, List.length_map]
        have hino1 : (c1.inodes qd).ino = (S0.inodes q).ino := by
          rw [hqd1, b2]
          exact r2
        unfold block_of BlockRec.imported
        rw [hents, hni, hino1, hd1d]
        simp only [CDir.set_up, b3, block_of]
      have hsb1 : sub_blocks (k + 1) c1 qd = (sub_blocks (k + 1) S0 q).map
          (BlockRec.imported c.mask_state_exported c.whoami from_) := by
        rw [hsb, List.map_cons, ← hLb, List.map_flatMap]
        simp only [sub_blocks, hd1]
        rw [hblock, hd1dk, List.flatMap_map]
        congr 1
        apply List.flatMap_congr
        intro pr hpr
        exact (p4 pr hpr).2
      have hsp1 : sub_ptrs (k + 1) c1 qd =
          List.range' c.heap_next (sub_kids (k + 1) S0 q).length := by
        rw [sub_ptrs_succ k c1 qd d1 hd1, hd1k, hd1dk, List.flatMap_map, List.map_map]
        have h1 : z.map ((fun e : String × CInodePtr => e.2) ∘
            fun pr : (String × CInodePtr) × CInodePtr => (pr.1.1, pr.2)) = z.map Prod.snd := rfl
        rw [h1, hzsnd, p5, hLk, b1, hsk, List.length_append, List.range'_append_1, Nat.add_comm]
      have hw1 : walkable (k + 1) c1 qd = true := by
        apply walkable_intro k c1 qd d1 (by rw [hqd1, b2]; exact r3) hd1
        · rw [hd1d]; rfl
        · rw [hd1d]; simp [CDir.set_up, CDirState.and, block_of, a2]
        · rw [hd1d]; simp [CDir.set_up, CDirState.and, block_of, a3]
        · rw [hd1d]; simp [CDir.set_up, CDirState.and, block_of, a4]
        · rw [hd1i, List.map_map]
          have h1 : z.map ((fun e : String × CDentry => e.1) ∘
              fun pr : (String × CInodePtr) × CInodePtr =>
                (pr.1.1, (⟨pr.1.1, some pr.2⟩ : CDentry))) =
              (z.map Prod.fst).map (fun e => e.1) := by
            rw [List.map_map]
            rfl
          rw [h1, hzfst, k1]
          exact a5
        · intro e he
          rw [hd1i, List.mem_map] at he
          obtain ⟨pr, hpr, rfl⟩ := he
          obtain ⟨f1, _, _, f4, f5⟩ := hyf pr hpr
          have hk := k2 pr.1 (hzk pr hpr)
          refine ⟨pr.2, rfl, f1.2.1, f1.2.2.1.trans hk.2.1, f5.trans hk.2.2.1, ?_, ?_⟩
          · intro hdir
            rw [f4] at hdir
            have hprl : pr ∈ l := by
              rw [hl, List.mem_filter]
              exact ⟨hpr, hdir⟩
            exact (p4 pr hprl).1
          · intro hdir
            rw [f4] at hdir
            rw [hynd pr hpr hdir]
            exact (hzp pr hpr).2.2.1
      refine ⟨c1, ?_, ?_, ?_, ?_, hw1, hsb1, hsp1, ?_, p7, MDCache.same_config_trans b8 p8⟩
      · rw [hsb, List.length_cons, List.flatMap_cons, List.append_assoc,
          handle_export_dir_blocks, eA]
        simp only
        rw [← hLb]
        exact e2
      · rw [p1, b1, hsk, List.length_append, hLk, Nat.add_assoc]
      · intro x hx hxq
        rw [p2 x (by rw [b1]; exact ptr_lt_add _ hx) (hnotl x hx), b4 x hx hxq]
      · rw [hqd1, b2]
      · intro n hn
        rw [hsk, inos_append, List.mem_append, not_or] at hn
        rw [p6 n (by rw [hLk]; exact hn.2), b6 n (by
          simp only [List.map_map]
          exact hn.1)]

/-! ### Importing a subtree into a cache that holds its inodes -/

theorem MDCache.import_keeps_refl (c : MDCache) : c.import_keeps c :=
  ⟨rfl, MDCache.same_config_refl c, fun _ => ⟨fun h => h, fun h => h, fun h => h⟩⟩

theorem MDCache.import_keeps_trans {c c1 c2 : MDCache} (h1 : c.import_keeps c1)
    (h2 : c1.import_keeps c2) : c.import_keeps c2 :=
  ⟨h2.1.trans h1.1, MDCache.same_config_trans h1.2.1 h2.2.1, fun x =>
    ⟨fun h => (h2.2.2 x).1 ((h1.2.2 x).1 h), fun h => (h2.2.2 x).2.1 ((h1.2.2 x).2.1 h),
      fun h => (h2.2.2 x).2.2 ((h1.2.2 x).2.2 h)⟩⟩

theorem MDCache.import_keeps_get {c c1 : MDCache} (h : c.import_keeps c1) (n : inodeno_t) :
    c1.get_inode n = c.get_inode n := by
  unfold MDCache.get_inode
  rw [h.1]

/-- The import of an entry whose inode the cache holds: the inode object takes the state of
the entry. -/
theorem import_dentry_inode_known (c : MDCache) (idir : CInodePtr) (d : CDir) (e : EntryRec)
    (rest : List BlobCell) (from_ : Int) (root y : CInodePtr)
    (hd : (c.inodes idir).dir = some d) (ha : d.state.auth = true)
    (hh : d.state.hashed = false) (hg : d.state.hashing = false)
    (hu : d.state.unhashing = false)
    (hget : c.get_inode e.istate.inode.ino = some y)
    (hdy : ∀ d1, (c.inodes y).dir = some d1 → d1.state.hashed = false)
    (heh : e.istate.inode.hashed = false)
    (hn : e.istate.ncached_by.toNat = e.cached_by.length) :
    ∃ c1, import_dentry_inode c idir (e.cells ++ rest) from_ root = some (y, rest, c1) ∧
      (c1.inodes y).holds e c.whoami from_ ∧ (c1.inodes y).dir = (c.inodes y).dir ∧
      (c1.inodes y).dir_hashed = false ∧
      (∀ x, x ≠ y → c1.inodes x = c.inodes x) ∧ c.import_keeps c1 := by
  have hp : e.cells ++ rest =
      .str e.name :: .inode_state e.istate :: (e.cached_by.map BlobCell.int ++ rest) := by
    simp [EntryRec.cells]
  have hfind : import_dentry_inode_find c idir e.name e.istate = some (y, true, c) := by
    unfold import_dentry_inode_find
    rw [hget]
  rw [hp, import_dentry_inode_plain c idir d e.name e.istate _ from_ root hd hh]
  simp only [ha, hg, hu, Bool.not_true, Bool.not_false, Bool.and_true, Bool.and_false,
    Bool.or_false, Bool.false_eq_true, if_false, hfind]
  obtain ⟨c2, hc2⟩ : ∃ c2, c2 = c.set_inode y
      { (c.inodes y).set_inode_t e.istate.inode with auth := true } := ⟨_, rfl⟩
  rw [← hc2]
  have hy2 : c2.inodes y = { (c.inodes y).set_inode_t e.istate.inode with auth := true } := by
    rw [hc2, MDCache.set_inode_inodes_self]
  rw [import_dentry_inode_assim_eq c2 y e.istate e.cached_by rest from_ hn
    (by
      intro d1 hd1
      rw [hy2] at hd1 ⊢
      exact (hdy d1 hd1).trans heh.symm)]
  have hpy : (assim_post c2 y e.istate e.cached_by from_).inodes y =
      (c2.inodes y).imported e.istate e.cached_by c2.whoami from_ := by
    unfold assim_post
    split_ifs <;> simp [MDCache.set_inode]
  have hpx : ∀ x, x ≠ y → (assim_post c2 y e.istate e.cached_by from_).inodes x =
      c.inodes x := by
    intro x hx
    unfold assim_post
    split_ifs <;> simp [MDCache.set_inode, hx, hc2]
  have hw : c2.whoami = c.whoami := by rw [hc2]; rfl
  have hdir : ((assim_post c2 y e.istate e.cached_by from_).inodes y).dir = (c.inodes y).dir := by
    rw [hpy, (CInode.imported_dir _ _ _ _ _).1, hy2]
    rfl
  have hholds : ((assim_post c2 y e.istate e.cached_by from_).inodes y).holds e c.whoami
      from_ := by
    rw [hpy, hw]
    apply CInode.imported_holds
    · rw [hy2]; rfl
    · rw [hy2]
  have hhash : ((assim_post c2 y e.istate e.cached_by from_).inodes y).dir_hashed = false :=
    (CInode.inode_fields _ _ hholds.1).2.2.trans heh
  refine ⟨_, rfl, hholds, hdir, hhash, hpx, ?_, ?_, ?_⟩
  · unfold assim_post
    split_ifs <;> rw [hc2] <;> rfl
  · unfold assim_post
    split_ifs <;> rw [hc2] <;> exact ⟨rfl, rfl, rfl, rfl⟩
  · intro x
    by_cases hx : x = y
    · rw [hx, hdir]
      exact ⟨fun h => h, fun _ => hhash, fun h => h⟩
    · rw [hpx x hx]
      exact ⟨fun h => h, fun h => h, fun h => h⟩

theorem EntryRec.known_of_keeps {c c1 : MDCache} (h : c.import_keeps c1) (e : EntryRec)
    (he : e.known c) : e.known c1 := by
  obtain ⟨h1, h2, h3, y, h4, h5⟩ := he
  refine ⟨h1, h2, h3, y, ?_, (h.2.2 y).2.2 h5⟩
  rw [MDCache.import_keeps_get h]
  exact h4

theorem import_dir_block_items_known (ci : CInodePtr) (from_ : Int) (root idir : CInodePtr) :
    ∀ (es : List EntryRec) (c : MDCache) (d : CDir) (rest : List BlobCell),
      (c.inodes idir).dir = some d → d.state.auth = true → d.state.hashed = false →
      d.state.hashing = false → d.state.unhashing = false →
      (∀ e ∈ es, e.known c) →
      ∃ c1, import_dir_block_items ci from_ root idir es.length
          (es.flatMap EntryRec.cells ++ rest) c = some (rest, c1) ∧
        c.import_keeps c1 ∧ (∀ x, (c1.inodes x).dir = (c.inodes x).dir) ∧
        (∀ x, (∃ e ∈ es, c.get_inode e.istate.inode.ino = some x) →
          ∃ e ∈ es, c.get_inode e.istate.inode.ino = some x ∧
            (c1.inodes x).holds e c.whoami from_) ∧
        (∀ x, (∀ e ∈ es, c.get_inode e.istate.inode.ino ≠ some x) →
          c1.inodes x = c.inodes x) := by
  intro es
  induction es with
  | nil =>
    intro c d rest _ _ _ _ _ _
    refine ⟨c, rfl, MDCache.import_keeps_refl c, fun _ => rfl, ?_, fun _ _ => rfl⟩
    rintro x ⟨e, he, _⟩
    simp at he
  | cons e es ih =>
    intro c d rest hd ha hh hg hu hk
    obtain ⟨k1, k2, k3, y, k4, k5⟩ := hk e (List.mem_cons_self _ _)
    obtain ⟨c', e1, n1, n2, n3, n4, n5⟩ := import_dentry_inode_known c idir d e
      (es.flatMap EntryRec.cells ++ rest) from_ root y hd ha hh hg hu k4 k5 k3 k1
    have hnest : import_dir_block_nested c' ci y = some c' :=
      import_dir_block_nested_parent c' ci y (n1.2.2.1.trans k2)
    have hdirs : ∀ x, (c'.inodes x).dir = (c.inodes x).dir := by
      intro x
      by_cases hx : x = y
      · rw [hx, n2]
      · rw [n4 x hx]
    obtain ⟨c1, e2, m1, m2, m3, m4⟩ := ih c' d rest (by rw [hdirs, hd]) ha hh hg hu
      (fun e' he' => EntryRec.known_of_keeps n5 e' (hk e' (List.mem_cons_of_mem _ he')))
    have hgets : ∀ n, c'.get_inode n = c.get_inode n := MDCache.import_keeps_get n5
    refine ⟨c1, ?_, MDCache.import_keeps_trans n5 m1, ?_, ?_, ?_⟩
    · rw [List.length_cons, List.flatMap_cons, List.append_assoc, import_dir_block_items, e1]
      simp only [hnest]
      exact e2
    · intro x
      rw [m2, hdirs]
    · intro x hx
      by_cases ht : ∃ e' ∈ es, c.get_inode e'.istate.inode.ino = some x
      · obtain ⟨e', he', g1, g2⟩ := m3 x (by
          obtain ⟨e', he', g⟩ := ht
          exact ⟨e', he', by rw [hgets]; exact g⟩)
        rw [hgets] at g1
        rw [n5.2.1.1] at g2
        exact ⟨e', List.mem_cons_of_mem _ he', g1, g2⟩
      · obtain ⟨e', he', g⟩ := hx
        rw [List.mem_cons] at he'
        rcases he' with rfl | he'
        · have hxy : x = y := by
            rw [k4] at g
            cases g
            rfl
          refine ⟨e', List.mem_cons_self _ _, g, ?_⟩
          rw [m4 x (by
            intro e'' he'' g''
            rw [hgets] at g''
            exact ht ⟨e'', he'', g''⟩), hxy]
          exact n1
        · exact absurd ⟨e', he', g⟩ ht
    · intro x hx
      have hxy : x ≠ y := by
        intro h
        rw [h] at hx
        exact hx e (List.mem_cons_self _ _) k4
      rw [m4 x (by
        intro e' he' g
        rw [hgets] at g
        exact hx e' (List.mem_cons_of_mem _ he') g), n4 x hxy]

theorem BlockRec.block_known_of_keeps {c c1 : MDCache} (h : c.import_keeps c1) (b : BlockRec)
    (hb : b.known c) : b.known c1 := by
  obtain ⟨h1, h2, h3, h4, h5, ⟨x, h6, h7, h8⟩, h9⟩ := hb
  refine ⟨h1, h2, h3, h4, h5, ⟨x, ?_, (h.2.2 x).1 h7, (h.2.2 x).2.1 h8⟩,
    fun e he => EntryRec.known_of_keeps h e (h9 e he)⟩
  rw [MDCache.import_keeps_get h]
  exact h6

theorem foldl_add_waiter_fields (tag : WaitTag) (ws : List Context) :
    ∀ rd : CDir, (ws.foldl (fun acc w => acc.add_waiter tag w) rd).state = rd.state ∧
      (ws.foldl (fun acc w => acc.add_waiter tag w) rd).dir_rep = rd.dir_rep := by
  induction ws with
  | nil => intro rd; exact ⟨rfl, rfl⟩
  | cons w ws ih =>
    intro rd
    rw [List.foldl_cons]
    exact ⟨(ih _).1.trans rfl, (ih _).2.trans rfl⟩

theorem open_dir_some (c : MDCache) (x : CInodePtr) (d : CDir)
    (h : (c.inodes x).dir = some d) : open_dir c x = (d, c) := by
  unfold open_dir
  rw [h]

/-- The import of a block whose directory and inodes the cache holds. -/
theorem import_dir_block_known (ci : CInodePtr) (from_ : Int) (root : CInodePtr)
    (c : MDCache) (b : BlockRec) (rest : List BlobCell) (hb : b.known c)
    (hroot : (c.inodes root).dir.isSome = true)
    (hmask : c.mask_state_exported.auth = false) :
    ∃ c1, import_dir_block c (b.cells ++ rest) ci from_ root = some (rest, c1) ∧
      c.import_keeps c1 ∧
      (∀ x, (∃ e ∈ b.entries, c.get_inode e.istate.inode.ino = some x) →
        ∃ e ∈ b.entries, c.get_inode e.istate.inode.ino = some x ∧
          (c1.inodes x).holds e c.whoami from_) ∧
      (∀ x, (∀ e ∈ b.entries, c.get_inode e.istate.inode.ino ≠ some x) →
        c1.inodes x = { c.inodes x with dir := (c1.inodes x).dir }) ∧
      (∀ x, c.get_inode b.dstate.ino = some x →
        ∃ d, (c1.inodes x).dir = some d ∧ d.dir_rep = b.dstate.dir_rep) ∧
      (∀ x, c.get_inode b.dstate.ino ≠ some x →
        (c1.inodes x).dir.map CDir.dir_rep = (c.inodes x).dir.map CDir.dir_rep) := by
  obtain ⟨h1, h2, h3, h4, h5, ⟨x0, h6, h7, h8⟩, h9⟩ := hb
  obtain ⟨d0, hd0⟩ := Option.isSome_iff_exists.mp h7
  have hset := import_dir_block_setup_eq c x0 d0 b h8 hmask
  obtain ⟨dS, hdS⟩ : ∃ dS, dS = d0.set_up c.mask_state_exported b := ⟨_, rfl⟩
  obtain ⟨ws, hws⟩ : ∃ ws, ws = d0.waiting.map (fun w => w.2.2) := ⟨_, rfl⟩
  rw [← hdS, ← hws] at hset
  obtain ⟨c1', hc1'⟩ : ∃ c1', c1' = c.set_inode x0 { c.inodes x0 with dir := some dS } :=
    ⟨_, rfl⟩
  obtain ⟨rd, hrd⟩ : ∃ rd, (c1'.inodes root).dir = some rd := by
    by_cases hr : root = x0
    · rw [hr, hc1', MDCache.set_inode_inodes_self]
      exact ⟨_, rfl⟩
    · rw [hc1', MDCache.set_inode_inodes, if_neg hr]
      exact Option.isSome_iff_exists.mp hroot
  obtain ⟨c2, hc2⟩ : ∃ c2, c2 = c1'.set_inode root { c1'.inodes root with
      dir := some (ws.foldl (fun acc w => acc.add_waiter .CDIR_WAIT_IMPORTED w) rd) } :=
    ⟨_, rfl⟩
  have hfw := foldl_add_waiter_fields .CDIR_WAIT_IMPORTED ws rd
  have hdSs : dS.state.auth = true ∧ dS.state.hashed = false ∧ dS.state.hashing = false ∧
      dS.state.unhashing = false ∧ dS.dir_rep = b.dstate.dir_rep := by
    rw [hdS]
    simp [CDir.set_up, CDirState.and, h1, h2, h3]
  -- the directory of the block in `c2`
  obtain ⟨dX, hdX, hdXs, hdXr⟩ : ∃ dX, (c2.inodes x0).dir = some dX ∧ dX.state = dS.state ∧
      dX.dir_rep = b.dstate.dir_rep := by
    by_cases hr : x0 = root
    · have hrd2 : rd = dS := by
        rw [← hr, hc1', MDCache.set_inode_inodes_self] at hrd
        simp only [Option.some.injEq] at hrd
        exact hrd.symm
      refine ⟨_, by rw [hc2, hr, MDCache.set_inode_inodes_self], ?_, ?_⟩
      · rw [hfw.1, hrd2]
      · rw [hfw.2, hrd2]
        exact hdSs.2.2.2.2
    · refine ⟨dS, ?_, rfl, hdSs.2.2.2.2⟩
      rw [hc2, MDCache.set_inode_inodes, if_neg hr, hc1', MDCache.set_inode_inodes_self]
  have hsame2 : ∀ x, c2.inodes x = { c.inodes x with dir := (c2.inodes x).dir } := by
    intro x
    by_cases hxr : x = root
    · rw [hxr, hc2, MDCache.set_inode_inodes_self]
      by_cases hr : root = x0
      · rw [hr, hc1', MDCache.set_inode_inodes_self]
      · rw [hc1', MDCache.set_inode_inodes, if_neg hr]
    · by_cases hx0 : x = x0
      · rw [hc2, MDCache.set_inode_inodes, if_neg hxr, hx0, hc1',
          MDCache.set_inode_inodes_self]
      · rw [hc2, MDCache.set_inode_inodes, if_neg hxr, hc1', MDCache.set_inode_inodes,
          if_neg hx0]
  have hdir2 : ∀ x, x ≠ x0 →
      (c2.inodes x).dir.map CDir.dir_rep = (c.inodes x).dir.map CDir.dir_rep ∧
      ((c.inodes x).dir.isSome = true → (c2.inodes x).dir.isSome = true) ∧
      ((∀ d, (c.inodes x).dir = some d → d.state.hashed = false) →
        ∀ d1, (c2.inodes x).dir = some d1 → d1.state.hashed = false) := by
    intro x hx0
    by_cases hxr : x = root
    · have hrd' : (c.inodes root).dir = some rd := by
        rw [hc1', MDCache.set_inode_inodes, if_neg (hxr ▸ hx0)] at hrd
        exact hrd
      rw [hxr, hc2, MDCache.set_inode_inodes_self, hrd']
      refine ⟨?_, fun _ => rfl, ?_⟩
      · simp only [Option.map_some', hfw.2]
      · intro hh d1 hd1
        simp only [Option.some.injEq] at hd1
        rw [← hd1, hfw.1]
        exact hh rd rfl
    · rw [hc2, MDCache.set_inode_inodes, if_neg hxr, hc1', MDCache.set_inode_inodes,
        if_neg hx0]
      exact ⟨rfl, fun h => h, fun h => h⟩
  have hk2 : c.import_keeps c2 := by
    refine ⟨by rw [hc2, hc1']; rfl, by rw [hc2, hc1']; exact ⟨rfl, rfl, rfl, rfl⟩, ?_⟩
    intro x
    refine ⟨?_, ?_, ?_⟩
    · intro h
      by_cases hx0 : x = x0
      · rw [hx0, hdX]; rfl
      · exact (hdir2 x hx0).2.1 h
    · intro h
      rw [hsame2 x]
      exact h
    · intro h d1 hd1
      by_cases hx0 : x = x0
      · rw [hx0, hdX] at hd1
        simp only [Option.some.injEq] at hd1
        rw [← hd1, hdXs]
        exact hdSs.2.1
      · exact (hdir2 x hx0).2.2 h d1 hd1
  obtain ⟨c1, e2, m1, m2, m3, m4⟩ := import_dir_block_items_known ci from_ root x0 b.entries
    c2 dX rest hdX (by rw [hdXs]; exact hdSs.1) (by rw [hdXs]; exact hdSs.2.1)
    (by rw [hdXs]; exact hdSs.2.2.1) (by rw [hdXs]; exact hdSs.2.2.2.1)
    (fun e he => EntryRec.known_of_keeps hk2 e (h9 e he))
  have hgets : ∀ n, c2.get_inode n = c.get_inode n := MDCache.import_keeps_get hk2
  refine ⟨c1, ?_, MDCache.import_keeps_trans hk2 m1, ?_, ?_, ?_, ?_⟩
  · rw [BlockRec.cells_append]
    unfold import_dir_block
    simp only [h6, open_dir_some c x0 d0 hd0, h4, read_ints_map, hset, ← hc1', hrd, ← hc2, h5]
    exact e2
  · intro x hx
    obtain ⟨e, he, g1, g2⟩ := m3 x (by
      obtain ⟨e, he, g⟩ := hx
      exact ⟨e, he, by rw [hgets]; exact g⟩)
    rw [hgets] at g1
    rw [hk2.2.1.1] at g2
    exact ⟨e, he, g1, g2⟩
  · intro x hx
    rw [m4 x (by
      intro e he g
      rw [hgets] at g
      exact hx e he g)]
    exact hsame2 x
  · intro x hx
    have hxx : x = x0 := by
      rw [h6] at hx
      cases hx
      rfl
    rw [hxx, m2, hdX]
    exact ⟨dX, rfl, hdXr⟩
  · intro x hx
    have hxx : x ≠ x0 := by
      intro h
      rw [h] at hx
      exact hx h6
    rw [m2]
    exact (hdir2 x hxx).1

/-- The import of blocks whose directories and inodes the cache holds: every inode that an
entry names holds the state of such an entry, every directory that a block names has the
replication policy of such a block, and the other inodes and directories keep theirs. -/
theorem handle_export_dir_blocks_known (ci : CInodePtr) (from_ : Int) (root : CInodePtr) :
    ∀ (B : List BlockRec) (c : MDCache) (rest : List BlobCell),
      (∀ b ∈ B, b.known c) → (c.inodes root).dir.isSome = true →
      c.mask_state_exported.auth = false →
      ∃ c1, handle_export_dir_blocks ci from_ root B.length
          (B.flatMap BlockRec.cells ++ rest) c = some (rest, c1) ∧
        c.import_keeps c1 ∧
        (∀ x, (∃ b ∈ B, ∃ e ∈ b.entries, c.get_inode e.istate.inode.ino = some x) →
          ∃ b ∈ B, ∃ e ∈ b.entries, c.get_inode e.istate.inode.ino = some x ∧
            (c1.inodes x).holds e c.whoami from_) ∧
        (∀ x, (∀ b ∈ B, ∀ e ∈ b.entries, c.get_inode e.istate.inode.ino ≠ some x) →
          c1.inodes x = { c.inodes x with dir := (c1.inodes x).dir }) ∧
        (∀ x, (∃ b ∈ B, c.get_inode b.dstate.ino = some x) →
          ∃ b ∈ B, c.get_inode b.dstate.ino = some x ∧
            ∃ d, (c1.inodes x).dir = some d ∧ d.dir_rep = b.dstate.dir_rep) ∧
        (∀ x, (∀ b ∈ B, c.get_inode b.dstate.ino ≠ some x) →
          (c1.inodes x).dir.map CDir.dir_rep = (c.inodes x).dir.map CDir.dir_rep) := by
  intro B
  induction B with
  | nil =>
    intro c rest _ _ _
    refine ⟨c, rfl, MDCache.import_keeps_refl c, ?_, fun _ _ => rfl, ?_, fun _ _ => rfl⟩
    · rintro x ⟨b, hb, _⟩
      simp at hb
    · rintro x ⟨b, hb, _⟩
      simp at hb
  | cons b B ih =>
    intro c rest hk hroot hmask
    obtain ⟨c', e1, n1, n2, n3, n4, n5⟩ := import_dir_block_known ci from_ root c b
      (B.flatMap BlockRec.cells ++ rest) (hk b (List.mem_cons_self _ _)) hroot hmask
    have hgets : ∀ n, c'.get_inode n = c.get_inode n := MDCache.import_keeps_get n1
    obtain ⟨c1, e2, m1, m2, m3, m4, m5⟩ := ih c' rest
      (fun b' hb' => BlockRec.block_known_of_keeps n1 b' (hk b' (List.mem_cons_of_mem _ hb')))
      ((n1.2.2 root).1 hroot) (by rw [n1.2.1.2.1]; exact hmask)
    refine ⟨c1, ?_, MDCache.import_keeps_trans n1 m1, ?_, ?_, ?_, ?_⟩
    · rw [List.length_cons, List.flatMap_cons, List.append_assoc, handle_export_dir_blocks, e1]
      exact e2
    · intro x hx
      by_cases ht : ∃ b' ∈ B, ∃ e ∈ b'.entries, c.get_inode e.istate.inode.ino = some x
      · obtain ⟨b', hb', e, he, g1, g2⟩ := m2 x (by
          obtain ⟨b', hb', e, he, g⟩ := ht
          exact ⟨b', hb', e, he, by rw [hgets]; exact g⟩)
        rw [hgets] at g1
        rw [n1.2.1.1] at g2
        exact ⟨b', List.mem_cons_of_mem _ hb', e, he, g1, g2⟩
      · obtain ⟨b', hb', e, he, g⟩ := hx
        rw [List.mem_cons] at hb'
        rcases hb' with rfl | hb'
        · obtain ⟨e', he', g1, g2⟩ := n2 x ⟨e, he, g⟩
          refine ⟨b', List.mem_cons_self _ _, e', he', g1, ?_⟩
          exact CInode.holds_of_same_but_dir _ _ _ _ _ (m3 x (by
            intro b'' hb'' e'' he'' g''
            rw [hgets] at g''
            exact ht ⟨b'', hb'', e'', he'', g''⟩)) g2
        · exact absurd ⟨b', hb', e, he, g⟩ ht
    · intro x hx
      have h1 := m3 x (by
        intro b' hb' e he g
        rw [hgets] at g
        exact hx b' (List.mem_cons_of_mem _ hb') e he g)
      have h2 := n3 x (fun e he g => hx b (List.mem_cons_self _ _) e he g)
      rw [h1, h2]
    · intro x hx
      by_cases ht : ∃ b' ∈ B, c.get_inode b'.dstate.ino = some x
      · obtain ⟨b', hb', g1, g2⟩ := m4 x (by
          obtain ⟨b', hb', g⟩ := ht
          exact ⟨b', hb', by rw [hgets]; exact g⟩)
        rw [hgets] at g1
        exact ⟨b', List.mem_cons_of_mem _ hb', g1, g2⟩
      · obtain ⟨b', hb', g⟩ := hx
        rw [List.mem_cons] at hb'
        rcases hb' with rfl | hb'
        · obtain ⟨d, hd, hdr⟩ := n4 x g
          have h5 := m5 x (by
            intro b'' hb'' g''
            rw [hgets] at g''
            exact ht ⟨b'', hb'', g''⟩)
          rw [hd] at h5
          cases hd1 : (c1.inodes x).dir with
          | none => rw [hd1] at h5; simp at h5
          | some d1 =>
            rw [hd1] at h5
            simp only [Option.map_some', Option.some.injEq] at h5
            exact ⟨b', List.mem_cons_self _ _, g, d1, rfl, h5.trans hdr⟩
        · exact absurd ⟨b', hb', g⟩ ht
    · intro x hx
      rw [m5 x (by
        intro b' hb' g
        rw [hgets] at g
        exact hx b' (List.mem_cons_of_mem _ hb') g),
        n5 x (hx b (List.mem_cons_self _ _))]

/-! ### The subtree of a walk, by members -/

theorem sub_kids_succ (k : Nat) (c : MDCache) (p : CInodePtr) (d : CDir)
    (hd : (c.inodes p).dir = some d) :
    sub_kids (k + 1) c p = d.kids ++ (d.dir_kids c).flatMap (fun e => sub_kids k c e.2) := by
  simp only [sub_kids, hd]

theorem sub_blocks_succ (k : Nat) (c : MDCache) (p : CInodePtr) (d : CDir)
    (hd : (c.inodes p).dir = some d) :
    sub_blocks (k + 1) c p =
      block_of c p d :: (d.dir_kids c).flatMap (fun e => sub_blocks k c e.2) := by
  simp only [sub_blocks, hd]

theorem walkable_dir_kid (k : Nat) (c : MDCache) (p : CInodePtr) (d : CDir)
    (h : walkable (k + 1) c p = true) (hd : (c.inodes p).dir = some d)
    (s : String × CInodePtr) (hs : s ∈ d.dir_kids c) : walkable k c s.2 = true := by
  unfold CDir.dir_kids at hs
  rw [List.mem_filter] at hs
  exact ((walkable_kids k c p d h hd).2 s hs.1).2.2.2.1 hs.2

/-- Every inode below a walkable directory is authoritative, inherits `dir_auth`, is not a
hashed directory, and its `CDir`, if open, is not hashed. -/
theorem sub_kids_facts : ∀ (k : Nat) (c : MDCache) (p : CInodePtr),
    walkable k c p = true → ∀ e ∈ sub_kids k c p,
      (c.inodes e.2).auth = true ∧ (c.inodes e.2).dir_auth = CDIR_AUTH_PARENT ∧
      (c.inodes e.2).dir_hashed = false ∧
      ∀ d, (c.inodes e.2).dir = some d → d.state.hashed = false := by
  intro k
  induction k with
  | zero => intro c p h; simp [walkable] at h
  | succ k ih =>
    intro c p h e he
    cases hd : (c.inodes p).dir with
    | none => simp [sub_kids, hd] at he
    | some d =>
      rw [sub_kids_succ k c p d hd, List.mem_append] at he
      rcases he with he | he
      · obtain ⟨b1, b2, b3, b4, b5⟩ := (walkable_kids k c p d h hd).2 e he
        refine ⟨b1, b2, b3, fun d1 hd1 => ?_⟩
        cases hi : (c.inodes e.2).is_dir with
        | true => exact walkable_dir_not_hashed k c e.2 (b4 hi) d1 hd1
        | false => rw [b5 hi] at hd1; cases hd1
      · obtain ⟨s, hs, hes⟩ := List.mem_flatMap.mp he
        exact ih c s.2 (walkable_dir_kid k c p d h hd s hs) e hes

/-- Every block of the walk of a walkable directory is the block of an open directory of the
subtree, which is not hashed, and its entries are inodes below the directory. -/
theorem sub_blocks_members : ∀ (k : Nat) (c : MDCache) (p : CInodePtr),
    walkable k c p = true → ∀ b ∈ sub_blocks k c p,
      ∃ x d, (x = p ∨ x ∈ sub_ptrs k c p) ∧ (c.inodes x).dir = some d ∧ b = block_of c x d ∧
        d.state.hashed = false ∧ d.state.hashing = false ∧ d.state.unhashing = false ∧
        d.kids.length = d.items.length ∧ ∀ e ∈ d.kids, e ∈ sub_kids k c p := by
  intro k
  induction k with
  | zero => intro c p h; simp [walkable] at h
  | succ k ih =>
    intro c p h b hb
    cases hd : (c.inodes p).dir with
    | none => simp [sub_blocks, hd] at hb
    | some d =>
      rw [sub_blocks_succ k c p d hd, List.mem_cons] at hb
      rcases hb with hb | hb
      · obtain ⟨_, a2, a3, a4, _, _⟩ := (walkable_succ k c p h).2 d hd
        have hlen : d.kids.length = d.items.length := by
          have := congrArg List.length (walkable_kids k c p d h hd).1
          rw [List.length_map, List.length_map] at this
          exact this
        exact ⟨p, d, Or.inl rfl, hd, hb, a2, a3, a4, hlen,
          fun e he => mem_sub_kids_kid k c p d hd e he⟩
      · obtain ⟨s, hs, hbs⟩ := List.mem_flatMap.mp hb
        obtain ⟨x, d1, h1, h2, h3, h4, h5, h6, h7, h8⟩ :=
          ih c s.2 (walkable_dir_kid k c p d h hd s hs) b hbs
        refine ⟨x, d1, Or.inr ?_, h2, h3, h4, h5, h6, h7,
          fun e he => mem_sub_kids_sub k c p d hd s hs e (h8 e he)⟩
        rw [sub_ptrs_succ k c p d hd, List.mem_append]
        rcases h1 with h1 | h1
        · left
          rw [h1]
          exact List.mem_map.mpr ⟨s, (List.mem_filter.mp hs).1, rfl⟩
        · right
          exact List.mem_flatMap.mpr ⟨s, hs, h1⟩

/-- Every inode below a walkable directory has its entry in a block of the walk. -/
theorem sub_kids_covered : ∀ (k : Nat) (c : MDCache) (p : CInodePtr),
    walkable k c p = true → ∀ e ∈ sub_kids k c p,
      ∃ b ∈ sub_blocks k c p, entry_of c e ∈ b.entries := by
  intro k
  induction k with
  | zero => intro c p h; simp [walkable] at h
  | succ k ih =>
    intro c p h e he
    cases hd : (c.inodes p).dir with
    | none => simp [sub_kids, hd] at he
    | some d =>
      rw [sub_kids_succ k c p d hd, List.mem_append] at he
      rw [sub_blocks_succ k c p d hd]
      rcases he with he | he
      · exact ⟨block_of c p d, List.mem_cons_self _ _, List.mem_map_of_mem _ he⟩
      · obtain ⟨s, hs, hes⟩ := List.mem_flatMap.mp he
        obtain ⟨b, hb, hbe⟩ := ih c s.2 (walkable_dir_kid k c p d h hd s hs) e hes
        exact ⟨b, List.mem_cons_of_mem _ (List.mem_flatMap.mpr ⟨s, hs, hb⟩), hbe⟩

/-- Every open directory of the subtree of a walkable directory has its block in the walk. -/
theorem sub_dirs_covered : ∀ (k : Nat) (c : MDCache) (p : CInodePtr),
    walkable k c p = true → ∀ x, (x = p ∨ x ∈ sub_ptrs k c p) →
      ∀ d, (c.inodes x).dir = some d → block_of c x d ∈ sub_blocks k c p := by
  intro k
  induction k with
  | zero => intro c p h; simp [walkable] at h
  | succ k ih =>
    intro c p h x hx d hdx
    cases hd : (c.inodes p).dir with
    | none =>
      rcases hx with hx | hx
      · rw [hx, hd] at hdx
        cases hdx
      · simp [sub_ptrs, sub_kids, hd] at hx
    | some dp =>
      rw [sub_blocks_succ k c p dp hd, List.mem_cons]
      rcases hx with hx | hx
      · left
        rw [hx, hd] at hdx
        cases hdx
        rw [hx]
      · right
        rw [sub_ptrs_succ k c p dp hd, List.mem_append] at hx
        rcases hx with hx | hx
        · obtain ⟨e, he, hex⟩ := List.mem_map.mp hx
          obtain ⟨_, _, _, b4, b5⟩ := (walkable_kids k c p dp h hd).2 e he
          have hi : (c.inodes e.2).is_dir = true := by
            cases hi : (c.inodes e.2).is_dir with
            | true => rfl
            | false =>
              rw [hex] at b5 hi
              rw [b5 hi] at hdx
              cases hdx
          have hs : e ∈ dp.dir_kids c := List.mem_filter.mpr ⟨he, hi⟩
          exact List.mem_flatMap.mpr ⟨e, hs, hex ▸ ih c e.2 (b4 hi) e.2 (Or.inl rfl) d
            (hex ▸ hdx)⟩
        · obtain ⟨s, hs, hxs⟩ := List.mem_flatMap.mp hx
          exact List.mem_flatMap.mpr ⟨s, hs,
            ih c s.2 (walkable_dir_kid k c p dp h hd s hs) x (Or.inr hxs) d hdx⟩

theorem mem_cb_import (me from_ : Int) (l : List Int) (z : Int) :
    z ∈ cb_import me from_ l ↔ z = from_ ∨ (z ∈ l ∧ z ≠ me) := by
  unfold cb_import
  rw [IntSet.mem_insert]
  have h : ∀ (l1 : List Int) (s : IntSet), z ∈ l1.foldl IntSet.insert s ↔ z ∈ l1 ∨ z ∈ s := by
    intro l1
    induction l1 with
    | nil => intro s; simp
    | cons a l1 ih =>
      intro s
      rw [List.foldl_cons, ih, IntSet.mem_insert, List.mem_cons]
      tauto
  rw [h]
  simp only [List.mem_filter, decide_eq_true_eq, List.not_mem_nil, or_false]

/-! ### The round trip of an export -/

theorem cb_import_round (s d : Int) (l : List Int) (z : Int) (hs : z ≠ s) (hd : z ≠ d) :
    z ∈ cb_import s d (cb_import d s l) ↔ z ∈ l := by
  rw [mem_cb_import, mem_cb_import]
  constructor
  · rintro (h | ⟨h | ⟨h, _⟩, _⟩)
    · exact absurd h hd
    · exact absurd h hs
    · exact h
  · intro h
    exact Or.inr ⟨Or.inr ⟨h, hd⟩, hs⟩

/-- What the exporter needs to take back the blocks that the importer emits: each is known to
the cache that the walk of the exporter left. -/
theorem imported_blocks_known (k : Nat) (S S1 : MDCache) (R : CInodePtr) (mask : CDirState)
    (me from_ : Int) (hwalk : walkable k S R = true)
    (hreg : ∀ x ∈ R :: sub_ptrs k S R, S.get_inode (S.inodes x).ino = some x)
    (hRh : (S.inodes R).dir_hashed = false)
    (hmap : S1.inode_map = S.inode_map)
    (hrel : ∀ x, (S.inodes x).walk_rel (S1.inodes x)) :
    ∀ b ∈ (sub_blocks k S R).map (BlockRec.imported mask me from_), b.known S1 := by
  intro b hb
  obtain ⟨b0, hb0, rfl⟩ := List.mem_map.mp hb
  obtain ⟨x, d, hx, hd, rfl, h4, h5, h6, h7, h8⟩ := sub_blocks_members k S R hwalk b0 hb0
  have hget : ∀ n, S1.get_inode n = S.get_inode n := by
    intro n
    unfold MDCache.get_inode
    rw [hmap]
  have hxm : x ∈ R :: sub_ptrs k S R := by
    rcases hx with hx | hx
    · rw [hx]; exact List.mem_cons_self _ _
    · exact List.mem_cons_of_mem _ hx
  have hxh : (S.inodes x).dir_hashed = false := by
    rcases hx with hx | hx
    · rw [hx]; exact hRh
    · obtain ⟨e, he, hex⟩ := List.mem_map.mp hx
      rw [← hex]
      exact (sub_kids_facts k S R hwalk e he).2.2.1
  refine ⟨?_, ?_, ?_, ?_, ?_, ⟨x, ?_, ?_, ?_⟩, ?_⟩
  · simp [BlockRec.imported, block_of, CDirState.and, h4]
  · simp [BlockRec.imported, block_of, CDirState.and, h5]
  · simp [BlockRec.imported, block_of, CDirState.and, h6]
  · simp [BlockRec.imported]
  · simp [BlockRec.imported, block_of, CDir.nitems, h7]
  · rw [hget]
    exact hreg x hxm
  · obtain ⟨d1, hd1, _⟩ := (hrel x).2.2.2.2 d hd
    rw [hd1]
    rfl
  · rw [(hrel x).2.2.1]
    exact hxh
  · intro e he
    simp only [BlockRec.imported, block_of, List.map_map, List.mem_map] at he
    obtain ⟨kid, hkid, rfl⟩ := he
    have hks := h8 kid hkid
    obtain ⟨f1, f2, f3, f4⟩ := sub_kids_facts k S R hwalk kid hks
    have hkm : kid.2 ∈ R :: sub_ptrs k S R :=
      List.mem_cons_of_mem _ (List.mem_map.mpr ⟨kid, hks, rfl⟩)
    refine ⟨by simp [EntryRec.imported], f2, f3, kid.2, ?_, ?_⟩
    · rw [hget]
      exact hreg kid.2 hkm
    · intro d1 hd1
      cases hkd : (S.inodes kid.2).dir with
      | none =>
        rw [(hrel kid.2).2.2.2.1 hkd] at hd1
        cases hd1
      | some dk =>
        obtain ⟨d2, hd2, hh⟩ := (hrel kid.2).2.2.2.2 dk hkd
        rw [hd2] at hd1
        cases hd1
        exact hh (f4 dk hkd)

/-- C24: the round trip of an export.  Let `R` be a directory of the cache `S` whose subtree is
walkable with the fuel `k` (not hashed, authoritative, without nested exports), whose inodes
are distinct objects registered under their numbers, and let the cache `D` hold a replica `Rd`
of `R` that is ready to take its directory, and none of the inodes below `R`.  Then
`export_dir_walk` on `S` returns blocks that `D` imports, `export_dir_walk` on `D` returns
blocks that `S` imports, and afterwards every inode below `R`, and `R` itself, has in `S` the
inode record, `dir_auth`, popularity and SOFTASYNC bit it had before, every directory among
them has the `dir_rep` it had, and `cached_by` has the members it had, the ids of `S` and `D`
apart. -/
theorem export_import_round_trip (k : Nat) (S D : MDCache) (R Rd ciD ciS : CInodePtr)
    (hSw : 0 ≤ S.whoami) (hDw : 0 ≤ D.whoami)
    (hwalk : walkable k S R = true)
    (hnd : (R :: sub_ptrs k S R).Nodup)
    (hreg : ∀ x ∈ R :: sub_ptrs k S R, S.get_inode (S.inodes x).ino = some x)
    (hRdir : (S.inodes R).dir.isSome = true) (hRh : (S.inodes R).dir_hashed = false)
    (hSmask : S.mask_state_exported.auth = false)
    (hfresh : ∀ x ∈ sub_ptrs k S R, D.get_inode (S.inodes x).ino = none)
    (hready : import_ready S D R Rd) (henv : import_env D) :
    ∃ blocks1 S1 D1 blocks2 D2 S2,
      export_dir_walk k S [] R R D.whoami = .returned (blocks1, S1) ∧
      handle_export_dir_blocks ciD S.whoami Rd blocks1.length blocks1.flatten D =
        some ([], D1) ∧
      export_dir_walk k D1 [] Rd Rd S.whoami = .returned (blocks2, D2) ∧
      handle_export_dir_blocks ciS D.whoami R blocks2.length blocks2.flatten S1 =
        some ([], S2) ∧
      ∀ x ∈ R :: sub_ptrs k S R,
        (S2.inodes x).inode = (S.inodes x).inode ∧
        (S2.inodes x).dir_auth = (S.inodes x).dir_auth ∧
        (S2.inodes x).popularity = (S.inodes x).popularity ∧
        (S2.inodes x).dist_state.softasync = (S.inodes x).dist_state.softasync ∧
        (S2.inodes x).dir.map CDir.dir_rep = (S.inodes x).dir.map CDir.dir_rep ∧
        ∀ z, z ≠ S.whoami → z ≠ D.whoami →
          (z ∈ (S2.inodes x).cached_by ↔ z ∈ (S.inodes x).cached_by) := by
  -- the walk of the exporter
  obtain ⟨S1, w1, w2, w3, w4, w5⟩ := export_dir_walk_spec R D.whoami k S [] R hSw hwalk hnd
  rw [List.nil_append] at w1
  have hnd' := hnd
  rw [List.nodup_cons] at hnd'
  have hkinj : ∀ e ∈ sub_kids k S R, ∀ e' ∈ sub_kids k S R, e.2 = e'.2 → e = e' :=
    fun e he e' he' h => List.inj_on_of_nodup_map hnd'.2 he he' h
  have hinos : (inos S (sub_kids k S R)).Nodup := by
    apply List.Nodup.map_on _ (List.Nodup.of_map _ hnd'.2)
    intro e he e' he' h
    apply hkinj e he e' he'
    have h1 := hreg e.2 (List.mem_cons_of_mem _ (List.mem_map.mpr ⟨e, he, rfl⟩))
    have h2 := hreg e'.2 (List.mem_cons_of_mem _ (List.mem_map.mpr ⟨e', he', rfl⟩))
    rw [h] at h1
    rw [h1] at h2
    exact Option.some.inj h2
  -- the import of the importer
  obtain ⟨D1, i1, _, _, _, i5, i6, i7, _, _, i10⟩ :=
    import_subtree_new S ciD S.whoami Rd k D R Rd [] hwalk
      (by
        intro n hn
        obtain ⟨e, he, rfl⟩ := List.mem_map.mp hn
        exact hfresh e.2 (List.mem_map.mpr ⟨e, he, rfl⟩))
      hinos hready henv (Or.inl rfl) hready.2.2.2.2.2.2
  rw [List.append_nil] at i1
  -- the walk of the importer
  obtain ⟨D2, v1, _, _, _, _⟩ := export_dir_walk_spec Rd S.whoami k D1 [] Rd
    (by rw [i10.1]; exact hDw) i5
    (by
      rw [i7, List.nodup_cons]
      refine ⟨?_, List.nodup_range' _ _⟩
      intro hm
      exact absurd hready.2.2.2.2.2.2 (Nat.not_lt_of_le (mem_range_bounds hm).1))
  rw [List.nil_append, i6] at v1
  -- the import of the exporter
  have hget1 : ∀ n, S1.get_inode n = S.get_inode n := by
    intro n
    unfold MDCache.get_inode
    rw [w2.2.1]
  obtain ⟨S2, j1, _, j3, j4, j5, j6⟩ := handle_export_dir_blocks_known ciS D.whoami R
    ((sub_blocks k S R).map (BlockRec.imported D.mask_state_exported D.whoami S.whoami)) S1 []
    (imported_blocks_known k S S1 R _ _ _ hwalk hreg hRh w2.2.1 w4)
    (by
      obtain ⟨d, hd⟩ := Option.isSome_iff_exists.mp hRdir
      obtain ⟨d1, hd1, _⟩ := (w4 R).2.2.2.2 d hd
      rw [hd1]
      rfl)
    (by rw [w2.2.2.1]; exact hSmask)
  rw [List.append_nil] at j1
  rw [w2.1] at j3
  refine ⟨_, S1, D1, _, D2, S2, w1, ?_, v1, ?_, ?_⟩
  · rw [List.length_map, ← List.flatMap_def]
    exact i1
  · rw [List.length_map, ← List.flatMap_def]
    exact j1
  -- what the exporter holds in the end
  have hentry : ∀ b ∈ (sub_blocks k S R).map
        (BlockRec.imported D.mask_state_exported D.whoami S.whoami),
      ∀ e ∈ b.entries, ∀ x, S1.get_inode e.istate.inode.ino = some x →
        x ∈ sub_ptrs k S R ∧ ∃ n, e = (entry_of S (n, x)).imported D.whoami S.whoami := by
    intro b hb e he x hx
    obtain ⟨b0, hb0, rfl⟩ := List.mem_map.mp hb
    obtain ⟨x', d', _, _, rfl, _, _, _, _, h8⟩ := sub_blocks_members k S R hwalk b0 hb0
    simp only [BlockRec.imported, block_of, List.map_map, List.mem_map] at he
    obtain ⟨kid, hkid, rfl⟩ := he
    have hkm : kid.2 ∈ sub_ptrs k S R := List.mem_map.mpr ⟨kid, h8 kid hkid, rfl⟩
    have h1 := hreg kid.2 (List.mem_cons_of_mem _ hkm)
    rw [hget1] at hx
    have h2 : (S.inodes kid.2).ino = ((entry_of S kid).imported D.whoami
        S.whoami).istate.inode.ino := rfl
    simp only [Function.comp] at hx
    rw [← h2, h1] at hx
    cases hx
    exact ⟨hkm, kid.1, rfl⟩
  have hblock : ∀ b ∈ (sub_blocks k S R).map
        (BlockRec.imported D.mask_state_exported D.whoami S.whoami),
      ∀ x, S1.get_inode b.dstate.ino = some x →
        ∃ d, (S.inodes x).dir = some d ∧ b.dstate.dir_rep = d.dir_rep := by
    intro b hb x hx
    obtain ⟨b0, hb0, rfl⟩ := List.mem_map.mp hb
    obtain ⟨x', d', hx', hd', rfl, _⟩ := sub_blocks_members k S R hwalk b0 hb0
    have hxm : x' ∈ R :: sub_ptrs k S R := by
      rcases hx' with h | h
      · rw [h]; exact List.mem_cons_self _ _
      · exact List.mem_cons_of_mem _ h
    have h1 := hreg x' hxm
    rw [hget1] at hx
    have h2 : (S.inodes x').ino = ((block_of S x' d').imported D.mask_state_exported D.whoami
        S.whoami).dstate.ino := rfl
    rw [← h2, h1] at hx
    cases hx
    exact ⟨d', hd', rfl⟩
  have hdirrep : ∀ x ∈ R :: sub_ptrs k S R,
      (S2.inodes x).dir.map CDir.dir_rep = (S.inodes x).dir.map CDir.dir_rep := by
    intro x hx
    cases hd : (S.inodes x).dir with
    | some d =>
      have hb0 := sub_dirs_covered k S R hwalk x (by
        rw [List.mem_cons] at hx
        exact hx) d hd
      obtain ⟨b, hb, g1, d2, g2, g3⟩ := j5 x ⟨_, List.mem_map_of_mem _ hb0, by
        rw [hget1]
        exact hreg x hx⟩
      obtain ⟨d', hd', hr⟩ := hblock b hb x g1
      rw [hd] at hd'
      cases hd'
      rw [g2, Option.map_some', Option.map_some', g3, hr]
    | none =>
      rw [j6 x (by
        intro b hb g
        obtain ⟨d', hd', _⟩ := hblock b hb x g
        rw [hd] at hd'
        cases hd'), (w4 x).2.2.2.1 hd]
  intro x hx
  rw [List.mem_cons] at hx
  rcases hx with hx | hx
  · -- the directory itself
    have hnot : ∀ b ∈ (sub_blocks k S R).map
          (BlockRec.imported D.mask_state_exported D.whoami S.whoami),
        ∀ e ∈ b.entries, S1.get_inode e.istate.inode.ino ≠ some x := by
      intro b hb e he g
      have := (hentry b hb e he x g).1
      rw [hx] at this
      exact hnd'.1 this
    have h2 := j4 x hnot
    have h1 : S1.inodes x = { S.inodes x with
        dir := (S1.inodes x).dir
        waiting := (S1.inodes x).waiting } := by
      rw [hx]
      exact w5
    rw [h1] at h2
    refine ⟨?_, ?_, ?_, ?_, hdirrep x (by rw [hx]; exact List.mem_cons_self _ _), ?_⟩
    · rw [h2]; rfl
    · rw [h2]
    · rw [h2]
    · rw [h2]
    · intro z _ _
      rw [h2]
  · -- an inode below it
    obtain ⟨e0, he0, hex⟩ := List.mem_map.mp hx
    obtain ⟨b0, hb0, hbe⟩ := sub_kids_covered k S R hwalk e0 he0
    obtain ⟨b, hb, e, he, g1, g2⟩ := j3 x
      ⟨_, List.mem_map_of_mem _ hb0, (entry_of S e0).imported D.whoami S.whoami,
        List.mem_map_of_mem _ hbe, by
          rw [hget1]
          have := hreg x (List.mem_cons_of_mem _ hx)
          rw [← hex] at this ⊢
          exact this⟩
    obtain ⟨_, n, rfl⟩ := hentry b hb e he x g1
    obtain ⟨f1, _, f3, _, f5, f6, f7⟩ := g2
    refine ⟨f1, f3, f5, f7, hdirrep x (List.mem_cons_of_mem _ hx), ?_⟩
    intro z hz1 hz2
    rw [f6]
    exact cb_import_round S.whoami D.whoami _ z hz1 hz2

/-- C24, witness: the round trip of the directory `2` of `cache_trip_exporter`, two levels
deep, through `cache_trip_importer`. -/
theorem export_import_round_trip_witness :
    ∃ blocks1 S1 D1 blocks2 D2 S2,
      export_dir_walk 2 cache_trip_exporter [] 2 2 cache_trip_importer.whoami =
        .returned (blocks1, S1) ∧
      handle_export_dir_blocks 2 cache_trip_exporter.whoami 2 blocks1.length blocks1.flatten
        cache_trip_importer = some ([], D1) ∧
      export_dir_walk 2 D1 [] 2 2 cache_trip_exporter.whoami = .returned (blocks2, D2) ∧
      handle_export_dir_blocks 1 cache_trip_importer.whoami 2 blocks2.length blocks2.flatten
        S1 = some ([], S2) ∧
      ∀ x ∈ 2 :: sub_ptrs 2 cache_trip_exporter 2,
        (S2.inodes x).inode = (cache_trip_exporter.inodes x).inode ∧
        (S2.inodes x).dir_auth = (cache_trip_exporter.inodes x).dir_auth ∧
        (S2.inodes x).popularity = (cache_trip_exporter.inodes x).popularity ∧
        (S2.inodes x).dist_state.softasync =
          (cache_trip_exporter.inodes x).dist_state.softasync ∧
        (S2.inodes x).dir.map CDir.dir_rep =
          (cache_trip_exporter.inodes x).dir.map CDir.dir_rep ∧
        ∀ z, z ≠ cache_trip_exporter.whoami → z ≠ cache_trip_importer.whoami →
          (z ∈ (S2.inodes x).cached_by ↔ z ∈ (cache_trip_exporter.inodes x).cached_by) :=
  export_import_round_trip 2 cache_trip_exporter cache_trip_importer 2 2 2 1
    (by decide) (by decide) (by rfl) (by decide) (by decide) (by rfl) (by rfl) (by rfl)
    (by decide)
    ⟨by rfl, by rfl, by rfl, by rfl,
      (fun d h => by
        cases h
        exact ⟨rfl, rfl, rfl⟩),
      (fun h => by cases h), by decide⟩
    ⟨fun _ => ⟨rfl, rfl, rfl⟩, by rfl, by rfl⟩

/-! ## Discovery: the replicas installed, and a result handled twice -/

theorem discover_replica_of (whoami : Int) (t : MDiscoverRec_t) (dir : CDir) (i : CInode)
    (h : discover_replica whoami t dir = some i) : i.replica_of whoami t := by
  unfold discover_replica at h
  dsimp only at h
  have key : ∀ j : CInode, j.inode = t.inode → j.auth = false → j.dir_auth = t.dir_auth →
      j.cached_by = IntSet.insert t.cached_by whoami →
      j.dist_state = CInode.fresh.dist_state →
      (j.discover_dist t).replica_of whoami t := by
    intro j h1 h2 h3 h4 h5
    unfold CInode.discover_dist CInode.replica_of
    dsimp only
    cases hs : t.is_syncbyauth <;> cases hf : t.is_softasync <;> cases hl : t.is_lockbyauth <;>
      simp only [Bool.false_eq_true, if_false, if_true] <;>
      refine ⟨h1, h2, h3, h4, ?_⟩ <;> simp only [h5] <;> rfl
  split_ifs at h
  · simp at h
  · simp only [Option.map_some', Option.some.injEq] at h
    rw [← h]
    exact key _ (by cases t; rfl) rfl rfl rfl rfl
  · simp only [Option.map_some', Option.some.injEq] at h
    rw [← h]
    exact key _ (by cases t; rfl) rfl rfl rfl rfl

/-- The three ways through one turn of the loop of `handle_discover` over the trace. -/
theorem handle_discover_install_cons (dis : MDiscover) (w : String) (ws : List String)
    (t : MDiscoverRec_t) (ts : List MDiscoverRec_t) (c : MDCache) (cur : CInodePtr)
    (fin res : List Context) (cA : MDCache)
    (h : handle_discover_install dis (w :: ws) (t :: ts) c (some cur) fin = some (res, cA)) :
    (∃ d d1, (open_dir c cur).1.lookup w = some d ∧
      ((open_dir c cur).2.inodes cur).dir = some d1 ∧
      handle_discover_install dis ws ts
        ((open_dir c cur).2.set_inode cur { (open_dir c cur).2.inodes cur with
          dir := some (d1.take_waiting_dentry .CDIR_WAIT_DENTRY w).2 }) d.inode
        (fin ++ (d1.take_waiting_dentry .CDIR_WAIT_DENTRY w).1) = some (res, cA)) ∨
    ((open_dir c cur).1.lookup w = none ∧ (open_dir c cur).1.state.hashed = false ∧
      (open_dir c cur).2.dentry_authority cur w = (open_dir c cur).2.whoami ∧
      (open_dir c cur).2.debug < 3 ∧ res = [] ∧
      cA = { (open_dir c cur).2 with
        fetch_dir_calls := (open_dir c cur).2.fetch_dir_calls ++
          [(cur, .C_MDS_RetryMessage (some (.MDiscover_fwd dis)))] }) ∨
    ((open_dir c cur).1.lookup w = none ∧ (open_dir c cur).1.state.hashed = false ∧
      (open_dir c cur).2.dentry_authority cur w ≠ (open_dir c cur).2.whoami ∧
      ∃ i c2 r c3 d1,
        discover_replica (open_dir c cur).2.whoami t
          ((open_dir c cur).2.new_CDir (open_dir c cur).2.heap_next) = some i ∧
        add_inode ((open_dir c cur).2.new_CInode.2.set_inode (open_dir c cur).2.heap_next i)
          (open_dir c cur).2.heap_next = some c2 ∧
        link_inode c2 cur w (open_dir c cur).2.heap_next = some (r, c3) ∧
        (c3.inodes cur).dir = some d1 ∧
        handle_discover_install dis ws ts
          (c3.set_inode cur { c3.inodes cur with
            dir := some (d1.take_waiting_dentry .CDIR_WAIT_DENTRY w).2 })
          (some (open_dir c cur).2.heap_next)
          (fin ++ (d1.take_waiting_dentry .CDIR_WAIT_DENTRY w).1) = some (res, cA)) := by
  rw [handle_discover_install] at h
  dsimp only at h
  cases hl : (open_dir c cur).1.lookup w with
  | some d =>
    left
    rw [hl] at h
    simp only [discover_dentry_authority] at h
    cases hd : ((open_dir c cur).2.inodes cur).dir with
    | none => rw [hd] at h; simp at h
    | some d1 =>
      rw [hd] at h
      exact ⟨d, d1, rfl, rfl, h⟩
  | none =>
    right
    rw [hl] at h
    simp only [discover_dentry_authority] at h
    cases hh : (open_dir c cur).1.state.hashed with
    | true => rw [hh] at h; simp at h
    | false =>
      rw [hh] at h
      simp only [Bool.false_eq_true, if_false] at h
      by_cases ha : (open_dir c cur).2.dentry_authority cur w = (open_dir c cur).2.whoami
      · left
        rw [if_pos ha] at h
        by_cases hdb : 3 ≤ (open_dir c cur).2.debug
        · rw [if_pos hdb] at h
          simp at h
        · rw [if_neg hdb] at h
          simp only [Option.some.injEq, Prod.mk.injEq] at h
          exact ⟨rfl, rfl, ha, not_le.mp hdb, h.1.symm, h.2.symm⟩
      · right
        rw [if_neg ha] at h
        refine ⟨rfl, rfl, ha, ?_⟩
        cases hr : discover_replica (open_dir c cur).2.new_CInode.2.whoami t
            ((open_dir c cur).2.new_CInode.2.new_CDir (open_dir c cur).2.new_CInode.1) with
        | none => rw [hr] at h; simp at h
        | some i =>
          rw [hr] at h
          dsimp only at h
          cases ha2 : add_inode ((open_dir c cur).2.new_CInode.2.set_inode
              (open_dir c cur).2.new_CInode.1 i) (open_dir c cur).2.new_CInode.1 with
          | none => rw [ha2] at h; simp at h
          | some c2 =>
            rw [ha2] at h
            dsimp only at h
            cases hli : link_inode c2 cur w (open_dir c cur).2.new_CInode.1 with
            | none => rw [hli] at h; simp at h
            | some rc =>
              obtain ⟨r, c3⟩ := rc
              rw [hli] at h
              dsimp only at h
              cases hd : (c3.inodes cur).dir with
              | none => rw [hd] at h; simp at h
              | some d1 =>
                rw [hd] at h
                exact ⟨i, c2, r, c3, d1, hr, ha2, hli, hd, h⟩

theorem MDCache.keeps_replicas_refl (c : MDCache) : c.keeps_replicas c := ⟨rfl, rfl, fun _ => rfl⟩

theorem MDCache.keeps_replicas_trans {c c1 c2 : MDCache} (h1 : c.keeps_replicas c1)
    (h2 : c1.keeps_replicas c2) : c.keeps_replicas c2 :=
  ⟨h2.1.trans h1.1, h2.2.1.trans h1.2.1, fun p => (h2.2.2 p).trans (h1.2.2 p)⟩

theorem open_dir_keeps_replicas (c : MDCache) (cur : CInodePtr) :
    c.keeps_replicas (open_dir c cur).2 := by
  unfold open_dir
  cases h : (c.inodes cur).dir with
  | some d => exact c.keeps_replicas_refl
  | none =>
    refine ⟨rfl, rfl, fun p => ?_⟩
    by_cases hp : p = cur
    · subst hp
      simp [MDCache.set_inode, CInode.replica_state, CInode.inode]
    · simp [MDCache.set_inode, hp]

theorem set_dir_keeps_replicas (c : MDCache) (cur : CInodePtr) (d : Option CDir) :
    c.keeps_replicas (c.set_inode cur { c.inodes cur with dir := d }) := by
  refine ⟨rfl, rfl, fun p => ?_⟩
  by_cases hp : p = cur
  · subst hp
    simp [MDCache.set_inode, CInode.replica_state, CInode.inode]
  · simp [MDCache.set_inode, hp]

theorem set_inode_keeps_replicas (c : MDCache) (p : CInodePtr) (i : CInode)
    (h : i.replica_state = (c.inodes p).replica_state) : c.keeps_replicas (c.set_inode p i) := by
  refine ⟨rfl, rfl, fun q => ?_⟩
  by_cases hq : q = p
  · subst hq
    simpa [MDCache.set_inode] using h
  · simp [MDCache.set_inode, hq]

theorem link_inode_keeps_replicas (c : MDCache) (parent : CInodePtr) (dname : String)
    (in_ : CInodePtr) (r : Int) (c1 : MDCache)
    (h : link_inode c parent dname in_ = some (r, c1)) : c.keeps_replicas c1 := by
  unfold link_inode at h
  cases hd : (c.inodes parent).dir with
  | none =>
    rw [hd] at h
    obtain ⟨-, rfl⟩ := Prod.mk.inj (Option.some.inj h)
    exact c.keeps_replicas_refl
  | some d =>
    rw [hd] at h
    dsimp only at h
    split_ifs at h
    split at h
    · cases h
    · obtain ⟨-, rfl⟩ := Prod.mk.inj (Option.some.inj h)
      refine MDCache.keeps_replicas_trans ?_ (set_inode_keeps_replicas _ in_ _ rfl)
      refine MDCache.keeps_replicas_trans ?_ (set_inode_keeps_replicas _ parent _ rfl)
      exact set_inode_keeps_replicas _ in_ _ rfl

theorem add_inode_keeps_replicas (c : MDCache) (p : CInodePtr) (c2 : MDCache)
    (h : add_inode c p = some c2) : c.keeps_replicas c2 := by
  rw [add_inode_some c p c2 h]
  exact ⟨rfl, rfl, fun _ => rfl⟩

/-- The replicas that the loop of `handle_discover` over the trace installs: the objects it
allocates, each a replica of a snapshot of the trace; every other object keeps what the claims
compare. -/
theorem handle_discover_install_replicas (dis : MDiscover) :
    ∀ (ts : List MDiscoverRec_t) (ws : List String) (c : MDCache) (cur : Option CInodePtr)
      (fin res : List Context) (cA : MDCache),
      handle_discover_install dis ws ts c cur fin = some (res, cA) →
      c.heap_next ≤ cA.heap_next ∧ cA.whoami = c.whoami ∧
      (∀ p, (p < c.heap_next ∨ cA.heap_next ≤ p) →
        (cA.inodes p).replica_state = (c.inodes p).replica_state) ∧
      (∀ p, c.heap_next ≤ p → p < cA.heap_next →
        ∃ t ∈ ts, (cA.inodes p).replica_of c.whoami t) := by
  intro ts
  induction ts with
  | nil =>
    intro ws c cur fin res cA h
    cases ws <;> simp only [handle_discover_install, Option.some.injEq, Prod.mk.injEq] at h <;>
      (rw [← h.2]
       exact ⟨Nat.le_refl _, rfl, fun _ _ => rfl,
        fun p h1 h2 => absurd h2 (Nat.not_lt.mpr h1)⟩)
  | cons t ts ih =>
    intro ws c cur fin res cA h
    cases ws with
    | nil => simp [handle_discover_install] at h
    | cons w ws =>
      cases cur with
      | none => simp [handle_discover_install] at h
      | some cur =>
        have ko := open_dir_keeps_replicas c cur
        rcases handle_discover_install_cons dis w ws t ts c cur fin res cA h with
          ⟨d, d1, -, -, hrec⟩ | ⟨-, -, -, -, -, hc⟩ | ⟨-, -, -, i, c2, r, c3, d1, hi, ha, hli, -, hrec⟩
        · obtain ⟨g1, g2, g3, g4⟩ := ih _ _ _ _ _ _ hrec
          have k := MDCache.keeps_replicas_trans ko (set_dir_keeps_replicas (open_dir c cur).2 cur
            (some (d1.take_waiting_dentry .CDIR_WAIT_DENTRY w).2))
          rw [k.1] at g1 g3 g4
          rw [k.2.1] at g2 g4
          refine ⟨g1, g2, fun p hp => (g3 p hp).trans (k.2.2 p), fun p h1 h2 => ?_⟩
          obtain ⟨t1, m1, r1⟩ := g4 p h1 h2
          exact ⟨t1, List.mem_cons_of_mem _ m1, r1⟩
        · rw [hc]
          exact ⟨Nat.le_of_eq ko.1.symm, ko.2.1, fun p _ => ko.2.2 p,
            fun p h1 h2 => absurd (ko.1 ▸ h2 : p < c.heap_next) (Nat.not_lt.mpr h1)⟩
        · obtain ⟨g1, g2, g3, g4⟩ := ih _ _ _ _ _ _ hrec
          have k2 := MDCache.keeps_replicas_trans
            (MDCache.keeps_replicas_trans (add_inode_keeps_replicas _ _ _ ha)
              (link_inode_keeps_replicas _ _ _ _ _ _ hli))
            (set_dir_keeps_replicas c3 cur (some (d1.take_waiting_dentry .CDIR_WAIT_DENTRY w).2))
          have hn : ((open_dir c cur).2.new_CInode.2.set_inode
              (open_dir c cur).2.heap_next i).heap_next = c.heap_next + 1 := by
            show (open_dir c cur).2.heap_next + 1 = c.heap_next + 1
            rw [ko.1]
          have hwho : ((open_dir c cur).2.new_CInode.2.set_inode
              (open_dir c cur).2.heap_next i).whoami = c.whoami := ko.2.1
          rw [k2.1, hn] at g1 g3 g4
          rw [k2.2.1, hwho] at g2 g4
          have hpi : ∀ p, (((open_dir c cur).2.new_CInode.2.set_inode
              (open_dir c cur).2.heap_next i).inodes p).replica_state =
              if p = c.heap_next then i.replica_state else (c.inodes p).replica_state := by
            intro p
            rw [← ko.1]
            by_cases hp : p = (open_dir c cur).2.heap_next
            · simp [MDCache.set_inode, hp]
            · simp only [MDCache.set_inode, MDCache.new_CInode, hp, if_false]
              exact ko.2.2 p
          refine ⟨Nat.le_of_succ_le g1, g2, fun p hp => ?_, fun p h1 h2 => ?_⟩
          · have hne : p ≠ c.heap_next := by
              rcases hp with hp | hp
              · exact Nat.ne_of_lt hp
              · exact Nat.ne_of_gt (Nat.lt_of_lt_of_le (Nat.lt_of_succ_le g1) hp)
            have hp2 : p < c.heap_next + 1 ∨ cA.heap_next ≤ p := by
              rcases hp with hp | hp
              · exact Or.inl (Nat.lt_succ_of_lt hp)
              · exact Or.inr hp
            rw [g3 p hp2, k2.2.2 p, hpi p, if_neg hne]
          · by_cases hpe : p = c.heap_next
            · refine ⟨t, List.mem_cons_self _ _, ?_⟩
              have hrep := discover_replica_of _ _ _ _ hi
              rw [ko.2.1] at hrep
              have hst : (cA.inodes p).replica_state = i.replica_state := by
                rw [g3 p (Or.inl (by rw [hpe]; exact Nat.lt_succ_self _)), k2.2.2 p, hpi p,
                  if_pos hpe]
              simp only [CInode.replica_state, Prod.mk.injEq] at hst
              obtain ⟨s1, s2, s3, s4, s5⟩ := hst
              obtain ⟨q1, q2, q3, q4, q5⟩ := hrep
              exact ⟨s1.trans q1, s2.trans q2, s3.trans q3, s4.trans q4, s5.trans q5⟩
            · have h1' : c.heap_next + 1 ≤ p :=
                Nat.succ_le_of_lt (Nat.lt_of_le_of_ne h1 (fun e => hpe e.symm))
              obtain ⟨t1, m1, r1⟩ := g4 p h1' h2
              exact ⟨t1, List.mem_cons_of_mem _ m1, r1⟩

theorem open_dir_heap_next (c : MDCache) (cur : CInodePtr) :
    (open_dir c cur).2.heap_next = c.heap_next := (open_dir_keeps_replicas c cur).1

theorem read_hard_try_heap_next (c : MDCache) (q : CInodePtr) (m : Option Message)
    (b : Bool) (c1 : MDCache) (h : read_hard_try c q m = some (b, c1)) :
    c1.heap_next = c.heap_next := by
  unfold read_hard_try inode_lock_wait at h
  dsimp only at h
  split_ifs at h <;>
    (obtain ⟨-, rfl⟩ := Prod.mk.inj (Option.some.inj h)
     rfl)

theorem path_traverse_loop_heap_next (req : Option Message) (onfail : OnFail) :
    ∀ (segs : List String) (c : MDCache) (cur : CInodePtr) (hc : String)
      (tr : List CInodePtr) (r : Int) (tr1 : List CInodePtr) (c1 : MDCache),
      path_traverse_loop req onfail segs c cur hc tr = some (r, tr1, c1) →
      c1.heap_next = c.heap_next := by
  intro segs
  induction segs with
  | nil =>
    intro c cur hc tr r tr1 c1 h
    simp only [path_traverse_loop, Option.some.injEq, Prod.mk.injEq] at h
    rw [← h.2.2]
  | cons dname segs ih =>
    intro c cur hc tr r tr1 c1 h
    have ho := open_dir_heap_next c cur
    rw [path_traverse_loop] at h
    cases hdir : (c.inodes cur).is_dir
    · simp only [hdir, Bool.false_eq_true, if_false, Option.some.injEq, Prod.mk.injEq] at h
      rw [← h.2.2]
    · simp only [hdir, if_true] at h
      cases hfro : ((open_dir c cur).1.state.frozen_tree_root ||
          (open_dir c cur).1.state.frozen_dir)
      · simp only [hfro, Bool.false_eq_true, if_false] at h
        cases hr : read_hard_try (open_dir c cur).2 cur req with
        | none => simp [hr] at h
        | some rr =>
          obtain ⟨b, c2⟩ := rr
          have h2 := (read_hard_try_heap_next _ _ _ _ _ hr).trans ho
          cases b
          · simp only [hr, Option.some.injEq, Prod.mk.injEq] at h
            rw [← h.2.2]
            exact h2
          · simp only [hr] at h
            cases hd : (c2.inodes cur).dir with
            | none => simp [hd] at h
            | some d =>
              simp only [hd] at h
              cases hl : d.lookup_inode dname with
              | some next =>
                simp only [hl] at h
                exact (ih _ _ _ _ _ _ _ h).trans h2
              | none =>
                simp only [hl] at h
                split_ifs at h
                · simp only [Option.some.injEq, Prod.mk.injEq] at h
                  rw [← h.2.2]
                  exact h2
                · simp only [Option.some.injEq, Prod.mk.injEq] at h
                  rw [← h.2.2]
                  exact h2
                · simp only [Option.some.injEq, Prod.mk.injEq] at h
                  rw [← h.2.2]
                  exact h2
                · cases onfail
                  · cases req with
                    | none => simp at h
                    | some rq =>
                      simp only [Option.some.injEq, Prod.mk.injEq] at h
                      rw [← h.2.2]
                      exact h2
                  · simp only [Option.some.injEq, Prod.mk.injEq] at h
                    rw [← h.2.2]
                    exact h2
                  · simp only [Option.some.injEq, Prod.mk.injEq] at h
                    rw [← h.2.2]
                    exact h2
      · simp only [hfro, if_true, Option.some.injEq, Prod.mk.injEq] at h
        rw [← h.2.2]
        exact ho

theorem path_traverse_heap_next (c : MDCache) (pathname : String) (tr : List CInodePtr)
    (req : Option Message) (onfail : OnFail) (r : Int) (tr1 : List CInodePtr)
    (c1 : MDCache) (h : path_traverse c pathname tr req onfail = some (r, tr1, c1)) :
    c1.heap_next = c.heap_next := by
  unfold path_traverse at h
  cases hroot : c.root with
  | none =>
    rw [hroot] at h
    cases req with
    | none =>
      simp only [Option.some.injEq, Prod.mk.injEq] at h
      rw [← h.2.2]
    | some rq =>
      simp only [Option.some.injEq, Prod.mk.injEq] at h
      rw [← h.2.2]
  | some cur =>
    rw [hroot] at h
    exact path_traverse_loop_heap_next _ _ _ _ _ _ _ _ _ _ h

/-- The result branch of `handle_discover` for a result that names segments: the base path is
traversed, and unless that fails with a negative value the loop over the trace runs from the
last inode traversed. -/
theorem handle_discover_result_some (c : MDCache) (dis : MDiscover) (cA : MDCache)
    (ha : dis.asker = c.whoami) (hj : dis.just_root = false)
    (h : handle_discover c dis = some cA) :
    ∃ r trav c0, path_traverse c dis.basepath [] none .MDS_TRAVERSE_FAIL = some (r, trav, c0) ∧
      ((r < 0 ∧ cA = c0) ∨
       (0 ≤ r ∧ ∃ cur fin c2, trav.getLast? = some cur ∧
          handle_discover_install dis dis.wanted dis.trace c0 (some cur) [] = some (fin, c2) ∧
          cA = { c2 with finished := c2.finished ++ fin.map (fun w => (w, 0)) })) := by
  unfold handle_discover handle_discover_result at h
  rw [if_pos ha, hj] at h
  simp only [Bool.false_eq_true, if_false] at h
  cases hp : path_traverse c dis.basepath [] none .MDS_TRAVERSE_FAIL with
  | none => rw [hp] at h; simp at h
  | some x =>
    obtain ⟨r, trav, c0⟩ := x
    rw [hp] at h
    dsimp only at h
    refine ⟨r, trav, c0, rfl, ?_⟩
    by_cases hr : r < 0
    · rw [if_pos hr] at h
      exact Or.inl ⟨hr, (Option.some.inj h).symm⟩
    · rw [if_neg hr] at h
      right
      refine ⟨not_lt.mp hr, ?_⟩
      cases hc : trav.getLast? with
      | none => rw [hc] at h; simp at h
      | some cur =>
        rw [hc] at h
        dsimp only at h
        cases hi : handle_discover_install dis dis.wanted dis.trace c0 (some cur) [] with
        | none => rw [hi] at h; simp at h
        | some y =>
          obtain ⟨fin, c2⟩ := y
          rw [hi] at h
          exact ⟨cur, fin, c2, rfl, hi, (Option.some.inj h).symm⟩

/-- C27 (amended): every replica inode that `handle_discover` installs on the asker is not
authoritative and has in `cached_by` the members of the `cached_by` of its snapshot and the id
of the asker itself, so `cached_by` is never empty.  For a just-root result the replica is the
new object that becomes the root.  For a result that names segments the replicas are the
objects the handler has allocated, those from `heap_next` before to `heap_next` after, and each
of them is the replica of a snapshot of the trace. -/
theorem handle_discover_replica_cached_by (c : MDCache) (dis : MDiscover) (c1 : MDCache)
    (ha : dis.asker = c.whoami) (h : handle_discover c dis = some c1) :
    (dis.just_root = true →
      ∃ t, dis.trace.head? = some t ∧ c1.root = some c.heap_next ∧
        (c1.inodes c.heap_next).auth = false ∧
        (c1.inodes c.heap_next).cached_by = IntSet.insert t.cached_by c.whoami ∧
        c.whoami ∈ (c1.inodes c.heap_next).cached_by) ∧
    (dis.just_root = false →
      ∀ p, c.heap_next ≤ p → p < c1.heap_next →
        ∃ t ∈ dis.trace, (c1.inodes p).auth = false ∧
          (c1.inodes p).cached_by = IntSet.insert t.cached_by c.whoami ∧
          c.whoami ∈ (c1.inodes p).cached_by) := by
  constructor
  · intro hj
    unfold handle_discover handle_discover_result handle_discover_root at h
    rw [if_pos ha, if_pos hj] at h
    cases ht : dis.trace with
    | nil => rw [ht] at h; simp at h
    | cons t ts =>
      rw [ht] at h
      dsimp only at h
      cases hr : discover_root_replica (c.new_CInode.2).whoami t
          ((c.new_CInode.2).new_CDir c.new_CInode.1) with
      | none => rw [hr] at h; simp at h
      | some i =>
        rw [hr] at h
        dsimp only at h
        cases hs : set_root ((c.new_CInode.2).set_inode c.new_CInode.1 i) c.new_CInode.1 with
        | none => rw [hs] at h; simp at h
        | some c2 =>
          rw [hs] at h
          simp only [Option.some.injEq] at h
          have e2 := add_inode_some _ _ _ hs
          have hi : i.auth = false ∧ i.cached_by = IntSet.insert t.cached_by c.whoami := by
            unfold discover_root_replica at hr
            dsimp only at hr
            split_ifs at hr
            simp only [Option.some.injEq] at hr
            rw [← hr]
            obtain ⟨h1, h2⟩ := CInode.discover_dist_auth
              ({ ({ CInode.fresh.set_inode_t t.inode with
                    cached_by := IntSet.insert t.cached_by (c.new_CInode.2).whoami
                    dir_auth := t.dir_auth } : CInode) with
                  dir := some { (c.new_CInode.2).new_CDir c.new_CInode.1 with
                    dir_rep := t.dir_rep, dir_rep_by := t.dir_rep_by }
                  auth := false }) t
            exact ⟨h1, h2⟩
          have hin : c1.inodes c.heap_next = i := by
            rw [← h, e2]
            simp [MDCache.set_inode, MDCache.new_CInode]
          refine ⟨t, rfl, ?_, ?_, ?_, ?_⟩
          · rw [← h, e2]
            rfl
          · rw [hin, hi.1]
          · rw [hin, hi.2]
          · rw [hin, hi.2, IntSet.mem_insert]
            exact Or.inl rfl
  · intro hj p h1 h2
    obtain ⟨r, trav, c0, hp, hcase⟩ := handle_discover_result_some c dis c1 ha hj h
    have hh := path_traverse_heap_next _ _ _ _ _ _ _ _ hp
    have hw := (path_traverse_same_caching _ _ _ _ _ _ _ _ hp).1
    rcases hcase with ⟨-, rfl⟩ | ⟨-, cur, fin, c2, -, hi, rfl⟩
    · rw [hh] at h2
      exact absurd h2 (Nat.not_lt.mpr h1)
    · obtain ⟨-, -, -, g4⟩ := handle_discover_install_replicas dis _ _ _ _ _ _ _ hi
      rw [hh, hw] at g4
      obtain ⟨t, ht, hr⟩ := g4 p h1 h2
      refine ⟨t, ht, hr.2.1, hr.2.2.2.1, ?_⟩
      show c.whoami ∈ (c2.inodes p).cached_by
      rw [hr.2.2.2.1, IntSet.mem_insert]
      exact Or.inl rfl

/-- C27 (amended), witness: the asker `cache_asker` handles the result for the segment `a`
below the root with the snapshot of a file; the replica is the object `100`, and `cached_by` of
the replica holds the asker, MDS `1`. -/
theorem handle_discover_replica_cached_by_witness :
    (∃ c1, handle_discover cache_asker ⟨1, "", some ["a"], [rec_file]⟩ = some c1 ∧
      cache_asker.heap_next = 100 ∧ c1.heap_next = 101 ∧
      (c1.inodes 100).cached_by = [1]) ∧
    ∀ p, cache_asker.heap_next ≤ p →
      p < ((handle_discover cache_asker ⟨1, "", some ["a"], [rec_file]⟩).getD
        cache_asker).heap_next →
      ∃ t ∈ [rec_file],
        (((handle_discover cache_asker ⟨1, "", some ["a"], [rec_file]⟩).getD
          cache_asker).inodes p).auth = false ∧
        (((handle_discover cache_asker ⟨1, "", some ["a"], [rec_file]⟩).getD
          cache_asker).inodes p).cached_by = IntSet.insert t.cached_by cache_asker.whoami ∧
        cache_asker.whoami ∈
          (((handle_discover cache_asker ⟨1, "", some ["a"], [rec_file]⟩).getD
            cache_asker).inodes p).cached_by :=
  ⟨⟨_, rfl, rfl, rfl, rfl⟩,
    (handle_discover_replica_cached_by cache_asker ⟨1, "", some ["a"], [rec_file]⟩
      ((handle_discover cache_asker ⟨1, "", some ["a"], [rec_file]⟩).getD cache_asker)
      rfl rfl).2 rfl⟩

theorem MDCache.discover_grows_refl (c : MDCache) : c.discover_grows c :=
  ⟨Nat.le_refl _, rfl, rfl, rfl, rfl, rfl,
    fun _ _ => ⟨rfl, fun d hd => ⟨d, hd, rfl, fun _ h => h, fun _ _ h => h⟩⟩⟩

theorem MDCache.discover_grows_trans {c c1 c2 : MDCache} (h1 : c.discover_grows c1)
    (h2 : c1.discover_grows c2) : c.discover_grows c2 := by
  obtain ⟨a1, a2, a3, a4, a5, a6, a7⟩ := h1
  obtain ⟨b1, b2, b3, b4, b5, b6, b7⟩ := h2
  refine ⟨Nat.le_trans a1 b1, b2.trans a2, b3.trans a3, b4.trans a4, b5.trans a5, b6.trans a6,
    fun p hp => ?_⟩
  obtain ⟨r1, f1⟩ := a7 p hp
  obtain ⟨r2, f2⟩ := b7 p (Nat.lt_of_lt_of_le hp a1)
  refine ⟨r2.trans r1, fun d hd => ?_⟩
  obtain ⟨d1, e1, s1, w1, l1⟩ := f1 d hd
  obtain ⟨d2, e2, s2, w2, l2⟩ := f2 d1 e1
  exact ⟨d2, e2, s2.trans s1, fun x hx => w1 x (w2 x hx), fun n e he => l2 n e (l1 n e he)⟩

/-- A step that allocates nothing and changes of the object `q` its directory only, by `f`,
which keeps the state bits and the dentries and adds no waiter. -/
theorem set_dir_discover_grows (c : MDCache) (q : CInodePtr) (d0 d1 : CDir)
    (hd : (c.inodes q).dir = some d0) (hs : d1.state = d0.state)
    (hw : ∀ x ∈ d1.waiting, x ∈ d0.waiting)
    (hl : ∀ n e, d0.lookup n = some e → d1.lookup n = some e) :
    c.discover_grows (c.set_inode q { c.inodes q with dir := some d1 }) := by
  refine ⟨Nat.le_refl _, rfl, rfl, rfl, rfl, rfl, fun p _ => ?_⟩
  by_cases hp : p = q
  · subst hp
    refine ⟨by simp [MDCache.set_inode, CInode.replica_state, CInode.inode], fun d hd2 => ?_⟩
    rw [hd] at hd2
    obtain rfl := Option.some.inj hd2
    exact ⟨d1, by simp [MDCache.set_inode], hs, hw, hl⟩
  · have e : (c.set_inode q { c.inodes q with dir := some d1 }).inodes p = c.inodes p := by
      simp [MDCache.set_inode, hp]
    rw [e]
    exact ⟨rfl, fun d hd => ⟨d, hd, rfl, fun _ h => h, fun _ _ h => h⟩⟩

theorem open_dir_discover_grows (c : MDCache) (cur : CInodePtr) :
    c.discover_grows (open_dir c cur).2 := by
  unfold open_dir
  cases h : (c.inodes cur).dir with
  | some d => exact c.discover_grows_refl
  | none =>
    refine ⟨Nat.le_refl _, rfl, rfl, rfl, rfl, rfl, fun p _ => ?_⟩
    by_cases hp : p = cur
    · subst hp
      refine ⟨by simp [MDCache.set_inode, CInode.replica_state, CInode.inode], fun d hd2 => ?_⟩
      rw [h] at hd2
      cases hd2
    · have e : (c.set_inode cur { c.inodes cur with dir := some (c.new_CDir cur) }).inodes p =
          c.inodes p := by
        simp [MDCache.set_inode, hp]
      dsimp only
      rw [e]
      exact ⟨rfl, fun d hd => ⟨d, hd, rfl, fun _ h => h, fun _ _ h => h⟩⟩

theorem open_dir_heap_closed (c : MDCache) (cur : CInodePtr) (h : c.heap_closed) :
    (open_dir c cur).2.heap_closed := by
  unfold open_dir
  cases hd : (c.inodes cur).dir with
  | some d => exact h
  | none =>
    obtain ⟨h1, h2, h3⟩ := h
    refine ⟨h1, h2, fun p hp d hdp e he q hq => ?_⟩
    by_cases hpc : p = cur
    · subst hpc
      simp only [MDCache.set_inode, if_true, Option.some.injEq] at hdp
      rw [← hdp, h1] at he
      cases he
    · simp only [MDCache.set_inode, hpc, if_false] at hdp
      exact h3 p hp d hdp e he q hq

theorem CDir.take_waiting_dentry_lookup (d : CDir) (t : WaitTag) (w n : String) :
    (d.take_waiting_dentry t w).2.lookup n = d.lookup n := rfl

theorem CDir.take_waiting_dentry_items (d : CDir) (t : WaitTag) (w : String) :
    (d.take_waiting_dentry t w).2.items = d.items := rfl

theorem CDir.take_waiting_dentry_state (d : CDir) (t : WaitTag) (w : String) :
    (d.take_waiting_dentry t w).2.state = d.state := rfl

theorem CDir.take_waiting_dentry_waiting (d : CDir) (t : WaitTag) (w : String) :
    (∀ x ∈ (d.take_waiting_dentry t w).2.waiting, x ∈ d.waiting) ∧
    ∀ x ∈ (d.take_waiting_dentry t w).2.waiting, ¬ (x.1 = t ∧ x.2.1 = some w) := by
  unfold CDir.take_waiting_dentry
  dsimp only
  constructor
  · intro x hx
    exact List.mem_of_mem_filter hx
  · intro x hx
    have := List.of_mem_filter hx
    exact of_decide_eq_true this

/-- Taking the waiters on a dentry from a directory that has none for it changes nothing. -/
theorem CDir.take_waiting_dentry_none (d : CDir) (t : WaitTag) (w : String)
    (h : ∀ x ∈ d.waiting, ¬ (x.1 = t ∧ x.2.1 = some w)) :
    d.take_waiting_dentry t w = ([], d) := by
  unfold CDir.take_waiting_dentry
  have h1 : d.waiting.filter (fun x => decide (x.1 = t ∧ x.2.1 = some w)) = [] := by
    rw [List.filter_eq_nil_iff]
    intro x hx
    simpa using h x hx
  have h2 : d.waiting.filter (fun x => decide (¬ (x.1 = t ∧ x.2.1 = some w))) = d.waiting := by
    rw [List.filter_eq_self]
    intro x hx
    exact decide_eq_true (h x hx)
  rw [h1, h2]
  rfl

theorem set_dir_heap_closed (c : MDCache) (q : CInodePtr) (d0 d1 : CDir) (h : c.heap_closed)
    (hq : q < c.heap_next) (hd : (c.inodes q).dir = some d0) (hi : d1.items = d0.items) :
    (c.set_inode q { c.inodes q with dir := some d1 }).heap_closed := by
  obtain ⟨h1, h2, h3⟩ := h
  refine ⟨h1, h2, fun p hp d hdp e he x hx => ?_⟩
  by_cases hpc : p = q
  · subst hpc
    simp only [MDCache.set_inode, if_true, Option.some.injEq] at hdp
    rw [← hdp, hi] at he
    exact h3 p hp d0 hd e he x hx
  · simp only [MDCache.set_inode, hpc, if_false] at hdp
    exact h3 p hp d hdp e he x hx

theorem CDir.lookup_mem (d : CDir) (n : String) (e : CDentry) (h : d.lookup n = some e) :
    ∃ x ∈ d.items, x.2 = e := by
  unfold CDir.lookup at h
  cases hx : List.find? (fun e => decide (e.1 = n)) d.items with
  | none => rw [hx] at h; cases h
  | some y =>
    rw [hx] at h
    exact ⟨y, List.mem_of_find?_eq_some hx, Option.some.inj h⟩

theorem MDCache.heap_closed_lookup {c : MDCache} (h : c.heap_closed) (p : CInodePtr)
    (hp : p < c.heap_next) (d : CDir) (hd : (c.inodes p).dir = some d) (n : String)
    (e : CDentry) (he : d.lookup n = some e) (q : CInodePtr) (hq : e.inode = some q) :
    q < c.heap_next := by
  obtain ⟨x, hx, rfl⟩ := d.lookup_mem n e he
  exact h.2.2 p hp d hd x hx q hq

theorem discover_replica_dir (whoami : Int) (t : MDiscoverRec_t) (dir : CDir) (i : CInode)
    (h : discover_replica whoami t dir = some i) :
    ∀ D, i.dir = some D → D.items = dir.items := by
  unfold discover_replica at h
  dsimp only at h
  have key : ∀ j : CInode, (j.discover_dist t).dir = j.dir := by
    intro j
    unfold CInode.discover_dist
    dsimp only
    split_ifs <;> rfl
  split_ifs at h
  · simp at h
  · simp only [Option.map_some', Option.some.injEq] at h
    intro D hD
    rw [← h, key] at hD
    obtain rfl := Option.some.inj hD
    rfl
  · simp only [Option.map_some', Option.some.injEq] at h
    intro D hD
    rw [← h, key] at hD
    cases hD

theorem CDir.lookup_add_child_of_some (d : CDir) (dname : String) (in_ : CInodePtr) (n : String)
    (e : CDentry) (h : d.lookup n = some e) : (d.add_child dname in_).lookup n = some e := by
  unfold CDir.lookup at h ⊢
  cases hx : List.find? (fun e => decide (e.1 = n)) d.items with
  | none => rw [hx] at h; cases h
  | some y =>
    rw [hx] at h
    have hy : y.2 = e := Option.some.inj h
    simp [CDir.add_child, List.find?_append, hx, hy]

/-- The turn of the loop of `handle_discover` over the trace that installs a replica, in a cache
whose links are below `heap_next`: the cache after the turn. -/
theorem discover_install_new_step (c0 : MDCache) (cur : CInodePtr) (w : String)
    (t : MDiscoverRec_t) (d : CDir) (i : CInode) (c2 : MDCache) (r : Int) (c3 : MDCache)
    (d1 : CDir) (hc : c0.heap_closed) (hcur : cur < c0.heap_next)
    (hd : (c0.inodes cur).dir = some d) (hl : d.lookup w = none)
    (hi : discover_replica c0.whoami t (c0.new_CDir c0.heap_next) = some i)
    (ha : add_inode (c0.new_CInode.2.set_inode c0.heap_next i) c0.heap_next = some c2)
    (hli : link_inode c2 cur w c0.heap_next = some (r, c3))
    (hd1 : (c3.inodes cur).dir = some d1) :
    c0.discover_grows (c3.set_inode cur { c3.inodes cur with
      dir := some (d1.take_waiting_dentry .CDIR_WAIT_DENTRY w).2 }) ∧
    (c3.set_inode cur { c3.inodes cur with
      dir := some (d1.take_waiting_dentry .CDIR_WAIT_DENTRY w).2 }).heap_closed ∧
    (c3.set_inode cur { c3.inodes cur with
      dir := some (d1.take_waiting_dentry .CDIR_WAIT_DENTRY w).2 }).heap_next =
        c0.heap_next + 1 ∧
    d1.lookup w = some ⟨w, some c0.heap_next⟩ := by
  have hne : c0.heap_next ≠ cur := Nat.ne_of_gt hcur
  have e2 := add_inode_some _ _ _ ha
  have h2cur : (c2.inodes cur).dir = some d := by
    rw [e2]
    simp only [MDCache.set_inode, MDCache.new_CInode, if_neg hne.symm]
    exact hd
  obtain ⟨c3', hl3, q1, q2, q3, q4⟩ := link_inode_new c2 cur w c0.heap_next d h2cur hl hne
  rw [hl3] at hli
  obtain ⟨-, rfl⟩ := Prod.mk.inj (Option.some.inj hli)
  have hd1e : d1 = d.add_child w c0.heap_next := by
    rw [q1] at hd1
    exact (Option.some.inj hd1).symm
  have h2in : c2.inodes c0.heap_next = i := by
    rw [e2]
    simp [MDCache.set_inode, MDCache.new_CInode]
  have h2oth : ∀ x, x ≠ c0.heap_next → c2.inodes x = c0.inodes x := by
    intro x hx
    rw [e2]
    simp [MDCache.set_inode, MDCache.new_CInode, hx]
  have hidir := discover_replica_dir _ _ _ _ hi
  have hlook : d1.lookup w = some ⟨w, some c0.heap_next⟩ := by
    rw [hd1e]
    exact CDir.lookup_add_child d w c0.heap_next hl
  have hfields : c3'.heap_next = c0.heap_next + 1 ∧ c3'.whoami = c0.whoami ∧
      c3'.debug = c0.debug ∧ c3'.dentry_authority = c0.dentry_authority ∧
      c3'.new_CDir = c0.new_CDir ∧ c3'.root = c0.root := by
    rw [q4, e2]
    exact ⟨rfl, rfl, rfl, rfl, rfl, rfl⟩
  obtain ⟨f1, f2, f3, f4, f5, f6⟩ := hfields
  refine ⟨?_, ?_, f1, hlook⟩
  · refine ⟨?_, f2, f3, f4, f5, f6, fun p hp => ?_⟩
    · show c0.heap_next ≤ c3'.heap_next
      rw [f1]
      exact Nat.le_succ _
    · have hpn : p ≠ c0.heap_next := Nat.ne_of_lt hp
      by_cases hpc : p = cur
      · subst hpc
        refine ⟨?_, fun d' hd' => ?_⟩
        · simp only [MDCache.set_inode, if_true, q1, CInode.replica_state, CInode.inode]
          rw [h2oth p hpn]
        · rw [hd] at hd'
          have hdd : d = d' := Option.some.inj hd'
          subst hdd
          refine ⟨(d1.take_waiting_dentry .CDIR_WAIT_DENTRY w).2,
            by simp [MDCache.set_inode], ?_, ?_, ?_⟩
          · rw [CDir.take_waiting_dentry_state, hd1e]
            rfl
          · intro x hx
            have := (d1.take_waiting_dentry_waiting .CDIR_WAIT_DENTRY w).1 x hx
            rw [hd1e] at this
            exact this
          · intro n e he
            rw [CDir.take_waiting_dentry_lookup, hd1e]
            exact CDir.lookup_add_child_of_some d w c0.heap_next n e he
      · have e : (c3'.set_inode cur { c3'.inodes cur with
            dir := some (d1.take_waiting_dentry .CDIR_WAIT_DENTRY w).2 }).inodes p =
            c0.inodes p := by
          simp only [MDCache.set_inode, if_neg hpc]
          rw [q3 p hpn hpc, h2oth p hpn]
        rw [e]
        exact ⟨rfl, fun d hd => ⟨d, hd, rfl, fun _ h => h, fun _ _ h => h⟩⟩
  · obtain ⟨g1, g2, g3⟩ := hc
    refine ⟨fun p => by rw [show (c3'.set_inode cur _).new_CDir = c3'.new_CDir from rfl, f5]; exact g1 p,
      fun r hr => ?_, fun p hp D hD e he x hx => ?_⟩
    · have hr' : c0.root = some r := by
        rw [← f6]
        exact hr
      show r < c3'.heap_next
      rw [f1]
      exact Nat.lt_succ_of_lt (g2 r hr')
    · have hp' : p < c0.heap_next + 1 := by
        have : p < c3'.heap_next := hp
        rw [f1] at this
        exact this
      show x < c3'.heap_next
      rw [f1]
      by_cases hpc : p = cur
      · subst hpc
        simp only [MDCache.set_inode, if_true, Option.some.injEq] at hD
        rw [← hD, CDir.take_waiting_dentry_items, hd1e] at he
        simp only [CDir.add_child, List.mem_append, List.mem_singleton] at he
        rcases he with he | he
        · exact Nat.lt_succ_of_lt (g3 p hcur d hd e he x hx)
        · rw [he] at hx
          obtain rfl := Option.some.inj hx
          exact Nat.lt_succ_self _
      · simp only [MDCache.set_inode, if_neg hpc] at hD
        by_cases hpn : p = c0.heap_next
        · subst hpn
          rw [q2] at hD
          have hD' : i.dir = some D := by
            rw [h2in] at hD
            exact hD
          have := hidir D hD'
          rw [g1] at this
          rw [this] at he
          cases he
        · rw [q3 p hpn hpc, h2oth p hpn] at hD
          have hlt : p < c0.heap_next :=
            Nat.lt_of_le_of_ne (Nat.le_of_lt_succ hp') hpn
          exact Nat.lt_succ_of_lt (g3 p hlt D hD e he x hx)

theorem MDCache.same_but_calls_inodes {c cX : MDCache} (h : c.same_but_calls cX) :
    cX.inodes = c.inodes ∧ cX.whoami = c.whoami ∧ cX.debug = c.debug ∧
    cX.dentry_authority = c.dentry_authority ∧ cX.root = c.root ∧
    cX.inode_map = c.inode_map := by
  unfold MDCache.same_but_calls at h
  rw [h]
  exact ⟨rfl, rfl, rfl, rfl, rfl, rfl⟩

/-- One turn of the loop of `handle_discover` over the trace, in a cache whose links are below
`heap_next`: either the loop goes on, from a cache that has grown, in which the directory of
`cur` has the wanted dentry and no waiter for it; or the directory is fetched. -/
theorem handle_discover_install_step (dis : MDiscover) (w : String) (ws : List String)
    (t : MDiscoverRec_t) (ts : List MDiscoverRec_t) (c : MDCache) (cur : CInodePtr)
    (fin res : List Context) (c2 : MDCache)
    (h : handle_discover_install dis (w :: ws) (t :: ts) c (some cur) fin = some (res, c2))
    (hc : c.heap_closed) (hcur : cur < c.heap_next) :
    (∃ s nxt fin', handle_discover_install dis ws ts s nxt fin' = some (res, c2) ∧
      c.discover_grows s ∧ s.heap_closed ∧ (∀ q, nxt = some q → q < s.heap_next) ∧
      ∃ D e, (s.inodes cur).dir = some D ∧ D.lookup w = some e ∧ e.inode = nxt ∧
        ∀ x ∈ D.waiting, ¬ (x.1 = WaitTag.CDIR_WAIT_DENTRY ∧ x.2.1 = some w)) ∨
    (∃ D, ((open_dir c cur).2.inodes cur).dir = some D ∧ D.lookup w = none ∧
      D.state.hashed = false ∧
      (open_dir c cur).2.dentry_authority cur w = (open_dir c cur).2.whoami ∧
      (open_dir c cur).2.debug < 3 ∧ res = [] ∧
      c2 = { (open_dir c cur).2 with
        fetch_dir_calls := (open_dir c cur).2.fetch_dir_calls ++
          [(cur, .C_MDS_RetryMessage (some (.MDiscover_fwd dis)))] }) := by
  have go := open_dir_discover_grows c cur
  have hc0 := open_dir_heap_closed c cur hc
  have hcur0 : cur < (open_dir c cur).2.heap_next :=
    Nat.lt_of_lt_of_le hcur go.1
  have hod := open_dir_dir c cur
  rcases handle_discover_install_cons dis w ws t ts c cur fin res c2 h with
    ⟨d, d1, hl, hd1, hrec⟩ | ⟨hl, hh, ha, hdb, hres, hc2⟩ |
    ⟨hl, hh, -, i, cc2, r, c3, d1, hi, ha, hli, hd1, hrec⟩
  · left
    have hde : d1 = (open_dir c cur).1 := by
      rw [hod] at hd1
      exact (Option.some.inj hd1).symm
    rw [← hde] at hl
    refine ⟨_, _, _, hrec, ?_, ?_, ?_, ?_⟩
    · exact MDCache.discover_grows_trans go
        (set_dir_discover_grows _ cur d1 _ hd1 rfl
          (d1.take_waiting_dentry_waiting .CDIR_WAIT_DENTRY w).1 (fun _ _ he => he))
    · exact set_dir_heap_closed _ cur d1 _ hc0 hcur0 hd1 rfl
    · intro q hq
      exact MDCache.heap_closed_lookup hc0 cur hcur0 d1 hd1 w d hl q hq
    · exact ⟨(d1.take_waiting_dentry .CDIR_WAIT_DENTRY w).2, d, by simp [MDCache.set_inode],
        hl, rfl, (d1.take_waiting_dentry_waiting .CDIR_WAIT_DENTRY w).2⟩
  · right
    exact ⟨_, hod, hl, hh, ha, hdb, hres, hc2⟩
  · left
    obtain ⟨g1, g2, g3, g4⟩ := discover_install_new_step (open_dir c cur).2 cur w t
      (open_dir c cur).1 i cc2 r c3 d1 hc0 hcur0 hod hl hi ha hli hd1
    refine ⟨_, _, _, hrec, MDCache.discover_grows_trans go g1, g2, ?_, ?_⟩
    · intro q hq
      obtain rfl := Option.some.inj hq
      rw [g3]
      exact Nat.lt_succ_self _
    · exact ⟨(d1.take_waiting_dentry .CDIR_WAIT_DENTRY w).2,
        ⟨w, some (open_dir c cur).2.heap_next⟩, by simp [MDCache.set_inode], g4, rfl,
        (d1.take_waiting_dentry_waiting .CDIR_WAIT_DENTRY w).2⟩

/-- What the loop of `handle_discover` over the trace does to a cache whose links are below
`heap_next`: the cache grows, and its links stay below `heap_next`. -/
theorem handle_discover_install_grows (dis : MDiscover) :
    ∀ (ts : List MDiscoverRec_t) (ws : List String) (c : MDCache) (cur : Option CInodePtr)
      (fin res : List Context) (c2 : MDCache),
      handle_discover_install dis ws ts c cur fin = some (res, c2) →
      c.heap_closed → (∀ q, cur = some q → q < c.heap_next) →
      c.discover_grows c2 ∧ c2.heap_closed := by
  intro ts
  induction ts with
  | nil =>
    intro ws c cur fin res c2 h hc _
    cases ws <;> simp only [handle_discover_install, Option.some.injEq, Prod.mk.injEq] at h <;>
      (rw [← h.2]
       exact ⟨c.discover_grows_refl, hc⟩)
  | cons t ts ih =>
    intro ws c cur fin res c2 h hc hv
    cases ws with
    | nil => simp [handle_discover_install] at h
    | cons w ws =>
      cases cur with
      | none => simp [handle_discover_install] at h
      | some cur =>
        rcases handle_discover_install_step dis w ws t ts c cur fin res c2 h hc (hv cur rfl)
          with ⟨s, nxt, fin', hrec, gs, cs, vs, -⟩ | ⟨D, -, -, -, -, -, -, hc2⟩
        · obtain ⟨g, cl⟩ := ih ws s nxt fin' res c2 hrec cs vs
          exact ⟨MDCache.discover_grows_trans gs g, cl⟩
        · rw [hc2]
          have go := open_dir_discover_grows c cur
          have hc0 := open_dir_heap_closed c cur hc
          exact ⟨⟨go.1, go.2.1, go.2.2.1, go.2.2.2.1, go.2.2.2.2.1, go.2.2.2.2.2.1,
            go.2.2.2.2.2.2⟩, hc0⟩

/-- A turn of the loop for a dentry that the directory has, with no waiter for it: the loop goes
on from the inode of the dentry, in the same cache. -/
theorem handle_discover_install_found (dis : MDiscover) (w : String) (ws : List String)
    (t : MDiscoverRec_t) (ts : List MDiscoverRec_t) (c : MDCache) (cur : CInodePtr)
    (fin : List Context) (D : CDir) (e : CDentry)
    (hd : (c.inodes cur).dir = some D) (hl : D.lookup w = some e)
    (hw : ∀ x ∈ D.waiting, ¬ (x.1 = WaitTag.CDIR_WAIT_DENTRY ∧ x.2.1 = some w)) :
    handle_discover_install dis (w :: ws) (t :: ts) c (some cur) fin =
      handle_discover_install dis ws ts c e.inode fin := by
  rw [handle_discover_install]
  dsimp only
  rw [open_dir_some c cur D hd]
  dsimp only
  rw [hl]
  simp only [discover_dentry_authority, hd, CDir.take_waiting_dentry_none D _ w hw,
    List.append_nil]
  have e1 : ({ c.inodes cur with dir := some D } : CInode) = c.inodes cur := by
    rw [← hd]
  rw [e1, MDCache.set_inode_self]

/-- A turn of the loop for a dentry that the directory lacks and that belongs to this MDS, where
`dout(3)` does not print: the directory is fetched. -/
theorem handle_discover_install_fetch (dis : MDiscover) (w : String) (ws : List String)
    (t : MDiscoverRec_t) (ts : List MDiscoverRec_t) (c : MDCache) (cur : CInodePtr)
    (fin : List Context) (D : CDir)
    (hd : (c.inodes cur).dir = some D) (hl : D.lookup w = none)
    (hh : D.state.hashed = false) (ha : c.dentry_authority cur w = c.whoami)
    (hdb : c.debug < 3) :
    handle_discover_install dis (w :: ws) (t :: ts) c (some cur) fin =
      some ([], { c with fetch_dir_calls := c.fetch_dir_calls ++
        [(cur, .C_MDS_RetryMessage (some (.MDiscover_fwd dis)))] }) := by
  rw [handle_discover_install]
  dsimp only
  rw [open_dir_some c cur D hd]
  dsimp only
  rw [hl]
  simp only [discover_dentry_authority, hh, Bool.false_eq_true, if_false, ha, if_true,
    not_le.mpr hdb]

/-- The loop of `handle_discover` over the trace, run again in the cache it has left: it
returns, with no continuation to run, and the cache is the same but for the fetches
requested. -/
theorem handle_discover_install_settled (dis : MDiscover) :
    ∀ (ts : List MDiscoverRec_t) (ws : List String) (c : MDCache) (cur : Option CInodePtr)
      (fin res : List Context) (c2 : MDCache),
      handle_discover_install dis ws ts c cur fin = some (res, c2) →
      c.heap_closed → (∀ q, cur = some q → q < c.heap_next) →
      ∀ (cX : MDCache) (fin2 : List Context), c2.same_but_calls cX →
        ∃ res2 cY, handle_discover_install dis ws ts cX cur fin2 = some (res2, cY) ∧
          c2.same_but_calls cY ∧ cY.finished = cX.finished ∧ (res2 = fin2 ∨ res2 = []) := by
  intro ts
  induction ts with
  | nil =>
    intro ws c cur fin res c2 h _ _ cX fin2 hx
    refine ⟨fin2, cX, ?_, hx, rfl, Or.inl rfl⟩
    cases ws <;> simp only [handle_discover_install]
  | cons t ts ih =>
    intro ws c cur fin res c2 h hc hv cX fin2 hx
    cases ws with
    | nil => simp [handle_discover_install] at h
    | cons w ws =>
      cases cur with
      | none => simp [handle_discover_install] at h
      | some cur =>
        obtain ⟨xi, xw, xd, xa, -, -⟩ := MDCache.same_but_calls_inodes hx
        rcases handle_discover_install_step dis w ws t ts c cur fin res c2 h hc (hv cur rfl)
          with ⟨s, nxt, fin', hrec, gs, cs, vs, D, e, hD, hl, he, hwt⟩ |
            ⟨D, hD, hl, hh, ha, hdb, -, hc2⟩
        · obtain ⟨g, -⟩ := handle_discover_install_grows dis ts ws s nxt fin' res c2 hrec cs vs
          have hcs : cur < s.heap_next := Nat.lt_of_lt_of_le (hv cur rfl) gs.1
          obtain ⟨D2, hD2, -, hw2, hl2⟩ := (g.2.2.2.2.2.2 cur hcs).2 D hD
          have hDX : (cX.inodes cur).dir = some D2 := by
            rw [xi]
            exact hD2
          rw [handle_discover_install_found dis w ws t ts cX cur fin2 D2 e hDX (hl2 w e hl)
            (fun x hx2 => hwt x (hw2 x hx2)), he]
          exact ih ws s nxt fin' res c2 hrec cs vs cX fin2 hx
        · have hDX : (cX.inodes cur).dir = some D := by
            rw [xi, hc2]
            exact hD
          have haX : cX.dentry_authority cur w = cX.whoami := by
            rw [xa, xw, hc2]
            exact ha
          have hdX : cX.debug < 3 := by
            rw [xd, hc2]
            exact hdb
          rw [handle_discover_install_fetch dis w ws t ts cX cur fin2 D hDX hl hh haX hdX]
          refine ⟨_, _, rfl, ?_, rfl, Or.inr rfl⟩
          unfold MDCache.same_but_calls at hx ⊢
          rw [hx]

theorem MDCache.dirs_opened_of_open {c c1 : MDCache} (h : c.dirs_opened c1) (p : CInodePtr)
    (d : CDir) (hd : (c.inodes p).dir = some d) : c1.inodes p = c.inodes p := by
  rcases h.2 p with g | ⟨n, _⟩
  · exact g
  · rw [hd] at n
    cases n

/-- A traversal that returns `0` has passed, in the cache it leaves. -/
theorem path_traverse_loop_passes (req : Option Message) (onfail : OnFail) :
    ∀ (segs : List String) (c : MDCache) (cur : CInodePtr) (hc : String)
      (tr tr1 : List CInodePtr) (c1 : MDCache),
      path_traverse_loop req onfail segs c cur hc tr = some (0, tr1, c1) →
      ∃ suf, tr1 = tr ++ suf ∧ passes c1 cur segs suf := by
  intro segs
  induction segs with
  | nil =>
    intro c cur hc tr tr1 c1 h
    simp only [path_traverse_loop, Option.some.injEq, Prod.mk.injEq, true_and] at h
    obtain ⟨rfl, rfl⟩ := h
    exact ⟨[], by simp, trivial⟩
  | cons dname segs ih =>
    intro c cur hc tr tr1 c1 h
    rw [path_traverse_loop] at h
    cases hdir : (c.inodes cur).is_dir
    · simp [hdir, ENOTDIR] at h
    · simp only [hdir, if_true] at h
      cases hfro : ((open_dir c cur).1.state.frozen_tree_root ||
          (open_dir c cur).1.state.frozen_dir)
      · simp only [hfro, Bool.false_eq_true, if_false] at h
        cases hr : read_hard_try (open_dir c cur).2 cur req with
        | none => simp [hr] at h
        | some r =>
          obtain ⟨b, c2⟩ := r
          cases b
          · simp [hr] at h
          · obtain ⟨rfl, hread⟩ := read_hard_try_true _ _ _ _ hr
            simp only [hr, open_dir_dir] at h
            cases hl : (open_dir c cur).1.lookup_inode dname with
            | none =>
              exfalso
              simp only [hl] at h
              split_ifs at h
              · simp [ENOENT] at h
              · simp at h
              · simp at h
              · cases onfail <;> cases req <;> simp at h
            | some next =>
              simp only [hl] at h
              obtain ⟨suf, e1, p1⟩ := ih _ _ _ _ _ _ h
              obtain ⟨-, -, -, o1, -⟩ := path_traverse_loop_zero _ _ _ _ _ _ _ _ _ h
              have hsame := MDCache.dirs_opened_of_open o1 cur _ (open_dir_dir c cur)
              have hdirs := MDCache.dirs_opened_is_dir (open_dir_dirs_opened c cur) cur
              simp only [Bool.or_eq_false_iff] at hfro
              refine ⟨next :: suf, by simp [e1], ?_, ⟨(open_dir c cur).1, ?_, hfro.1, hfro.2, hl⟩,
                ?_, p1⟩
              · rw [hsame, hdirs, hdir]
              · rw [hsame]
                exact open_dir_dir c cur
              · rw [hsame]
                exact hread
      · simp [hfro] at h

/-- Where the traversal passes, `path_traverse` returns `0` with the inodes passed and leaves
the cache as it is. -/
theorem path_traverse_loop_of_passes (req : Option Message) (onfail : OnFail) :
    ∀ (segs : List String) (c : MDCache) (cur : CInodePtr) (hc : String)
      (tr suf : List CInodePtr), passes c cur segs suf →
      path_traverse_loop req onfail segs c cur hc tr = some (0, tr ++ suf, c) := by
  intro segs
  induction segs with
  | nil =>
    intro c cur hc tr suf h
    cases suf with
    | nil => simp [path_traverse_loop]
    | cons n ns => exact absurd h (by simp [passes])
  | cons s ss ih =>
    intro c cur hc tr suf h
    cases suf with
    | nil => exact absurd h (by simp [passes])
    | cons n ns =>
      obtain ⟨h1, ⟨d, h2, h3, h4, h5⟩, h6, h7⟩ := h
      have hrd : read_hard_try c cur req = some (true, c) := read_hard_try_readable c cur req h6
      rw [path_traverse_loop]
      simp only [h1, if_true, open_dir_some c cur d h2, h3, h4, Bool.or_self,
        Bool.false_eq_true, if_false, hrd, h2, h5]
      rw [ih c n _ (tr ++ [n]) ns h7]
      simp

/-- The traversal passes in a cache that has grown, where it passed below `heap_next`. -/
theorem passes_of_grows {c c1 : MDCache} (hg : c.discover_grows c1) (hc : c.heap_closed) :
    ∀ (segs : List String) (cur : CInodePtr) (suf : List CInodePtr),
      cur < c.heap_next → passes c cur segs suf → passes c1 cur segs suf := by
  intro segs
  induction segs with
  | nil =>
    intro cur suf _ h
    cases suf with
    | nil => trivial
    | cons n ns => exact absurd h (by simp [passes])
  | cons s ss ih =>
    intro cur suf hcur h
    cases suf with
    | nil => exact absurd h (by simp [passes])
    | cons n ns =>
      obtain ⟨h1, ⟨d, h2, h3, h4, h5⟩, h6, h7⟩ := h
      obtain ⟨r1, f1⟩ := hg.2.2.2.2.2.2 cur hcur
      obtain ⟨d1, e1, s1, -, l1⟩ := f1 d h2
      simp only [CInode.replica_state, CInode.inode, Prod.mk.injEq, inode_t.mk.injEq] at r1
      obtain ⟨⟨-, i2, -, -⟩, a1, -, -, ds1⟩ := r1
      have hlk : ∃ e, d.lookup s = some e ∧ e.inode = some n := by
        unfold CDir.lookup_inode at h5
        cases hx : d.lookup s with
        | none => rw [hx] at h5; cases h5
        | some e => rw [hx] at h5; exact ⟨e, rfl, h5⟩
      obtain ⟨e, he1, he2⟩ := hlk
      have hn : n < c.heap_next := MDCache.heap_closed_lookup hc cur hcur d h2 s e he1 n he2
      refine ⟨by rw [i2, h1], ⟨d1, e1, by rw [s1, h3], by rw [s1, h4], ?_⟩, ?_, ih n ns hn h7⟩
      · unfold CDir.lookup_inode
        rw [l1 s e he1]
        exact he2
      · rw [a1, ds1]
        exact h6

theorem MDCache.dirs_opened_fields {c c1 : MDCache} (h : c.dirs_opened c1) :
    c1.heap_next = c.heap_next ∧ c1.whoami = c.whoami ∧ c1.root = c.root ∧
    c1.new_CDir = c.new_CDir := by
  rw [h.1]
  exact ⟨rfl, rfl, rfl, rfl⟩

theorem MDCache.dirs_opened_replica_state {c c1 : MDCache} (h : c.dirs_opened c1)
    (p : CInodePtr) : (c1.inodes p).replica_state = (c.inodes p).replica_state := by
  rcases h.2 p with g | ⟨_, g⟩ <;> rw [g] <;> rfl

theorem MDCache.dirs_opened_heap_closed {c c1 : MDCache} (h : c.dirs_opened c1)
    (hc : c.heap_closed) : c1.heap_closed := by
  obtain ⟨f1, -, f3, f4⟩ := MDCache.dirs_opened_fields h
  obtain ⟨g1, g2, g3⟩ := hc
  refine ⟨fun p => by rw [f4]; exact g1 p, fun r hr => ?_, fun p hp d hd e he q hq => ?_⟩
  · rw [f1]
    exact g2 r (by rw [← f3]; exact hr)
  · rw [f1] at hp ⊢
    rcases h.2 p with g | ⟨_, g⟩
    · rw [g] at hd
      exact g3 p hp d hd e he q hq
    · rw [g] at hd
      obtain rfl := Option.some.inj hd
      rw [g1] at he
      cases he

theorem passes_nodes_lt {c : MDCache} (hc : c.heap_closed) :
    ∀ (segs : List String) (cur : CInodePtr) (suf : List CInodePtr),
      cur < c.heap_next → passes c cur segs suf → ∀ n ∈ suf, n < c.heap_next := by
  intro segs
  induction segs with
  | nil =>
    intro cur suf _ h
    cases suf with
    | nil => intro n hn; cases hn
    | cons n ns => exact absurd h (by simp [passes])
  | cons s ss ih =>
    intro cur suf hcur h
    cases suf with
    | nil => exact absurd h (by simp [passes])
    | cons n ns =>
      obtain ⟨-, ⟨d, h2, -, -, h5⟩, -, h7⟩ := h
      have hlk : ∃ e, d.lookup s = some e ∧ e.inode = some n := by
        unfold CDir.lookup_inode at h5
        cases hx : d.lookup s with
        | none => rw [hx] at h5; cases h5
        | some e => rw [hx] at h5; exact ⟨e, rfl, h5⟩
      obtain ⟨e, he1, he2⟩ := hlk
      have hn : n < c.heap_next := MDCache.heap_closed_lookup hc cur hcur d h2 s e he1 n he2
      intro m hm
      rcases List.mem_cons.mp hm with rfl | hm
      · exact hn
      · exact ih n ns hn h7 m hm

theorem passes_congr {c c1 : MDCache} (h : c1.inodes = c.inodes) :
    ∀ (segs : List String) (cur : CInodePtr) (suf : List CInodePtr),
      passes c cur segs suf → passes c1 cur segs suf := by
  intro segs
  induction segs with
  | nil =>
    intro cur suf hp
    cases suf with
    | nil => trivial
    | cons n ns => exact absurd hp (by simp [passes])
  | cons s ss ih =>
    intro cur suf hp
    cases suf with
    | nil => exact absurd hp (by simp [passes])
    | cons n ns =>
      obtain ⟨h1, h2, h3, h4⟩ := hp
      exact ⟨by rw [h]; exact h1, by rw [h]; exact h2, by rw [h]; exact h3, ih n ns h4⟩

/-- C26: replica install is idempotent.  Let the asker, in a cache whose links are below
`heap_next`, handle a `Discover` result that names segments and whose base path is still
cached (its traversal returns `0`), and let the handler return.  Then handling the same result
again in the cache the first handling left returns too, and leaves that cache as it is but for
the fetches requested: the same `inode_map`, and the same inode objects, so the same directory
entries and per-inode state.  No object that the cache had before the first handling has
changed its inode record, `auth`, `dir_auth`, `cached_by` or `dist_state`, so an inode whose
dentry was present is not overwritten; and every object the handling has allocated is the
replica of a snapshot of the trace: not authoritative, with exactly the bits SYNCBYAUTH,
SOFTASYNC and LOCKBYAUTH of the snapshot. -/
theorem handle_discover_result_idempotent (c : MDCache) (dis : MDiscover)
    (trav : List CInodePtr) (c0 cA : MDCache)
    (ha : dis.asker = c.whoami) (hj : dis.just_root = false) (hc : c.heap_closed)
    (hp : path_traverse c dis.basepath [] none .MDS_TRAVERSE_FAIL = some (0, trav, c0))
    (h1 : handle_discover c dis = some cA) :
    (∃ cB, handle_discover cA dis = some cB ∧
      cB = { cA with fetch_dir_calls := cB.fetch_dir_calls } ∧
      cB.inode_map = cA.inode_map ∧ cB.inodes = cA.inodes) ∧
    (∀ p, p < c.heap_next → (cA.inodes p).replica_state = (c.inodes p).replica_state) ∧
    (∀ p, c.heap_next ≤ p → p < cA.heap_next →
      ∃ t ∈ dis.trace, (cA.inodes p).replica_of c.whoami t) := by
  obtain ⟨r, trav', c0', hp', hcase⟩ := handle_discover_result_some c dis cA ha hj h1
  rw [hp] at hp'
  obtain ⟨rfl, h2⟩ := Prod.mk.inj (Option.some.inj hp')
  obtain ⟨rfl, rfl⟩ := Prod.mk.inj h2
  rcases hcase with ⟨hneg, -⟩ | ⟨-, cur, fin, c2, hlast, hi, hcA⟩
  · exact absurd hneg (by decide)
  -- the first traversal
  have hp2 := hp
  unfold path_traverse at hp2
  cases hroot : c.root with
  | none =>
    rw [hroot] at hp2
    simp at hp2
  | some root =>
    rw [hroot] at hp2
    dsimp only at hp2
    obtain ⟨suf, etrav, hpass⟩ := path_traverse_loop_passes _ _ _ _ _ _ _ _ _ hp2
    obtain ⟨-, -, -, hopen, -⟩ := path_traverse_loop_zero _ _ _ _ _ _ _ _ _ hp2
    obtain ⟨f1, f2, f3, -⟩ := MDCache.dirs_opened_fields hopen
    have hc0 := MDCache.dirs_opened_heap_closed hopen hc
    have hroot0 : root < c0.heap_next := hc0.2.1 root (by rw [f3]; exact hroot)
    have hnodes := passes_nodes_lt hc0 _ root suf hroot0 hpass
    have hcur : cur < c0.heap_next := by
      have hm : cur ∈ trav := List.mem_of_getLast?_eq_some hlast
      rw [etrav] at hm
      rcases List.mem_append.mp hm with hm | hm
      · rw [List.mem_singleton.mp hm]
        exact hroot0
      · exact hnodes cur hm
    have hv : ∀ q, some cur = some q → q < c0.heap_next := by
      intro q hq
      obtain rfl := Option.some.inj hq
      exact hcur
    obtain ⟨hg, -⟩ := handle_discover_install_grows dis _ _ _ _ _ _ _ hi hc0 hv
    obtain ⟨-, -, r3, r4⟩ := handle_discover_install_replicas dis _ _ _ _ _ _ _ hi
    -- the cache after the first handling
    have hsame : c2.same_but_calls cA := by
      unfold MDCache.same_but_calls
      rw [hcA]
    obtain ⟨xi, xw, -, -, xr, xm⟩ := MDCache.same_but_calls_inodes hsame
    have hpassA : passes cA root (filepath.bits dis.basepath) suf :=
      passes_congr xi _ _ _ (passes_of_grows hg hc0 _ root suf hroot0 hpass)
    have htravA : path_traverse cA dis.basepath [] none .MDS_TRAVERSE_FAIL =
        some (0, trav, cA) := by
      unfold path_traverse
      rw [xr, hg.2.2.2.2.2.1, f3, hroot]
      dsimp only
      rw [path_traverse_loop_of_passes _ _ _ _ _ _ _ suf hpassA, etrav]
    obtain ⟨res2, cY, hi2, hsY, hfinY, hres2⟩ :=
      handle_discover_install_settled dis _ _ _ _ _ _ _ hi hc0 hv cA [] hsame
    have hres : res2 = [] := by
      rcases hres2 with h | h <;> exact h
    refine ⟨⟨cY, ?_, ?_, ?_, ?_⟩, fun p hp => ?_, fun p h1 h2 => ?_⟩
    · unfold handle_discover handle_discover_result
      rw [if_pos (by rw [xw, hg.2.1, f2]; exact ha), hj]
      simp only [Bool.false_eq_true, if_false, htravA, lt_self_iff_false, hlast, hi2, hres,
        List.map_nil, List.append_nil]
    · unfold MDCache.same_but_calls at hsY
      rw [hsY, hfinY, hcA]
    · rw [(MDCache.same_but_calls_inodes hsY).2.2.2.2.2, xm]
    · rw [(MDCache.same_but_calls_inodes hsY).1, xi]
    · rw [xi, r3 p (Or.inl (by rw [f1]; exact hp))]
      exact MDCache.dirs_opened_replica_state hopen p
    · rw [xi]
      have h2' : p < c2.heap_next := by
        rw [hcA] at h2
        exact h2
      rw [f1, f2] at r4
      exact r4 p h1 h2'

theorem cache_asker_heap_closed : cache_asker.heap_closed := by
  refine ⟨fun _ => rfl, fun r hr => ?_, fun p _ d hd e he => ?_⟩
  · obtain rfl : (1 : CInodePtr) = r := Option.some.inj hr
    decide
  · by_cases hp : p = 1
    · subst hp
      obtain rfl : CDir.blank = d := Option.some.inj hd
      cases he
    · have : (cache_asker.inodes p).dir = none := by
        unfold cache_asker
        dsimp only
        split
        · exact absurd rfl hp
        · rfl
      rw [this] at hd
      cases hd

/-- C26, witness: the asker `cache_asker` handles the result for `a/b` twice.  The first
handling installs the objects `100` and `101`; the second returns and installs nothing. -/
theorem handle_discover_result_idempotent_witness :
    handle_discover cache_asker dis_result = some cache_asker_found ∧
    (handle_discover cache_asker_found dis_result).isSome = true ∧
    cache_asker.heap_next = 100 ∧ cache_asker_found.heap_next = 102 ∧
    (∃ cB, handle_discover cache_asker_found dis_result = some cB ∧
      cB = { cache_asker_found with fetch_dir_calls := cB.fetch_dir_calls } ∧
      cB.inode_map = cache_asker_found.inode_map ∧ cB.inodes = cache_asker_found.inodes) ∧
    (∀ p, p < cache_asker.heap_next →
      (cache_asker_found.inodes p).replica_state = (cache_asker.inodes p).replica_state) ∧
    (∀ p, cache_asker.heap_next ≤ p → p < cache_asker_found.heap_next →
      ∃ t ∈ dis_result.trace, (cache_asker_found.inodes p).replica_of cache_asker.whoami t) :=
  ⟨rfl, rfl, rfl, rfl,
    handle_discover_result_idempotent cache_asker dis_result [1] cache_asker cache_asker_found
      rfl rfl cache_asker_heap_closed (by rfl) (by rfl)⟩

end Ceph
